import Mathlib

/-!
# align: NFA builder, subset construction and longest-match scanner

A shallow embedding of the Go packages `collections/mvmap`, `collections/queue`,
`automata/nfa`, `automata/dfa` and `scanner`.

Conventions of the embedding:

* Go pointers to automaton states are indices into the list of states that the owning
  automaton has allocated (`states`); allocation appends to that list.
* A Go slice result that may be `nil` is an `Option (List _)`, `none` standing for `nil`.
* A Go `map` is an association list holding at most one entry per key.
* The zero value of a type parameter `V` is `default`.
* Dereferencing an address that was never allocated yields a blank, non-accepting state without
  transitions; the theorems that need every stored pointer to be valid assume `Nfa.WF`, which
  `New` establishes and every builder method keeps.
* An unbounded Go loop takes a `fuel` argument, or computes a bound that is proved sufficient.
* Where aliasing between slices matters (section *Slices in memory*), a slice is a header
  into a heap of backing arrays and the accessors are given with their allocations.
-/

set_option autoImplicit false

namespace Align

/-! ## collections/mvmap -/

namespace mvmap

/-- Go `MvMap[K, V]` with its single field `data map[K][]V`. -/
structure MvMap (K V : Type) where
  data : List (K × List V)

/-- Go `mvmap.New`. -/
def New {K V : Type} : MvMap K V := { data := [] }

/-- The assignment `data[k] = append(data[k], v)` on the association list. -/
def putData {K V : Type} [DecidableEq K] (k : K) (v : V) : List (K × List V) → List (K × List V)
  | [] => [(k, [v])]
  | (k0, vs) :: rest =>
    if k0 = k then (k0, vs ++ [v]) :: rest else (k0, vs) :: putData k v rest

/-- The map read `data[k]`; a missing key reads as the nil slice. -/
def getData {K V : Type} [DecidableEq K] (k : K) : List (K × List V) → List V
  | [] => []
  | (k0, vs) :: rest => if k0 = k then vs else getData k rest

/-- Go `MvMap.Put`. -/
def MvMap.Put {K V : Type} [DecidableEq K] (m : MvMap K V) (k : K) (v : V) : MvMap K V :=
  { data := putData k v m.data }

/-- Go `MvMap.Get`. -/
def MvMap.Get {K V : Type} [DecidableEq K] (m : MvMap K V) (k : K) : List V :=
  getData k m.data

/-- Go `MvMap.Len`. -/
def MvMap.Len {K V : Type} (m : MvMap K V) : Nat := m.data.length

/-- Go `MvMap.Keys`; the order of a Go map iteration is unspecified, here it is the order of
first insertion. -/
def MvMap.Keys {K V : Type} (m : MvMap K V) : List K := m.data.map Prod.fst

/-- The map after a sequence of `Put` calls, given as the pairs `(k, v)` in call order. -/
def MvMap.putAll {K V : Type} [DecidableEq K] (m : MvMap K V) (puts : List (K × V)) :
    MvMap K V :=
  puts.foldl (fun acc p => acc.Put p.1 p.2) m

end mvmap

/-! ## collections/queue -/

namespace queue

/-- Go `Queue[T]` with its single field `data []T`. -/
structure Queue (T : Type) where
  data : List T

/-- Go `queue.New`. -/
def New {T : Type} : Queue T := { data := [] }

/-- Go `Queue.Enqueue`. -/
def Queue.Enqueue {T : Type} (q : Queue T) (v : T) : Queue T := { data := q.data ++ [v] }

/-- Go `Queue.Dequeue`; `none` is `ok = false`. -/
def Queue.Dequeue {T : Type} (q : Queue T) : Option T × Queue T :=
  match q.data with
  | [] => (none, q)
  | v :: rest => (some v, { data := rest })

/-- Go `Queue.Len`. -/
def Queue.Len {T : Type} (q : Queue T) : Nat := q.data.length

/-- A call of a method of `Queue` that changes it. -/
inductive Op (T : Type) where
  | enqueue (v : T)
  | dequeue

/-- The queue after a sequence of calls, and what each `Dequeue` call of the sequence
returned, in call order (`none` for `ok = false`). -/
def Queue.runOps {T : Type} : Queue T → List (Op T) → Queue T × List (Option T)
  | q, [] => (q, [])
  | q, Op.enqueue v :: rest => Queue.runOps (q.Enqueue v) rest
  | q, Op.dequeue :: rest =>
    ((Queue.runOps q.Dequeue.2 rest).1, q.Dequeue.1 :: (Queue.runOps q.Dequeue.2 rest).2)

/-- The values that the `Enqueue` calls of a sequence pass, in call order. -/
def enqueued {T : Type} : List (Op T) → List T
  | [] => []
  | Op.enqueue v :: rest => v :: enqueued rest
  | Op.dequeue :: rest => enqueued rest

/-- The values that the successful `Dequeue` calls returned, in call order. -/
def dequeued {T : Type} (results : List (Option T)) : List T := results.reduceOption

end queue

/-! ## automata/nfa -/

namespace nfa

/-- Go `edge[S, V]`: the inline single transition of a state. The Go field `has` is the
constructor `some` of the option that holds an edge in `State`; the Go field `to` is `dst`. -/
structure edge (S : Type) where
  sym : S
  dst : Nat
deriving DecidableEq

/-- Go `nfa.State[S, V]`. `edge = none` is `edge.has == false`, `transitions = none` is the nil
map pointer, `eTransitions = []` is the nil slice (the code only ever appends to it). -/
structure State (S V : Type) where
  id : Nat
  edge : Option (edge S)
  transitions : Option (mvmap.MvMap S Nat)
  eTransitions : List Nat
  acceptIdx : Int
  value : V

/-- The state literal used by `New` and `newState`: no transitions, not accepting. -/
def State.blank {S V : Type} [Inhabited V] (id : Nat) : State S V :=
  { id := id, edge := none, transitions := none, eTransitions := [], acceptIdx := -1,
    value := default }

instance {S V : Type} [Inhabited V] : Inhabited (State S V) := ⟨State.blank 0⟩

/-- Go `State.ID`. -/
def State.ID {S V : Type} (s : State S V) : Nat := s.id

/-- Go `State.OutgoingSymbols`. -/
def State.OutgoingSymbols {S V : Type} (s : State S V) : Option (List S) :=
  match s.transitions with
  | none =>
    match s.edge with
    | none => none
    | some e => some [e.sym]
  | some m => some m.Keys

/-- Go `State.OutgoingFor`. -/
def State.OutgoingFor {S V : Type} [DecidableEq S] (s : State S V) (symbol : S) :
    Option (List Nat) :=
  match s.transitions with
  | none =>
    match s.edge with
    | none => none
    | some e => if e.sym = symbol then some [e.dst] else none
  | some m => some (m.Get symbol)

/-- Go `State.Epsilon`. -/
def State.Epsilon {S V : Type} (s : State S V) : Option (List Nat) :=
  match s.eTransitions with
  | [] => none
  | ts => some ts

/-- Go `State.AcceptIdx`. -/
def State.AcceptIdx {S V : Type} (s : State S V) : Int := s.acceptIdx

/-- Go `State.IsAccepting`. -/
def State.IsAccepting {S V : Type} (s : State S V) : Bool := decide (s.AcceptIdx > -1)

/-- Go `State.AcceptValue`. -/
def State.AcceptValue {S V : Type} [Inhabited V] (s : State S V) : V :=
  if s.acceptIdx ≤ -1 then default else s.value

/-- Go `State.put`. -/
def State.put {S V : Type} [DecidableEq S] (s : State S V) (sym : S) (dst : Nat) : State S V :=
  match s.edge with
  | none => { s with edge := some { sym := sym, dst := dst } }
  | some e =>
    let m := match s.transitions with
      | none => mvmap.New
      | some m => m
    let m := m.Put e.sym e.dst
    { s with transitions := some (m.Put sym dst), edge := none }

/-- Go `Nfa[S, V]`; `states` is the heap of the states it allocated, `start` points into it. -/
structure Nfa (S V : Type) where
  states : List (State S V)
  start : Nat
  nextStateID : Nat
  nextAcceptIndex : Nat

/-- Go `nfa.New`. -/
def New {S V : Type} [Inhabited V] : Nfa S V :=
  { states := [State.blank 0], start := 0, nextStateID := 1, nextAcceptIndex := 0 }

/-- Go `Nfa.Start`. -/
def Nfa.Start {S V : Type} (n : Nfa S V) : Nat := n.start

/-- Pointer dereference: the state stored at address `r`. -/
def Nfa.deref {S V : Type} [Inhabited V] (n : Nfa S V) (r : Nat) : State S V :=
  n.states.getD r default

/-- In-place update `*r = f(*r)` of a state of the heap. -/
def Nfa.update {S V : Type} (n : Nfa S V) (r : Nat) (f : State S V → State S V) : Nfa S V :=
  { n with states := n.states.modify f r }

/-- Go `Nfa.newState`: returns the automaton with the state allocated and its address. -/
def Nfa.newState {S V : Type} [Inhabited V] (n : Nfa S V) : Nfa S V × Nat :=
  let id := n.nextStateID
  ({ n with nextStateID := n.nextStateID + 1, states := n.states ++ [State.blank id] },
    n.states.length)

/-- Go `Nfa.markAccepting`. -/
def Nfa.markAccepting {S V : Type} (n : Nfa S V) (s : Nat) (value : V) : Nfa S V :=
  let idx := n.nextAcceptIndex
  { n with nextAcceptIndex := n.nextAcceptIndex + 1 }.update s
    (fun st => { st with acceptIdx := (idx : Int), value := value })

/-- Go `Nfa.newAcceptingState`. -/
def Nfa.newAcceptingState {S V : Type} [Inhabited V] (n : Nfa S V) (value : V) : Nfa S V × Nat :=
  let id := n.nextStateID
  let n1 : Nfa S V :=
    { n with nextStateID := n.nextStateID + 1, states := n.states ++ [State.blank id] }
  (n1.markAccepting n.states.length value, n.states.length)

/-- Go `Nfa.Add`. -/
def Nfa.Add {S V : Type} [DecidableEq S] [Inhabited V] (n : Nfa S V) (s : Nat) (sym : S) :
    Nfa S V × Nat :=
  let (n1, state) := n.newState
  (n1.update s (fun st => st.put sym state), state)

/-- Go `Nfa.AddAccepting`. -/
def Nfa.AddAccepting {S V : Type} [DecidableEq S] [Inhabited V] (n : Nfa S V) (s : Nat) (sym : S)
    (value : V) : Nfa S V × Nat :=
  let (n1, state) := n.newAcceptingState value
  (n1.update s (fun st => st.put sym state), state)

/-- Go `Nfa.AddEpsilonTransition`. -/
def Nfa.AddEpsilonTransition {S V : Type} [Inhabited V] (n : Nfa S V) (s : Nat) : Nfa S V × Nat :=
  let (n1, state) := n.newState
  (n1.update s (fun st => { st with eTransitions := st.eTransitions ++ [state] }), state)

/-- Go `Nfa.AddAcceptingEpsilonTransition`. -/
def Nfa.AddAcceptingEpsilonTransition {S V : Type} [Inhabited V] (n : Nfa S V) (s : Nat)
    (value : V) : Nfa S V × Nat :=
  let (n1, state) := n.newAcceptingState value
  (n1.update s (fun st => { st with eTransitions := st.eTransitions ++ [state] }), state)

/-- Go `Nfa.Connect`. -/
def Nfa.Connect {S V : Type} [DecidableEq S] (n : Nfa S V) (src : Nat) (sym : S) (dst : Nat) :
    Nfa S V :=
  n.update src (fun st => st.put sym dst)

/-- Every pointer stored in a state: the inline edge, the map and the epsilon transitions. -/
def State.targets {S V : Type} (s : State S V) : List Nat :=
  (match s.edge with
    | none => []
    | some e => [e.dst])
  ++ (match s.transitions with
    | none => []
    | some m => m.data.flatMap Prod.snd)
  ++ s.eTransitions

/-- The heap of an automaton is well formed: the start pointer and every pointer stored in a
state address an allocated state, and a state's id is its address (ids are handed out in
allocation order, `nextStateID` being the next address). This holds for `New` and is kept by
the builder methods. -/
def Nfa.WF {S V : Type} (n : Nfa S V) : Prop :=
  n.start < n.states.length
  ∧ n.nextStateID = n.states.length
  ∧ ∀ i, i < n.states.length →
      ∀ st, n.states[i]? = some st → st.id = i ∧ ∀ r ∈ st.targets, r < n.states.length

instance {S V : Type} (n : Nfa S V) : Decidable n.WF := by
  unfold Nfa.WF
  infer_instance

/-- The automaton of the test `BuildWithBranchingOnTheSameSymbol`: `New`, `Add(start, 'a')` and
`AddAccepting(start, 'a', 10)`. -/
def branchingNfa : Nfa Char Nat :=
  let n0 : Nfa Char Nat := New
  let n1 := (n0.Add n0.Start 'a').1
  (n1.AddAccepting n1.Start 'a' 10).1

/-- The automaton after `New`, `Add(start, 'a')`, `Add(start, 'b')` and `Add(start, 'c')`, with
the state the third `Add` returned. -/
def threeAdds : Nfa Char Nat × Nat :=
  let n0 : Nfa Char Nat := New
  let n1 := (n0.Add n0.Start 'a').1
  let n2 := (n1.Add n1.Start 'b').1
  n2.Add n2.Start 'c'

/-- A state after a sequence of `put` operations, given as the pairs `(sym, to)` in the order
of the calls. -/
def State.putAll {S V : Type} [DecidableEq S] (st : State S V) (puts : List (S × Nat)) :
    State S V :=
  puts.foldl (fun s p => s.put p.1 p.2) st

/-- The reference of the spec for the single-edge fast path, "a conforming implementation may
always use the multi-value map": the map that holds every transition of the sequence. -/
def referenceMap {S : Type} [DecidableEq S] (puts : List (S × Nat)) : mvmap.MvMap S Nat :=
  puts.foldl (fun m p => m.Put p.1 p.2) mvmap.New

/-- The transitions of a sequence of `put` operations that the state shows through its
accessors: all of them, except the last one when the sequence has odd length three or more
(it then sits in the inline edge next to the map). -/
def visiblePuts {S : Type} (puts : List (S × Nat)) : List (S × Nat) :=
  if puts.length % 2 = 1 ∧ 3 ≤ puts.length then puts.dropLast else puts

/-- A call of a public builder method of `Nfa`; states are passed by address. -/
inductive Call (S V : Type) where
  | add (s : Nat) (sym : S)
  | addAccepting (s : Nat) (sym : S) (value : V)
  | addEpsilon (s : Nat)
  | addAcceptingEpsilon (s : Nat) (value : V)
  | connect (src : Nat) (sym : S) (dst : Nat)

/-- The automaton after the call, and the state that the call returned (`Connect` returns
nothing). -/
def Nfa.call {S V : Type} [DecidableEq S] [Inhabited V] (n : Nfa S V) :
    Call S V → Nfa S V × Option Nat
  | Call.add s sym => ((n.Add s sym).1, some (n.Add s sym).2)
  | Call.addAccepting s sym value =>
    ((n.AddAccepting s sym value).1, some (n.AddAccepting s sym value).2)
  | Call.addEpsilon s => ((n.AddEpsilonTransition s).1, some (n.AddEpsilonTransition s).2)
  | Call.addAcceptingEpsilon s value =>
    ((n.AddAcceptingEpsilonTransition s value).1,
      some (n.AddAcceptingEpsilonTransition s value).2)
  | Call.connect src sym dst => (n.Connect src sym dst, none)

/-- The automaton after a sequence of builder calls. -/
def Nfa.run {S V : Type} [DecidableEq S] [Inhabited V] (n : Nfa S V)
    (calls : List (Call S V)) : Nfa S V :=
  calls.foldl (fun m c => (m.call c).1) n

/-- The calls of a sequence, each with the state it returned. -/
def Nfa.trace {S V : Type} [DecidableEq S] [Inhabited V] :
    Nfa S V → List (Call S V) → List (Call S V × Option Nat)
  | _, [] => []
  | n, c :: rest => (c, (n.call c).2) :: Nfa.trace (n.call c).1 rest

/-- Whether the call creates an accepting state. -/
def Call.accepting {S V : Type} : Call S V → Bool
  | Call.addAccepting _ _ _ => true
  | Call.addAcceptingEpsilon _ _ => true
  | _ => false

/-- Whether the call adds an epsilon transition from the state `s`. -/
def Call.epsilonFrom {S V : Type} (s : Nat) : Call S V → Bool
  | Call.addEpsilon s2 => decide (s2 = s)
  | Call.addAcceptingEpsilon s2 _ => decide (s2 = s)
  | _ => false

/-- The states that the calls of a sequence created, in creation order. -/
def Nfa.created {S V : Type} [DecidableEq S] [Inhabited V] (n : Nfa S V)
    (calls : List (Call S V)) : List Nat :=
  (n.trace calls).filterMap (fun x => x.2)

/-- The states that the calls of a sequence created as accepting (`AddAccepting` and
`AddAcceptingEpsilonTransition`), in creation order. -/
def Nfa.createdAccepting {S V : Type} [DecidableEq S] [Inhabited V] (n : Nfa S V)
    (calls : List (Call S V)) : List Nat :=
  (n.trace calls).filterMap (fun x => if x.1.accepting then x.2 else none)

/-- The states that `AddEpsilonTransition` and `AddAcceptingEpsilonTransition` created on the
state `s`, in the order of the calls. -/
def Nfa.epsilonCreated {S V : Type} [DecidableEq S] [Inhabited V] (n : Nfa S V) (s : Nat)
    (calls : List (Call S V)) : List Nat :=
  (n.trace calls).filterMap (fun x => if x.1.epsilonFrom s then x.2 else none)

/-- The states that a call takes as arguments. -/
def Call.args {S V : Type} : Call S V → List Nat
  | Call.add s _ => [s]
  | Call.addAccepting s _ _ => [s]
  | Call.addEpsilon s => [s]
  | Call.addAcceptingEpsilon s _ => [s]
  | Call.connect src _ dst => [src, dst]

/-- Every call of the sequence is made on states that exist when it is made (in Go a state
can only be passed once a call has returned it). -/
def Nfa.scoped {S V : Type} [DecidableEq S] [Inhabited V] :
    Nfa S V → List (Call S V) → Bool
  | _, [] => true
  | n, c :: rest =>
    c.args.all (fun s => decide (s < n.states.length)) && Nfa.scoped (n.call c).1 rest

/-- The automaton after `New`, `Add(start, 'a')` and `Add(start, 'b')`. -/
def twoAdds : Nfa Char Nat :=
  let n0 : Nfa Char Nat := New
  let n1 := (n0.Add n0.Start 'a').1
  (n1.Add n1.Start 'b').1

/-- A sequence of builder calls on a new automaton: `a := Add(start, 'a')`, `Connect(a, 'a',
a)`, `AddAcceptingEpsilonTransition(start, 10)`, `AddEpsilonTransition(start)`,
`AddAccepting(a, 'b', 20)`. -/
def demoCalls : List (Call Char Nat) :=
  [Call.add 0 'a', Call.connect 1 'a' 1, Call.addAcceptingEpsilon 0 10, Call.addEpsilon 0,
    Call.addAccepting 1 'b' 20]

/-- Every key of the map of the state has a value, as in every map that `put` filled. -/
def State.Proper {S V : Type} [DecidableEq S] (st : State S V) : Prop :=
  match st.transitions with
  | none => True
  | some m => ∀ k ∈ m.Keys, m.Get k ≠ []

/-- Every state of the automaton has a proper map. -/
def Nfa.Proper {S V : Type} [DecidableEq S] [Inhabited V] (n : Nfa S V) : Prop :=
  ∀ q, (n.deref q).Proper

/-- The automaton of the test `BuildWithLoop`: `a := Add(start, 'a')` and
`Connect(a, 'a', a)`. -/
def loopCalls : List (Call Char Nat) := [Call.add 0 'a', Call.connect 1 'a' 1]

/-- The automaton of the test `BuildWithEpsilons`: `e := AddEpsilonTransition(start)` and
`AddAccepting(e, 'x', 5)`. -/
def epsilonCalls : List (Call Char Nat) := [Call.addEpsilon 0, Call.addAccepting 1 'x' 5]

end nfa

/-! ## Go maps with a single value per key -/

namespace gomap

/-- The map read `m[k]`; `none` is the zero value returned for a missing key. -/
def get {K V : Type} [DecidableEq K] (k : K) : List (K × V) → Option V
  | [] => none
  | (k0, v) :: rest => if k0 = k then some v else get k rest

/-- The map assignment `m[k] = v`. -/
def set {K V : Type} [DecidableEq K] (k : K) (v : V) : List (K × V) → List (K × V)
  | [] => [(k, v)]
  | (k0, v0) :: rest => if k0 = k then (k0, v) :: rest else (k0, v0) :: set k v rest

end gomap

/-! ## automata/dfa -/

namespace dfa

/-- Go `dfa.State[S, V]`. -/
structure State (S V : Type) where
  id : Nat
  transitions : List (S × Nat)
  acceptIdx : Int
  value : V

instance {S V : Type} [Inhabited V] : Inhabited (State S V) :=
  ⟨{ id := 0, transitions := [], acceptIdx := -1, value := default }⟩

/-- Go `State.ID`. -/
def State.ID {S V : Type} (s : State S V) : Nat := s.id

/-- Go `State.OutgoingSymbols`. -/
def State.OutgoingSymbols {S V : Type} (s : State S V) : List S := s.transitions.map Prod.fst

/-- Go `State.OutgoingFor`; `none` is the nil pointer. -/
def State.OutgoingFor {S V : Type} [DecidableEq S] (s : State S V) (symbol : S) : Option Nat :=
  gomap.get symbol s.transitions

/-- Go `State.AcceptIdx`. -/
def State.AcceptIdx {S V : Type} (s : State S V) : Int := s.acceptIdx

/-- Go `State.IsAccepting`. -/
def State.IsAccepting {S V : Type} (s : State S V) : Bool := decide (s.AcceptIdx > -1)

/-- Go `State.AcceptValue`. -/
def State.AcceptValue {S V : Type} [Inhabited V] (s : State S V) : V :=
  if s.acceptIdx ≤ -1 then default else s.value

/-- Go `Dfa[S, V]`; `states` is the heap of the states it allocated, `start` points into it. -/
structure Dfa (S V : Type) where
  states : List (State S V)
  start : Nat
  nextStateID : Nat

/-- Go `Dfa.Start`. -/
def Dfa.Start {S V : Type} (d : Dfa S V) : Nat := d.start

/-- Pointer dereference: the state stored at address `r`. -/
def Dfa.deref {S V : Type} [Inhabited V] (d : Dfa S V) (r : Nat) : State S V :=
  d.states.getD r default

/-- In-place update `*r = f(*r)` of a state of the heap. -/
def Dfa.update {S V : Type} (d : Dfa S V) (r : Nat) (f : State S V → State S V) : Dfa S V :=
  { d with states := d.states.modify f r }

/-- Go `Dfa.newState`: returns the automaton with the state allocated and its address. -/
def Dfa.newState {S V : Type} [Inhabited V] (d : Dfa S V) : Dfa S V × Nat :=
  let id := d.nextStateID
  ({ d with nextStateID := d.nextStateID + 1,
            states := d.states ++ [{ id := id, transitions := [], acceptIdx := -1,
                                     value := default }] },
    d.states.length)

/-- Go `Dfa.newAcceptingState`. -/
def Dfa.newAcceptingState {S V : Type} (d : Dfa S V) (acceptIdx : Int) (value : V) :
    Dfa S V × Nat :=
  let id := d.nextStateID
  ({ d with nextStateID := d.nextStateID + 1,
            states := d.states ++ [{ id := id, transitions := [], acceptIdx := acceptIdx,
                                     value := value }] },
    d.states.length)

/-- Modelled from the spec: how the subset construction reads `q.epsilon` of an NFA state:
the result of `Epsilon()`, nil read as empty. -/
def epsilonOf {S V : Type} [Inhabited V] (n : nfa.Nfa S V) (q : Nat) : List Nat :=
  ((n.deref q).Epsilon).getD []

/-- Modelled from the spec: how the subset construction reads `q.outgoing_for(sym)` of an NFA
state: the result of `OutgoingFor(sym)`, nil read as empty. -/
def outgoingOf {S V : Type} [DecidableEq S] [Inhabited V] (n : nfa.Nfa S V) (q : Nat) (sym : S) :
    List Nat :=
  ((n.deref q).OutgoingFor sym).getD []

/-- Modelled from the spec: the worklist loop of `Epsilon-closure(T)` of section 4.3 (the body of
`buildFromNfa` and its helpers is not part of the available sources). `work` is the worklist,
`closure` the states collected so far; a state is expanded the first time it is taken from the
worklist. -/
def epsilonClosureLoop {S V : Type} [Inhabited V] (n : nfa.Nfa S V) :
    Nat → List Nat → List Nat → List Nat
  | 0, _, closure => closure
  | _ + 1, [], closure => closure
  | fuel + 1, q :: work, closure =>
    if q ∈ closure then epsilonClosureLoop n fuel work closure
    else epsilonClosureLoop n fuel (work ++ epsilonOf n q) (closure ++ [q])

/-- Modelled from the spec: the bound on the iterations of the closure worklist started from
`T`: every worklist entry is taken once and every state is expanded at most once. -/
def epsilonClosureFuel {S V : Type} [Inhabited V] (n : nfa.Nfa S V) (T : List Nat) : Nat :=
  T.length + ((List.range n.states.length).map (fun q => (epsilonOf n q).length + 1)).sum + 1

/-- Modelled from the spec: `Epsilon-closure(T)`, "the smallest set containing `T` and, for every
state `q` in the closure, every state in `q.epsilon`", computed by worklist. -/
def epsilonClosure {S V : Type} [Inhabited V] (n : nfa.Nfa S V) (T : List Nat) : List Nat :=
  epsilonClosureLoop n (epsilonClosureFuel n T) T []

/-- Modelled from the spec: `Move(T, sym)`, the "union of `q.outgoing_for(sym)` over `q ∈ T`". -/
def move {S V : Type} [DecidableEq S] [Inhabited V] (n : nfa.Nfa S V) (T : List Nat) (sym : S) :
    List Nat :=
  T.flatMap (fun q => outgoingOf n q sym)

/-- Modelled from the spec: the key of a subset, "a canonical, order-independent representation
(e.g., sorted state ids joined by a separator)"; the joined string is kept as the sorted list of
the distinct ids. -/
def subsetKey {S V : Type} [Inhabited V] (n : nfa.Nfa S V) (T : List Nat) : List Nat :=
  List.insertionSort (fun a b => a ≤ b) ((T.map (fun q => (n.deref q).ID)).dedup)

/-- Modelled from the spec: the alphabet of moves of a subset, "the union of labelled outgoing
symbols over all `q ∈ T`". -/
def alphabet {S V : Type} [DecidableEq S] [Inhabited V] (n : nfa.Nfa S V) (T : List Nat) :
    List S :=
  (T.flatMap (fun q => ((n.deref q).OutgoingSymbols).getD [])).dedup

/-- Modelled from the spec: one step of the search for the accepting state of minimum
`accept_idx`; `best` is the winner so far (`none` is nil). -/
def pickStep {S V : Type} [Inhabited V] (n : nfa.Nfa S V) (best : Option Nat) (q : Nat) :
    Option Nat :=
  if (n.deref q).IsAccepting then
    match best with
    | none => some q
    | some b => if (n.deref q).AcceptIdx < (n.deref b).AcceptIdx then some q else some b
  else best

/-- Modelled from the spec: the NFA state of a subset that decides acceptance, "the one with
minimum `accept_idx`"; `none` when no state of the subset is accepting. -/
def pickAccepting {S V : Type} [Inhabited V] (n : nfa.Nfa S V) (U : List Nat) : Option Nat :=
  U.foldl (pickStep n) none

/-- Go `dfaBuilder[S, V]`, with the fields that `FromNfa` initialises (its declaration is not in
the sources); the string key of `subsetKeyToStateMap` is the list `subsetKey` returns. -/
structure dfaBuilder (S V : Type) where
  dfa : Dfa S V
  workingQueue : queue.Queue (List Nat)
  subsetKeyToStateMap : List (List Nat × Nat)

/-- Modelled from the spec: creation of the DFA state of a subset, "accepting iff any `q ∈ U` is
accepting, with acceptance taken from the one with minimum `accept_idx`". -/
def newStateFor {S V : Type} [Inhabited V] (n : nfa.Nfa S V) (d : Dfa S V) (U : List Nat) :
    Dfa S V × Nat :=
  match pickAccepting n U with
  | some q => d.newAcceptingState (n.deref q).AcceptIdx (n.deref q).AcceptValue
  | none => d.newState

/-- Modelled from the spec: step 4 of section 4.3 for a non-empty `U`: "look up `U` in the subset
map; if absent, create a new DFA state and enqueue it". Returns the DFA state of `U`. -/
def dfaBuilder.stateFor {S V : Type} [Inhabited V] (b : dfaBuilder S V) (n : nfa.Nfa S V)
    (U : List Nat) : dfaBuilder S V × Nat :=
  match gomap.get (subsetKey n U) b.subsetKeyToStateMap with
  | some r => (b, r)
  | none =>
    let (d, r) := newStateFor n b.dfa U
    ({ dfa := d, workingQueue := b.workingQueue.Enqueue U,
       subsetKeyToStateMap := gomap.set (subsetKey n U) r b.subsetKeyToStateMap }, r)

/-- Modelled from the spec: step 4 of section 4.3 for one symbol: "`U = Epsilon-closure(Move(T,
sym))`. If `U` is empty, skip. Otherwise ... add the transition `D --sym--> dfa_state(U)`". -/
def dfaBuilder.processSymbol {S V : Type} [DecidableEq S] [Inhabited V] (n : nfa.Nfa S V)
    (T : List Nat) (D : Nat) (b : dfaBuilder S V) (sym : S) : dfaBuilder S V :=
  let U := epsilonClosure n (move n T sym)
  if U.isEmpty then b
  else
    let (b1, r) := b.stateFor n U
    let d := b1.dfa.update D (fun st => { st with transitions := gomap.set sym r st.transitions })
    { b1 with dfa := d }

/-- Modelled from the spec: steps 3 and 4 of section 4.3 for a dequeued subset `T`, "backed by
its DFA state `D`" (found through the subset map). -/
def dfaBuilder.processSubset {S V : Type} [DecidableEq S] [Inhabited V] (n : nfa.Nfa S V)
    (T : List Nat) (b : dfaBuilder S V) : dfaBuilder S V :=
  match gomap.get (subsetKey n T) b.subsetKeyToStateMap with
  | none => b
  | some D => (alphabet n T).foldl (dfaBuilder.processSymbol n T D) b

/-- Modelled from the spec: steps 2 to 5 of section 4.3, "continue until the worklist is
empty". -/
def dfaBuilder.buildLoop {S V : Type} [DecidableEq S] [Inhabited V] (n : nfa.Nfa S V) :
    Nat → dfaBuilder S V → dfaBuilder S V
  | 0, b => b
  | fuel + 1, b =>
    match b.workingQueue.Dequeue with
    | (none, _) => b
    | (some T, rest) =>
      dfaBuilder.buildLoop n fuel (dfaBuilder.processSubset n T { b with workingQueue := rest })

/-- Modelled from the spec: step 1 of section 4.3: "Start set = Epsilon-closure({nfa.start}).
Create DFA start state corresponding to it; record it in a `subset_key → dfa_state` map; enqueue
it"; the start state has id 0. -/
def dfaBuilder.seed {S V : Type} [Inhabited V] (b : dfaBuilder S V) (n : nfa.Nfa S V) :
    dfaBuilder S V :=
  let T := epsilonClosure n [n.Start]
  let st : State S V :=
    match pickAccepting n T with
    | some q => { id := 0, transitions := [], acceptIdx := (n.deref q).AcceptIdx,
                  value := (n.deref q).AcceptValue }
    | none => { id := 0, transitions := [], acceptIdx := -1, value := default }
  { dfa := { b.dfa with states := b.dfa.states ++ [st], start := b.dfa.states.length },
    workingQueue := b.workingQueue.Enqueue T,
    subsetKeyToStateMap := gomap.set (subsetKey n T) b.dfa.states.length b.subsetKeyToStateMap }

/-- Modelled from the spec: the bound on the iterations of the subset worklist: a subset is
enqueued once, when its key enters the map, and there are at most `2 ^ |states|` keys. -/
def buildFuel {S V : Type} (n : nfa.Nfa S V) : Nat := 2 ^ (n.states.length + 1)

/-- Modelled from the spec: `dfaBuilder.buildFromNfa`, the subset construction of section 4.3.
Returns the builder in its final state; its field `dfa` is what `FromNfa` returns. -/
def dfaBuilder.run {S V : Type} [DecidableEq S] [Inhabited V] (b : dfaBuilder S V)
    (n : nfa.Nfa S V) : dfaBuilder S V :=
  dfaBuilder.buildLoop n (buildFuel n) (b.seed n)

/-- Modelled from the spec: `dfaBuilder.buildFromNfa` (its Go body is not in the sources). -/
def dfaBuilder.buildFromNfa {S V : Type} [DecidableEq S] [Inhabited V] (b : dfaBuilder S V)
    (n : nfa.Nfa S V) : Dfa S V :=
  (b.run n).dfa

/-- The builder that Go `FromNfa` creates before it calls `buildFromNfa`. -/
def initialBuilder {S V : Type} : dfaBuilder S V :=
  { dfa := { states := [], start := 0, nextStateID := 1 }, workingQueue := queue.New,
    subsetKeyToStateMap := [] }

/-- Go `dfa.FromNfa`. -/
def FromNfa {S V : Type} [DecidableEq S] [Inhabited V] (n : nfa.Nfa S V) : Dfa S V :=
  (initialBuilder : dfaBuilder S V).buildFromNfa n

/-! ### Words on an NFA -/

/-- The NFA state `q` is reachable from the start state by the word `w`, with labelled
transitions (`OutgoingFor`) interleaved with epsilon transitions (`Epsilon`). -/
inductive Reach {S V : Type} [DecidableEq S] [Inhabited V] (n : nfa.Nfa S V) :
    List S → Nat → Prop where
  | start : Reach n [] n.Start
  | epsilon {w : List S} {q r : Nat} : Reach n w q → r ∈ epsilonOf n q → Reach n w r
  | symbol {w : List S} {q r : Nat} {sym : S} :
      Reach n w q → r ∈ outgoingOf n q sym → Reach n (w ++ [sym]) r

/-- The set of NFA states reached by a word, computed subset by subset. -/
def runSet {S V : Type} [DecidableEq S] [Inhabited V] (n : nfa.Nfa S V) (w : List S) :
    List Nat :=
  w.foldl (fun T sym => epsilonClosure n (move n T sym)) (epsilonClosure n [n.Start])

/-! ### Words on a DFA -/

/-- Following `OutgoingFor` from state `r` along a word; `none` when a step is undefined. -/
def Dfa.follow {S V : Type} [DecidableEq S] [Inhabited V] (d : Dfa S V) : Nat → List S → Option Nat
  | r, [] => some r
  | r, sym :: rest =>
    match (d.deref r).OutgoingFor sym with
    | none => none
    | some next => d.follow next rest

/-- The number of symbols the read loop of `NextToken` reads from state `r` on the remaining
input `w`: it stops after the first symbol without a transition, or at the end of `w`. -/
def Dfa.readLen {S V : Type} [DecidableEq S] [Inhabited V] (d : Dfa S V) : Nat → List S → Nat
  | _, [] => 0
  | r, sym :: rest =>
    match (d.deref r).OutgoingFor sym with
    | none => 1
    | some next => d.readLen next rest + 1

/-- Whether the read loop started in state `r` on remaining input `w` ends by running out of
input (rather than by a missing transition). -/
def Dfa.runsOut {S V : Type} [DecidableEq S] [Inhabited V] (d : Dfa S V) : Nat → List S → Bool
  | _, [] => true
  | r, sym :: rest =>
    match (d.deref r).OutgoingFor sym with
    | none => false
    | some next => d.runsOut next rest

/-- The length of the longest non-empty prefix of `w` that leads from state `r` to an
accepting state, with the state reached; `none` when there is no such prefix. -/
def Dfa.longestAccept {S V : Type} [DecidableEq S] [Inhabited V] (d : Dfa S V) :
    Nat → List S → Option (Nat × Nat)
  | _, [] => none
  | r, sym :: rest =>
    match (d.deref r).OutgoingFor sym with
    | none => none
    | some next =>
      match d.longestAccept next rest with
      | some (k, q) => some (k + 1, q)
      | none => if (d.deref next).IsAccepting then some (1, next) else none
/-! ### Vocabulary of the correctness proof of the subset construction -/

/-- Reachability by epsilon transitions only. -/
def EpsStar {S V : Type} [Inhabited V] (n : nfa.Nfa S V) : Nat → Nat → Prop :=
  Relation.ReflTransGen (fun a b => b ∈ epsilonOf n a)

/-- The work still ahead of the closure loop that is due to states not yet expanded. -/
def pendingWeight (wt : Nat → Nat) (L closure : List Nat) : Nat :=
  ((L.filter (fun i => decide (i ∉ closure))).map wt).sum

/-- The measure that decreases along the closure loop. -/
def closureMeasure {S V : Type} [Inhabited V] (n : nfa.Nfa S V) (work closure : List Nat) : Nat :=
  work.length
    + pendingWeight (fun q => (epsilonOf n q).length + 1) (List.range n.states.length) closure

/-- Every state of the list is allocated. -/
def Valid {S V : Type} (n : nfa.Nfa S V) (T : List Nat) : Prop := ∀ q ∈ T, q < n.states.length

/-- The subset that follows `T` on `sym`. -/
def stepSet {S V : Type} [DecidableEq S] [Inhabited V] (n : nfa.Nfa S V) (T : List Nat)
    (sym : S) : List Nat :=
  epsilonClosure n (move n T sym)

/-- What a DFA state records about the acceptance of the subset `T` it stands for. -/
def AcceptSpec {S V : Type} [Inhabited V] (n : nfa.Nfa S V) (T : List Nat) (idx : Int)
    (value : V) : Prop :=
  ((∀ q ∈ T, (n.deref q).IsAccepting = false) ∧ idx = -1 ∧ value = default)
  ∨ ∃ q ∈ T, (n.deref q).IsAccepting = true
      ∧ (∀ p ∈ T, (n.deref p).IsAccepting = true → (n.deref q).AcceptIdx ≤ (n.deref p).AcceptIdx)
      ∧ idx = (n.deref q).AcceptIdx ∧ value = (n.deref q).AcceptValue

/-- The key of the subset that follows the subset `K` on `sym`. -/
def tgt {S V : Type} [DecidableEq S] [Inhabited V] (n : nfa.Nfa S V) (K : List Nat) (sym : S) :
    List Nat :=
  subsetKey n (stepSet n K sym)

/-- Every transition that the DFA state `r` of subset `K` has leads to the DFA state of the
subset that follows `K`. -/
def Safe {S V : Type} [DecidableEq S] [Inhabited V] (n : nfa.Nfa S V) (b : dfaBuilder S V)
    (K : List Nat) (r : Nat) : Prop :=
  ∀ sym r2, gomap.get sym (b.dfa.deref r).transitions = some r2 →
    tgt n K sym ≠ [] ∧ gomap.get (tgt n K sym) b.subsetKeyToStateMap = some r2

/-- The DFA state `r` of subset `K` has a transition on every symbol on which `K` has a
non-empty successor subset. -/
def Complete {S V : Type} [DecidableEq S] [Inhabited V] (n : nfa.Nfa S V) (b : dfaBuilder S V)
    (K : List Nat) (r : Nat) : Prop :=
  ∀ sym, tgt n K sym ≠ [] → gomap.get sym (b.dfa.deref r).transitions ≠ none

/-- The invariant of the worklist loop; `exempt` is the key of the subset being processed. -/
structure BInv {S V : Type} [DecidableEq S] [Inhabited V] (n : nfa.Nfa S V)
    (b : dfaBuilder S V) (exempt : Option (List Nat)) : Prop where
  keys_valid : ∀ K r, gomap.get K b.subsetKeyToStateMap = some r →
    Valid n K ∧ subsetKey n K = K ∧ r < b.dfa.states.length
  keys_nodup : (b.subsetKeyToStateMap.map Prod.fst).Nodup
  refs_inj : ∀ K1 K2 r, gomap.get K1 b.subsetKeyToStateMap = some r →
    gomap.get K2 b.subsetKeyToStateMap = some r → K1 = K2
  accept : ∀ K r, gomap.get K b.subsetKeyToStateMap = some r →
    AcceptSpec n K (b.dfa.deref r).acceptIdx (b.dfa.deref r).value
  queue_valid : ∀ T ∈ b.workingQueue.data,
    Valid n T ∧ gomap.get (subsetKey n T) b.subsetKeyToStateMap ≠ none
  safe : ∀ K r, gomap.get K b.subsetKeyToStateMap = some r → Safe n b K r
  complete : ∀ K r, gomap.get K b.subsetKeyToStateMap = some r →
    some K = exempt ∨ K ∈ b.workingQueue.data.map (subsetKey n) ∨ Complete n b K r
  start : gomap.get (subsetKey n (epsilonClosure n [n.Start])) b.subsetKeyToStateMap
    = some b.dfa.start

/-- The map of `b2` extends that of `b1`; the states known to `b1` are unchanged in `b2`. -/
def Extends {S V : Type} [Inhabited V] (b1 b2 : dfaBuilder S V) : Prop :=
  (∀ K r, gomap.get K b1.subsetKeyToStateMap = some r →
    gomap.get K b2.subsetKeyToStateMap = some r)
  ∧ (∃ k, b2.subsetKeyToStateMap.length = b1.subsetKeyToStateMap.length + k
        ∧ b2.workingQueue.data.length = b1.workingQueue.data.length + k)
  ∧ b1.dfa.states.length ≤ b2.dfa.states.length

/-- The DFA state `D` of the subset being processed has its transitions on the symbols of
`done`. -/
def Progress {S V : Type} [DecidableEq S] [Inhabited V] (n : nfa.Nfa S V) (b : dfaBuilder S V)
    (K : List Nat) (D : Nat) (done : List S) : Prop :=
  ∀ sym ∈ done, tgt n K sym ≠ [] → gomap.get sym (b.dfa.deref D).transitions ≠ none

/-- The builder `b2` has the start state of `b1` and every state of `b1` under its ID. -/
def KeepsIds {S V : Type} [Inhabited V] (b1 b2 : dfaBuilder S V) : Prop :=
  b2.dfa.start = b1.dfa.start ∧ b1.dfa.states.length ≤ b2.dfa.states.length
  ∧ ∀ r, r < b1.dfa.states.length → (b2.dfa.deref r).id = (b1.dfa.deref r).id

/-- The worklist that the loop of `Epsilon-closure` has left when it returns: empty when the
loop ended because the worklist ran empty, what is still to do when the fuel ran out. It
follows `epsilonClosureLoop` step by step. -/
def epsilonClosureWork {S V : Type} [Inhabited V] (n : nfa.Nfa S V) :
    Nat → List Nat → List Nat → List Nat
  | 0, work, _ => work
  | _ + 1, [], _ => []
  | fuel + 1, q :: work, closure =>
    if q ∈ closure then epsilonClosureWork n fuel work closure
    else epsilonClosureWork n fuel (work ++ epsilonOf n q) (closure ++ [q])

/-- The ids of the DFA states are their addresses, the next id is the next address, and no
state has two transitions on one symbol. -/
def Tidy {S V : Type} [Inhabited V] (b : dfaBuilder S V) : Prop :=
  b.dfa.nextStateID = b.dfa.states.length
  ∧ ∀ r, r < b.dfa.states.length →
      (b.dfa.deref r).id = r ∧ ((b.dfa.deref r).transitions.map Prod.fst).Nodup

/-- The length of the longest prefix of `w` along which `OutgoingFor` is defined at every
step, from state `r`. -/
def Dfa.definedLen {S V : Type} [DecidableEq S] [Inhabited V] (d : Dfa S V) :
    Nat → List S → Nat
  | _, [] => 0
  | r, sym :: rest =>
    match (d.deref r).OutgoingFor sym with
    | none => 0
    | some next => d.definedLen next rest + 1

end dfa

/-! ## pos -/

namespace pos

/-- Go `pos.Position`. -/
structure Position where
  Line : Int
  Column : Int
deriving DecidableEq

/-- Go `pos.New`. -/
def New : Position := { Line := 1, Column := 1 }

/-- The value of a Go `int` (64 bits, two's complement) after an arithmetic operation whose
exact result is `x`: Go integer arithmetic wraps around. -/
def wrapInt (x : Int) : Int := (x + 2 ^ 63) % 2 ^ 64 - 2 ^ 63

/-- The largest Go `int`. -/
def maxInt : Int := 2 ^ 63 - 1

/-- The rune `'\n'`. -/
def newline : Int := 10

/-- The rune `'\r'`. -/
def carriageReturn : Int := 13

/-- Go `Position.Advance`; a `rune` is an `int32`, given as an integer. The receiver is a
pointer, the position after the call is returned. -/
def Position.Advance (p : Position) (r : Int) : Position :=
  let p1 : Position :=
    if r ≠ carriageReturn ∧ r ≠ newline then { p with Column := wrapInt (p.Column + 1) } else p
  if r = newline then { p1 with Column := 1, Line := wrapInt (p1.Line + 1) } else p1

/-- The position after `Advance` was called with each rune of a sequence in turn. -/
def Position.advanceAll (p : Position) (runes : List Int) : Position :=
  runes.foldl Position.Advance p

/-- The runes of a sequence after its last `'\n'` (all of them if there is none). -/
def lastLine (runes : List Int) : List Int :=
  (runes.reverse.takeWhile (fun r => decide (r ≠ newline))).reverse

/-- Whether the rune advances the column: it is neither `'\r'` nor `'\n'`. -/
def columnRune (r : Int) : Bool := decide (r ≠ carriageReturn ∧ r ≠ newline)

/-- The runes of a string as integers. -/
def runesOf (s : String) : List Int := s.toList.map (fun c => (c.toNat : Int))

end pos

/-! ## scanner -/

namespace scanner

/-- Go interface `SymbolReader[S]`, over the type `R` of the states of an implementation:
`ReadSymbol` returns `none` for a non-nil error, `UnreadSymbol` returns `true` for a non-nil
error; both return the state of the reader after the call. -/
structure SymbolReader (S R : Type) where
  ReadSymbol : R → Option S × R
  UnreadSymbol : R → Bool × R

/-- Modelled from the spec: a list-backed implementation of the `SymbolReader` contract of
section 6: the input and a cursor into it; `UnreadSymbol` steps the cursor back by one symbol,
to any depth. -/
structure ListReader (S : Type) where
  input : List S
  cursor : Nat
deriving DecidableEq

/-- Reads the symbol under the cursor and advances; an error at the end of the input. -/
def ListReader.ReadSymbol {S : Type} (r : ListReader S) : Option S × ListReader S :=
  match r.input[r.cursor]? with
  | some sym => (some sym, { r with cursor := r.cursor + 1 })
  | none => (none, r)

/-- Steps the cursor back; an error when nothing was read. -/
def ListReader.UnreadSymbol {S : Type} (r : ListReader S) : Bool × ListReader S :=
  if r.cursor = 0 then (true, r) else (false, { r with cursor := r.cursor - 1 })

/-- The list-backed reader as a `SymbolReader`. -/
def listReader (S : Type) : SymbolReader S (ListReader S) :=
  { ReadSymbol := ListReader.ReadSymbol, UnreadSymbol := ListReader.UnreadSymbol }

/-- A call received by a reader: `read ok` (with `ok = false` when it returned an error) or
`unread`. -/
inductive ReaderCall where
  | read (ok : Bool)
  | unread
deriving DecidableEq

/-- A reader together with the log of the calls made on it, oldest first. -/
structure Traced (R : Type) where
  inner : R
  calls : List ReaderCall

/-- Wraps a reader so that every call is logged before it is forwarded. -/
def traced {S R : Type} (rd : SymbolReader S R) : SymbolReader S (Traced R) :=
  { ReadSymbol := fun t =>
      let res := rd.ReadSymbol t.inner
      (res.1, { inner := res.2, calls := t.calls ++ [ReaderCall.read res.1.isSome] })
    UnreadSymbol := fun t =>
      let res := rd.UnreadSymbol t.inner
      (res.1, { inner := res.2, calls := t.calls ++ [ReaderCall.unread] }) }

/-- The number of `UnreadSymbol` calls in a log. -/
def unreadCount (calls : List ReaderCall) : Nat := calls.count ReaderCall.unread

/-- The number of successful `ReadSymbol` calls in a log. -/
def readCount (calls : List ReaderCall) : Nat := calls.count (ReaderCall.read true)

/-- Go `Scanner[S, V]`. -/
structure Scanner (S V : Type) where
  machine : dfa.Dfa S V
  illegal : V
  eof : V
  currentPos : pos.Position

/-- The local variables of `NextToken` and the state of its reader. -/
structure scanVars (V R : Type) where
  currentState : Nat
  consumedSymbols : Int
  acceptSymbolCount : Int
  lastAcceptVal : V
  rdr : R

/-- The `for` loop of Go `Scanner.NextToken`; `fuel` bounds the number of iterations and `none`
is returned when it does not suffice. -/
def Scanner.scanLoop {S V R : Type} [DecidableEq S] [Inhabited V] (s : Scanner S V)
    (rd : SymbolReader S R) : Nat → scanVars V R → Option (scanVars V R)
  | 0, _ => none
  | fuel + 1, vars =>
    match rd.ReadSymbol vars.rdr with
    | (none, rdr) => some { vars with rdr := rdr }
    | (some symbol, rdr) =>
      let consumedSymbols := vars.consumedSymbols + 1
      match (s.machine.deref vars.currentState).OutgoingFor symbol with
      | none => some { vars with rdr := rdr, consumedSymbols := consumedSymbols }
      | some nextState =>
        if (s.machine.deref nextState).IsAccepting then
          s.scanLoop rd fuel
            { currentState := nextState, consumedSymbols := consumedSymbols,
              acceptSymbolCount := consumedSymbols,
              lastAcceptVal := (s.machine.deref nextState).AcceptValue, rdr := rdr }
        else
          s.scanLoop rd fuel
            { vars with currentState := nextState, consumedSymbols := consumedSymbols,
                        rdr := rdr }

/-- The loops `for idx := lo; idx < hi; idx++` with body `_ = rdr.UnreadSymbol()`, as the number
of iterations they make. -/
def unreadTimes {S R : Type} (rd : SymbolReader S R) : Nat → R → R
  | 0, rdr => rdr
  | k + 1, rdr => unreadTimes rd k (rd.UnreadSymbol rdr).2

/-- Go `Scanner.NextToken`: the token and the state of the reader after the call; `none` when
`fuel` iterations of the read loop do not suffice. -/
def Scanner.NextToken {S V R : Type} [DecidableEq S] [Inhabited V] (s : Scanner S V)
    (rd : SymbolReader S R) (fuel : Nat) (rdr : R) : Option (V × R) :=
  match s.scanLoop rd fuel
      { currentState := s.machine.Start, consumedSymbols := 0, acceptSymbolCount := -1,
        lastAcceptVal := default, rdr := rdr } with
  | none => none
  | some vars =>
    if vars.consumedSymbols = 0 then some (s.eof, vars.rdr)
    else if vars.acceptSymbolCount ≠ -1 then
      some (vars.lastAcceptVal,
        unreadTimes rd (vars.consumedSymbols - vars.acceptSymbolCount).toNat vars.rdr)
    else some (s.illegal, unreadTimes rd (vars.consumedSymbols - 1).toNat vars.rdr)

/-- Modelled from the spec: a `Fragment` "is a compilation function `build(nfa, entry) → exit`
that appends NFA structure starting at `entry` and returns a single exit state" (the Go
interface is used by `ScannerBuilder` but declared outside the available sources). -/
structure Fragment (S V : Type) where
  Build : nfa.Nfa S V → Nat → nfa.Nfa S V × Nat

/-- Modelled from the spec: `Build` of `Literal(sym₁, …, symₙ)`, which "emits a linear chain
`entry --sym₁--> q₁ --sym₂--> … --symₙ--> qₙ`; returns `qₙ`". -/
def literalBuild {S V : Type} [DecidableEq S] [Inhabited V] (symbols : List S)
    (n : nfa.Nfa S V) (entry : Nat) : nfa.Nfa S V × Nat :=
  symbols.foldl (fun acc sym => acc.1.Add acc.2 sym) (n, entry)

/-- Modelled from the spec: the fragment constructor `Literal`, which "panics on empty input"
(`none`). -/
def Literal {S V : Type} [DecidableEq S] [Inhabited V] (symbols : List S) :
    Option (Fragment S V) :=
  if symbols.isEmpty then none else some { Build := literalBuild symbols }

/-- Modelled from the spec: the epsilon transition between two existing states that `AnyOf`
("connect the branch's exit to `j` via an epsilon transition") and `RepeatAtLeast` ("an epsilon
loops back to the entry") need. The operations of section 4.1 have none; this is the epsilon
counterpart of `Nfa.Connect`, appending to `eTransitions` as `AddEpsilonTransition` does. -/
def connectEpsilon {S V : Type} (n : nfa.Nfa S V) (src dst : Nat) : nfa.Nfa S V :=
  n.update src (fun st => { st with eTransitions := st.eTransitions ++ [dst] })

/-- Modelled from the spec: `Build` of `Sequence(f₁, …, fₖ)`: "call `fᵢ.build(nfa, prev)` in
order, threading `prev` ← exit of `fᵢ₋₁`. Returns the last exit." -/
def sequenceBuild {S V : Type} (fragments : List (Fragment S V)) (n : nfa.Nfa S V)
    (entry : Nat) : nfa.Nfa S V × Nat :=
  fragments.foldl (fun acc f => f.Build acc.1 acc.2) (n, entry)

/-- Modelled from the spec: the fragment constructor `Sequence` (no precondition). -/
def Sequence {S V : Type} (fragments : List (Fragment S V)) : Fragment S V :=
  { Build := sequenceBuild fragments }

/-- Modelled from the spec: one branch of `AnyOf`: "allocate a fresh epsilon-successor `bᵢ` of
`entry`, build the branch from `bᵢ`, and connect the branch's exit to `j` via an epsilon
transition". -/
def anyOfBranch {S V : Type} [Inhabited V] (entry j : Nat) (n : nfa.Nfa S V)
    (f : Fragment S V) : nfa.Nfa S V :=
  let b := n.AddEpsilonTransition entry
  let built := f.Build b.1 b.2
  connectEpsilon built.1 built.2 j

/-- Modelled from the spec: `Build` of `AnyOf(f₁, …, fₖ)`: "creates a single fresh join state
`j`", then the branches in order; "returns `j`". The join state is allocated with `newState`. -/
def anyOfBuild {S V : Type} [Inhabited V] (fragments : List (Fragment S V)) (n : nfa.Nfa S V)
    (entry : Nat) : nfa.Nfa S V × Nat :=
  let j := n.newState
  (fragments.foldl (anyOfBranch entry j.2) j.1, j.2)

/-- Modelled from the spec: the fragment constructor `AnyOf`, which "panics on `k < 2`"
(`none`). -/
def AnyOf {S V : Type} [Inhabited V] (fragments : List (Fragment S V)) :
    Option (Fragment S V) :=
  if fragments.length < 2 then none else some { Build := anyOfBuild fragments }

/-- Modelled from the spec: the first step of `RepeatAtLeast(n, f)`, "builds `f` sequentially
`n` times": the heap, the entry of the last instance built and the exit of that instance after
`count` instances. Before the first instance the exit to build at is the given entry; there is
no last instance yet, and the second component, which every instance built overwrites, starts
as the given entry too. Section 4.2 names no state for it when `n = 0`, and the language of
`RepeatAtLeast(0, f)` is left open. -/
def repeatLoop {S V : Type} (f : Fragment S V) : Nat → nfa.Nfa S V → Nat → nfa.Nfa S V × Nat × Nat
  | 0, n, entry => (n, entry, entry)
  | count + 1, n, entry =>
    let prev := repeatLoop f count n entry
    let built := f.Build prev.1 prev.2.2
    (built.1, prev.2.2, built.2)

/-- Modelled from the spec: `Build` of `RepeatAtLeast(n, f)`: after the `n` instances, "from
the exit, an epsilon loops back to the entry of the final repeated instance; an epsilon bypass
forwards to a fresh exit state. Returns the exit state." -/
def repeatAtLeastBuild {S V : Type} [Inhabited V] (count : Nat) (f : Fragment S V)
    (n : nfa.Nfa S V) (entry : Nat) : nfa.Nfa S V × Nat :=
  let r := repeatLoop f count n entry
  let looped := connectEpsilon r.1 r.2.2 r.2.1
  looped.AddEpsilonTransition r.2.2

/-- Modelled from the spec: the fragment constructor `RepeatAtLeast`, "n ≥ 0 (panic on
negative)" (`none`). -/
def RepeatAtLeast {S V : Type} [Inhabited V] (n : Int) (f : Fragment S V) :
    Option (Fragment S V) :=
  if n < 0 then none else some { Build := repeatAtLeastBuild n.toNat f }

/-- Modelled from the spec: the second step of `RepeatBetween(min, max, f)`, which "attaches
`max - min` optional instances, each guarded by an epsilon bypass that allows skipping
directly to the final exit": `count` instances in a row from `entry`, then the bypass from the
entry of each of them to the exit of the last. -/
def optionalBuild {S V : Type} (f : Fragment S V) : Nat → nfa.Nfa S V → Nat → nfa.Nfa S V × Nat
  | 0, n, entry => (n, entry)
  | count + 1, n, entry =>
    let built := f.Build n entry
    let rest := optionalBuild f count built.1 built.2
    (connectEpsilon rest.1 entry rest.2, rest.2)

/-- Modelled from the spec: `Build` of `RepeatBetween(min, max, f)`: "builds `f` sequentially
`min` times; then attaches `max - min` optional instances". -/
def repeatBetweenBuild {S V : Type} (min max : Nat) (f : Fragment S V) (n : nfa.Nfa S V)
    (entry : Nat) : nfa.Nfa S V × Nat :=
  let mandatory := sequenceBuild (List.replicate min f) n entry
  optionalBuild f (max - min) mandatory.1 mandatory.2

/-- Modelled from the spec: the fragment constructor `RepeatBetween`, "`0 ≤ min ≤ max` (panic
otherwise)", section 7: "negative `min`/`max` or `min > max`" (`none`). -/
def RepeatBetween {S V : Type} (min max : Int) (f : Fragment S V) : Option (Fragment S V) :=
  if min < 0 ∨ max < 0 ∨ min > max then none
  else some { Build := repeatBetweenBuild min.toNat max.toNat f }

/-- Go `pattern[S, V]`. -/
structure pattern (S V : Type) where
  fragment : Fragment S V
  value : V

/-- Go `ScannerBuilder[S, V]`. -/
structure ScannerBuilder (S V : Type) where
  patterns : List (pattern S V)

/-- Go `NewScannerBuilder`. -/
def NewScannerBuilder {S V : Type} : ScannerBuilder S V := { patterns := [] }

/-- Go `ScannerBuilder.Add`. -/
def ScannerBuilder.Add {S V : Type} (builder : ScannerBuilder S V) (fragment : Fragment S V)
    (value : V) : ScannerBuilder S V :=
  { patterns := builder.patterns ++ [{ fragment := fragment, value := value }] }

/-- The NFA that Go `ScannerBuilder.Build` hands to `dfa.FromNfa`. -/
def ScannerBuilder.buildNfa {S V : Type} [Inhabited V] (builder : ScannerBuilder S V) :
    nfa.Nfa S V :=
  let machine : nfa.Nfa S V := nfa.New
  let sState := machine.Start
  builder.patterns.foldl
    (fun machine pattern =>
      let built := pattern.fragment.Build machine sState
      (built.1.AddAcceptingEpsilonTransition built.2 pattern.value).1)
    machine

/-- Go `ScannerBuilder.Build`. -/
def ScannerBuilder.Build {S V : Type} [DecidableEq S] [Inhabited V]
    (builder : ScannerBuilder S V) (defaultValue finalValue : V) : Scanner S V :=
  { machine := dfa.FromNfa builder.buildNfa, illegal := defaultValue, eof := finalValue,
    currentPos := pos.New }

/-- Go test helper `readN`: the tokens of `n` consecutive `NextToken` calls on one reader. -/
def readN {S V R : Type} [DecidableEq S] [Inhabited V] (s : Scanner S V)
    (rd : SymbolReader S R) (fuel : Nat) : Nat → R → Option (List V × R)
  | 0, rdr => some ([], rdr)
  | n + 1, rdr =>
    match s.NextToken rd fuel rdr with
    | none => none
    | some (token, rdr1) =>
      match readN s rd fuel n rdr1 with
      | none => none
      | some (tokens, rdr2) => some (token :: tokens, rdr2)

/-- The scanner built from the patterns `Literal('a') → 1`, `Literal('b') → 2` and
`Literal('c') → 3`, with `illegal = 100` and `eof = 200`. -/
def threeLiteralScanner : Option (Scanner Char Nat) :=
  (Literal ['a']).bind fun fa =>
  (Literal ['b']).bind fun fb =>
  (Literal ['c']).bind fun fc =>
  some ((((NewScannerBuilder.Add fa 1).Add fb 2).Add fc 3).Build 100 200)

/-- The first token that a scanner returns on an input read from its beginning. -/
def firstToken {S V : Type} [DecidableEq S] [Inhabited V] (s : Scanner S V) (input : List S) :
    Option V :=
  (s.NextToken (listReader S) (input.length + 1) { input := input, cursor := 0 }).map Prod.fst

/-- A scanner over a hand-built three-state DFA (`0 --a--> 1`, `1 --a--> 2`, `1 --b--> 1`, state 1
accepting with value 7), used to instantiate the scanner theorems. -/
def demoScanner : Scanner Char Nat :=
  { machine := { states := [{ id := 0, transitions := [('a', 1)], acceptIdx := -1, value := 0 },
                            { id := 1, transitions := [('a', 2), ('b', 1)], acceptIdx := 0, value := 7 },
                            { id := 2, transitions := [], acceptIdx := -1, value := 0 }],
                 start := 0, nextStateID := 3 },
    illegal := 100, eof := 200, currentPos := pos.New }

/-- The greedy tokenization `tok` of an input, unfolded to its first `k` tokens: the first token
is the result `v` of one `NextToken` call on a fresh list-backed reader over `w`, the rest is
the tokenization of `w` without the symbols that call committed (the cursor it left). On the
empty input the token is `eof`, again and again. -/
def tok {S V : Type} [DecidableEq S] [Inhabited V] (s : Scanner S V) : Nat → List S → List V
  | 0, _ => []
  | k + 1, w =>
    match s.NextToken (listReader S) (w.length + 1) { input := w, cursor := 0 } with
    | none => []
    | some (v, rdr) => v :: tok s k (w.drop rdr.cursor)

/-- Whether the DFA of the scanner accepts the word `w`: following `OutgoingFor` from the start
state along `w` is defined at every step and ends in an accepting state. -/
def Scanner.accepts {S V : Type} [DecidableEq S] [Inhabited V] (s : Scanner S V)
    (w : List S) : Bool :=
  match s.machine.follow s.machine.Start w with
  | none => false
  | some D => (s.machine.deref D).IsAccepting

/-- The scanner with the single pattern `f → value`. -/
def singlePattern {S V : Type} [DecidableEq S] [Inhabited V] (f : Fragment S V)
    (value illegal eof : V) : Scanner S V :=
  ((NewScannerBuilder.Add f value).Build illegal eof)

/-! ### Vocabulary of the fragment proofs -/

/-- A walk from `p` to `q` that spells the word `w` in a graph whose edges `R p o r` are
labelled with a symbol (`o = some sym`) or are epsilon edges (`o = none`). -/
inductive Walk {S : Type} (R : Nat → Option S → Nat → Prop) : Nat → List S → Nat → Prop where
  | nil (p : Nat) : Walk R p [] p
  | eps {p r q : Nat} {w : List S} : R p none r → Walk R r w q → Walk R p w q
  | sym {p r q : Nat} {a : S} {w : List S} : R p (some a) r → Walk R r w q → Walk R p (a :: w) q

/-- The transitions of an NFA as the subset construction sees them: `Epsilon` for `none`,
`OutgoingFor sym` for `some sym`. -/
def Step {S V : Type} [DecidableEq S] [Inhabited V] (n : nfa.Nfa S V) (p : Nat) (o : Option S)
    (r : Nat) : Prop :=
  match o with
  | none => r ∈ dfa.epsilonOf n p
  | some a => r ∈ dfa.outgoingOf n p a

/-- The word `w` leads from state `p` to state `q` of the NFA. -/
def Path {S V : Type} [DecidableEq S] [Inhabited V] (n : nfa.Nfa S V) (p : Nat) (w : List S)
    (q : Nat) : Prop :=
  Walk (Step n) p w q

/-- The state has no transition at all. -/
def Sink {S V : Type} [Inhabited V] (n : nfa.Nfa S V) (q : Nat) : Prop :=
  (n.deref q).edge = none ∧ (n.deref q).transitions = none ∧ (n.deref q).eTransitions = []

/-- The words `w₁ w₂ … wₖ` with `wᵢ` in the `i`-th language of the list. -/
def Concat {S : Type} (Ls : List (List S → Prop)) (w : List S) : Prop :=
  ∃ ws : List (List S), List.Forall₂ (fun L u => L u) Ls ws ∧ w = ws.flatten

/-- What every fragment build does to the heap, whatever its entry: the heap stays well formed
and only grows, the start state and the accept-index counter are kept, no state that existed
changes its acceptance and no state that was added is accepting. -/
structure Grows {S V : Type} [Inhabited V] (n n2 : nfa.Nfa S V) : Prop where
  wf : n2.WF
  len : n.states.length ≤ n2.states.length
  start : n2.start = n.start
  counter : n2.nextAcceptIndex = n.nextAcceptIndex
  old : ∀ q, q < n.states.length →
    (n2.deref q).acceptIdx = (n.deref q).acceptIdx ∧ (n2.deref q).value = (n.deref q).value
  fresh : ∀ q, n.states.length ≤ q → (n2.deref q).acceptIdx = -1

/-- The fragment never marks a state accepting (and keeps the heap well formed), at every
entry. -/
def Plain {S V : Type} [Inhabited V] (f : Fragment S V) : Prop :=
  ∀ (n : nfa.Nfa S V) (e : Nat), n.WF → e < n.states.length →
    Grows n (f.Build n e).1 ∧ (f.Build n e).2 < (f.Build n e).1.states.length

/-- The result `(n2, x)` of building a fragment in the heap `n` at the entry `e` matches the
language `L`: the words that lead from `e` to the exit `x` are those of `L`. The build touched
no state but `e` and the ones it added, its transitions stay among those, and the exit is
either the entry itself with nothing built, or a new state without transitions. -/
structure Built {S V : Type} [DecidableEq S] [Inhabited V] (n : nfa.Nfa S V) (e : Nat)
    (n2 : nfa.Nfa S V) (x : Nat) (L : List S → Prop) : Prop where
  grows : Grows n n2
  frame : ∀ q, q < n.states.length → q ≠ e → n2.deref q = n.deref q
  exit : (x = e ∧ n2 = n) ∨ (n.states.length ≤ x ∧ x < n2.states.length ∧ Sink n2 x)
  closed : ∀ p o r, (p = e ∨ n.states.length ≤ p) → Step n2 p o r →
    (r = e ∨ n.states.length ≤ r)
  lang : ∀ w, Path n2 e w x ↔ L w

/-- The fragment `f` matches the language `L`: built in any well-formed heap at any allocated
entry that has no transition yet, it is `Built` for `L`. -/
def Realizes {S V : Type} [DecidableEq S] [Inhabited V] (f : Fragment S V)
    (L : List S → Prop) : Prop :=
  ∀ (n : nfa.Nfa S V) (e : Nat), n.WF → e < n.states.length → Sink n e →
    Built n e (f.Build n e).1 (f.Build n e).2 L

/-- The fragment returns an exit other than its entry and adds no transition that leads back
into its entry. -/
def Strict {S V : Type} [DecidableEq S] [Inhabited V] (f : Fragment S V) : Prop :=
  ∀ (n : nfa.Nfa S V) (e : Nat), n.WF → e < n.states.length → Sink n e →
    (f.Build n e).2 ≠ e
    ∧ ∀ p o, (p = e ∨ n.states.length ≤ p) → ¬ Step (f.Build n e).1 p o e

/-- The fragments of the pattern DSL: what the five constructors return, applied to fragments
of the DSL. -/
inductive Dsl {S V : Type} [DecidableEq S] [Inhabited V] : Fragment S V → Prop where
  | literal (symbols : List S) (f : Fragment S V) : Literal symbols = some f → Dsl f
  | sequence (fragments : List (Fragment S V)) :
      (∀ g ∈ fragments, Dsl g) → Dsl (Sequence fragments)
  | anyOf (fragments : List (Fragment S V)) (f : Fragment S V) :
      (∀ g ∈ fragments, Dsl g) → AnyOf fragments = some f → Dsl f
  | repeatAtLeast (n : Int) (g f : Fragment S V) : Dsl g → RepeatAtLeast n g = some f → Dsl f
  | repeatBetween (min max : Int) (g f : Fragment S V) :
      Dsl g → RepeatBetween min max g = some f → Dsl f

/-- The loop of Go `ScannerBuilder.Build` from the automaton `machine` on, keeping next to the
automaton the states that `AddAcceptingEpsilonTransition` returned, one for each pattern, in
order (Go discards them). -/
def attachLoop {S V : Type} [Inhabited V] (sState : Nat) :
    List (pattern S V) → nfa.Nfa S V → nfa.Nfa S V × List Nat
  | [], machine => (machine, [])
  | pattern :: rest, machine =>
    let built := pattern.fragment.Build machine sState
    let attached := built.1.AddAcceptingEpsilonTransition built.2 pattern.value
    let more := attachLoop sState rest attached.1
    (more.1, attached.2 :: more.2)

/-- The accepting states that `Build` attaches to the patterns, in the order of the
patterns. -/
def ScannerBuilder.attached {S V : Type} [Inhabited V] (builder : ScannerBuilder S V) :
    List Nat :=
  (attachLoop (nfa.New : nfa.Nfa S V).Start builder.patterns nfa.New).2

/-- The fragment that `Literal` returns for a non-empty list of characters (values are
numbers), used to instantiate the theorems on fragments. -/
def literalOf (symbols : List Char) : Fragment Char Nat := { Build := literalBuild symbols }

/-- The fragment `Sequence(RepeatAtLeast(1, Literal('a')), Literal('b'))`, which matches one or
more `a` followed by `b`. -/
def loopThenB : Fragment Char Nat :=
  Sequence [{ Build := repeatAtLeastBuild 1 (literalOf ['a']) }, literalOf ['b']]

/-- The builder with the patterns `Literal('a') → 1` and `Literal('a', 'b') → 2`. -/
def twoLiterals : ScannerBuilder Char Nat :=
  (NewScannerBuilder.Add (literalOf ['a']) 1).Add (literalOf ['a', 'b']) 2

/-- The states `r1` of the reader `rd1` and `r2` of the reader `rd2` that `rel` relates answer
`ReadSymbol` with the same symbol (or both with an error), and both calls lead to related
states again: the two readers present the same input. -/
structure ReaderSim {S R1 R2 : Type} (rd1 : SymbolReader S R1) (rd2 : SymbolReader S R2)
    (rel : R1 → R2 → Prop) : Prop where
  read : ∀ r1 r2, rel r1 r2 →
    (rd1.ReadSymbol r1).1 = (rd2.ReadSymbol r2).1
      ∧ rel (rd1.ReadSymbol r1).2 (rd2.ReadSymbol r2).2
  unread : ∀ r1 r2, rel r1 r2 → rel (rd1.UnreadSymbol r1).2 (rd2.UnreadSymbol r2).2

/-- Two runs of `readN` agree: both run out of fuel, or both return the same tokens and leave
their readers in related states. -/
def SameTokens {V R1 R2 : Type} (rel : R1 → R2 → Prop) :
    Option (List V × R1) → Option (List V × R2) → Prop
  | some (t1, q1), some (t2, q2) => t1 = t2 ∧ rel q1 q2
  | none, none => True
  | _, _ => False

/-- An NFA with a labelled self-loop and an epsilon cycle: `a := Add(start, 'a')`,
`Connect(a, 'a', a)`, and an epsilon transition from `a` back to the start state. -/
def cyclicNfa : nfa.Nfa Char Nat :=
  connectEpsilon ((nfa.New : nfa.Nfa Char Nat).run nfa.loopCalls) 1 0

/-- A scanner whose DFA start state is accepting: the NFA has an accepting state with value 7
behind an epsilon transition of the start state, and an accepting state with value 8 behind a
transition on 'a'. -/
def emptyMatchScanner : Scanner Char Nat :=
  { machine := dfa.FromNfa ((nfa.New : nfa.Nfa Char Nat).run
      [nfa.Call.addAcceptingEpsilon 0 7, nfa.Call.addAccepting 0 'a' 8]),
    illegal := 100, eof := 200, currentPos := pos.New }

/-- The state of a reader with one symbol of push-back, as the `runeReader` of the tests,
whose `UnreadSymbol` is `bufio.Reader.UnreadRune`: `canUnread` holds when the last call was a
successful read. -/
structure OneBackReader (S : Type) where
  input : List S
  cursor : Nat
  canUnread : Bool
deriving DecidableEq

/-- Reads the symbol under the cursor and advances; an error at the end of the input, after
which nothing can be unread. -/
def OneBackReader.ReadSymbol {S : Type} (r : OneBackReader S) : Option S × OneBackReader S :=
  match r.input[r.cursor]? with
  | some sym => (some sym, { r with cursor := r.cursor + 1, canUnread := true })
  | none => (none, { r with canUnread := false })

/-- Steps back over the symbol just read; an error when the last call was not a successful
read, so a second `UnreadSymbol` in a row fails. -/
def OneBackReader.UnreadSymbol {S : Type} (r : OneBackReader S) : Bool × OneBackReader S :=
  if r.canUnread then (false, { r with cursor := r.cursor - 1, canUnread := false })
  else (true, r)

/-- The reader with one symbol of push-back as a `SymbolReader`. -/
def oneBackReader (S : Type) : SymbolReader S (OneBackReader S) :=
  { ReadSymbol := OneBackReader.ReadSymbol, UnreadSymbol := OneBackReader.UnreadSymbol }

/-- A scanner over the DFA of the single pattern `"abc"` (`0 --a--> 1 --b--> 2 --c--> 3`, state
3 accepting with value 1), with `illegal = 100` and `eof = 200`. -/
def abcScanner : Scanner Char Nat :=
  { machine := { states := [{ id := 0, transitions := [('a', 1)], acceptIdx := -1, value := 0 },
                            { id := 1, transitions := [('b', 2)], acceptIdx := -1, value := 0 },
                            { id := 2, transitions := [('c', 3)], acceptIdx := -1, value := 0 },
                            { id := 3, transitions := [], acceptIdx := 0, value := 1 }],
                 start := 0, nextStateID := 4 },
    illegal := 100, eof := 200, currentPos := pos.New }

/-- The `for` loop of Go `Scanner.NextToken` with the scanner that the receiver `s *Scanner`
points to carried along: each statement of the loop is translated in place, and the scanner
the loop leaves is returned with the local variables. No statement of the loop assigns to a
field of `s` or to a state of `s.machine`. -/
def Scanner.scanLoopInPlace {S V R : Type} [DecidableEq S] [Inhabited V]
    (rd : SymbolReader S R) : Nat → Scanner S V → scanVars V R →
      Option (Scanner S V × scanVars V R)
  | 0, _, _ => none
  | fuel + 1, s, vars =>
    match rd.ReadSymbol vars.rdr with
    | (none, rdr) => some (s, { vars with rdr := rdr })
    | (some symbol, rdr) =>
      let consumedSymbols := vars.consumedSymbols + 1
      match (s.machine.deref vars.currentState).OutgoingFor symbol with
      | none => some (s, { vars with rdr := rdr, consumedSymbols := consumedSymbols })
      | some nextState =>
        if (s.machine.deref nextState).IsAccepting then
          Scanner.scanLoopInPlace rd fuel s
            { currentState := nextState, consumedSymbols := consumedSymbols,
              acceptSymbolCount := consumedSymbols,
              lastAcceptVal := (s.machine.deref nextState).AcceptValue, rdr := rdr }
        else
          Scanner.scanLoopInPlace rd fuel s
            { vars with currentState := nextState, consumedSymbols := consumedSymbols,
                        rdr := rdr }

/-- Go `Scanner.NextToken` as the method on the pointer receiver that it is: the token, the
scanner that the receiver points to after the call, and the reader after the call; `none`
when `fuel` iterations of the read loop do not suffice. -/
def Scanner.NextTokenInPlace {S V R : Type} [DecidableEq S] [Inhabited V] (s : Scanner S V)
    (rd : SymbolReader S R) (fuel : Nat) (rdr : R) : Option (V × Scanner S V × R) :=
  match Scanner.scanLoopInPlace rd fuel s
      { currentState := s.machine.Start, consumedSymbols := 0, acceptSymbolCount := -1,
        lastAcceptVal := default, rdr := rdr } with
  | none => none
  | some (s1, vars) =>
    if vars.consumedSymbols = 0 then some (s1.eof, s1, vars.rdr)
    else if vars.acceptSymbolCount ≠ -1 then
      some (vars.lastAcceptVal, s1,
        unreadTimes rd (vars.consumedSymbols - vars.acceptSymbolCount).toNat vars.rdr)
    else some (s1.illegal, s1, unreadTimes rd (vars.consumedSymbols - 1).toNat vars.rdr)

/-- The tokens of `n` consecutive `NextToken` calls, each made on the scanner that the
previous call left, with the scanner and the reader after the last call. -/
def readNInPlace {S V R : Type} [DecidableEq S] [Inhabited V] (rd : SymbolReader S R)
    (fuel : Nat) : Nat → Scanner S V → R → Option (List V × Scanner S V × R)
  | 0, s, rdr => some ([], s, rdr)
  | n + 1, s, rdr =>
    match s.NextTokenInPlace rd fuel rdr with
    | none => none
    | some (token, s1, rdr1) =>
      match readNInPlace rd fuel n s1 rdr1 with
      | none => none
      | some (tokens, s2, rdr2) => some (token :: tokens, s2, rdr2)

/-- The fragment returns an exit other than its entry, and `R` collects the words that lead
from its entry back into its entry, the empty word among them. -/
def Returns {S V : Type} [DecidableEq S] [Inhabited V] (f : Fragment S V)
    (R : List S → Prop) : Prop :=
  ∀ (n : nfa.Nfa S V) (e : Nat), n.WF → e < n.states.length → Sink n e →
    (f.Build n e).2 ≠ e ∧ ∀ u, Path (f.Build n e).1 e u e ↔ R u

/-- The fragment `RepeatAtLeast(1, Literal('a'))`, a run of one or more `a`. -/
def runOfA : Fragment Char Nat := { Build := repeatAtLeastBuild 1 (literalOf ['a']) }

end scanner

/-! ## Slices in memory

The accessors of the automata return Go slices. A slice is a header that points into a backing
array, and two slices that share a backing array see each other's writes; the value-level
model above cannot express that. This section models the backing arrays as a heap and the
accessors as the allocations and copies that the Go code performs. -/

namespace memory

/-- A Go slice header: the address of its backing array and its length. -/
structure Slice where
  arr : Nat
  len : Nat
deriving DecidableEq

/-- The elements of a slice: the first `len` elements of its backing array. -/
def read {α : Type} (h : List (List α)) (s : Slice) : List α := (h.getD s.arr []).take s.len

/-- Allocation of a new backing array with the given elements (Go `make` followed by `copy` or
by `append`s within the capacity, or a composite literal); returns the heap and the slice. -/
def alloc {α : Type} (h : List (List α)) (xs : List α) : List (List α) × Slice :=
  (h ++ [xs], { arr := h.length, len := xs.length })

/-- The assignment `a[i] = v` into the backing array at address `arr`. -/
def store {α : Type} (h : List (List α)) (arr i : Nat) (v : α) : List (List α) :=
  h.modify (fun a => a.set i v) arr

/-- A sequence of assignments into one backing array. -/
def storeAll {α : Type} (h : List (List α)) (arr : Nat) (writes : List (Nat × α)) :
    List (List α) :=
  writes.foldl (fun g p => store g arr p.1 p.2) h

/-- The backing arrays of the program: those of symbol slices (`[]S`) and those of slices of
state pointers (`[]*State`). -/
structure World (S : Type) where
  syms : List (List S)
  ptrs : List (List Nat)

/-- The world after a client of the automaton assigned to elements of the symbol array at
address `arr`. -/
def World.writeSyms {S : Type} (w : World S) (arr : Nat) (writes : List (Nat × S)) : World S :=
  { w with syms := storeAll w.syms arr writes }

/-- The world after a client of the automaton assigned to elements of the pointer array at
address `arr`. -/
def World.writePtrs {S : Type} (w : World S) (arr : Nat) (writes : List (Nat × Nat)) :
    World S :=
  { w with ptrs := storeAll w.ptrs arr writes }

/-- Go `nfa.State[S, V]` with its slices as headers: `transitions` is the `data` map of the
`MvMap` (`none` for the nil pointer), `eTransitions` is `none` for the nil slice; state pointers
are addresses. -/
structure NfaState (S V : Type) where
  id : Nat
  edge : Option (nfa.edge S)
  transitions : Option (List (S × Slice))
  eTransitions : Option Slice
  acceptIdx : Int
  value : V

/-- Go `mvmap.MvMap.Get`: the slice stored under the key, the nil slice for a missing key. No
copy is made. -/
def Get {S : Type} [DecidableEq S] (data : List (S × Slice)) (k : S) : Option Slice :=
  gomap.get k data

/-- The elements of a slice that may be nil. -/
def readNilable {α : Type} (h : List (List α)) : Option Slice → List α
  | none => []
  | some s => read h s

/-- Go `nfa.State.OutgoingSymbols`: nil, a one-element literal, or the result of
`MvMap.Keys`, which fills a new array. -/
def NfaState.OutgoingSymbols {S V : Type} (st : NfaState S V) (w : World S) :
    Option Slice × World S :=
  match st.transitions with
  | none =>
    match st.edge with
    | none => (none, w)
    | some e => (some (alloc w.syms [e.sym]).2, { w with syms := (alloc w.syms [e.sym]).1 })
  | some m =>
    (some (alloc w.syms (m.map Prod.fst)).2,
      { w with syms := (alloc w.syms (m.map Prod.fst)).1 })

/-- Go `nfa.State.OutgoingFor`: nil or a one-element literal on the fast path; on the slow path
`make` and `copy` of the slice that `MvMap.Get` returns. -/
def NfaState.OutgoingFor {S V : Type} [DecidableEq S] (st : NfaState S V) (symbol : S)
    (w : World S) : Option Slice × World S :=
  match st.transitions with
  | none =>
    match st.edge with
    | some e =>
      if e.sym = symbol then
        (some (alloc w.ptrs [e.dst]).2, { w with ptrs := (alloc w.ptrs [e.dst]).1 })
      else (none, w)
    | none => (none, w)
  | some m =>
    let symbolTransitions := readNilable w.ptrs (Get m symbol)
    (some (alloc w.ptrs symbolTransitions).2,
      { w with ptrs := (alloc w.ptrs symbolTransitions).1 })

/-- Go `nfa.State.Epsilon`: nil for the nil slice, otherwise `make` and `copy`. -/
def NfaState.Epsilon {S V : Type} (st : NfaState S V) (w : World S) : Option Slice × World S :=
  match st.eTransitions with
  | none => (none, w)
  | some s =>
    (some (alloc w.ptrs (read w.ptrs s)).2, { w with ptrs := (alloc w.ptrs (read w.ptrs s)).1 })

/-- Go `dfa.State[S, V]`: it holds a map from symbols to state pointers and no slice. -/
abbrev DfaState (S V : Type) := dfa.State S V

/-- Go `dfa.State.OutgoingSymbols`: `make` and one `append` for each key of the map. -/
def DfaState.OutgoingSymbols {S V : Type} (st : DfaState S V) (w : World S) :
    Slice × World S :=
  ((alloc w.syms (st.transitions.map Prod.fst)).2,
    { w with syms := (alloc w.syms (st.transitions.map Prod.fst)).1 })

/-- What the three collection accessors of an NFA state return when called in the world `w`:
the elements of the slices returned by `OutgoingSymbols`, `OutgoingFor(symbol)` and `Epsilon`
(`none` for nil). -/
def NfaState.observe {S V : Type} [DecidableEq S] (st : NfaState S V) (w : World S)
    (symbol : S) : Option (List S) × Option (List Nat) × Option (List Nat) :=
  ((st.OutgoingSymbols w).1.map (read (st.OutgoingSymbols w).2.syms),
   (st.OutgoingFor symbol w).1.map (read (st.OutgoingFor symbol w).2.ptrs),
   (st.Epsilon w).1.map (read (st.Epsilon w).2.ptrs))

/-- What the accessors of a DFA state return when called in the world `w`: the elements of the
slice returned by `OutgoingSymbols`, and the pointer returned by `OutgoingFor(symbol)`. -/
def DfaState.observe {S V : Type} [DecidableEq S] (st : DfaState S V) (w : World S)
    (symbol : S) : List S × Option Nat :=
  (read (DfaState.OutgoingSymbols st w).2.syms (DfaState.OutgoingSymbols st w).1,
    dfa.State.OutgoingFor st symbol)

/-- The slices that an NFA state holds. -/
def NfaState.slices {S V : Type} (st : NfaState S V) : List Slice :=
  (match st.transitions with
    | none => []
    | some m => m.map Prod.snd)
  ++ (match st.eTransitions with
    | none => []
    | some s => [s])

/-- The slices of the state point to arrays of the world. -/
def NfaState.Allocated {S V : Type} (st : NfaState S V) (w : World S) : Prop :=
  ∀ s ∈ st.slices, s.arr < w.ptrs.length

instance {S V : Type} (st : NfaState S V) (w : World S) : Decidable (st.Allocated w) := by
  unfold NfaState.Allocated
  infer_instance

/-- An NFA state with the transitions `a → 1, 2` and `b → 3` in its map and epsilon
transitions to 4 and 5. -/
def demoState : NfaState Char Nat :=
  { id := 0, edge := none,
    transitions := some [('a', { arr := 0, len := 2 }), ('b', { arr := 1, len := 1 })],
    eTransitions := some { arr := 2, len := 2 }, acceptIdx := -1, value := 0 }

/-- The world of `demoState`: the arrays of its three slices. -/
def demoWorld : World Char := { syms := [], ptrs := [[1, 2], [3], [4, 5]] }

end memory

/-! ## Theorems: the NFA builder -/

namespace scanner

/-- C1 (code bug): with the three patterns `Literal('a') → 1`, `Literal('b') → 2` and
`Literal('c') → 3`, the inputs "a" and "b" give the values 1 and 2, but the input "c" gives
the illegal sentinel 100 instead of the value 3: the third labelled transition added to the
NFA start state is invisible to `OutgoingSymbols` and `OutgoingFor`, so the DFA has no
transition on 'c'. -/
theorem three_literals_third_is_illegal :
    threeLiteralScanner.bind (fun s => firstToken s ['a']) = some 1
    ∧ threeLiteralScanner.bind (fun s => firstToken s ['b']) = some 2
    ∧ threeLiteralScanner.bind (fun s => firstToken s ['c']) = some 100
    ∧ threeLiteralScanner.map (fun s => (s.machine.deref s.machine.Start).OutgoingSymbols)
        = some ['a', 'b'] := by
  decide

end scanner

namespace nfa

/-! ### The builder methods keep the heap well formed -/

theorem heap_mono {S V : Type} (states : List (State S V)) (N M : Nat) (hNM : N ≤ M)
    (h : ∀ i, i < states.length → ∀ st, states[i]? = some st →
      st.id = i ∧ ∀ r ∈ st.targets, r < N) :
    ∀ i, i < states.length → ∀ st, states[i]? = some st →
      st.id = i ∧ ∀ r ∈ st.targets, r < M := by
  intro i hi st hst
  obtain ⟨h1, h2⟩ := h i hi st hst
  exact ⟨h1, fun r hr => lt_of_lt_of_le (h2 r hr) hNM⟩

theorem heap_append {S V : Type} (states : List (State S V)) (N : Nat) (st0 : State S V)
    (hid : st0.id = states.length) (ht : ∀ r ∈ st0.targets, r < N)
    (h : ∀ i, i < states.length → ∀ st, states[i]? = some st →
      st.id = i ∧ ∀ r ∈ st.targets, r < N) :
    ∀ i, i < (states ++ [st0]).length → ∀ st, (states ++ [st0])[i]? = some st →
      st.id = i ∧ ∀ r ∈ st.targets, r < N := by
  intro i hi st hst
  by_cases hlt : i < states.length
  · rw [List.getElem?_append_left hlt] at hst
    exact h i hlt st hst
  · have hi2 : i = states.length := by simp at hi; omega
    subst hi2
    rw [List.getElem?_append_right (le_refl _)] at hst
    simp at hst
    subst hst
    exact ⟨hid, ht⟩

theorem heap_modify {S V : Type} (states : List (State S V)) (N s : Nat)
    (f : State S V → State S V)
    (hf : ∀ st, (f st).id = st.id ∧ ∀ r ∈ (f st).targets, r ∈ st.targets ∨ r < N)
    (h : ∀ i, i < states.length → ∀ st, states[i]? = some st →
      st.id = i ∧ ∀ r ∈ st.targets, r < N) :
    ∀ i, i < (states.modify f s).length → ∀ st, (states.modify f s)[i]? = some st →
      st.id = i ∧ ∀ r ∈ st.targets, r < N := by
  intro i hi st hst
  rw [List.length_modify] at hi
  rw [List.getElem?_modify, List.getElem?_eq_getElem hi] at hst
  simp only [Option.map_eq_map, Option.map_some', Option.some.injEq] at hst
  obtain ⟨h1, h2⟩ := h i hi _ (List.getElem?_eq_getElem hi)
  by_cases hs : s = i
  · rw [if_pos hs] at hst
    subst hst
    refine ⟨by rw [(hf _).1]; exact h1, ?_⟩
    intro r hr
    rcases (hf _).2 r hr with h3 | h3
    · exact h2 r h3
    · exact h3
  · rw [if_neg hs] at hst
    subst hst
    exact ⟨h1, h2⟩

theorem mem_putData_values {K W : Type} [DecidableEq K] (k : K) (v : W)
    (data : List (K × List W)) (x : W) (hx : x ∈ (mvmap.putData k v data).flatMap Prod.snd) :
    x ∈ data.flatMap Prod.snd ∨ x = v := by
  induction data with
  | nil => right; simpa [mvmap.putData] using hx
  | cons p rest ih =>
    obtain ⟨k0, vs⟩ := p
    rw [mvmap.putData] at hx
    by_cases hk : k0 = k
    · rw [if_pos hk] at hx
      simp only [List.flatMap_cons, List.mem_append] at hx ⊢
      rcases hx with (h | h) | h
      · exact Or.inl (Or.inl h)
      · right; simpa using h
      · exact Or.inl (Or.inr h)
    · rw [if_neg hk] at hx
      simp only [List.flatMap_cons, List.mem_append] at hx ⊢
      rcases hx with h | h
      · exact Or.inl (Or.inl h)
      · rcases ih h with h2 | h2
        · exact Or.inl (Or.inr h2)
        · exact Or.inr h2

theorem targets_put {S V : Type} [DecidableEq S] (st : State S V) (sym : S) (dst r : Nat)
    (hr : r ∈ (st.put sym dst).targets) : r ∈ st.targets ∨ r = dst := by
  unfold State.put at hr
  unfold State.targets at hr ⊢
  cases he : st.edge with
  | none =>
    rw [he] at hr
    simp only [List.mem_append] at hr ⊢
    rcases hr with (h | h) | h
    · right; simpa using h
    · exact Or.inl (Or.inl (Or.inr h))
    · exact Or.inl (Or.inr h)
  | some e =>
    rw [he] at hr
    simp only [List.mem_append, mvmap.MvMap.Put] at hr ⊢
    rcases hr with (h | h) | h
    · simp at h
    · rcases mem_putData_values _ _ _ _ h with h2 | h2
      · rcases mem_putData_values _ _ _ _ h2 with h3 | h3
        · cases ht : st.transitions with
          | none => rw [ht] at h3; simp [mvmap.New] at h3
          | some m =>
            rw [ht] at h3
            exact Or.inl (Or.inl (Or.inr h3))
        · left; left; left; simp [h3]
      · exact Or.inr h2
    · exact Or.inl (Or.inr h)

theorem put_id {S V : Type} [DecidableEq S] (st : State S V) (sym : S) (dst : Nat) :
    (st.put sym dst).id = st.id := by
  unfold State.put
  split <;> rfl

theorem WF_New {S V : Type} [Inhabited V] : (New : Nfa S V).WF := by
  refine ⟨by simp [New], rfl, ?_⟩
  intro i hi st hst
  have hi0 : i = 0 := by simp [New] at hi; omega
  subst hi0
  simp [New] at hst
  subst hst
  exact ⟨rfl, by simp [State.targets, State.blank]⟩

theorem WF_update {S V : Type} (n : Nfa S V) (hwf : n.WF) (s : Nat)
    (f : State S V → State S V)
    (hf : ∀ st, (f st).id = st.id ∧ ∀ r ∈ (f st).targets, r ∈ st.targets ∨ r < n.states.length) :
    (n.update s f).WF := by
  obtain ⟨h1, h2, h3⟩ := hwf
  unfold Nfa.update
  refine ⟨by simpa [List.length_modify] using h1, by simpa [List.length_modify] using h2, ?_⟩
  simp only [List.length_modify]
  have := heap_modify n.states n.states.length s f hf h3
  simpa [List.length_modify] using this

theorem WF_newState {S V : Type} [Inhabited V] (n : Nfa S V) (hwf : n.WF) :
    n.newState.1.WF ∧ n.newState.2 = n.states.length
      ∧ n.newState.1.states.length = n.states.length + 1 := by
  obtain ⟨h1, h2, h3⟩ := hwf
  refine ⟨⟨?_, ?_, ?_⟩, rfl, by simp [Nfa.newState]⟩
  · simp only [Nfa.newState, List.length_append, List.length_singleton]; omega
  · simp only [Nfa.newState, List.length_append, List.length_singleton]; omega
  · simp only [Nfa.newState]
    have := heap_append n.states (n.states.length + 1) (State.blank n.nextStateID)
      (by rw [← h2]; rfl) (by simp [State.targets, State.blank])
      (heap_mono n.states _ _ (Nat.le_succ _) h3)
    simpa using this

theorem WF_newAcceptingState {S V : Type} [Inhabited V] (n : Nfa S V) (hwf : n.WF) (value : V) :
    (n.newAcceptingState value).1.WF ∧ (n.newAcceptingState value).2 = n.states.length
      ∧ (n.newAcceptingState value).1.states.length = n.states.length + 1 := by
  obtain ⟨k1, k2, k3⟩ := WF_newState n hwf
  have hw : (n.newAcceptingState value).1.WF := by
    unfold Nfa.newAcceptingState Nfa.markAccepting
    simp only
    have := WF_update
      ({ n.newState.1 with nextAcceptIndex := n.nextAcceptIndex + 1 } : Nfa S V)
      ⟨k1.1, k1.2.1, k1.2.2⟩ n.states.length
      (fun st => { st with acceptIdx := (n.nextAcceptIndex : Int), value := value })
      (fun st => ⟨rfl, fun r hr => Or.inl hr⟩)
    exact this
  refine ⟨hw, rfl, ?_⟩
  unfold Nfa.newAcceptingState Nfa.markAccepting Nfa.update
  simp [List.length_modify]

theorem WF_Add {S V : Type} [DecidableEq S] [Inhabited V] (n : Nfa S V) (hwf : n.WF) (s : Nat)
    (sym : S) : (n.Add s sym).1.WF ∧ (n.Add s sym).2 = n.states.length := by
  obtain ⟨k1, k2, k3⟩ := WF_newState n hwf
  refine ⟨?_, rfl⟩
  unfold Nfa.Add
  exact WF_update _ k1 s _ (fun st => ⟨put_id st sym _, fun r hr => by
    rcases targets_put st sym _ r hr with h | h
    · exact Or.inl h
    · right; rw [k3, h, k2]; omega⟩)

theorem WF_AddAccepting {S V : Type} [DecidableEq S] [Inhabited V] (n : Nfa S V) (hwf : n.WF)
    (s : Nat) (sym : S) (value : V) :
    (n.AddAccepting s sym value).1.WF ∧ (n.AddAccepting s sym value).2 = n.states.length := by
  obtain ⟨k1, k2, k3⟩ := WF_newAcceptingState n hwf value
  refine ⟨?_, rfl⟩
  unfold Nfa.AddAccepting
  exact WF_update _ k1 s _ (fun st => ⟨put_id st sym _, fun r hr => by
    rcases targets_put st sym _ r hr with h | h
    · exact Or.inl h
    · right; rw [k3, h, k2]; omega⟩)

theorem targets_append_epsilon {S V : Type} (st : State S V) (t r : Nat)
    (hr : r ∈ ({ st with eTransitions := st.eTransitions ++ [t] } : State S V).targets) :
    r ∈ st.targets ∨ r = t := by
  unfold State.targets at hr ⊢
  simp only [List.mem_append] at hr ⊢
  rcases hr with (h | h) | (h | h)
  · exact Or.inl (Or.inl (Or.inl h))
  · exact Or.inl (Or.inl (Or.inr h))
  · exact Or.inl (Or.inr h)
  · right; simpa using h

theorem WF_AddEpsilonTransition {S V : Type} [Inhabited V] (n : Nfa S V) (hwf : n.WF)
    (s : Nat) :
    (n.AddEpsilonTransition s).1.WF ∧ (n.AddEpsilonTransition s).2 = n.states.length := by
  obtain ⟨k1, k2, k3⟩ := WF_newState n hwf
  refine ⟨?_, rfl⟩
  unfold Nfa.AddEpsilonTransition
  exact WF_update _ k1 s _ (fun st => ⟨rfl, fun r hr => by
    rcases targets_append_epsilon st _ r hr with h | h
    · exact Or.inl h
    · right; rw [k3, h, k2]; omega⟩)

theorem WF_AddAcceptingEpsilonTransition {S V : Type} [Inhabited V] (n : Nfa S V)
    (hwf : n.WF) (s : Nat) (value : V) :
    (n.AddAcceptingEpsilonTransition s value).1.WF
      ∧ (n.AddAcceptingEpsilonTransition s value).2 = n.states.length := by
  obtain ⟨k1, k2, k3⟩ := WF_newAcceptingState n hwf value
  refine ⟨?_, rfl⟩
  unfold Nfa.AddAcceptingEpsilonTransition
  exact WF_update _ k1 s _ (fun st => ⟨rfl, fun r hr => by
    rcases targets_append_epsilon st _ r hr with h | h
    · exact Or.inl h
    · right; rw [k3, h, k2]; omega⟩)

theorem WF_Connect {S V : Type} [DecidableEq S] (n : Nfa S V) (hwf : n.WF) (src dst : Nat)
    (sym : S) (hdst : dst < n.states.length) : (n.Connect src sym dst).WF := by
  unfold Nfa.Connect
  exact WF_update n hwf src _ (fun st => ⟨put_id st sym _, fun r hr => by
    rcases targets_put st sym _ r hr with h | h
    · exact Or.inl h
    · right; omega⟩)

/-- C3 (code bug): after `Add(start, 'a')`, `Add(start, 'b')` and `t = Add(start, 'c')` the
state `t` (address 3) is not a member of `start.OutgoingFor('c')`, which is the empty slice:
`put` stored the third transition in the inline edge although the map is already in use. -/
theorem third_Add_missing_from_OutgoingFor :
    threeAdds.2 = 3
    ∧ (threeAdds.1.deref threeAdds.1.Start).OutgoingFor 'c' = some []
    ∧ (threeAdds.1.deref threeAdds.1.Start).OutgoingFor 'a' = some [1]
    ∧ (threeAdds.1.deref threeAdds.1.Start).OutgoingFor 'b' = some [2]
    ∧ (threeAdds.1.deref threeAdds.1.Start).edge = some { sym := 'c', dst := 3 } := by
  decide

/-- C4 (code bug): after `Add(start, 'a')`, `Add(start, 'b')` and `Add(start, 'c')` the start
state has a transition added on 'c', but `OutgoingSymbols()` is `['a', 'b']` and does not
contain 'c'. -/
theorem third_Add_missing_from_OutgoingSymbols :
    (threeAdds.1.deref threeAdds.1.Start).OutgoingSymbols = some ['a', 'b']
    ∧ 'c' ∉ ((threeAdds.1.deref threeAdds.1.Start).OutgoingSymbols).getD [] := by
  decide

end nfa

/-! ## Theorems: the subset construction -/

namespace dfa

/-! ### Epsilon closure -/

theorem epsilonOf_eq {S V : Type} [Inhabited V] (n : nfa.Nfa S V) (q : Nat) :
    epsilonOf n q = (n.deref q).eTransitions := by
  unfold epsilonOf nfa.State.Epsilon
  cases (n.deref q).eTransitions <;> rfl

theorem deref_out_of_range {S V : Type} [Inhabited V] (n : nfa.Nfa S V) (q : Nat)
    (h : n.states.length ≤ q) : n.deref q = nfa.State.blank 0 := by
  unfold nfa.Nfa.deref
  rw [List.getD_eq_default _ _ h]
  rfl

theorem epsilonOf_out_of_range {S V : Type} [Inhabited V] (n : nfa.Nfa S V) (q : Nat)
    (h : n.states.length ≤ q) : epsilonOf n q = [] := by
  rw [epsilonOf_eq, deref_out_of_range n q h]; rfl

theorem outgoingOf_out_of_range {S V : Type} [DecidableEq S] [Inhabited V] (n : nfa.Nfa S V)
    (q : Nat) (sym : S) (h : n.states.length ≤ q) : outgoingOf n q sym = [] := by
  unfold outgoingOf
  rw [deref_out_of_range n q h]; rfl

theorem epsilonClosureLoop_sound {S V : Type} [Inhabited V] (n : nfa.Nfa S V) :
    ∀ (fuel : Nat) (work closure : List Nat) (q : Nat),
      q ∈ epsilonClosureLoop n fuel work closure →
      q ∈ closure ∨ ∃ t ∈ work, EpsStar n t q := by
  intro fuel
  induction fuel with
  | zero => intro work closure q h; left; simpa [epsilonClosureLoop] using h
  | succ fuel ih =>
    intro work closure q h
    cases work with
    | nil => left; simpa [epsilonClosureLoop] using h
    | cons t rest =>
      rw [epsilonClosureLoop] at h
      by_cases ht : t ∈ closure
      · rw [if_pos ht] at h
        rcases ih rest closure q h with h1 | ⟨u, hu, hq⟩
        · exact Or.inl h1
        · exact Or.inr ⟨u, List.mem_cons_of_mem _ hu, hq⟩
      · rw [if_neg ht] at h
        rcases ih _ _ q h with h1 | ⟨u, hu, hq⟩
        · rcases List.mem_append.1 h1 with h2 | h2
          · exact Or.inl h2
          · have : q = t := by simpa using h2
            subst this
            exact Or.inr ⟨q, List.mem_cons_self _ _, Relation.ReflTransGen.refl⟩
        · rcases List.mem_append.1 hu with h2 | h2
          · exact Or.inr ⟨u, List.mem_cons_of_mem _ h2, hq⟩
          · exact Or.inr ⟨t, List.mem_cons_self _ _, Relation.ReflTransGen.head h2 hq⟩

theorem pendingWeight_nil (wt : Nat → Nat) (closure : List Nat) :
    pendingWeight wt [] closure = 0 := rfl

theorem pendingWeight_cons (wt : Nat → Nat) (x : Nat) (rest closure : List Nat) :
    pendingWeight wt (x :: rest) closure
      = (if x ∈ closure then 0 else wt x) + pendingWeight wt rest closure := by
  unfold pendingWeight
  by_cases hx : x ∈ closure
  · simp [List.filter_cons, hx]
  · simp [List.filter_cons, hx]

theorem pendingWeight_add_not_mem (wt : Nat → Nat) (L closure : List Nat) (q : Nat)
    (hq : q ∉ L) : pendingWeight wt L (closure ++ [q]) = pendingWeight wt L closure := by
  induction L with
  | nil => rfl
  | cons x rest ih =>
    have hx : x ≠ q := fun h => hq (by simp [h])
    have hr : q ∉ rest := fun h => hq (List.mem_cons_of_mem _ h)
    rw [pendingWeight_cons, pendingWeight_cons, ih hr]
    by_cases hxc : x ∈ closure
    · simp [hxc]
    · simp [hxc, hx]

theorem pendingWeight_add_mem (wt : Nat → Nat) (L closure : List Nat) (q : Nat)
    (hL : L.Nodup) (hq : q ∈ L) (hc : q ∉ closure) :
    pendingWeight wt L (closure ++ [q]) + wt q = pendingWeight wt L closure := by
  induction L with
  | nil => simp at hq
  | cons x rest ih =>
    have hnd := List.nodup_cons.1 hL
    rw [pendingWeight_cons, pendingWeight_cons]
    by_cases hx : x = q
    · subst hx
      rw [pendingWeight_add_not_mem wt rest closure x hnd.1]
      simp [hc]
      omega
    · have hq2 : q ∈ rest := by
        rcases List.mem_cons.1 hq with h | h
        · exact absurd h.symm hx
        · exact h
      have h1 := ih hnd.2 hq2
      by_cases hxc : x ∈ closure
      · simp [hxc]; omega
      · simp [hxc, hx]; omega

theorem epsilonClosureLoop_complete {S V : Type} [Inhabited V] (n : nfa.Nfa S V) :
    ∀ (fuel : Nat) (work closure : List Nat),
      closureMeasure n work closure < fuel →
      (∀ c ∈ closure, ∀ r ∈ epsilonOf n c, r ∈ closure ∨ r ∈ work) →
      (∀ c ∈ closure, c ∈ epsilonClosureLoop n fuel work closure)
      ∧ (∀ t ∈ work, t ∈ epsilonClosureLoop n fuel work closure)
      ∧ (∀ c ∈ epsilonClosureLoop n fuel work closure, ∀ r ∈ epsilonOf n c,
          r ∈ epsilonClosureLoop n fuel work closure) := by
  intro fuel
  induction fuel with
  | zero => intro work closure h; omega
  | succ fuel ih =>
    intro work closure hm hinv
    cases work with
    | nil =>
      simp only [epsilonClosureLoop]
      refine ⟨fun c hc => hc, fun t ht => by simp at ht, ?_⟩
      intro c hc r hr
      rcases hinv c hc r hr with h | h
      · exact h
      · simp at h
    | cons t rest =>
      rw [epsilonClosureLoop]
      by_cases ht : t ∈ closure
      · rw [if_pos ht]
        have hm2 : closureMeasure n rest closure < fuel := by
          unfold closureMeasure at hm ⊢; simp at hm; omega
        have hinv2 : ∀ c ∈ closure, ∀ r ∈ epsilonOf n c, r ∈ closure ∨ r ∈ rest := by
          intro c hc r hr
          rcases hinv c hc r hr with h | h
          · exact Or.inl h
          · rcases List.mem_cons.1 h with h | h
            · exact Or.inl (h ▸ ht)
            · exact Or.inr h
        obtain ⟨h1, h2, h3⟩ := ih rest closure hm2 hinv2
        refine ⟨h1, ?_, h3⟩
        intro u hu
        rcases List.mem_cons.1 hu with h | h
        · exact h ▸ h1 t ht
        · exact h2 u h
      · rw [if_neg ht]
        have hm2 : closureMeasure n (rest ++ epsilonOf n t) (closure ++ [t]) < fuel := by
          unfold closureMeasure at hm ⊢
          by_cases hlt : t < n.states.length
          · have := pendingWeight_add_mem (fun q => (epsilonOf n q).length + 1)
              (List.range n.states.length) closure t (List.nodup_range _)
              (List.mem_range.2 hlt) ht
            simp only [List.length_cons, List.length_append] at hm ⊢
            simp only [] at this
            omega
          · have := pendingWeight_add_not_mem (fun q => (epsilonOf n q).length + 1)
              (List.range n.states.length) closure t (by simpa using hlt)
            have he := epsilonOf_out_of_range n t (by omega)
            simp [he] at hm ⊢; omega
        have hinv2 : ∀ c ∈ closure ++ [t], ∀ r ∈ epsilonOf n c,
            r ∈ closure ++ [t] ∨ r ∈ rest ++ epsilonOf n t := by
          intro c hc r hr
          rcases List.mem_append.1 hc with h | h
          · rcases hinv c h r hr with h2 | h2
            · exact Or.inl (List.mem_append_left _ h2)
            · rcases List.mem_cons.1 h2 with h3 | h3
              · exact Or.inl (by simp [h3])
              · exact Or.inr (List.mem_append_left _ h3)
          · have : c = t := by simpa using h
            subst this
            exact Or.inr (List.mem_append_right _ hr)
        obtain ⟨h1, h2, h3⟩ := ih _ _ hm2 hinv2
        refine ⟨fun c hc => h1 c (List.mem_append_left _ hc), ?_, h3⟩
        intro u hu
        rcases List.mem_cons.1 hu with h | h
        · exact h ▸ h1 t (by simp)
        · exact h2 u (List.mem_append_left _ h)

theorem mem_epsilonClosure {S V : Type} [Inhabited V] (n : nfa.Nfa S V) (T : List Nat)
    (q : Nat) : q ∈ epsilonClosure n T ↔ ∃ t ∈ T, EpsStar n t q := by
  have hm : closureMeasure n T [] < epsilonClosureFuel n T := by
    unfold closureMeasure epsilonClosureFuel pendingWeight
    simp
  obtain ⟨-, h2, h3⟩ := epsilonClosureLoop_complete n (epsilonClosureFuel n T) T [] hm
    (by intro c hc; simp at hc)
  constructor
  · intro h
    rcases epsilonClosureLoop_sound n _ _ _ q h with h1 | h1
    · simp at h1
    · exact h1
  · rintro ⟨t, ht, hq⟩
    induction hq with
    | refl => exact h2 t ht
    | tail _ hbc ih => exact h3 _ ih _ hbc

/-! ### Well-formed heaps -/

theorem deref_in_range {S V : Type} [Inhabited V] (n : nfa.Nfa S V) (q : Nat)
    (h : q < n.states.length) : n.states[q]? = some (n.deref q) := by
  unfold nfa.Nfa.deref
  rw [List.getD_eq_getElem?_getD, List.getElem?_eq_getElem h]
  rfl

theorem wf_id {S V : Type} [Inhabited V] (n : nfa.Nfa S V) (hwf : n.WF) (q : Nat)
    (h : q < n.states.length) : (n.deref q).ID = q :=
  (hwf.2.2 q h _ (deref_in_range n q h)).1

theorem wf_epsilonOf {S V : Type} [Inhabited V] (n : nfa.Nfa S V) (hwf : n.WF) (q r : Nat)
    (hr : r ∈ epsilonOf n q) : r < n.states.length := by
  by_cases h : q < n.states.length
  · refine (hwf.2.2 q h _ (deref_in_range n q h)).2 r ?_
    rw [epsilonOf_eq] at hr
    unfold nfa.State.targets
    exact List.mem_append_right _ hr
  · rw [epsilonOf_out_of_range n q (by omega)] at hr
    simp at hr

theorem getData_subset {K W : Type} [DecidableEq K] (k : K) (data : List (K × List W)) (x : W)
    (hx : x ∈ mvmap.getData k data) : x ∈ data.flatMap Prod.snd := by
  induction data with
  | nil => simp [mvmap.getData] at hx
  | cons p rest ih =>
    obtain ⟨k0, vs⟩ := p
    rw [mvmap.getData] at hx
    by_cases hk : k0 = k
    · rw [if_pos hk] at hx
      simp [hx]
    · rw [if_neg hk] at hx
      simp [ih hx]

theorem wf_outgoingOf {S V : Type} [DecidableEq S] [Inhabited V] (n : nfa.Nfa S V)
    (hwf : n.WF) (q r : Nat) (sym : S) (hr : r ∈ outgoingOf n q sym) :
    r < n.states.length := by
  by_cases h : q < n.states.length
  · refine (hwf.2.2 q h _ (deref_in_range n q h)).2 r ?_
    unfold outgoingOf nfa.State.OutgoingFor at hr
    unfold nfa.State.targets
    cases ht : (n.deref q).transitions with
    | none =>
      rw [ht] at hr
      cases he : (n.deref q).edge with
      | none => rw [he] at hr; simp at hr
      | some e =>
        rw [he] at hr
        simp only at hr
        by_cases hs : e.sym = sym
        · rw [if_pos hs] at hr
          simp at hr
          simp [hr]
        · rw [if_neg hs] at hr
          simp at hr
    | some m =>
      rw [ht] at hr
      simp only [Option.getD_some, mvmap.MvMap.Get] at hr
      have := getData_subset sym m.data r hr
      simp only [List.mem_append]
      exact Or.inl (Or.inr this)
  · rw [outgoingOf_out_of_range n q sym (by omega)] at hr
    simp at hr

theorem epsStar_valid {S V : Type} [Inhabited V] (n : nfa.Nfa S V) (hwf : n.WF) (t q : Nat)
    (ht : t < n.states.length) (h : EpsStar n t q) : q < n.states.length := by
  induction h with
  | refl => exact ht
  | tail _ hbc _ => exact wf_epsilonOf n hwf _ _ hbc

theorem epsilonClosure_valid {S V : Type} [Inhabited V] (n : nfa.Nfa S V) (hwf : n.WF)
    (T : List Nat) (hT : Valid n T) : Valid n (epsilonClosure n T) := by
  intro q hq
  obtain ⟨t, ht, h⟩ := (mem_epsilonClosure n T q).1 hq
  exact epsStar_valid n hwf t q (hT t ht) h

theorem mem_move {S V : Type} [DecidableEq S] [Inhabited V] (n : nfa.Nfa S V) (T : List Nat)
    (sym : S) (r : Nat) : r ∈ move n T sym ↔ ∃ q ∈ T, r ∈ outgoingOf n q sym := by
  unfold move
  exact List.mem_flatMap

theorem move_valid {S V : Type} [DecidableEq S] [Inhabited V] (n : nfa.Nfa S V) (hwf : n.WF)
    (T : List Nat) (sym : S) : Valid n (move n T sym) := by
  intro r hr
  obtain ⟨q, -, h⟩ := (mem_move n T sym r).1 hr
  exact wf_outgoingOf n hwf q r sym h

theorem stepSet_valid {S V : Type} [DecidableEq S] [Inhabited V] (n : nfa.Nfa S V)
    (hwf : n.WF) (T : List Nat) (sym : S) : Valid n (stepSet n T sym) :=
  epsilonClosure_valid n hwf _ (move_valid n hwf T sym)

theorem mem_stepSet {S V : Type} [DecidableEq S] [Inhabited V] (n : nfa.Nfa S V) (T : List Nat)
    (sym : S) (r : Nat) :
    r ∈ stepSet n T sym ↔ ∃ q ∈ T, ∃ t ∈ outgoingOf n q sym, EpsStar n t r := by
  unfold stepSet
  rw [mem_epsilonClosure]
  constructor
  · rintro ⟨t, ht, h⟩
    obtain ⟨q, hq, hqt⟩ := (mem_move n T sym t).1 ht
    exact ⟨q, hq, t, hqt, h⟩
  · rintro ⟨q, hq, t, hqt, h⟩
    exact ⟨t, (mem_move n T sym t).2 ⟨q, hq, hqt⟩, h⟩

theorem stepSet_congr {S V : Type} [DecidableEq S] [Inhabited V] (n : nfa.Nfa S V)
    (A B : List Nat) (sym : S) (h : ∀ x, x ∈ A ↔ x ∈ B) (r : Nat) :
    r ∈ stepSet n A sym ↔ r ∈ stepSet n B sym := by
  rw [mem_stepSet, mem_stepSet]
  constructor
  · rintro ⟨q, hq, rest⟩; exact ⟨q, (h q).1 hq, rest⟩
  · rintro ⟨q, hq, rest⟩; exact ⟨q, (h q).2 hq, rest⟩

theorem runSet_nil {S V : Type} [DecidableEq S] [Inhabited V] (n : nfa.Nfa S V) :
    runSet n [] = epsilonClosure n [n.Start] := rfl

theorem runSet_append {S V : Type} [DecidableEq S] [Inhabited V] (n : nfa.Nfa S V)
    (w : List S) (sym : S) : runSet n (w ++ [sym]) = stepSet n (runSet n w) sym := by
  unfold runSet stepSet
  rw [List.foldl_append]
  rfl

theorem reach_epsStar {S V : Type} [DecidableEq S] [Inhabited V] (n : nfa.Nfa S V)
    (w : List S) (q r : Nat) (hq : Reach n w q) (h : EpsStar n q r) : Reach n w r := by
  induction h with
  | refl => exact hq
  | tail _ hbc ih => exact Reach.epsilon ih hbc

theorem mem_runSet {S V : Type} [DecidableEq S] [Inhabited V] (n : nfa.Nfa S V)
    (w : List S) : ∀ q, q ∈ runSet n w ↔ Reach n w q := by
  induction w using List.reverseRecOn with
  | nil =>
    intro q
    rw [runSet_nil, mem_epsilonClosure]
    constructor
    · rintro ⟨t, ht, h⟩
      have : t = n.Start := by simpa using ht
      subst this
      exact reach_epsStar n [] _ q Reach.start h
    · intro h
      refine ⟨n.Start, by simp, ?_⟩
      generalize hw : ([] : List S) = w0 at h
      induction h with
      | start => exact Relation.ReflTransGen.refl
      | epsilon _ hr ih => exact Relation.ReflTransGen.tail (ih hw) hr
      | symbol _ _ _ => simp at hw
  | append_singleton w sym ih =>
    intro q
    rw [runSet_append, mem_stepSet]
    constructor
    · rintro ⟨p, hp, t, ht, h⟩
      exact reach_epsStar n _ t q (Reach.symbol ((ih p).1 hp) ht) h
    · intro h
      generalize hw : w ++ [sym] = w0 at h
      induction h with
      | start => simp at hw
      | epsilon _ hr ih2 =>
        obtain ⟨p, hp, t, ht, h2⟩ := ih2 hw
        exact ⟨p, hp, t, ht, Relation.ReflTransGen.tail h2 hr⟩
      | symbol hq hr _ =>
        obtain ⟨h1, h2⟩ := List.append_inj' hw rfl
        have h3 := List.singleton_inj.1 h2
        subst h1
        subst h3
        exact ⟨_, (ih _).2 hq, _, hr, Relation.ReflTransGen.refl⟩

/-! ### Subset keys -/

theorem subsetKey_eq {S V : Type} [Inhabited V] (n : nfa.Nfa S V) (hwf : n.WF) (T : List Nat)
    (hT : Valid n T) : subsetKey n T = List.insertionSort (fun a b => a ≤ b) T.dedup := by
  unfold subsetKey
  have : T.map (fun q => (n.deref q).ID) = T := by
    conv_rhs => rw [← List.map_id T]
    apply List.map_congr_left
    intro q hq
    exact wf_id n hwf q (hT q hq)
  rw [this]

theorem mem_subsetKey {S V : Type} [Inhabited V] (n : nfa.Nfa S V) (hwf : n.WF) (T : List Nat)
    (hT : Valid n T) (x : Nat) : x ∈ subsetKey n T ↔ x ∈ T := by
  rw [subsetKey_eq n hwf T hT, (List.perm_insertionSort _ _).mem_iff, List.mem_dedup]

theorem subsetKey_valid {S V : Type} [Inhabited V] (n : nfa.Nfa S V) (hwf : n.WF) (T : List Nat)
    (hT : Valid n T) : Valid n (subsetKey n T) :=
  fun q hq => hT q ((mem_subsetKey n hwf T hT q).1 hq)

theorem subsetKey_congr {S V : Type} [Inhabited V] (n : nfa.Nfa S V) (hwf : n.WF)
    (A B : List Nat) (hA : Valid n A) (hB : Valid n B) (h : ∀ x, x ∈ A ↔ x ∈ B) :
    subsetKey n A = subsetKey n B := by
  rw [subsetKey_eq n hwf A hA, subsetKey_eq n hwf B hB]
  apply List.eq_of_perm_of_sorted (r := fun a b : Nat => a ≤ b)
  · refine ((List.perm_insertionSort _ _).trans ?_).trans (List.perm_insertionSort _ _).symm
    rw [List.perm_ext_iff_of_nodup (List.nodup_dedup A) (List.nodup_dedup B)]
    intro x
    rw [List.mem_dedup, List.mem_dedup]
    exact h x
  · exact List.sorted_insertionSort _ _
  · exact List.sorted_insertionSort _ _

theorem subsetKey_inj {S V : Type} [Inhabited V] (n : nfa.Nfa S V) (hwf : n.WF)
    (A B : List Nat) (hA : Valid n A) (hB : Valid n B) (h : subsetKey n A = subsetKey n B)
    (x : Nat) : x ∈ A ↔ x ∈ B := by
  rw [← mem_subsetKey n hwf A hA, ← mem_subsetKey n hwf B hB, h]

theorem subsetKey_idem {S V : Type} [Inhabited V] (n : nfa.Nfa S V) (hwf : n.WF) (T : List Nat)
    (hT : Valid n T) : subsetKey n (subsetKey n T) = subsetKey n T :=
  subsetKey_congr n hwf _ _ (subsetKey_valid n hwf T hT) hT (mem_subsetKey n hwf T hT)

theorem subsetKey_eq_nil {S V : Type} [Inhabited V] (n : nfa.Nfa S V) (hwf : n.WF)
    (T : List Nat) (hT : Valid n T) : subsetKey n T = [] ↔ T = [] := by
  constructor
  · intro h
    apply List.eq_nil_iff_forall_not_mem.2
    intro x hx
    have := (mem_subsetKey n hwf T hT x).2 hx
    rw [h] at this
    simp at this
  · intro h
    subst h
    rfl

theorem subsetKey_mem_sublists {S V : Type} [Inhabited V] (n : nfa.Nfa S V) (hwf : n.WF)
    (T : List Nat) (hT : Valid n T) :
    subsetKey n T ∈ (List.range n.states.length).sublists := by
  rw [List.mem_sublists]
  apply List.sublist_of_subperm_of_sorted (r := fun a b : Nat => a ≤ b)
  · apply List.subperm_of_subset
    · rw [subsetKey_eq n hwf T hT]
      exact (List.perm_insertionSort _ _).nodup_iff.2 (List.nodup_dedup T)
    · intro x hx
      exact List.mem_range.2 (subsetKey_valid n hwf T hT x hx)
  · rw [subsetKey_eq n hwf T hT]
    exact List.sorted_insertionSort _ _
  · exact (List.pairwise_lt_range _).imp (fun h => Nat.le_of_lt h)

end dfa

/-! ### Go maps -/

namespace gomap

theorem get_set_self {K W : Type} [DecidableEq K] (k : K) (v : W) (m : List (K × W)) :
    get k (set k v m) = some v := by
  induction m with
  | nil => simp [set, get]
  | cons p rest ih =>
    obtain ⟨k0, v0⟩ := p
    by_cases h : k0 = k
    · simp [set, get, h]
    · simp [set, get, h, ih]

theorem get_set_ne {K W : Type} [DecidableEq K] (k k2 : K) (v : W) (m : List (K × W))
    (hne : k ≠ k2) : get k2 (set k v m) = get k2 m := by
  induction m with
  | nil => simp [set, get, hne]
  | cons p rest ih =>
    obtain ⟨k0, v0⟩ := p
    by_cases h : k0 = k
    · subst h
      simp [set, get, hne]
    · by_cases h2 : k0 = k2
      · subst h2
        simp [set, get, h]
      · simp [set, get, h, h2, ih]

theorem get_eq_none_iff {K W : Type} [DecidableEq K] (k : K) (m : List (K × W)) :
    get k m = none ↔ k ∉ m.map Prod.fst := by
  induction m with
  | nil => simp [get]
  | cons p rest ih =>
    obtain ⟨k0, v0⟩ := p
    by_cases h : k0 = k
    · simp [get, h]
    · have h3 : ¬ k = k0 := fun hk => h hk.symm
      simp only [get, h, if_false, ih, List.map_cons, List.mem_cons, h3, false_or]

theorem set_of_get_none {K W : Type} [DecidableEq K] (k : K) (v : W) (m : List (K × W))
    (h : get k m = none) : set k v m = m ++ [(k, v)] := by
  induction m with
  | nil => rfl
  | cons p rest ih =>
    obtain ⟨k0, v0⟩ := p
    by_cases h2 : k0 = k
    · simp [get, h2] at h
    · simp only [get, h2, if_false] at h
      simp [set, h2, ih h]

theorem get_set_ne_none {K W : Type} [DecidableEq K] (k k2 : K) (v : W) (m : List (K × W))
    (h : get k2 m ≠ none) : get k2 (set k v m) ≠ none := by
  by_cases hk : k = k2
  · subst hk; rw [get_set_self]; simp
  · rw [get_set_ne k k2 v m hk]; exact h

end gomap

namespace dfa

/-! ### Acceptance of a subset -/

theorem pickAccepting_foldl {S V : Type} [Inhabited V] (n : nfa.Nfa S V) :
    ∀ (U seen : List Nat) (best : Option Nat),
      (match best with
        | none => ∀ q ∈ seen, (n.deref q).IsAccepting = false
        | some b => b ∈ seen ∧ (n.deref b).IsAccepting = true
            ∧ ∀ p ∈ seen, (n.deref p).IsAccepting = true →
                (n.deref b).AcceptIdx ≤ (n.deref p).AcceptIdx) →
      (match U.foldl (pickStep n) best with
        | none => ∀ q ∈ seen ++ U, (n.deref q).IsAccepting = false
        | some b => b ∈ seen ++ U ∧ (n.deref b).IsAccepting = true
            ∧ ∀ p ∈ seen ++ U, (n.deref p).IsAccepting = true →
                (n.deref b).AcceptIdx ≤ (n.deref p).AcceptIdx) := by
  intro U
  induction U with
  | nil => intro seen best h; simpa using h
  | cons u rest ih =>
    intro seen best h
    have key := ih (seen ++ [u]) (pickStep n best u) (by
      unfold pickStep
      by_cases hu : (n.deref u).IsAccepting = true
      · rw [if_pos hu]
        cases best with
        | none =>
          simp only at h ⊢
          refine ⟨by simp, hu, ?_⟩
          intro p hp hpa
          rcases List.mem_append.1 hp with h1 | h1
          · rw [h p h1] at hpa; exact absurd hpa (by simp)
          · have : p = u := by simpa using h1
            rw [this]
        | some b =>
          simp only at h ⊢
          obtain ⟨h1, h2, h3⟩ := h
          by_cases hlt : (n.deref u).AcceptIdx < (n.deref b).AcceptIdx
          · rw [if_pos hlt]
            refine ⟨by simp, hu, ?_⟩
            intro p hp hpa
            rcases List.mem_append.1 hp with h4 | h4
            · exact le_trans (le_of_lt hlt) (h3 p h4 hpa)
            · have : p = u := by simpa using h4
              rw [this]
          · rw [if_neg hlt]
            refine ⟨List.mem_append_left _ h1, h2, ?_⟩
            intro p hp hpa
            rcases List.mem_append.1 hp with h4 | h4
            · exact h3 p h4 hpa
            · have : p = u := by simpa using h4
              rw [this]; exact not_lt.1 hlt
      · rw [if_neg hu]
        have hu2 : (n.deref u).IsAccepting = false := by simpa using hu
        cases best with
        | none =>
          simp only at h ⊢
          intro q hq
          rcases List.mem_append.1 hq with h1 | h1
          · exact h q h1
          · have : q = u := by simpa using h1
            rw [this]; exact hu2
        | some b =>
          simp only at h ⊢
          obtain ⟨h1, h2, h3⟩ := h
          refine ⟨List.mem_append_left _ h1, h2, ?_⟩
          intro p hp hpa
          rcases List.mem_append.1 hp with h4 | h4
          · exact h3 p h4 hpa
          · have : p = u := by simpa using h4
            rw [this, hu2] at hpa; exact absurd hpa (by simp))
    simpa [List.foldl_cons, List.append_assoc] using key

theorem pickAccepting_none {S V : Type} [Inhabited V] (n : nfa.Nfa S V) (U : List Nat)
    (h : pickAccepting n U = none) : ∀ q ∈ U, (n.deref q).IsAccepting = false := by
  have := pickAccepting_foldl n U [] none (by simp)
  unfold pickAccepting at h
  rw [h] at this
  simpa using this

theorem pickAccepting_some {S V : Type} [Inhabited V] (n : nfa.Nfa S V) (U : List Nat)
    (b : Nat) (h : pickAccepting n U = some b) :
    b ∈ U ∧ (n.deref b).IsAccepting = true
      ∧ ∀ p ∈ U, (n.deref p).IsAccepting = true →
          (n.deref b).AcceptIdx ≤ (n.deref p).AcceptIdx := by
  have := pickAccepting_foldl n U [] none (by simp)
  unfold pickAccepting at h
  rw [h] at this
  simpa using this

theorem acceptSpec_congr {S V : Type} [Inhabited V] (n : nfa.Nfa S V) (A B : List Nat)
    (h : ∀ x, x ∈ A ↔ x ∈ B) (idx : Int) (value : V) (hs : AcceptSpec n A idx value) :
    AcceptSpec n B idx value := by
  rcases hs with ⟨h1, h2, h3⟩ | ⟨q, hq, h1, h2, h3, h4⟩
  · exact Or.inl ⟨fun q hq => h1 q ((h q).2 hq), h2, h3⟩
  · exact Or.inr ⟨q, (h q).1 hq, h1, fun p hp => h2 p ((h p).2 hp), h3, h4⟩

/-! ### The heap of the DFA under construction -/

theorem dfa_deref_append_left {S V : Type} [Inhabited V] (states : List (State S V))
    (st : State S V) (start next start2 next2 : Nat) (r : Nat) (h : r < states.length) :
    ({ states := states ++ [st], start := start, nextStateID := next } : Dfa S V).deref r
      = ({ states := states, start := start2, nextStateID := next2 } : Dfa S V).deref r := by
  unfold Dfa.deref
  simp only
  rw [List.getD_append _ _ _ _ h]

theorem dfa_deref_append_new {S V : Type} [Inhabited V] (states : List (State S V))
    (st : State S V) (start next : Nat) :
    ({ states := states ++ [st], start := start, nextStateID := next } : Dfa S V).deref
      states.length = st := by
  unfold Dfa.deref
  simp only
  rw [List.getD_append_right _ _ _ _ (le_refl _)]
  simp

theorem dfa_update_length {S V : Type} (d : Dfa S V) (D : Nat) (f : State S V → State S V) :
    (d.update D f).states.length = d.states.length := by
  unfold Dfa.update
  simp [List.length_modify]

theorem dfa_update_deref_ne {S V : Type} [Inhabited V] (d : Dfa S V) (D r : Nat)
    (f : State S V → State S V) (h : r ≠ D) : (d.update D f).deref r = d.deref r := by
  unfold Dfa.update Dfa.deref
  simp only
  rw [List.getD_eq_getElem?_getD, List.getD_eq_getElem?_getD, List.getElem?_modify]
  cases d.states[r]? with
  | none => rfl
  | some a => simp [Ne.symm h]

theorem dfa_update_deref_self {S V : Type} [Inhabited V] (d : Dfa S V) (D : Nat)
    (f : State S V → State S V) (h : D < d.states.length) :
    (d.update D f).deref D = f (d.deref D) := by
  unfold Dfa.update Dfa.deref
  simp only
  rw [List.getD_eq_getElem?_getD, List.getD_eq_getElem?_getD, List.getElem?_modify,
    List.getElem?_eq_getElem h]
  simp

theorem newStateFor_spec {S V : Type} [Inhabited V] (n : nfa.Nfa S V) (d : Dfa S V)
    (U : List Nat) :
    ∃ st : State S V, st.transitions = [] ∧ AcceptSpec n U st.acceptIdx st.value
      ∧ newStateFor n d U
        = ({ states := d.states ++ [st], start := d.start, nextStateID := d.nextStateID + 1 },
            d.states.length) := by
  unfold newStateFor
  cases hp : pickAccepting n U with
  | none =>
    refine ⟨{ id := d.nextStateID, transitions := [], acceptIdx := -1, value := default }, rfl,
      Or.inl ⟨pickAccepting_none n U hp, rfl, rfl⟩, rfl⟩
  | some q =>
    obtain ⟨h1, h2, h3⟩ := pickAccepting_some n U q hp
    refine ⟨{ id := d.nextStateID, transitions := [], acceptIdx := (n.deref q).AcceptIdx,
              value := (n.deref q).AcceptValue }, rfl,
      Or.inr ⟨q, h1, h2, h3, rfl, rfl⟩, rfl⟩

/-! ### The invariant of the subset construction -/

theorem stateFor_inv {S V : Type} [DecidableEq S] [Inhabited V] (n : nfa.Nfa S V) (hwf : n.WF)
    (b : dfaBuilder S V) (e : Option (List Nat)) (U : List Nat) (hU : Valid n U)
    (hb : BInv n b e) :
    BInv n (b.stateFor n U).1 e
    ∧ gomap.get (subsetKey n U) (b.stateFor n U).1.subsetKeyToStateMap = some (b.stateFor n U).2
    ∧ Extends b (b.stateFor n U).1
    ∧ (∀ r, r < b.dfa.states.length → (b.stateFor n U).1.dfa.deref r = b.dfa.deref r) := by
  unfold dfaBuilder.stateFor
  cases hg : gomap.get (subsetKey n U) b.subsetKeyToStateMap with
  | some r =>
    exact ⟨hb, hg, ⟨fun _ _ h => h, ⟨0, rfl, rfl⟩, le_refl _⟩, fun _ _ => rfl⟩
  | none =>
    obtain ⟨st, hst1, hst2, hnew⟩ := newStateFor_spec n b.dfa U
    simp only [hnew]
    have hext : ∀ K r, gomap.get K b.subsetKeyToStateMap = some r →
        gomap.get K (gomap.set (subsetKey n U) b.dfa.states.length b.subsetKeyToStateMap)
          = some r := by
      intro K r h
      rw [gomap.get_set_ne _ _ _ _ (by intro hk; rw [← hk, hg] at h; simp at h)]
      exact h
    have hold : ∀ r, r < b.dfa.states.length →
        ({ states := b.dfa.states ++ [st], start := b.dfa.start,
           nextStateID := b.dfa.nextStateID + 1 } : Dfa S V).deref r = b.dfa.deref r :=
      fun r hr => dfa_deref_append_left b.dfa.states st _ _ _ _ r hr
    have hcases : ∀ K r,
        gomap.get K (gomap.set (subsetKey n U) b.dfa.states.length b.subsetKeyToStateMap)
          = some r →
        (K = subsetKey n U ∧ r = b.dfa.states.length)
        ∨ (K ≠ subsetKey n U ∧ gomap.get K b.subsetKeyToStateMap = some r) := by
      intro K r h
      by_cases hk : subsetKey n U = K
      · subst hk
        rw [gomap.get_set_self] at h
        exact Or.inl ⟨rfl, (Option.some.inj h).symm⟩
      · rw [gomap.get_set_ne _ _ _ _ hk] at h
        exact Or.inr ⟨fun h2 => hk h2.symm, h⟩
    refine ⟨?_, gomap.get_set_self _ _ _, ⟨hext, ⟨1, ?_, ?_⟩, by simp⟩, hold⟩
    · constructor
      · intro K r h
        rcases hcases K r h with ⟨rfl, rfl⟩ | ⟨-, h2⟩
        · exact ⟨subsetKey_valid n hwf U hU, subsetKey_idem n hwf U hU, by simp⟩
        · obtain ⟨h3, h4, h5⟩ := hb.keys_valid K r h2
          exact ⟨h3, h4, by simp; omega⟩
      · rw [gomap.set_of_get_none _ _ _ hg]
        simp only [List.map_append, List.map_cons, List.map_nil]
        rw [List.nodup_append]
        refine ⟨hb.keys_nodup, by simp, ?_⟩
        intro a ha hb2
        have : a = subsetKey n U := by simpa using hb2
        subst this
        exact (gomap.get_eq_none_iff _ _).1 hg ha
      · intro K1 K2 r h1 h2
        rcases hcases K1 r h1 with ⟨rfl, rfl⟩ | ⟨-, h3⟩
        · rcases hcases K2 _ h2 with ⟨rfl, -⟩ | ⟨-, h4⟩
          · rfl
          · have := (hb.keys_valid K2 _ h4).2.2
            omega
        · rcases hcases K2 r h2 with ⟨rfl, rfl⟩ | ⟨-, h4⟩
          · have := (hb.keys_valid K1 _ h3).2.2
            omega
          · exact hb.refs_inj K1 K2 r h3 h4
      · intro K r h
        rcases hcases K r h with ⟨rfl, rfl⟩ | ⟨-, h2⟩
        · simp only
          rw [dfa_deref_append_new]
          exact acceptSpec_congr n U _ (fun x => (mem_subsetKey n hwf U hU x).symm) _ _ hst2
        · simp only
          rw [hold r (hb.keys_valid K r h2).2.2]
          exact hb.accept K r h2
      · intro T hT
        simp only [queue.Queue.Enqueue] at hT
        rcases List.mem_append.1 hT with h1 | h1
        · obtain ⟨h2, h3⟩ := hb.queue_valid T h1
          refine ⟨h2, ?_⟩
          cases h4 : gomap.get (subsetKey n T) b.subsetKeyToStateMap with
          | none => exact absurd h4 h3
          | some r => simp only; rw [hext _ r h4]; simp
        · have : T = U := by simpa using h1
          subst this
          refine ⟨hU, ?_⟩
          simp only
          rw [gomap.get_set_self]; simp
      · intro K r h sym r2 hr2
        rcases hcases K r h with ⟨rfl, rfl⟩ | ⟨-, h2⟩
        · simp only at hr2
          rw [dfa_deref_append_new, hst1] at hr2
          simp [gomap.get] at hr2
        · simp only at hr2
          rw [hold r (hb.keys_valid K r h2).2.2] at hr2
          obtain ⟨h3, h4⟩ := hb.safe K r h2 sym r2 hr2
          exact ⟨h3, hext _ _ h4⟩
      · intro K r h
        rcases hcases K r h with ⟨rfl, rfl⟩ | ⟨-, h2⟩
        · right; left
          simp [queue.Queue.Enqueue]
        · rcases hb.complete K r h2 with h3 | h3 | h3
          · exact Or.inl h3
          · right; left
            simp only [queue.Queue.Enqueue, List.map_append, List.mem_append]
            exact Or.inl h3
          · right; right
            intro sym hs
            simp only
            rw [hold r (hb.keys_valid K r h2).2.2]
            exact h3 sym hs
      · exact hext _ _ hb.start
    · rw [gomap.set_of_get_none _ _ _ hg]; simp
    · simp [queue.Queue.Enqueue]

theorem extends_refl {S V : Type} [Inhabited V] (b : dfaBuilder S V) : Extends b b :=
  ⟨fun _ _ h => h, ⟨0, rfl, rfl⟩, le_refl _⟩

theorem extends_trans {S V : Type} [Inhabited V] (b1 b2 b3 : dfaBuilder S V)
    (h12 : Extends b1 b2) (h23 : Extends b2 b3) : Extends b1 b3 := by
  obtain ⟨a1, ⟨k1, a2, a3⟩, a4⟩ := h12
  obtain ⟨c1, ⟨k2, c2, c3⟩, c4⟩ := h23
  exact ⟨fun K r h => c1 K r (a1 K r h), ⟨k1 + k2, by omega, by omega⟩, le_trans a4 c4⟩

theorem tgt_congr {S V : Type} [DecidableEq S] [Inhabited V] (n : nfa.Nfa S V) (hwf : n.WF)
    (A B : List Nat) (h : ∀ x, x ∈ A ↔ x ∈ B) (sym : S) : tgt n A sym = tgt n B sym :=
  subsetKey_congr n hwf _ _ (stepSet_valid n hwf A sym) (stepSet_valid n hwf B sym)
    (stepSet_congr n A B sym h)

theorem tgt_key {S V : Type} [DecidableEq S] [Inhabited V] (n : nfa.Nfa S V) (hwf : n.WF)
    (T : List Nat) (hT : Valid n T) (sym : S) : tgt n (subsetKey n T) sym = tgt n T sym :=
  tgt_congr n hwf _ _ (mem_subsetKey n hwf T hT) sym

theorem processSymbol_inv {S V : Type} [DecidableEq S] [Inhabited V] (n : nfa.Nfa S V)
    (hwf : n.WF) (b : dfaBuilder S V) (T : List Nat) (D : Nat) (sym : S) (done : List S)
    (hT : Valid n T) (hb : BInv n b (some (subsetKey n T)))
    (hD : gomap.get (subsetKey n T) b.subsetKeyToStateMap = some D)
    (hp : Progress n b (subsetKey n T) D done) :
    BInv n (dfaBuilder.processSymbol n T D b sym) (some (subsetKey n T))
    ∧ gomap.get (subsetKey n T) (dfaBuilder.processSymbol n T D b sym).subsetKeyToStateMap
        = some D
    ∧ Progress n (dfaBuilder.processSymbol n T D b sym) (subsetKey n T) D (sym :: done)
    ∧ Extends b (dfaBuilder.processSymbol n T D b sym) := by
  unfold dfaBuilder.processSymbol
  have hUv : Valid n (epsilonClosure n (move n T sym)) := stepSet_valid n hwf T sym
  have htgt : tgt n (subsetKey n T) sym = subsetKey n (epsilonClosure n (move n T sym)) :=
    tgt_key n hwf T hT sym
  cases hU : (epsilonClosure n (move n T sym)).isEmpty with
  | true =>
    simp only [hU, if_true]
    refine ⟨hb, hD, ?_, extends_refl b⟩
    intro s2 hs2 hne
    rcases List.mem_cons.1 hs2 with h | h
    · subst h
      rw [htgt, List.isEmpty_iff.1 hU] at hne
      exact absurd rfl hne
    · exact hp s2 h hne
  | false =>
    simp only [hU, Bool.false_eq_true, if_false]
    obtain ⟨hb1, hget, hext, hold⟩ := stateFor_inv n hwf b _ _ hUv hb
    rcases hsf : b.stateFor n (epsilonClosure n (move n T sym)) with ⟨b1, r⟩
    rw [hsf] at hb1 hget hext hold
    simp only at hb1 hget hext hold ⊢
    have hD1 : gomap.get (subsetKey n T) b1.subsetKeyToStateMap = some D := hext.1 _ _ hD
    have hDlt : D < b1.dfa.states.length := (hb1.keys_valid _ _ hD1).2.2
    have hne : tgt n (subsetKey n T) sym ≠ [] := by
      rw [htgt]
      intro h
      rw [(subsetKey_eq_nil n hwf _ hUv).1 h] at hU
      simp at hU
    have hself : (b1.dfa.update D
        (fun st => { st with transitions := gomap.set sym r st.transitions })).deref D
        = { b1.dfa.deref D with transitions := gomap.set sym r (b1.dfa.deref D).transitions } :=
      dfa_update_deref_self b1.dfa D _ hDlt
    have hother : ∀ r2, r2 ≠ D → (b1.dfa.update D
        (fun st => { st with transitions := gomap.set sym r st.transitions })).deref r2
        = b1.dfa.deref r2 := fun r2 h => dfa_update_deref_ne b1.dfa D r2 _ h
    refine ⟨?_, hD1, ?_, ⟨hext.1, hext.2.1, by simp only; rw [dfa_update_length]; exact hext.2.2⟩⟩
    · constructor
      · intro K r2 h
        obtain ⟨h1, h2, h3⟩ := hb1.keys_valid K r2 h
        exact ⟨h1, h2, by simp only; rw [dfa_update_length]; exact h3⟩
      · exact hb1.keys_nodup
      · exact hb1.refs_inj
      · intro K r2 h
        simp only
        by_cases hr : r2 = D
        · subst hr
          rw [hself]
          exact hb1.accept K _ h
        · rw [hother r2 hr]
          exact hb1.accept K r2 h
      · exact hb1.queue_valid
      · intro K r2 h s2 r3 hr3
        simp only at hr3 ⊢
        by_cases hr : r2 = D
        · subst hr
          have hK : K = subsetKey n T := hb1.refs_inj _ _ _ h hD1
          subst hK
          rw [hself] at hr3
          simp only at hr3
          by_cases hs : sym = s2
          · subst hs
            rw [gomap.get_set_self] at hr3
            cases hr3
            exact ⟨hne, by rw [htgt]; exact hget⟩
          · rw [gomap.get_set_ne _ _ _ _ hs] at hr3
            exact hb1.safe _ _ h s2 r3 hr3
        · rw [hother r2 hr] at hr3
          exact hb1.safe K r2 h s2 r3 hr3
      · intro K r2 h
        rcases hb1.complete K r2 h with h1 | h1 | h1
        · exact Or.inl h1
        · exact Or.inr (Or.inl h1)
        · by_cases hr : r2 = D
          · subst hr
            left
            rw [hb1.refs_inj _ _ _ h hD1]
          · right; right
            intro s2 hs2
            simp only
            rw [hother r2 hr]
            exact h1 s2 hs2
      · exact hb1.start
    · intro s2 hs2 hne2
      simp only
      rw [hself]
      simp only
      rcases List.mem_cons.1 hs2 with h | h
      · subst h
        rw [gomap.get_set_self]; simp
      · apply gomap.get_set_ne_none
        have := hp s2 h hne2
        rw [← hold D (hb.keys_valid _ _ hD).2.2] at this
        exact this

theorem processSymbols_inv {S V : Type} [DecidableEq S] [Inhabited V] (n : nfa.Nfa S V)
    (hwf : n.WF) (T : List Nat) (D : Nat) (hT : Valid n T) :
    ∀ (syms : List S) (b : dfaBuilder S V) (done : List S),
      BInv n b (some (subsetKey n T)) →
      gomap.get (subsetKey n T) b.subsetKeyToStateMap = some D →
      Progress n b (subsetKey n T) D done →
      BInv n (syms.foldl (dfaBuilder.processSymbol n T D) b) (some (subsetKey n T))
      ∧ Progress n (syms.foldl (dfaBuilder.processSymbol n T D) b) (subsetKey n T) D
          (syms.reverse ++ done)
      ∧ Extends b (syms.foldl (dfaBuilder.processSymbol n T D) b) := by
  intro syms
  induction syms with
  | nil => intro b done hb _ hp; exact ⟨hb, by simpa using hp, extends_refl b⟩
  | cons sym rest ih =>
    intro b done hb hD hp
    obtain ⟨h1, h2, h3, h4⟩ := processSymbol_inv n hwf b T D sym done hT hb hD hp
    obtain ⟨h5, h6, h7⟩ := ih _ (sym :: done) h1 h2 h3
    refine ⟨h5, ?_, extends_trans _ _ _ h4 h7⟩
    simpa [List.foldl_cons, List.reverse_cons, List.append_assoc] using h6

theorem getData_mem_keys {K W : Type} [DecidableEq K] (k : K) (data : List (K × List W)) (x : W)
    (hx : x ∈ mvmap.getData k data) : k ∈ data.map Prod.fst := by
  induction data with
  | nil => simp [mvmap.getData] at hx
  | cons p rest ih =>
    obtain ⟨k0, vs⟩ := p
    rw [mvmap.getData] at hx
    by_cases hk : k0 = k
    · simp [hk]
    · rw [if_neg hk] at hx
      simp [ih hx]

theorem outgoing_symbol {S V : Type} [DecidableEq S] [Inhabited V] (n : nfa.Nfa S V)
    (q r : Nat) (sym : S) (hr : r ∈ outgoingOf n q sym) :
    sym ∈ ((n.deref q).OutgoingSymbols).getD [] := by
  unfold outgoingOf nfa.State.OutgoingFor at hr
  unfold nfa.State.OutgoingSymbols
  cases ht : (n.deref q).transitions with
  | none =>
    rw [ht] at hr
    cases he : (n.deref q).edge with
    | none => rw [he] at hr; simp at hr
    | some e =>
      rw [he] at hr
      simp only at hr
      by_cases hs : e.sym = sym
      · simp [hs]
      · rw [if_neg hs] at hr
        simp at hr
  | some m =>
    rw [ht] at hr
    simp only [Option.getD_some, mvmap.MvMap.Get] at hr
    simp only [Option.getD_some, mvmap.MvMap.Keys]
    exact getData_mem_keys sym m.data r hr

theorem tgt_ne_nil_mem_alphabet {S V : Type} [DecidableEq S] [Inhabited V] (n : nfa.Nfa S V)
    (hwf : n.WF) (T : List Nat) (sym : S) (h : tgt n T sym ≠ []) : sym ∈ alphabet n T := by
  unfold tgt at h
  have hne : stepSet n T sym ≠ [] := by
    intro h2
    exact h ((subsetKey_eq_nil n hwf _ (stepSet_valid n hwf T sym)).2 h2)
  obtain ⟨r, hr⟩ := List.exists_mem_of_ne_nil _ hne
  obtain ⟨q, hq, t, ht, -⟩ := (mem_stepSet n T sym r).1 hr
  unfold alphabet
  rw [List.mem_dedup, List.mem_flatMap]
  exact ⟨q, hq, outgoing_symbol n q t sym ht⟩

theorem processSubset_inv {S V : Type} [DecidableEq S] [Inhabited V] (n : nfa.Nfa S V)
    (hwf : n.WF) (b : dfaBuilder S V) (T : List Nat) (rest : List (List Nat))
    (hq : b.workingQueue.data = T :: rest) (hb : BInv n b none) :
    BInv n (dfaBuilder.processSubset n T { b with workingQueue := { data := rest } }) none
    ∧ Extends { b with workingQueue := { data := rest } }
        (dfaBuilder.processSubset n T { b with workingQueue := { data := rest } }) := by
  obtain ⟨hT, hg⟩ := hb.queue_valid T (by rw [hq]; simp)
  have hb0 : BInv n { b with workingQueue := { data := rest } } (some (subsetKey n T)) := by
    constructor
    · exact hb.keys_valid
    · exact hb.keys_nodup
    · exact hb.refs_inj
    · exact hb.accept
    · intro T2 hT2
      exact hb.queue_valid T2 (by rw [hq]; exact List.mem_cons_of_mem _ hT2)
    · exact hb.safe
    · intro K r h
      rcases hb.complete K r h with h1 | h1 | h1
      · simp at h1
      · rw [hq] at h1
        rcases List.mem_cons.1 h1 with h2 | h2
        · left; rw [h2]
        · right; left; exact h2
      · right; right; exact h1
    · exact hb.start
  unfold dfaBuilder.processSubset
  cases hD : gomap.get (subsetKey n T) b.subsetKeyToStateMap with
  | none => exact absurd hD hg
  | some D =>
    simp only [hD]
    obtain ⟨h1, h2, h3⟩ := processSymbols_inv n hwf T D hT (alphabet n T)
      { b with workingQueue := { data := rest } } [] hb0 hD (by intro s hs; simp at hs)
    refine ⟨?_, h3⟩
    have hD2 := h3.1 _ _ hD
    constructor
    · exact h1.keys_valid
    · exact h1.keys_nodup
    · exact h1.refs_inj
    · exact h1.accept
    · exact h1.queue_valid
    · exact h1.safe
    · intro K r h
      rcases h1.complete K r h with h4 | h4 | h4
      · right; right
        have hK : K = subsetKey n T := (Option.some.inj h4)
        subst hK
        have hr : r = D := by
          rw [hD2] at h; exact (Option.some.inj h).symm
        subst hr
        intro sym hs
        apply h2 sym _ hs
        rw [tgt_key n hwf T hT] at hs
        simpa using tgt_ne_nil_mem_alphabet n hwf T sym hs
      · right; left; exact h4
      · right; right; exact h4
    · exact h1.start

theorem map_length_le {S V : Type} [DecidableEq S] [Inhabited V] (n : nfa.Nfa S V)
    (hwf : n.WF) (b : dfaBuilder S V) (e : Option (List Nat)) (hb : BInv n b e) :
    b.subsetKeyToStateMap.length ≤ 2 ^ n.states.length := by
  have hsub : b.subsetKeyToStateMap.map Prod.fst ⊆ (List.range n.states.length).sublists := by
    intro K hK
    cases hg : gomap.get K b.subsetKeyToStateMap with
    | none => exact absurd hK ((gomap.get_eq_none_iff K _).1 hg)
    | some r =>
      obtain ⟨h1, h2, -⟩ := hb.keys_valid K r hg
      rw [← h2]
      exact subsetKey_mem_sublists n hwf K h1
  have := (List.subperm_of_subset hb.keys_nodup hsub).length_le
  simpa [List.length_sublists] using this

theorem buildLoop_inv {S V : Type} [DecidableEq S] [Inhabited V] (n : nfa.Nfa S V)
    (hwf : n.WF) :
    ∀ (fuel : Nat) (b : dfaBuilder S V), BInv n b none →
      2 * (2 ^ n.states.length - b.subsetKeyToStateMap.length) + b.workingQueue.data.length
        < fuel →
      BInv n (dfaBuilder.buildLoop n fuel b) none
      ∧ (dfaBuilder.buildLoop n fuel b).workingQueue.data = [] := by
  intro fuel
  induction fuel with
  | zero => intro b _ h; omega
  | succ fuel ih =>
    intro b hb hm
    rw [dfaBuilder.buildLoop]
    unfold queue.Queue.Dequeue
    cases hq : b.workingQueue.data with
    | nil => exact ⟨hb, hq⟩
    | cons T rest =>
      simp only
      obtain ⟨h1, h2, ⟨k, h3, h4⟩, -⟩ := processSubset_inv n hwf b T rest hq hb
      have h5 := map_length_le n hwf _ _ h1
      apply ih _ h1
      rw [hq] at hm
      simp only [List.length_cons] at hm
      simp only at h3 h4
      omega

theorem seed_inv {S V : Type} [DecidableEq S] [Inhabited V] (n : nfa.Nfa S V) (hwf : n.WF) :
    BInv n ((initialBuilder : dfaBuilder S V).seed n) none
    ∧ ((initialBuilder : dfaBuilder S V).seed n).subsetKeyToStateMap.length = 1
    ∧ ((initialBuilder : dfaBuilder S V).seed n).workingQueue.data.length = 1
    ∧ ((initialBuilder : dfaBuilder S V).seed n).dfa.start = 0 := by
  have hT : Valid n (epsilonClosure n [n.Start]) :=
    epsilonClosure_valid n hwf _ (by
      intro q hq
      have : q = n.Start := by simpa using hq
      rw [this]; exact hwf.1)
  have hmap : ((initialBuilder : dfaBuilder S V).seed n).subsetKeyToStateMap
      = [(subsetKey n (epsilonClosure n [n.Start]), 0)] := rfl
  have hget : ∀ K r, gomap.get K ((initialBuilder : dfaBuilder S V).seed n).subsetKeyToStateMap
      = some r → K = subsetKey n (epsilonClosure n [n.Start]) ∧ r = 0 := by
    intro K r h
    rw [hmap] at h
    simp only [gomap.get] at h
    by_cases hk : subsetKey n (epsilonClosure n [n.Start]) = K
    · rw [if_pos hk] at h
      exact ⟨hk.symm, (Option.some.inj h).symm⟩
    · rw [if_neg hk] at h
      simp at h
  have hstate : ∃ st : State S V, st.transitions = []
      ∧ AcceptSpec n (epsilonClosure n [n.Start]) st.acceptIdx st.value
      ∧ ((initialBuilder : dfaBuilder S V).seed n).dfa
        = { states := [st], start := 0, nextStateID := 1 } := by
    unfold dfaBuilder.seed initialBuilder
    cases hp : pickAccepting n (epsilonClosure n [n.Start]) with
    | none =>
      refine ⟨{ id := 0, transitions := [], acceptIdx := -1, value := default }, rfl,
        Or.inl ⟨pickAccepting_none n _ hp, rfl, rfl⟩, ?_⟩
      simp only [hp]
      rfl
    | some q =>
      obtain ⟨h1, h2, h3⟩ := pickAccepting_some n _ q hp
      refine ⟨{ id := 0, transitions := [], acceptIdx := (n.deref q).AcceptIdx,
                value := (n.deref q).AcceptValue }, rfl,
        Or.inr ⟨q, h1, h2, h3, rfl, rfl⟩, ?_⟩
      simp only [hp]
      rfl
  obtain ⟨st, hst1, hst2, hdfa⟩ := hstate
  have hderef : (((initialBuilder : dfaBuilder S V).seed n).dfa).deref 0 = st := by
    rw [hdfa]; rfl
  refine ⟨?_, by rw [hmap]; rfl, rfl, rfl⟩
  constructor
  · intro K r h
    obtain ⟨rfl, rfl⟩ := hget K r h
    refine ⟨subsetKey_valid n hwf _ hT, subsetKey_idem n hwf _ hT, ?_⟩
    rw [hdfa]; simp
  · rw [hmap]; simp
  · intro K1 K2 r h1 h2
    rw [(hget K1 r h1).1, (hget K2 r h2).1]
  · intro K r h
    obtain ⟨rfl, rfl⟩ := hget K r h
    rw [hderef]
    exact acceptSpec_congr n _ _ (fun x => (mem_subsetKey n hwf _ hT x).symm) _ _ hst2
  · intro T hT2
    have : T = epsilonClosure n [n.Start] := by
      have h : ((initialBuilder : dfaBuilder S V).seed n).workingQueue.data
          = [epsilonClosure n [n.Start]] := rfl
      rw [h] at hT2
      simpa using hT2
    subst this
    refine ⟨hT, ?_⟩
    rw [hmap]
    simp [gomap.get]
  · intro K r h sym r2 hr2
    obtain ⟨rfl, rfl⟩ := hget K r h
    rw [hderef, hst1] at hr2
    simp [gomap.get] at hr2
  · intro K r h
    obtain ⟨rfl, rfl⟩ := hget K r h
    right; left
    have h : ((initialBuilder : dfaBuilder S V).seed n).workingQueue.data
        = [epsilonClosure n [n.Start]] := rfl
    rw [h]; simp
  · rw [hmap]
    simp [gomap.get]
    rfl

/-- The builder after the subset construction has run. -/
theorem run_inv {S V : Type} [DecidableEq S] [Inhabited V] (n : nfa.Nfa S V) (hwf : n.WF) :
    BInv n ((initialBuilder : dfaBuilder S V).run n) none
    ∧ ((initialBuilder : dfaBuilder S V).run n).workingQueue.data = [] := by
  obtain ⟨h1, h2, h3, -⟩ := seed_inv (S := S) (V := V) n hwf
  unfold dfaBuilder.run
  apply buildLoop_inv n hwf _ _ h1
  rw [h2, h3]
  unfold buildFuel
  have : 1 ≤ 2 ^ n.states.length := Nat.one_le_two_pow
  rw [pow_succ]
  omega

/-! ### The DFA agrees with the NFA on every word -/

theorem follow_append {S V : Type} [DecidableEq S] [Inhabited V] (d : Dfa S V) (w : List S)
    (sym : S) : ∀ r, d.follow r (w ++ [sym])
      = (d.follow r w).bind (fun r2 => (d.deref r2).OutgoingFor sym) := by
  induction w with
  | nil =>
    intro r
    simp only [List.nil_append, Dfa.follow, Option.some_bind]
    cases (d.deref r).OutgoingFor sym <;> rfl
  | cons a rest ih =>
    intro r
    simp only [List.cons_append, Dfa.follow]
    cases (d.deref r).OutgoingFor a with
    | none => rfl
    | some nxt => exact ih nxt

theorem runSet_valid {S V : Type} [DecidableEq S] [Inhabited V] (n : nfa.Nfa S V) (hwf : n.WF)
    (w : List S) : Valid n (runSet n w) := by
  induction w using List.reverseRecOn with
  | nil =>
    rw [runSet_nil]
    apply epsilonClosure_valid n hwf
    intro q hq
    have : q = n.Start := by simpa using hq
    rw [this]; exact hwf.1
  | append_singleton w sym _ =>
    rw [runSet_append]
    exact stepSet_valid n hwf _ sym

theorem stepSet_nil {S V : Type} [DecidableEq S] [Inhabited V] (n : nfa.Nfa S V) (sym : S) :
    stepSet n [] sym = [] := by
  apply List.eq_nil_iff_forall_not_mem.2
  intro r hr
  obtain ⟨q, hq, -⟩ := (mem_stepSet n [] sym r).1 hr
  simp at hq

theorem follow_runSet {S V : Type} [DecidableEq S] [Inhabited V] (n : nfa.Nfa S V)
    (hwf : n.WF) (w : List S) :
    (runSet n w = [] → (FromNfa n).follow (FromNfa n).Start w = none)
    ∧ (runSet n w ≠ [] → ∃ r, (FromNfa n).follow (FromNfa n).Start w = some r
        ∧ gomap.get (subsetKey n (runSet n w))
            ((initialBuilder : dfaBuilder S V).run n).subsetKeyToStateMap = some r) := by
  obtain ⟨hinv, hqueue⟩ := run_inv (S := S) (V := V) n hwf
  have hdfa : FromNfa n = ((initialBuilder : dfaBuilder S V).run n).dfa := rfl
  induction w using List.reverseRecOn with
  | nil =>
    constructor
    · intro h
      have : n.Start ∈ runSet n ([] : List S) := by
        rw [runSet_nil, mem_epsilonClosure]
        exact ⟨n.Start, by simp, Relation.ReflTransGen.refl⟩
      rw [h] at this
      simp at this
    · intro _
      refine ⟨(FromNfa n).Start, rfl, ?_⟩
      rw [runSet_nil]
      exact hinv.start
  | append_singleton w sym ih =>
    have hv := runSet_valid n hwf w
    have hkey : subsetKey n (runSet n (w ++ [sym])) = tgt n (subsetKey n (runSet n w)) sym := by
      rw [runSet_append, tgt_key n hwf _ hv]
      rfl
    have hnil : runSet n (w ++ [sym]) = [] ↔ tgt n (subsetKey n (runSet n w)) sym = [] := by
      rw [← hkey]
      exact (subsetKey_eq_nil n hwf _ (runSet_valid n hwf _)).symm
    rw [follow_append]
    by_cases hw : runSet n w = []
    · rw [ih.1 hw]
      constructor
      · intro _; rfl
      · intro h
        exfalso
        apply h
        rw [runSet_append, hw]
        exact stepSet_nil n sym
    · obtain ⟨r, hr, hg⟩ := ih.2 hw
      rw [hr]
      simp only [Option.some_bind]
      have hsafe := hinv.safe _ _ hg
      have hcomplete : Complete n ((initialBuilder : dfaBuilder S V).run n)
          (subsetKey n (runSet n w)) r := by
        rcases hinv.complete _ _ hg with h | h | h
        · simp at h
        · rw [hqueue] at h; simp at h
        · exact h
      constructor
      · intro h
        have h2 := hnil.1 h
        cases hout : ((FromNfa n).deref r).OutgoingFor sym with
        | none => rfl
        | some r2 =>
          exact absurd h2 (hsafe sym r2 hout).1
      · intro h
        have h2 : tgt n (subsetKey n (runSet n w)) sym ≠ [] := fun h3 => h (hnil.2 h3)
        cases hout : ((FromNfa n).deref r).OutgoingFor sym with
        | none => exact absurd hout (hcomplete sym h2)
        | some r2 =>
          refine ⟨r2, rfl, ?_⟩
          rw [hkey]
          exact (hsafe sym r2 hout).2

theorem acceptSpec_isAccepting {S V : Type} [Inhabited V] (n : nfa.Nfa S V) (T : List Nat)
    (st : State S V) (h : AcceptSpec n T st.acceptIdx st.value) :
    st.IsAccepting = true ↔ ∃ q ∈ T, (n.deref q).IsAccepting = true := by
  unfold State.IsAccepting State.AcceptIdx
  rcases h with ⟨h1, h2, -⟩ | ⟨q, hq, h1, -, h3, -⟩
  · rw [h2]
    constructor
    · intro h; simp at h
    · rintro ⟨q, hq, hacc⟩
      rw [h1 q hq] at hacc
      simp at hacc
  · rw [h3]
    constructor
    · intro _; exact ⟨q, hq, h1⟩
    · intro _
      unfold nfa.State.IsAccepting at h1
      exact h1

theorem acceptSpec_min {S V : Type} [Inhabited V] (n : nfa.Nfa S V) (T : List Nat)
    (st : State S V) (h : AcceptSpec n T st.acceptIdx st.value)
    (hacc : ∃ q ∈ T, (n.deref q).IsAccepting = true) :
    ∃ q ∈ T, (n.deref q).IsAccepting = true
      ∧ (∀ p ∈ T, (n.deref p).IsAccepting = true → (n.deref q).AcceptIdx ≤ (n.deref p).AcceptIdx)
      ∧ st.AcceptIdx = (n.deref q).AcceptIdx ∧ st.AcceptValue = (n.deref q).AcceptValue := by
  rcases h with ⟨h1, -, -⟩ | ⟨q, hq, h1, h2, h3, h4⟩
  · obtain ⟨q, hq, ha⟩ := hacc
    rw [h1 q hq] at ha
    simp at ha
  · refine ⟨q, hq, h1, h2, h3, ?_⟩
    unfold State.AcceptValue
    have : ¬ st.acceptIdx ≤ -1 := by
      rw [h3]
      unfold nfa.State.IsAccepting at h1
      have := of_decide_eq_true h1
      omega
    rw [if_neg this, h4]

/-- C5: `FromNfa n` is equivalent to the NFA `n` (with a well-formed heap): for every word `w`,
following `OutgoingFor` from the DFA start state along `w` is defined at every step iff some NFA
state is reachable from the NFA start state by `w` (labelled transitions interleaved with
epsilon transitions), and the DFA state reached is accepting iff one of those NFA states is. -/
theorem FromNfa_equivalent {S V : Type} [DecidableEq S] [Inhabited V] (n : nfa.Nfa S V)
    (hwf : n.WF) (w : List S) :
    (((FromNfa n).follow (FromNfa n).Start w).isSome = true ↔ ∃ q, Reach n w q)
    ∧ ∀ D, (FromNfa n).follow (FromNfa n).Start w = some D →
        (((FromNfa n).deref D).IsAccepting = true
          ↔ ∃ q, Reach n w q ∧ (n.deref q).IsAccepting = true) := by
  obtain ⟨h1, h2⟩ := follow_runSet n hwf w
  obtain ⟨hinv, -⟩ := run_inv (S := S) (V := V) n hwf
  by_cases hw : runSet n w = []
  · rw [h1 hw]
    constructor
    · constructor
      · intro h; simp at h
      · rintro ⟨q, hq⟩
        have := (mem_runSet n w q).2 hq
        rw [hw] at this
        simp at this
    · intro D hD
      simp at hD
  · obtain ⟨r, hr, hg⟩ := h2 hw
    rw [hr]
    constructor
    · constructor
      · intro _
        obtain ⟨q, hq⟩ := List.exists_mem_of_ne_nil _ hw
        exact ⟨q, (mem_runSet n w q).1 hq⟩
      · intro _; rfl
    · intro D hD
      have hD2 : r = D := Option.some.inj hD
      subst hD2
      have hacc := hinv.accept _ _ hg
      rw [show (FromNfa n).deref r = ((initialBuilder : dfaBuilder S V).run n).dfa.deref r from rfl,
        acceptSpec_isAccepting n _ _ hacc]
      constructor
      · rintro ⟨q, hq, ha⟩
        have hq2 := (mem_subsetKey n hwf _ (runSet_valid n hwf w) q).1 hq
        exact ⟨q, (mem_runSet n w q).1 hq2, ha⟩
      · rintro ⟨q, hq, ha⟩
        exact ⟨q, (mem_subsetKey n hwf _ (runSet_valid n hwf w) q).2
          ((mem_runSet n w q).2 hq), ha⟩

/-- C6: a DFA state `D` that `FromNfa` produced for an NFA subset `T` holding an accepting state
has as `AcceptIdx` the minimum `AcceptIdx` over the accepting states of `T` and as `AcceptValue`
the `AcceptValue` of that NFA state; this both for the subset recorded under its key in the
builder's subset map and for the set of NFA states reached by a word that leads to `D`. -/
theorem FromNfa_accept_is_minimum {S V : Type} [DecidableEq S] [Inhabited V]
    (n : nfa.Nfa S V) (hwf : n.WF) :
    (∀ (T : List Nat) (D : Nat), (∀ q ∈ T, q < n.states.length) →
      gomap.get (subsetKey n T) ((initialBuilder : dfaBuilder S V).run n).subsetKeyToStateMap
        = some D →
      (∃ q ∈ T, (n.deref q).IsAccepting = true) →
      ∃ q ∈ T, (n.deref q).IsAccepting = true
        ∧ (∀ p ∈ T, (n.deref p).IsAccepting = true →
            (n.deref q).AcceptIdx ≤ (n.deref p).AcceptIdx)
        ∧ ((FromNfa n).deref D).AcceptIdx = (n.deref q).AcceptIdx
        ∧ ((FromNfa n).deref D).AcceptValue = (n.deref q).AcceptValue)
    ∧ (∀ (w : List S) (D : Nat), (FromNfa n).follow (FromNfa n).Start w = some D →
      (∃ q, Reach n w q ∧ (n.deref q).IsAccepting = true) →
      ∃ q, Reach n w q ∧ (n.deref q).IsAccepting = true
        ∧ (∀ p, Reach n w p → (n.deref p).IsAccepting = true →
            (n.deref q).AcceptIdx ≤ (n.deref p).AcceptIdx)
        ∧ ((FromNfa n).deref D).AcceptIdx = (n.deref q).AcceptIdx
        ∧ ((FromNfa n).deref D).AcceptValue = (n.deref q).AcceptValue) := by
  obtain ⟨hinv, -⟩ := run_inv (S := S) (V := V) n hwf
  have hmap : ∀ (T : List Nat) (D : Nat), Valid n T →
      gomap.get (subsetKey n T) ((initialBuilder : dfaBuilder S V).run n).subsetKeyToStateMap
        = some D →
      (∃ q ∈ T, (n.deref q).IsAccepting = true) →
      ∃ q ∈ T, (n.deref q).IsAccepting = true
        ∧ (∀ p ∈ T, (n.deref p).IsAccepting = true →
            (n.deref q).AcceptIdx ≤ (n.deref p).AcceptIdx)
        ∧ ((FromNfa n).deref D).AcceptIdx = (n.deref q).AcceptIdx
        ∧ ((FromNfa n).deref D).AcceptValue = (n.deref q).AcceptValue := by
    intro T D hT hD hacc
    have h1 := acceptSpec_congr n _ T (mem_subsetKey n hwf T hT) _ _ (hinv.accept _ _ hD)
    exact acceptSpec_min n T _ h1 hacc
  refine ⟨hmap, ?_⟩
  intro w D hD hacc
  obtain ⟨h1, h2⟩ := follow_runSet n hwf w
  have hw : runSet n w ≠ [] := by
    intro h
    rw [h1 h] at hD
    simp at hD
  obtain ⟨r, hr, hg⟩ := h2 hw
  rw [hr] at hD
  have hD2 : r = D := Option.some.inj hD
  subst hD2
  obtain ⟨q, hq, ha⟩ := hacc
  obtain ⟨q2, hq2, k1, k2, k3, k4⟩ := hmap (runSet n w) r (runSet_valid n hwf w) hg
    ⟨q, (mem_runSet n w q).2 hq, ha⟩
  exact ⟨q2, (mem_runSet n w q2).1 hq2, k1,
    fun p hp hpa => k2 p ((mem_runSet n w p).2 hp) hpa, k3, k4⟩

/-- Witness of C5 on the automaton `start --a--> 1`, `start --a--> 2 (accepting)` and the
word "a". -/
theorem FromNfa_equivalent_witness :
    (((FromNfa nfa.branchingNfa).follow (FromNfa nfa.branchingNfa).Start ['a']).isSome = true
        ↔ ∃ q, Reach nfa.branchingNfa ['a'] q)
    ∧ (((FromNfa nfa.branchingNfa).deref 1).IsAccepting = true
        ↔ ∃ q, Reach nfa.branchingNfa ['a'] q ∧ (nfa.branchingNfa.deref q).IsAccepting = true) :=
  ⟨(FromNfa_equivalent nfa.branchingNfa (by decide) ['a']).1,
    (FromNfa_equivalent nfa.branchingNfa (by decide) ['a']).2 1 (by decide)⟩

/-- Witness of C6: the subset `{1, 2}` of the test automaton, whose DFA state is state 1. -/
theorem FromNfa_accept_is_minimum_witness :
    ∃ q ∈ [1, 2], (nfa.branchingNfa.deref q).IsAccepting = true
      ∧ (∀ p ∈ [1, 2], (nfa.branchingNfa.deref p).IsAccepting = true →
          (nfa.branchingNfa.deref q).AcceptIdx ≤ (nfa.branchingNfa.deref p).AcceptIdx)
      ∧ ((FromNfa nfa.branchingNfa).deref 1).AcceptIdx = (nfa.branchingNfa.deref q).AcceptIdx
      ∧ ((FromNfa nfa.branchingNfa).deref 1).AcceptValue
          = (nfa.branchingNfa.deref q).AcceptValue :=
  (FromNfa_accept_is_minimum nfa.branchingNfa (by decide)).1 [1, 2] 1 (by decide) (by decide)
    (by decide)

end dfa

/-! ## Theorems: the scanner driver -/

namespace dfa

theorem readLen_le {S V : Type} [DecidableEq S] [Inhabited V] (d : Dfa S V) (w : List S) :
    ∀ cur, d.readLen cur w ≤ w.length := by
  induction w with
  | nil => intro cur; simp [Dfa.readLen]
  | cons sym rest ih =>
    intro cur
    rw [Dfa.readLen]
    cases (d.deref cur).OutgoingFor sym with
    | none => simp
    | some next => simpa using ih next

theorem readLen_pos {S V : Type} [DecidableEq S] [Inhabited V] (d : Dfa S V) (w : List S)
    (cur : Nat) (hw : w ≠ []) : 1 ≤ d.readLen cur w := by
  cases w with
  | nil => exact absurd rfl hw
  | cons sym rest =>
    rw [Dfa.readLen]
    cases (d.deref cur).OutgoingFor sym with
    | none => simp
    | some next => simp

theorem longestAccept_none {S V : Type} [DecidableEq S] [Inhabited V] (d : Dfa S V)
    (w : List S) :
    ∀ cur, d.longestAccept cur w = none →
      ∀ m q2, 1 ≤ m → m ≤ w.length → d.follow cur (w.take m) = some q2 →
        (d.deref q2).IsAccepting = false := by
  induction w with
  | nil => intro cur _ m q2 h1 h2; simp at h2; omega
  | cons sym rest ih =>
    intro cur h m q2 h1 h2 hf
    obtain ⟨m, rfl⟩ : ∃ j, m = j + 1 := ⟨m - 1, by omega⟩
    rw [List.take_succ_cons, Dfa.follow] at hf
    rw [Dfa.longestAccept] at h
    cases hout : (d.deref cur).OutgoingFor sym with
    | none => simp [hout] at hf
    | some next =>
      simp only [hout] at hf h
      cases hla : d.longestAccept next rest with
      | some p => simp [hla] at h
      | none =>
        simp only [hla] at h
        by_cases hm : m = 0
        · subst hm
          simp [Dfa.follow] at hf
          subst hf
          by_contra hacc
          simp at hacc
          simp [hacc] at h
        · exact ih next hla m q2 (by omega) (by simpa using h2) hf

theorem longestAccept_some {S V : Type} [DecidableEq S] [Inhabited V] (d : Dfa S V)
    (w : List S) :
    ∀ cur k q, d.longestAccept cur w = some (k, q) →
      1 ≤ k ∧ k ≤ d.readLen cur w ∧ d.follow cur (w.take k) = some q ∧
      (d.deref q).IsAccepting = true ∧
      ∀ m q2, k < m → m ≤ w.length → d.follow cur (w.take m) = some q2 →
        (d.deref q2).IsAccepting = false := by
  induction w with
  | nil => intro cur k q h; simp [Dfa.longestAccept] at h
  | cons sym rest ih =>
    intro cur k q h
    rw [Dfa.longestAccept] at h
    cases hout : (d.deref cur).OutgoingFor sym with
    | none => simp [hout] at h
    | some next =>
      simp only [hout] at h
      cases hla : d.longestAccept next rest with
      | some p =>
        obtain ⟨k1, q1⟩ := p
        simp only [hla, Option.some.injEq, Prod.mk.injEq] at h
        obtain ⟨rfl, rfl⟩ := h
        obtain ⟨h1, h2, h3, h4, h5⟩ := ih next k1 q1 hla
        refine ⟨by omega, ?_, ?_, h4, ?_⟩
        · rw [Dfa.readLen]; simp only [hout]; omega
        · rw [List.take_succ_cons, Dfa.follow]; simp only [hout]; exact h3
        · intro m q2 hm hm2 hf
          obtain ⟨m, rfl⟩ : ∃ j, m = j + 1 := ⟨m - 1, by omega⟩
          rw [List.take_succ_cons, Dfa.follow] at hf
          simp only [hout] at hf
          exact h5 m q2 (by omega) (by simpa using hm2) hf
      | none =>
        simp only [hla] at h
        by_cases hacc : (d.deref next).IsAccepting = true
        · simp only [hacc, if_true, Option.some.injEq, Prod.mk.injEq] at h
          obtain ⟨rfl, rfl⟩ := h
          refine ⟨by omega, ?_, ?_, hacc, ?_⟩
          · rw [Dfa.readLen]; simp only [hout]; omega
          · simp [Dfa.follow, hout]
          · intro m q2 hm hm2 hf
            obtain ⟨m, rfl⟩ : ∃ j, m = j + 1 := ⟨m - 1, by omega⟩
            rw [List.take_succ_cons, Dfa.follow] at hf
            simp only [hout] at hf
            exact longestAccept_none d rest next hla m q2 (by omega) (by simpa using hm2) hf
        · simp [hacc] at h

end dfa

namespace scanner

theorem traced_list_read_some {S : Type} (input : List S) (c : Nat) (log : List ReaderCall)
    (sym : S) (h : input[c]? = some sym) :
    (traced (listReader S)).ReadSymbol { inner := { input := input, cursor := c }, calls := log }
      = (some sym, { inner := { input := input, cursor := c + 1 },
                     calls := log ++ [ReaderCall.read true] }) := by
  simp [traced, listReader, ListReader.ReadSymbol, h]

theorem traced_list_read_none {S : Type} (input : List S) (c : Nat) (log : List ReaderCall)
    (h : input[c]? = none) :
    (traced (listReader S)).ReadSymbol { inner := { input := input, cursor := c }, calls := log }
      = (none, { inner := { input := input, cursor := c },
                 calls := log ++ [ReaderCall.read false] }) := by
  simp [traced, listReader, ListReader.ReadSymbol, h]

theorem traced_list_unread {S : Type} (input : List S) (c : Nat) (log : List ReaderCall)
    (h : c ≠ 0) :
    ((traced (listReader S)).UnreadSymbol
        { inner := { input := input, cursor := c }, calls := log }).2
      = { inner := { input := input, cursor := c - 1 }, calls := log ++ [ReaderCall.unread] } := by
  simp [traced, listReader, ListReader.UnreadSymbol, h]

theorem unreadTimes_traced_list {S : Type} (k : Nat) (input : List S) (c : Nat)
    (log : List ReaderCall) (h : k ≤ c) :
    unreadTimes (traced (listReader S)) k { inner := { input := input, cursor := c }, calls := log }
      = { inner := { input := input, cursor := c - k },
          calls := log ++ List.replicate k ReaderCall.unread } := by
  induction k generalizing c log with
  | zero => simp [unreadTimes]
  | succ k ih =>
    have hc : c ≠ 0 := by omega
    rw [unreadTimes, traced_list_unread input c log hc, ih (c - 1) _ (by omega)]
    simp [List.replicate_succ, Nat.sub_sub, Nat.add_comm]

/-- The read loop of `NextToken` on a list-backed reader with a call log, in closed form. -/
theorem scanLoop_traced_list {S V : Type} [DecidableEq S] [Inhabited V] (s : Scanner S V)
    (input : List S) (w : List S) :
    ∀ (fuel c : Nat) (log : List ReaderCall) (cur : Nat) (consumed accept : Int) (v : V),
      input.drop c = w → w.length < fuel →
      ∃ fin, s.scanLoop (traced (listReader S)) fuel
        { currentState := cur, consumedSymbols := consumed, acceptSymbolCount := accept,
          lastAcceptVal := v,
          rdr := { inner := { input := input, cursor := c }, calls := log } }
        = some
        { currentState := fin,
          consumedSymbols := consumed + (s.machine.readLen cur w : Nat),
          acceptSymbolCount :=
            match s.machine.longestAccept cur w with
            | some (k, _) => consumed + (k : Nat)
            | none => accept,
          lastAcceptVal :=
            match s.machine.longestAccept cur w with
            | some (_, q) => (s.machine.deref q).AcceptValue
            | none => v,
          rdr := { inner := { input := input, cursor := c + s.machine.readLen cur w },
                   calls := log ++ List.replicate (s.machine.readLen cur w) (ReaderCall.read true)
                     ++ (if s.machine.runsOut cur w then [ReaderCall.read false] else []) } } := by
  induction w with
  | nil =>
    intro fuel c log cur consumed accept v hw hf
    obtain ⟨fuel, rfl⟩ : ∃ f, fuel = f + 1 := ⟨fuel - 1, by simp at hf; omega⟩
    have hc : input[c]? = none := by
      have : input.length ≤ c := by
        have := congrArg List.length hw; simp at this; omega
      simp [this]
    refine ⟨cur, ?_⟩
    rw [Scanner.scanLoop, traced_list_read_none input c log hc]
    simp [dfa.Dfa.readLen, dfa.Dfa.longestAccept, dfa.Dfa.runsOut]
  | cons sym rest ih =>
    intro fuel c log cur consumed accept v hw hf
    obtain ⟨fuel, rfl⟩ : ∃ f, fuel = f + 1 := ⟨fuel - 1, by simp at hf; omega⟩
    have hlt : c < input.length := by
      have := congrArg List.length hw; simp at this; omega
    have hc : input[c]? = some sym := by
      have h1 : (input.drop c)[0]? = some sym := by rw [hw]; simp
      simpa using h1
    have hrest : input.drop (c + 1) = rest := by
      have : input.drop (c + 1) = (input.drop c).drop 1 := by simp [List.drop_drop, Nat.add_comm]
      rw [this, hw]; rfl
    have hf2 : rest.length < fuel := by simp at hf; omega
    rw [Scanner.scanLoop, traced_list_read_some input c log sym hc]
    cases hout : (s.machine.deref cur).OutgoingFor sym with
    | none =>
      refine ⟨cur, ?_⟩
      simp [dfa.Dfa.readLen, dfa.Dfa.longestAccept, dfa.Dfa.runsOut, hout]
    | some next =>
      by_cases hacc : (s.machine.deref next).IsAccepting = true
      · obtain ⟨fin, hfin⟩ := ih fuel (c + 1) (log ++ [ReaderCall.read true]) next (consumed + 1)
          (consumed + 1) ((s.machine.deref next).AcceptValue) hrest hf2
        refine ⟨fin, ?_⟩
        simp only [hout, hacc, if_true]
        rw [hfin]
        simp only [dfa.Dfa.readLen, dfa.Dfa.longestAccept, dfa.Dfa.runsOut, hout, hacc]
        cases hla : s.machine.longestAccept next rest with
        | none =>
          simp [List.replicate_succ]
          try omega
        | some p =>
          obtain ⟨k, q⟩ := p
          simp [List.replicate_succ]
          try omega
      · obtain ⟨fin, hfin⟩ := ih fuel (c + 1) (log ++ [ReaderCall.read true]) next (consumed + 1)
          accept v hrest hf2
        refine ⟨fin, ?_⟩
        simp only [hout, hacc]
        simp only [Bool.false_eq_true, if_false]
        rw [hfin]
        simp only [dfa.Dfa.readLen, dfa.Dfa.longestAccept, dfa.Dfa.runsOut, hout, hacc]
        cases hla : s.machine.longestAccept next rest with
        | none =>
          simp [List.replicate_succ]
          try omega
        | some p =>
          obtain ⟨k, q⟩ := p
          simp [List.replicate_succ]
          try omega

theorem NextToken_traced_list_match {S V : Type} [DecidableEq S] [Inhabited V] (s : Scanner S V)
    (input : List S) (c : Nat) (log : List ReaderCall) (fuel k q : Nat)
    (hf : input.length - c < fuel)
    (hla : s.machine.longestAccept s.machine.Start (input.drop c) = some (k, q)) :
    s.NextToken (traced (listReader S)) fuel
        { inner := { input := input, cursor := c }, calls := log }
      = some ((s.machine.deref q).AcceptValue,
          { inner := { input := input, cursor := c + k },
            calls := log
              ++ List.replicate (s.machine.readLen s.machine.Start (input.drop c))
                  (ReaderCall.read true)
              ++ (if s.machine.runsOut s.machine.Start (input.drop c)
                  then [ReaderCall.read false] else [])
              ++ List.replicate (s.machine.readLen s.machine.Start (input.drop c) - k)
                  ReaderCall.unread }) := by
  obtain ⟨h1, h2, -, -, -⟩ := dfa.longestAccept_some s.machine _ _ _ _ hla
  obtain ⟨fin, hfin⟩ := scanLoop_traced_list s input (input.drop c) fuel c log s.machine.Start 0
    (-1) default rfl (by simpa using hf)
  rw [Scanner.NextToken, hfin]
  simp only [hla]
  have e1 : ¬ ((0 : Int) + ((s.machine.readLen s.machine.Start (input.drop c) : Nat) : Int) = 0) := by
    omega
  have e2 : ((0 : Int) + ((k : Nat) : Int)) ≠ -1 := by omega
  have e3 : ((0 : Int) + ((s.machine.readLen s.machine.Start (input.drop c) : Nat) : Int)
      - (0 + ((k : Nat) : Int))).toNat = s.machine.readLen s.machine.Start (input.drop c) - k := by
    omega
  rw [if_neg e1, if_pos e2, e3, unreadTimes_traced_list _ _ _ _ (by omega)]
  congr 4
  omega

theorem NextToken_traced_list_illegal {S V : Type} [DecidableEq S] [Inhabited V]
    (s : Scanner S V) (input : List S) (c : Nat) (log : List ReaderCall) (fuel : Nat)
    (hc : c < input.length) (hf : input.length - c < fuel)
    (hla : s.machine.longestAccept s.machine.Start (input.drop c) = none) :
    s.NextToken (traced (listReader S)) fuel
        { inner := { input := input, cursor := c }, calls := log }
      = some (s.illegal,
          { inner := { input := input, cursor := c + 1 },
            calls := log
              ++ List.replicate (s.machine.readLen s.machine.Start (input.drop c))
                  (ReaderCall.read true)
              ++ (if s.machine.runsOut s.machine.Start (input.drop c)
                  then [ReaderCall.read false] else [])
              ++ List.replicate (s.machine.readLen s.machine.Start (input.drop c) - 1)
                  ReaderCall.unread }) := by
  have hne : input.drop c ≠ [] := by
    intro h; have := congrArg List.length h; simp at this; omega
  have h1 := dfa.readLen_pos s.machine _ s.machine.Start hne
  obtain ⟨fin, hfin⟩ := scanLoop_traced_list s input (input.drop c) fuel c log s.machine.Start 0
    (-1) default rfl (by simpa using hf)
  rw [Scanner.NextToken, hfin]
  simp only [hla]
  have e1 : ¬ ((0 : Int) + ((s.machine.readLen s.machine.Start (input.drop c) : Nat) : Int) = 0) := by
    omega
  have e3 : ((0 : Int) + ((s.machine.readLen s.machine.Start (input.drop c) : Nat) : Int)
      - 1).toNat = s.machine.readLen s.machine.Start (input.drop c) - 1 := by
    omega
  rw [if_neg e1, if_neg (by simp), e3, unreadTimes_traced_list _ _ _ _ (by omega)]
  congr 4
  omega

theorem NextToken_traced_list_eof {S V : Type} [DecidableEq S] [Inhabited V]
    (s : Scanner S V) (input : List S) (c : Nat) (log : List ReaderCall) (fuel : Nat)
    (hc : input.length ≤ c) (hf : 0 < fuel) :
    s.NextToken (traced (listReader S)) fuel
        { inner := { input := input, cursor := c }, calls := log }
      = some (s.eof,
          { inner := { input := input, cursor := c }, calls := log ++ [ReaderCall.read false] }) := by
  have hd : input.drop c = [] := by simp [hc]
  obtain ⟨fin, hfin⟩ := scanLoop_traced_list s input (input.drop c) fuel c log s.machine.Start 0
    (-1) default rfl (by simpa [hd] using hf)
  rw [Scanner.NextToken, hfin]
  simp [hd, dfa.Dfa.readLen, dfa.Dfa.runsOut]

/-- Forgetting the log of a traced reader commutes with the scan loop. -/
theorem scanLoop_traced_erase {S V R : Type} [DecidableEq S] [Inhabited V] (s : Scanner S V)
    (rd : SymbolReader S R) :
    ∀ (fuel : Nat) (vars : scanVars V (Traced R)),
      (s.scanLoop (traced rd) fuel vars).map
          (fun x => ({ currentState := x.currentState, consumedSymbols := x.consumedSymbols,
                       acceptSymbolCount := x.acceptSymbolCount, lastAcceptVal := x.lastAcceptVal,
                       rdr := x.rdr.inner } : scanVars V R))
        = s.scanLoop rd fuel
            { currentState := vars.currentState, consumedSymbols := vars.consumedSymbols,
              acceptSymbolCount := vars.acceptSymbolCount, lastAcceptVal := vars.lastAcceptVal,
              rdr := vars.rdr.inner } := by
  intro fuel
  induction fuel with
  | zero => intro vars; simp [Scanner.scanLoop]
  | succ fuel ih =>
    intro vars
    rw [Scanner.scanLoop, Scanner.scanLoop]
    simp only [traced]
    cases hr : rd.ReadSymbol vars.rdr.inner with
    | mk o r2 =>
      cases o with
      | none => simp
      | some sym =>
        simp only
        cases hout : (s.machine.deref vars.currentState).OutgoingFor sym with
        | none => simp
        | some next =>
          simp only
          by_cases hacc : (s.machine.deref next).IsAccepting = true
          · simp only [hacc, if_true]
            exact ih _
          · simp only [hacc]
            exact ih _

theorem unreadTimes_traced_erase {S R : Type} (rd : SymbolReader S R) :
    ∀ (k : Nat) (t : Traced R), (unreadTimes (traced rd) k t).inner = unreadTimes rd k t.inner := by
  intro k
  induction k with
  | zero => intro t; rfl
  | succ k ih => intro t; rw [unreadTimes, unreadTimes, ih]; rfl

theorem NextToken_traced_erase {S V R : Type} [DecidableEq S] [Inhabited V] (s : Scanner S V)
    (rd : SymbolReader S R) (fuel : Nat) (t : Traced R) :
    (s.NextToken (traced rd) fuel t).map (fun x => (x.1, x.2.inner))
      = s.NextToken rd fuel t.inner := by
  have h := scanLoop_traced_erase s rd fuel
    { currentState := s.machine.Start, consumedSymbols := 0, acceptSymbolCount := -1,
      lastAcceptVal := default, rdr := t }
  rw [Scanner.NextToken, Scanner.NextToken]
  simp only at h
  rw [← h]
  cases hl : s.scanLoop (traced rd) fuel
      { currentState := s.machine.Start, consumedSymbols := 0, acceptSymbolCount := -1,
        lastAcceptVal := default, rdr := t } with
  | none => simp
  | some vars =>
    simp only [Option.map_some']
    split_ifs <;> simp [unreadTimes_traced_erase]

theorem longestAccept_of_max {S V : Type} [DecidableEq S] [Inhabited V] (d : dfa.Dfa S V)
    (w : List S) (cur n r : Nat) (h1 : 1 ≤ n) (h2 : n ≤ w.length)
    (hrun : d.follow cur (w.take n) = some r) (hacc : (d.deref r).IsAccepting = true)
    (hmax : ∀ m r2, n < m → m ≤ w.length → d.follow cur (w.take m) = some r2 →
      (d.deref r2).IsAccepting = false) :
    d.longestAccept cur w = some (n, r) := by
  cases hla : d.longestAccept cur w with
  | none =>
    have := dfa.longestAccept_none d w cur hla n r h1 h2 hrun
    rw [hacc] at this; exact absurd this (by simp)
  | some p =>
    obtain ⟨k, q⟩ := p
    obtain ⟨k1, k2, k3, k4, k5⟩ := dfa.longestAccept_some d w cur k q hla
    have hkw : k ≤ w.length := le_trans k2 (dfa.readLen_le d w cur)
    rcases Nat.lt_trichotomy k n with hlt | heq | hgt
    · have := k5 n r hlt h2 hrun
      rw [hacc] at this; exact absurd this (by simp)
    · subst heq
      rw [hrun] at k3
      cases k3; rfl
    · have := hmax k q hgt hkw k3
      rw [k4] at this; exact absurd this (by simp)

theorem longestAccept_of_none {S V : Type} [DecidableEq S] [Inhabited V] (d : dfa.Dfa S V)
    (w : List S) (cur : Nat)
    (hno : ∀ n r, 1 ≤ n → n ≤ w.length → d.follow cur (w.take n) = some r →
      (d.deref r).IsAccepting = false) :
    d.longestAccept cur w = none := by
  cases hla : d.longestAccept cur w with
  | none => rfl
  | some p =>
    obtain ⟨k, q⟩ := p
    obtain ⟨k1, k2, k3, k4, k5⟩ := dfa.longestAccept_some d w cur k q hla
    have hkw : k ≤ w.length := le_trans k2 (dfa.readLen_le d w cur)
    have := hno k q k1 hkw k3
    rw [k4] at this; exact absurd this (by simp)

/-- C2: on a list-backed reader with non-empty remaining input `w`, `NextToken` returns the
`AcceptValue` of the state reached by the longest prefix `w[0..n)`, `n ≥ 1`, along which
`OutgoingFor` from the start state is defined at every step and ends in an accepting state;
when no such prefix exists it returns `illegal`. -/
theorem NextToken_returns_longest_match {S V : Type} [DecidableEq S] [Inhabited V]
    (s : Scanner S V) (input : List S) (cursor fuel : Nat)
    (hne : cursor < input.length) (hfuel : input.length - cursor < fuel) :
    (∀ n r, 1 ≤ n → n ≤ (input.drop cursor).length →
        s.machine.follow s.machine.Start ((input.drop cursor).take n) = some r →
        (s.machine.deref r).IsAccepting = true →
        (∀ m r2, n < m → m ≤ (input.drop cursor).length →
          s.machine.follow s.machine.Start ((input.drop cursor).take m) = some r2 →
          (s.machine.deref r2).IsAccepting = false) →
        (s.NextToken (listReader S) fuel { input := input, cursor := cursor }).map Prod.fst
          = some (s.machine.deref r).AcceptValue)
    ∧ ((∀ n r, 1 ≤ n → n ≤ (input.drop cursor).length →
          s.machine.follow s.machine.Start ((input.drop cursor).take n) = some r →
          (s.machine.deref r).IsAccepting = false) →
        (s.NextToken (listReader S) fuel { input := input, cursor := cursor }).map Prod.fst
          = some s.illegal) := by
  constructor
  · intro n r h1 h2 hrun hacc hmax
    have hla := longestAccept_of_max s.machine _ _ n r h1 h2 hrun hacc hmax
    have h := NextToken_traced_list_match s input cursor [] fuel n r hfuel hla
    rw [← NextToken_traced_erase s (listReader S) fuel
      { inner := { input := input, cursor := cursor }, calls := [] }, h]
    rfl
  · intro hno
    have hla := longestAccept_of_none s.machine _ _ hno
    have h := NextToken_traced_list_illegal s input cursor [] fuel hne hfuel hla
    rw [← NextToken_traced_erase s (listReader S) fuel
      { inner := { input := input, cursor := cursor }, calls := [] }, h]
    rfl

/-- Witness of C2: on "aba" the longest accepted prefix is "ab" (value 7); on "bba" no prefix is
accepted and the token is the illegal sentinel 100. -/
theorem NextToken_returns_longest_match_witness :
    (demoScanner.NextToken (listReader Char) 4 { input := ['a', 'b', 'a'], cursor := 0 }).map
        Prod.fst = some 7
    ∧ (demoScanner.NextToken (listReader Char) 4 { input := ['b', 'b', 'a'], cursor := 0 }).map
        Prod.fst = some 100 :=
  ⟨(NextToken_returns_longest_match demoScanner ['a', 'b', 'a'] 0 4 (by decide) (by decide)).1
      2 1 (by decide) (by decide) (by decide) (by decide)
      (by
        intro m r2 hm hm2 hrun
        have hm3 : m = 3 := by simp at hm2; omega
        subst hm3
        have e : demoScanner.machine.follow demoScanner.machine.Start
            (List.take 3 (List.drop 0 ['a', 'b', 'a'])) = some 2 := by decide
        rw [e] at hrun
        cases hrun
        decide),
    (NextToken_returns_longest_match demoScanner ['b', 'b', 'a'] 0 4 (by decide) (by decide)).2
      (by
        intro n r hn hn2 hrun
        have : n = 1 ∨ n = 2 ∨ n = 3 := by simp at hn2; omega
        rcases this with rfl | rfl | rfl <;> simp [dfa.Dfa.follow, demoScanner, dfa.Dfa.deref, dfa.State.OutgoingFor, gomap.get, dfa.Dfa.Start] at hrun)⟩

theorem readCount_loop_calls (log : List ReaderCall) (L : Nat) (b : Bool) :
    readCount (log ++ List.replicate L (ReaderCall.read true)
      ++ (if b = true then [ReaderCall.read false] else [])) = readCount log + L := by
  cases b <;> simp [readCount, List.count_append, List.count_replicate, List.count_cons]

theorem unreadCount_loop_calls (log : List ReaderCall) (L : Nat) (b : Bool) :
    unreadCount (log ++ List.replicate L (ReaderCall.read true)
      ++ (if b = true then [ReaderCall.read false] else [])) = unreadCount log := by
  cases b <;> simp [unreadCount, List.count_append, List.count_replicate, List.count_cons]

/-- C7: when the longest accepting prefix of the remaining input has length `n ≥ 1`, the loop of
`NextToken` ends with `acceptSymbolCount = n`, having made no `UnreadSymbol` call, and
`NextToken` returns the matched value after exactly `consumedSymbols - acceptSymbolCount` calls
of `UnreadSymbol`; the cursor of the list-backed reader ends `n` symbols past where the call
started. -/
theorem NextToken_match_pushes_back_lookahead {S V : Type} [DecidableEq S] [Inhabited V]
    (s : Scanner S V) (input : List S) (cursor fuel : Nat) (log : List ReaderCall) (n r : Nat)
    (hfuel : input.length - cursor < fuel)
    (h1 : 1 ≤ n) (h2 : n ≤ (input.drop cursor).length)
    (hrun : s.machine.follow s.machine.Start ((input.drop cursor).take n) = some r)
    (hacc : (s.machine.deref r).IsAccepting = true)
    (hmax : ∀ m r2, n < m → m ≤ (input.drop cursor).length →
      s.machine.follow s.machine.Start ((input.drop cursor).take m) = some r2 →
      (s.machine.deref r2).IsAccepting = false) :
    ∃ vars : scanVars V (Traced (ListReader S)),
      s.scanLoop (traced (listReader S)) fuel
          { currentState := s.machine.Start, consumedSymbols := 0, acceptSymbolCount := -1,
            lastAcceptVal := default,
            rdr := { inner := { input := input, cursor := cursor }, calls := log } } = some vars
      ∧ vars.acceptSymbolCount = (n : Int)
      ∧ vars.acceptSymbolCount ≤ vars.consumedSymbols
      ∧ readCount vars.rdr.calls = readCount log + vars.consumedSymbols.toNat
      ∧ unreadCount vars.rdr.calls = unreadCount log
      ∧ s.NextToken (traced (listReader S)) fuel
          { inner := { input := input, cursor := cursor }, calls := log }
        = some ((s.machine.deref r).AcceptValue,
            { inner := { input := input, cursor := cursor + n },
              calls := vars.rdr.calls ++ List.replicate
                (vars.consumedSymbols - vars.acceptSymbolCount).toNat ReaderCall.unread }) := by
  have hla := longestAccept_of_max s.machine _ _ n r h1 h2 hrun hacc hmax
  obtain ⟨-, k2, -, -, -⟩ := dfa.longestAccept_some s.machine _ _ _ _ hla
  obtain ⟨fin, hfin⟩ := scanLoop_traced_list s input (input.drop cursor) fuel cursor log
    s.machine.Start 0 (-1) default rfl (by simpa using hfuel)
  refine ⟨_, hfin, ?_, ?_, ?_, ?_, ?_⟩
  · simp [hla]
  · simp only [hla]; omega
  · simp only [readCount_loop_calls]; omega
  · simp only [unreadCount_loop_calls]
  · rw [NextToken_traced_list_match s input cursor log fuel n r hfuel hla]
    simp only [hla]
    congr 5
    omega

/-- Witness of C7: on "aba" three symbols are read, the match has length 2 and one symbol is
pushed back. -/
theorem NextToken_match_pushes_back_lookahead_witness :
    ∃ vars : scanVars Nat (Traced (ListReader Char)),
      demoScanner.scanLoop (traced (listReader Char)) 4
          { currentState := demoScanner.machine.Start, consumedSymbols := 0,
            acceptSymbolCount := -1, lastAcceptVal := default,
            rdr := { inner := { input := ['a', 'b', 'a'], cursor := 0 }, calls := [] } }
        = some vars
      ∧ vars.acceptSymbolCount = ((2 : Nat) : Int)
      ∧ vars.acceptSymbolCount ≤ vars.consumedSymbols
      ∧ readCount vars.rdr.calls = readCount [] + vars.consumedSymbols.toNat
      ∧ unreadCount vars.rdr.calls = unreadCount []
      ∧ demoScanner.NextToken (traced (listReader Char)) 4
          { inner := { input := ['a', 'b', 'a'], cursor := 0 }, calls := [] }
        = some ((demoScanner.machine.deref 1).AcceptValue,
            { inner := { input := ['a', 'b', 'a'], cursor := 0 + 2 },
              calls := vars.rdr.calls ++ List.replicate
                (vars.consumedSymbols - vars.acceptSymbolCount).toNat ReaderCall.unread }) :=
  NextToken_match_pushes_back_lookahead demoScanner ['a', 'b', 'a'] 0 4 [] 2 1
    (by decide) (by decide) (by decide) (by decide) (by decide)
    (by
      intro m r2 hm hm2 hrun
      have hm3 : m = 3 := by simp at hm2; omega
      subst hm3
      have e : demoScanner.machine.follow demoScanner.machine.Start
          (List.take 3 (List.drop 0 ['a', 'b', 'a'])) = some 2 := by decide
      rw [e] at hrun
      cases hrun
      decide)

theorem NextToken_list_eof {S V : Type} [DecidableEq S] [Inhabited V]
    (s : Scanner S V) (input : List S) (c : Nat) (fuel : Nat)
    (hc : input.length ≤ c) (hf : 0 < fuel) :
    s.NextToken (listReader S) fuel { input := input, cursor := c }
      = some (s.eof, { input := input, cursor := c }) := by
  rw [← NextToken_traced_erase s (listReader S) fuel
    { inner := { input := input, cursor := c }, calls := [] },
    NextToken_traced_list_eof s input c [] fuel hc hf]
  rfl

/-- C9: for every scanner and reader, if the first `ReadSymbol` of a `NextToken` call returns an
error, `NextToken` returns `eof`, and the only call it made on the reader is that failed
`ReadSymbol` (no `UnreadSymbol`); on a list-backed reader whose input is exhausted any number
of repeated calls all return `eof`. -/
theorem NextToken_eof_on_read_error {S V R : Type} [DecidableEq S] [Inhabited V]
    (s : Scanner S V) (rd : SymbolReader S R) (rdr : R) (log : List ReaderCall) (fuel : Nat)
    (hfuel : 0 < fuel) (herr : (rd.ReadSymbol rdr).1 = none) :
    s.NextToken (traced rd) fuel { inner := rdr, calls := log }
        = some (s.eof, { inner := (rd.ReadSymbol rdr).2,
                         calls := log ++ [ReaderCall.read false] })
    ∧ ∀ (input : List S) (cursor k : Nat), input.length ≤ cursor →
        readN s (listReader S) fuel k { input := input, cursor := cursor }
          = some (List.replicate k s.eof, { input := input, cursor := cursor }) := by
  constructor
  · obtain ⟨f, rfl⟩ : ∃ f, fuel = f + 1 := ⟨fuel - 1, by omega⟩
    rw [Scanner.NextToken, Scanner.scanLoop]
    simp [traced, herr]
  · intro input cursor k hc
    induction k with
    | zero => rfl
    | succ k ih =>
      rw [readN, NextToken_list_eof s input cursor fuel hc hfuel]
      simp only [ih]
      rfl

/-- Witness of C9: a reader at the end of "a" gives `eof`, three times in a row. -/
theorem NextToken_eof_on_read_error_witness :
    (demoScanner.NextToken (traced (listReader Char)) 1
        { inner := { input := ['a'], cursor := 1 }, calls := [] }
        = some (demoScanner.eof,
            { inner := ((listReader Char).ReadSymbol { input := ['a'], cursor := 1 }).2,
              calls := [] ++ [ReaderCall.read false] }))
    ∧ readN demoScanner (listReader Char) 1 3 { input := ['a'], cursor := 1 }
        = some (List.replicate 3 demoScanner.eof, { input := ['a'], cursor := 1 }) :=
  ⟨(NextToken_eof_on_read_error demoScanner (listReader Char) { input := ['a'], cursor := 1 } []
      1 (by decide) (by decide)).1,
    (NextToken_eof_on_read_error demoScanner (listReader Char) { input := ['a'], cursor := 1 } []
      1 (by decide) (by decide)).2 ['a'] 1 3 (by decide)⟩

/-- C10: progress: for every scanner (whatever its DFA, also with an accepting start state) and
every non-empty remaining input on a list-backed reader, one `NextToken` call returns with the
cursor at least one symbol further: successful reads minus unreads is at least 1. -/
theorem NextToken_progress {S V : Type} [DecidableEq S] [Inhabited V]
    (s : Scanner S V) (input : List S) (cursor fuel : Nat) (log : List ReaderCall)
    (hne : cursor < input.length) (hfuel : input.length - cursor < fuel) :
    ∃ (token : V) (rdr : Traced (ListReader S)) (calls : List ReaderCall),
      s.NextToken (traced (listReader S)) fuel
          { inner := { input := input, cursor := cursor }, calls := log } = some (token, rdr)
      ∧ rdr.calls = log ++ calls
      ∧ rdr.inner.input = input
      ∧ rdr.inner.cursor + unreadCount calls = cursor + readCount calls
      ∧ cursor + 1 ≤ rdr.inner.cursor := by
  have hnil : input.drop cursor ≠ [] := by
    intro h; have := congrArg List.length h; simp at this; omega
  have hpos := dfa.readLen_pos s.machine _ s.machine.Start hnil
  cases hla : s.machine.longestAccept s.machine.Start (input.drop cursor) with
  | none =>
    refine ⟨_, _,
      List.replicate (s.machine.readLen s.machine.Start (input.drop cursor)) (ReaderCall.read true)
        ++ (if s.machine.runsOut s.machine.Start (input.drop cursor)
            then [ReaderCall.read false] else [])
        ++ List.replicate (s.machine.readLen s.machine.Start (input.drop cursor) - 1)
            ReaderCall.unread,
      NextToken_traced_list_illegal s input cursor log fuel hne hfuel hla, ?_, rfl,
      ?_, le_refl _⟩
    · simp only [List.append_assoc]
    · cases s.machine.runsOut s.machine.Start (input.drop cursor) <;>
        simp [unreadCount, readCount, List.count_append, List.count_replicate, List.count_cons] <;>
        omega
  | some p =>
    obtain ⟨k, q⟩ := p
    obtain ⟨k1, k2, -, -, -⟩ := dfa.longestAccept_some s.machine _ _ _ _ hla
    refine ⟨_, _,
      List.replicate (s.machine.readLen s.machine.Start (input.drop cursor)) (ReaderCall.read true)
        ++ (if s.machine.runsOut s.machine.Start (input.drop cursor)
            then [ReaderCall.read false] else [])
        ++ List.replicate (s.machine.readLen s.machine.Start (input.drop cursor) - k)
            ReaderCall.unread,
      NextToken_traced_list_match s input cursor log fuel k q hfuel hla, ?_, rfl,
      ?_, ?_⟩
    · simp only [List.append_assoc]
    · cases s.machine.runsOut s.machine.Start (input.drop cursor) <;>
        simp [unreadCount, readCount, List.count_append, List.count_replicate, List.count_cons] <;>
        omega
    · simp only; omega

/-- Witness of C10 on the input "aba". -/
theorem NextToken_progress_witness :
    ∃ (token : Nat) (rdr : Traced (ListReader Char)) (calls : List ReaderCall),
      demoScanner.NextToken (traced (listReader Char)) 4
          { inner := { input := ['a', 'b', 'a'], cursor := 0 }, calls := [] } = some (token, rdr)
      ∧ rdr.calls = [] ++ calls
      ∧ rdr.inner.input = ['a', 'b', 'a']
      ∧ rdr.inner.cursor + unreadCount calls = 0 + readCount calls
      ∧ 0 + 1 ≤ rdr.inner.cursor :=
  NextToken_progress demoScanner ['a', 'b', 'a'] 0 4 [] (by decide) (by decide)

/-! ### Repeated calls -/

theorem NextToken_list_match {S V : Type} [DecidableEq S] [Inhabited V] (s : Scanner S V)
    (input : List S) (c fuel k q : Nat) (hf : input.length - c < fuel)
    (hla : s.machine.longestAccept s.machine.Start (input.drop c) = some (k, q)) :
    s.NextToken (listReader S) fuel { input := input, cursor := c }
      = some ((s.machine.deref q).AcceptValue, { input := input, cursor := c + k }) := by
  rw [← NextToken_traced_erase s (listReader S) fuel
    { inner := { input := input, cursor := c }, calls := [] },
    NextToken_traced_list_match s input c [] fuel k q hf hla]
  rfl

theorem NextToken_list_illegal {S V : Type} [DecidableEq S] [Inhabited V] (s : Scanner S V)
    (input : List S) (c fuel : Nat) (hc : c < input.length) (hf : input.length - c < fuel)
    (hla : s.machine.longestAccept s.machine.Start (input.drop c) = none) :
    s.NextToken (listReader S) fuel { input := input, cursor := c }
      = some (s.illegal, { input := input, cursor := c + 1 }) := by
  rw [← NextToken_traced_erase s (listReader S) fuel
    { inner := { input := input, cursor := c }, calls := [] },
    NextToken_traced_list_illegal s input c [] fuel hc hf hla]
  rfl

/-- One call on a list-backed reader: the token depends on the remaining input only, and the
cursor moves by at least one and at most to the end of the input. -/
theorem NextToken_list_step {S V : Type} [DecidableEq S] [Inhabited V] (s : Scanner S V)
    (input : List S) (c fuel : Nat) (hc : c < input.length) (hf : input.length - c < fuel) :
    ∃ (v : V) (m : Nat), 1 ≤ m ∧ c + m ≤ input.length
      ∧ s.NextToken (listReader S) fuel { input := input, cursor := c }
          = some (v, { input := input, cursor := c + m })
      ∧ s.NextToken (listReader S) ((input.drop c).length + 1)
          { input := input.drop c, cursor := 0 } = some (v, { input := input.drop c, cursor := m })
      ∧ ((∃ q, s.machine.longestAccept s.machine.Start (input.drop c) = some (m, q)
              ∧ v = (s.machine.deref q).AcceptValue)
          ∨ (s.machine.longestAccept s.machine.Start (input.drop c) = none ∧ m = 1
              ∧ v = s.illegal)) := by
  have hlen : (input.drop c).length = input.length - c := by simp
  cases hla : s.machine.longestAccept s.machine.Start (input.drop c) with
  | none =>
    refine ⟨s.illegal, 1, le_refl _, by omega,
      NextToken_list_illegal s input c fuel hc hf hla, ?_, Or.inr ⟨rfl, rfl, rfl⟩⟩
    have := NextToken_list_illegal s (input.drop c) 0 ((input.drop c).length + 1)
      (by rw [hlen]; omega) (by omega) (by simpa using hla)
    simpa using this
  | some p =>
    obtain ⟨k, q⟩ := p
    obtain ⟨k1, k2, -, -, -⟩ := dfa.longestAccept_some s.machine _ _ _ _ hla
    have k3 := dfa.readLen_le s.machine (input.drop c) s.machine.Start
    refine ⟨_, k, k1, by omega, NextToken_list_match s input c fuel k q hf hla, ?_,
      Or.inl ⟨q, rfl, rfl⟩⟩
    have := NextToken_list_match s (input.drop c) 0 ((input.drop c).length + 1) k q
      (by omega) (by simpa using hla)
    simpa using this

theorem readN_list_exhausted {S V : Type} [DecidableEq S] [Inhabited V] (s : Scanner S V)
    (input : List S) (c fuel : Nat) (hc : input.length ≤ c) (hf : 0 < fuel) :
    ∀ k, readN s (listReader S) fuel k { input := input, cursor := c }
      = some (List.replicate k s.eof, { input := input, cursor := c }) := by
  intro k
  induction k with
  | zero => rfl
  | succ k ih =>
    rw [readN, NextToken_list_eof s input c fuel hc hf]
    simp only [ih]
    rfl

/-- C11: for every scanner and every input on a list-backed reader, any number `total` of
repeated `NextToken` calls returns (the read loop given fuel above the remaining length): with
`n` symbols remaining, the call number `n + 1` and every later call (index `i ≥ n`, counting
from zero) return the `eof` sentinel. -/
theorem readN_reaches_eof {S V : Type} [DecidableEq S] [Inhabited V] (s : Scanner S V)
    (input : List S) (fuel total cursor : Nat) (hfuel : input.length - cursor < fuel) :
    ∃ (tokens : List V) (rdr : ListReader S),
      readN s (listReader S) fuel total { input := input, cursor := cursor }
        = some (tokens, rdr)
      ∧ tokens.length = total
      ∧ ∀ i, input.length - cursor ≤ i → i < total → tokens[i]? = some s.eof := by
  induction total generalizing cursor with
  | zero =>
    exact ⟨[], _, rfl, rfl, fun i _ hi => absurd hi (by omega)⟩
  | succ total ih =>
    by_cases hc : cursor < input.length
    · obtain ⟨v, m, hm1, hm2, hcall, -, -⟩ := NextToken_list_step s input cursor fuel hc hfuel
      obtain ⟨tokens, rdr, hr, hl, hi⟩ := ih (cursor + m) (by omega)
      refine ⟨v :: tokens, rdr, ?_, by simp [hl], ?_⟩
      · rw [readN, hcall]
        simp only [hr]
      · intro i h1 h2
        obtain ⟨j, rfl⟩ : ∃ j, i = j + 1 := ⟨i - 1, by omega⟩
        simp only [List.getElem?_cons_succ]
        exact hi j (by omega) (by omega)
    · rw [readN_list_exhausted s input cursor fuel (by omega) (by omega)]
      refine ⟨_, _, rfl, by simp, ?_⟩
      intro i _ h2
      simp [List.getElem?_replicate, h2]

/-- Witness of C11: five calls on "aba". -/
theorem readN_reaches_eof_witness :
    ∃ (tokens : List Nat) (rdr : ListReader Char),
      readN demoScanner (listReader Char) 4 5 { input := ['a', 'b', 'a'], cursor := 0 }
        = some (tokens, rdr)
      ∧ tokens.length = 5
      ∧ ∀ i, ['a', 'b', 'a'].length - 0 ≤ i → i < 5 → tokens[i]? = some demoScanner.eof :=
  readN_reaches_eof demoScanner ['a', 'b', 'a'] 4 5 0 (by decide)

theorem tok_nil {S V : Type} [DecidableEq S] [Inhabited V] (s : Scanner S V) :
    ∀ k, tok s k [] = List.replicate k s.eof := by
  intro k
  induction k with
  | zero => rfl
  | succ k ih =>
    rw [tok, NextToken_list_eof s [] 0 _ (le_refl _) (by simp)]
    simp [ih, List.replicate_succ]

theorem readN_list_tok {S V : Type} [DecidableEq S] [Inhabited V] (s : Scanner S V)
    (input : List S) (fuel : Nat) :
    ∀ (k cursor : Nat), input.length - cursor < fuel →
      ∃ rdr : ListReader S,
        readN s (listReader S) fuel k { input := input, cursor := cursor }
          = some (tok s k (input.drop cursor), rdr) := by
  intro k
  induction k with
  | zero => intro cursor _; exact ⟨_, rfl⟩
  | succ k ih =>
    intro cursor hf
    by_cases hc : cursor < input.length
    · obtain ⟨v, m, hm1, hm2, hcall, hfresh, -⟩ :=
        NextToken_list_step s input cursor fuel hc hf
      obtain ⟨rdr, hr⟩ := ih (cursor + m) (by omega)
      refine ⟨rdr, ?_⟩
      rw [readN, hcall, tok, hfresh]
      simp only [hr, List.drop_drop]
    · have hd : input.drop cursor = [] := by simp; omega
      rw [readN_list_exhausted s input cursor fuel (by omega) (by omega), hd, tok_nil]
      exact ⟨_, rfl⟩

/-- C12: on a list-backed reader the tokens of `k` repeated `NextToken` calls are the first `k`
tokens of the greedy tokenization `tok` of the remaining input, where `tok` of the empty input
is `eof` (again and again) and `tok` of a non-empty `w` is `v :: tok (drop m w)` with `v` the
result of a single call on `w` and `m ≥ 1` the number of symbols it commits: the length of the
longest accepted prefix (then `v` is the value of the state reached), or `1` when there is none
(then `v` is `illegal`). -/
theorem readN_eq_tok {S V : Type} [DecidableEq S] [Inhabited V] (s : Scanner S V)
    (input : List S) (fuel k cursor : Nat) (hfuel : input.length - cursor < fuel) :
    (∃ rdr : ListReader S,
        readN s (listReader S) fuel k { input := input, cursor := cursor }
          = some (tok s k (input.drop cursor), rdr))
    ∧ tok s (k + 1) [] = s.eof :: tok s k []
    ∧ ∀ w : List S, w ≠ [] →
        ∃ (v : V) (m : Nat), 1 ≤ m ∧ m ≤ w.length
          ∧ tok s (k + 1) w = v :: tok s k (w.drop m)
          ∧ s.NextToken (listReader S) (w.length + 1) { input := w, cursor := 0 }
              = some (v, { input := w, cursor := m })
          ∧ ((∃ q, s.machine.longestAccept s.machine.Start w = some (m, q)
                  ∧ v = (s.machine.deref q).AcceptValue)
              ∨ (s.machine.longestAccept s.machine.Start w = none ∧ m = 1 ∧ v = s.illegal)) := by
  refine ⟨readN_list_tok s input fuel k cursor hfuel, ?_, ?_⟩
  · rw [tok_nil, tok_nil, List.replicate_succ]
  · intro w hw
    have hpos : 0 < w.length := List.length_pos.2 hw
    obtain ⟨v, m, h1, h2, -, h4, h5⟩ := NextToken_list_step s w 0 (w.length + 1) hpos (by omega)
    simp only [List.drop_zero, zero_add] at h2 h4 h5
    refine ⟨v, m, h1, h2, ?_, h4, h5⟩
    rw [tok, h4]

/-- Witness of C12: four calls on "aba". -/
theorem readN_eq_tok_witness :
    (∃ rdr : ListReader Char,
        readN demoScanner (listReader Char) 4 4 { input := ['a', 'b', 'a'], cursor := 0 }
          = some (tok demoScanner 4 (['a', 'b', 'a'].drop 0), rdr))
    ∧ tok demoScanner (4 + 1) [] = demoScanner.eof :: tok demoScanner 4 []
    ∧ ∀ w : List Char, w ≠ [] →
        ∃ (v : Nat) (m : Nat), 1 ≤ m ∧ m ≤ w.length
          ∧ tok demoScanner (4 + 1) w = v :: tok demoScanner 4 (w.drop m)
          ∧ demoScanner.NextToken (listReader Char) (w.length + 1) { input := w, cursor := 0 }
              = some (v, { input := w, cursor := m })
          ∧ ((∃ q, demoScanner.machine.longestAccept demoScanner.machine.Start w = some (m, q)
                  ∧ v = (demoScanner.machine.deref q).AcceptValue)
              ∨ (demoScanner.machine.longestAccept demoScanner.machine.Start w = none ∧ m = 1
                  ∧ v = demoScanner.illegal)) :=
  readN_eq_tok demoScanner ['a', 'b', 'a'] 4 4 0 (by decide)

theorem unreadTimes_traced_calls {S R : Type} (rd : SymbolReader S R) :
    ∀ (k : Nat) (t : Traced R),
      (unreadTimes (traced rd) k t).calls = t.calls ++ List.replicate k ReaderCall.unread := by
  intro k
  induction k with
  | zero => intro t; simp [unreadTimes]
  | succ k ih =>
    intro t
    rw [unreadTimes, ih]
    simp [traced, List.replicate_succ]

/-- The calls that the read loop makes on an arbitrary reader are `ReadSymbol` calls only, the
loop counts the successful ones, and an accept count it records lies between one and the
number of symbols consumed. -/
theorem scanLoop_traced_log {S V R : Type} [DecidableEq S] [Inhabited V] (s : Scanner S V)
    (rd : SymbolReader S R) :
    ∀ (fuel : Nat) (vars fin : scanVars V (Traced R)),
      s.scanLoop (traced rd) fuel vars = some fin →
      ∃ reads : List ReaderCall,
        fin.rdr.calls = vars.rdr.calls ++ reads
        ∧ (∀ c ∈ reads, c ≠ ReaderCall.unread)
        ∧ fin.consumedSymbols = vars.consumedSymbols + (readCount reads : Int)
        ∧ (fin.acceptSymbolCount = vars.acceptSymbolCount
            ∨ (vars.consumedSymbols + 1 ≤ fin.acceptSymbolCount
                ∧ fin.acceptSymbolCount ≤ fin.consumedSymbols)) := by
  intro fuel
  induction fuel with
  | zero => intro vars fin h; simp [Scanner.scanLoop] at h
  | succ fuel ih =>
    intro vars fin h
    rw [Scanner.scanLoop] at h
    cases hr : rd.ReadSymbol vars.rdr.inner with
    | mk o r1 =>
      have htr : (traced rd).ReadSymbol vars.rdr
          = (o, { inner := r1, calls := vars.rdr.calls ++ [ReaderCall.read o.isSome] }) := by
        simp [traced, hr]
      rw [htr] at h
      cases o with
      | none =>
        simp only [Option.some.injEq] at h
        subst h
        exact ⟨[ReaderCall.read false], by simp, by simp, by simp [readCount], Or.inl rfl⟩
      | some symbol =>
        simp only at h
        cases ho : (s.machine.deref vars.currentState).OutgoingFor symbol with
        | none =>
          simp only [ho, Option.some.injEq] at h
          subst h
          exact ⟨[ReaderCall.read true], by simp, by simp, by simp [readCount], Or.inl rfl⟩
        | some nextState =>
          simp only [ho] at h
          split at h
          · obtain ⟨reads, h1, h2, h3, h4⟩ := ih _ _ h
            refine ⟨ReaderCall.read true :: reads, ?_, ?_, ?_, ?_⟩
            · simpa using h1
            · intro c hc
              rcases List.mem_cons.1 hc with rfl | hc
              · simp
              · exact h2 c hc
            · simp only [readCount, List.count_cons_self] at h3 ⊢
              rw [h3]; push_cast; ring
            · right
              simp only at h3 h4
              have : (0 : Int) ≤ (readCount reads : Int) := Int.natCast_nonneg _
              rcases h4 with h4 | h4
              · rw [h4, h3]; constructor <;> omega
              · omega
          · obtain ⟨reads, h1, h2, h3, h4⟩ := ih _ _ h
            refine ⟨ReaderCall.read true :: reads, ?_, ?_, ?_, ?_⟩
            · simpa using h1
            · intro c hc
              rcases List.mem_cons.1 hc with rfl | hc
              · simp
              · exact h2 c hc
            · simp only [readCount, List.count_cons_self] at h3 ⊢
              rw [h3]; push_cast; ring
            · simp only at h3 h4
              rcases h4 with h4 | h4
              · exact Or.inl h4
              · right; omega

/-- C13: for every scanner and every reader (wrapped with a call log), a `NextToken` call that
returns makes its `UnreadSymbol` calls after all its `ReadSymbol` calls: the log grows by
`reads`, which holds `ReadSymbol` calls only, followed by `unreads` times `UnreadSymbol`. The
loop counts the successful reads in `consumedSymbols`; when that is at least one, `unreads` is
at most `consumedSymbols - 1`, and the committed symbols (`acceptSymbolCount` for a match, one
for `illegal`) plus the pushed-back ones are the symbols read. -/
theorem NextToken_unread_budget {S V R : Type} [DecidableEq S] [Inhabited V] (s : Scanner S V)
    (rd : SymbolReader S R) (fuel : Nat) (rdr : R) (log : List ReaderCall) (v : V)
    (out : Traced R)
    (h : s.NextToken (traced rd) fuel { inner := rdr, calls := log } = some (v, out)) :
    ∃ (vars : scanVars V (Traced R)) (reads : List ReaderCall) (committed unreads : Nat),
      s.scanLoop (traced rd) fuel
          { currentState := s.machine.Start, consumedSymbols := 0, acceptSymbolCount := -1,
            lastAcceptVal := default, rdr := { inner := rdr, calls := log } } = some vars
      ∧ vars.rdr.calls = log ++ reads
      ∧ (∀ c ∈ reads, c ≠ ReaderCall.unread)
      ∧ vars.consumedSymbols = (readCount reads : Int)
      ∧ out.calls = log ++ reads ++ List.replicate unreads ReaderCall.unread
      ∧ (readCount reads = 0 → v = s.eof ∧ unreads = 0)
      ∧ (1 ≤ readCount reads →
          unreads ≤ readCount reads - 1
          ∧ 1 ≤ committed
          ∧ (committed : Int)
              = (if vars.acceptSymbolCount ≠ -1 then vars.acceptSymbolCount else 1)
          ∧ v = (if vars.acceptSymbolCount ≠ -1 then vars.lastAcceptVal else s.illegal)
          ∧ committed + unreads = readCount reads) := by
  unfold Scanner.NextToken at h
  cases hl : s.scanLoop (traced rd) fuel
      { currentState := s.machine.Start, consumedSymbols := 0, acceptSymbolCount := -1,
        lastAcceptVal := default, rdr := { inner := rdr, calls := log } } with
  | none => simp [hl] at h
  | some vars =>
    simp only [hl] at h
    obtain ⟨reads, h1, h2, h3, h4⟩ := scanLoop_traced_log s rd fuel _ _ hl
    simp only [zero_add] at h1 h3 h4
    by_cases hz : vars.consumedSymbols = 0
    · simp only [hz, if_true, Option.some.injEq, Prod.mk.injEq] at h
      obtain ⟨rfl, rfl⟩ := h
      refine ⟨vars, reads, 0, 0, rfl, h1, h2, h3, by simp [h1], fun _ => ⟨rfl, rfl⟩, ?_⟩
      intro hpos
      omega
    · simp only [hz, if_false] at h
      by_cases ha : vars.acceptSymbolCount = -1
      · simp only [ha, ne_eq, not_true_eq_false, if_false, Option.some.injEq, Prod.mk.injEq] at h
        obtain ⟨rfl, rfl⟩ := h
        refine ⟨vars, reads, 1, (vars.consumedSymbols - 1).toNat, rfl, h1, h2, h3, ?_, ?_, ?_⟩
        · rw [unreadTimes_traced_calls, h1]
        · intro h0; omega
        · intro hpos
          simp only [ha, ne_eq, not_true_eq_false, if_false]
          refine ⟨by omega, le_refl _, rfl, trivial, by omega⟩
      · simp only [ne_eq, ha, not_false_eq_true, if_true, Option.some.injEq, Prod.mk.injEq] at h
        obtain ⟨rfl, rfl⟩ := h
        have h5 : 1 ≤ vars.acceptSymbolCount ∧ vars.acceptSymbolCount ≤ vars.consumedSymbols := by
          rcases h4 with h4 | h4
          · exact absurd h4 ha
          · exact h4
        refine ⟨vars, reads, vars.acceptSymbolCount.toNat,
          (vars.consumedSymbols - vars.acceptSymbolCount).toNat, rfl, h1, h2, h3, ?_, ?_, ?_⟩
        · rw [unreadTimes_traced_calls, h1]
        · intro h0; omega
        · intro hpos
          simp only [ne_eq, ha, not_false_eq_true, if_true]
          refine ⟨by omega, by omega, by omega, trivial, by omega⟩

/-- Witness of C13: on "aba" three symbols are read, two are committed and one is pushed
back. -/
theorem NextToken_unread_budget_witness :
    ∃ (vars : scanVars Nat (Traced (ListReader Char))) (reads : List ReaderCall)
        (committed unreads : Nat),
      demoScanner.scanLoop (traced (listReader Char)) 4
          { currentState := demoScanner.machine.Start, consumedSymbols := 0,
            acceptSymbolCount := -1, lastAcceptVal := default,
            rdr := { inner := { input := ['a', 'b', 'a'], cursor := 0 }, calls := [] } }
        = some vars
      ∧ vars.rdr.calls = [] ++ reads
      ∧ (∀ c ∈ reads, c ≠ ReaderCall.unread)
      ∧ vars.consumedSymbols = (readCount reads : Int)
      ∧ ({ inner := { input := ['a', 'b', 'a'], cursor := 2 },
           calls := [ReaderCall.read true, ReaderCall.read true, ReaderCall.read true,
             ReaderCall.read false, ReaderCall.unread] } : Traced (ListReader Char)).calls
          = [] ++ reads ++ List.replicate unreads ReaderCall.unread
      ∧ (readCount reads = 0 → 7 = demoScanner.eof ∧ unreads = 0)
      ∧ (1 ≤ readCount reads →
          unreads ≤ readCount reads - 1
          ∧ 1 ≤ committed
          ∧ (committed : Int)
              = (if vars.acceptSymbolCount ≠ -1 then vars.acceptSymbolCount else 1)
          ∧ 7 = (if vars.acceptSymbolCount ≠ -1 then vars.lastAcceptVal
                  else demoScanner.illegal)
          ∧ committed + unreads = readCount reads) :=
  NextToken_unread_budget demoScanner (listReader Char) 4
    { input := ['a', 'b', 'a'], cursor := 0 } [] 7
    { inner := { input := ['a', 'b', 'a'], cursor := 2 },
      calls := [ReaderCall.read true, ReaderCall.read true, ReaderCall.read true,
        ReaderCall.read false, ReaderCall.unread] }
    (by
      have hla : demoScanner.machine.longestAccept demoScanner.machine.Start
          (List.drop 0 ['a', 'b', 'a']) = some (2, 1) := by decide
      have hlen : demoScanner.machine.readLen demoScanner.machine.Start
          (List.drop 0 ['a', 'b', 'a']) = 3 := by decide
      have hout : demoScanner.machine.runsOut demoScanner.machine.Start
          (List.drop 0 ['a', 'b', 'a']) = true := by decide
      rw [NextToken_traced_list_match demoScanner ['a', 'b', 'a'] 0 [] 4 2 1 (by decide) hla,
        hlen, hout]
      rfl)

/-! ### Walks in a labelled graph -/

theorem walk_mono {S : Type} {R R2 : Nat → Option S → Nat → Prop}
    (h : ∀ p o r, R p o r → R2 p o r) {p q : Nat} {w : List S} (hw : Walk R p w q) :
    Walk R2 p w q := by
  induction hw with
  | nil p => exact Walk.nil p
  | eps hs _ ih => exact Walk.eps (h _ _ _ hs) ih
  | sym hs _ ih => exact Walk.sym (h _ _ _ hs) ih

theorem walk_append {S : Type} {R : Nat → Option S → Nat → Prop} {p q r : Nat}
    {u v : List S} (h1 : Walk R p u q) (h2 : Walk R q v r) : Walk R p (u ++ v) r := by
  induction h1 with
  | nil p => simpa using h2
  | eps hs _ ih => exact Walk.eps hs (ih h2)
  | sym hs _ ih => exact Walk.sym hs (ih h2)

theorem walk_snoc_eps {S : Type} {R : Nat → Option S → Nat → Prop} {p q r : Nat}
    {w : List S} (h1 : Walk R p w q) (h2 : R q none r) : Walk R p w r := by
  have := walk_append h1 (Walk.eps h2 (Walk.nil r))
  simpa using this

theorem walk_snoc_sym {S : Type} {R : Nat → Option S → Nat → Prop} {p q r : Nat}
    {w : List S} {a : S} (h1 : Walk R p w q) (h2 : R q (some a) r) :
    Walk R p (w ++ [a]) r :=
  walk_append h1 (Walk.sym h2 (Walk.nil r))

/-- A walk from a state without edges is empty. -/
theorem walk_of_sink {S : Type} {R : Nat → Option S → Nat → Prop} {p q : Nat} {w : List S}
    (hs : ∀ o r, ¬ R p o r) (h : Walk R p w q) : w = [] ∧ q = p := by
  cases h with
  | nil p => exact ⟨rfl, rfl⟩
  | eps h1 _ => exact absurd h1 (hs _ _)
  | sym h1 _ => exact absurd h1 (hs _ _)

/-- A walk that starts in a set closed under the edges of `R2`, on which `R2` has only edges
of `R`, is a walk of `R`. -/
theorem walk_restrict {S : Type} {R R2 : Nat → Option S → Nat → Prop} (B : Nat → Prop)
    (h : ∀ p o r, B p → R2 p o r → R p o r ∧ B r) {p q : Nat} {w : List S} (hp : B p)
    (hw : Walk R2 p w q) : Walk R p w q ∧ B q := by
  induction hw with
  | nil p => exact ⟨Walk.nil p, hp⟩
  | eps hs _ ih =>
    obtain ⟨h1, h2⟩ := h _ _ _ hp hs
    exact ⟨Walk.eps h1 (ih h2).1, (ih h2).2⟩
  | sym hs _ ih =>
    obtain ⟨h1, h2⟩ := h _ _ _ hp hs
    exact ⟨Walk.sym h1 (ih h2).1, (ih h2).2⟩

/-- Leaving a closed set `B` by the one added epsilon edge `x → j` to a state `j` without
edges: the walks of `R2` from `B` to `j` are the walks of `R` to `x`. -/
theorem walk_hop {S : Type} {R R2 : Nat → Option S → Nat → Prop} (B : Nat → Prop) (x j : Nat)
    (hj : ¬ B j) (hsink : ∀ o r, ¬ R2 j o r)
    (h : ∀ p o r, B p → R2 p o r → (R p o r ∧ B r) ∨ (p = x ∧ o = none ∧ r = j))
    {p q : Nat} {w : List S} (hp : B p) (hw : Walk R2 p w q) (hq : q = j) :
    Walk R p w x := by
  induction hw with
  | nil p => subst hq; exact absurd hp hj
  | @eps p r q w hs hrest ih =>
    rcases h _ _ _ hp hs with ⟨h1, h2⟩ | ⟨h1, -, h3⟩
    · exact Walk.eps h1 (ih h2 hq)
    · subst h3
      obtain ⟨hw2, -⟩ := walk_of_sink hsink hrest
      subst hw2 h1
      exact Walk.nil _
  | sym hs _ ih =>
    rcases h _ _ _ hp hs with ⟨h1, h2⟩ | ⟨-, h2, -⟩
    · exact Walk.sym h1 (ih h2 hq)
    · exact absurd h2 (by simp)

/-- A walk of `R2` from the set `B` to a state `x2` outside `B` (or equal to `x1`) passes
through `x1` when `B` without `x1` is closed and carries only edges of `R`: it splits into a
walk of `R` to `x1` and a walk of `R2` from `x1`. -/
theorem walk_split {S : Type} {R R2 : Nat → Option S → Nat → Prop} (B : Nat → Prop)
    (x1 x2 : Nat) (h : ∀ p o r, B p → p ≠ x1 → R2 p o r → R p o r ∧ B r)
    (hx2 : B x2 → x2 = x1) {p q : Nat} {w : List S} (hp : B p) (hw : Walk R2 p w q)
    (hq : q = x2) :
    ∃ u v, w = u ++ v ∧ Walk R p u x1 ∧ Walk R2 x1 v x2 := by
  induction hw with
  | nil p =>
    subst hq
    have := hx2 hp
    subst this
    exact ⟨[], [], rfl, Walk.nil _, Walk.nil _⟩
  | @eps p r q w hs hrest ih =>
    by_cases hpx : p = x1
    · subst hpx hq
      exact ⟨[], w, rfl, Walk.nil _, Walk.eps hs hrest⟩
    · obtain ⟨h1, h2⟩ := h _ _ _ hp hpx hs
      obtain ⟨u, v, huv, hu, hv⟩ := ih h2 hq
      exact ⟨u, v, huv, Walk.eps h1 hu, hv⟩
  | @sym p r q a w hs hrest ih =>
    by_cases hpx : p = x1
    · subst hpx hq
      exact ⟨[], a :: w, rfl, Walk.nil _, Walk.sym hs hrest⟩
    · obtain ⟨h1, h2⟩ := h _ _ _ hp hpx hs
      obtain ⟨u, v, huv, hu, hv⟩ := ih h2 hq
      exact ⟨a :: u, v, by simp [huv], Walk.sym h1 hu, hv⟩

/-- With one added epsilon edge `x2 → x1`, a walk to `x2` is a walk of `R` to `x2` followed
by rounds from `x1` to `x2`, the words of which `P` collects. -/
theorem walk_unloop {S : Type} {R R2 : Nat → Option S → Nat → Prop} (x1 x2 : Nat)
    (P : List S → Prop)
    (h : ∀ p o r, R2 p o r → R p o r ∨ (p = x2 ∧ o = none ∧ r = x1))
    (hP1 : ∀ u, Walk R x1 u x2 → P u)
    (hP2 : ∀ u v, Walk R x1 u x2 → P v → P (u ++ v))
    {p q : Nat} {w : List S} (hw : Walk R2 p w q) (hq : q = x2) :
    ∃ u v, w = u ++ v ∧ Walk R p u x2 ∧ (v = [] ∨ P v) := by
  induction hw with
  | nil p => subst hq; exact ⟨[], [], rfl, Walk.nil _, Or.inl rfl⟩
  | @eps p r q w hs hrest ih =>
    obtain ⟨u, v, huv, hu, hv⟩ := ih hq
    rcases h _ _ _ hs with h1 | ⟨h1, -, h3⟩
    · exact ⟨u, v, huv, Walk.eps h1 hu, hv⟩
    · subst h1 h3
      refine ⟨[], w, rfl, Walk.nil _, Or.inr ?_⟩
      rcases hv with hv | hv
      · subst hv
        rw [huv, List.append_nil]
        exact hP1 u hu
      · rw [huv]
        exact hP2 u v hu hv
  | @sym p r q a w hs hrest ih =>
    obtain ⟨u, v, huv, hu, hv⟩ := ih hq
    rcases h _ _ _ hs with h1 | ⟨-, h2, -⟩
    · exact ⟨a :: u, v, by simp [huv], Walk.sym h1 hu, hv⟩
    · exact absurd h2 (by simp)

/-- With one added epsilon edge `e → X` to a state `X ≠ e` without edges, where no edge
leads back into `e`: a walk from `e` to `X` is that edge alone, or a walk of `R`. -/
theorem walk_bypass {S : Type} {R R2 : Nat → Option S → Nat → Prop} (B : Nat → Prop)
    (e X : Nat) (hne : X ≠ e) (hsink : ∀ o r, ¬ R X o r)
    (h : ∀ p o r, R2 p o r → R p o r ∨ (p = e ∧ o = none ∧ r = X))
    (hB : ∀ p o r, (p = e ∨ B p) → R p o r → B r) (heB : ¬ B e)
    {w : List S} (hw : Walk R2 e w X) : w = [] ∨ Walk R e w X := by
  have hsink2 : ∀ o r, ¬ R2 X o r := by
    intro o r hr
    rcases h _ _ _ hr with h1 | ⟨h1, -, -⟩
    · exact hsink _ _ h1
    · exact hne h1
  have hclosed : ∀ p o r, B p → R2 p o r → R p o r ∧ B r := by
    intro p o r hp hr
    rcases h _ _ _ hr with h1 | ⟨h1, -, -⟩
    · exact ⟨h1, hB _ _ _ (Or.inr hp) h1⟩
    · subst h1; exact absurd hp heB
  cases hw with
  | nil p => exact absurd rfl hne
  | eps hs hrest =>
    rcases h _ _ _ hs with h1 | ⟨-, -, h3⟩
    · right
      exact Walk.eps h1 (walk_restrict B hclosed (hB _ _ _ (Or.inl rfl) h1) hrest).1
    · subst h3
      exact Or.inl (walk_of_sink hsink2 hrest).1
  | sym hs hrest =>
    rcases h _ _ _ hs with h1 | ⟨-, h2, -⟩
    · right
      exact Walk.sym h1 (walk_restrict B hclosed (hB _ _ _ (Or.inl rfl) h1) hrest).1
    · exact absurd h2 (by simp)

/-! ### Concatenations of languages -/

theorem concat_nil {S : Type} (w : List S) : Concat ([] : List (List S → Prop)) w ↔ w = [] := by
  unfold Concat
  constructor
  · rintro ⟨ws, h1, h2⟩
    cases h1
    simpa using h2
  · intro h
    exact ⟨[], List.Forall₂.nil, by simp [h]⟩

theorem concat_cons {S : Type} (L : List S → Prop) (Ls : List (List S → Prop)) (w : List S) :
    Concat (L :: Ls) w ↔ ∃ u v, w = u ++ v ∧ L u ∧ Concat Ls v := by
  unfold Concat
  constructor
  · rintro ⟨ws, h1, h2⟩
    cases h1 with
    | cons hu hrest => exact ⟨_, _, by simpa using h2, hu, _, hrest, rfl⟩
  · rintro ⟨u, v, h1, h2, ws, h3, h4⟩
    exact ⟨u :: ws, List.Forall₂.cons h2 h3, by simp [h1, h4]⟩

theorem concat_append {S : Type} (Ls Ms : List (List S → Prop)) (w : List S) :
    Concat (Ls ++ Ms) w ↔ ∃ u v, w = u ++ v ∧ Concat Ls u ∧ Concat Ms v := by
  induction Ls generalizing w with
  | nil =>
    simp only [List.nil_append, concat_nil]
    constructor
    · intro h; exact ⟨[], w, rfl, rfl, h⟩
    · rintro ⟨u, v, h1, h2, h3⟩
      subst h2; simpa [h1] using h3
  | cons L Ls ih =>
    simp only [List.cons_append, concat_cons]
    constructor
    · rintro ⟨u, v, h1, h2, h3⟩
      obtain ⟨u2, v2, h4, h5, h6⟩ := (ih v).1 h3
      exact ⟨u ++ u2, v2, by simp [h1, h4], ⟨u, u2, rfl, h2, h5⟩, h6⟩
    · rintro ⟨u, v, h1, ⟨u1, u2, h2, h3, h4⟩, h5⟩
      exact ⟨u1, u2 ++ v, by simp [h1, h2], h3, (ih _).2 ⟨u2, v, rfl, h4, h5⟩⟩

theorem concat_single {S : Type} (L : List S → Prop) (w : List S) : Concat [L] w ↔ L w := by
  rw [concat_cons]
  constructor
  · rintro ⟨u, v, h1, h2, h3⟩
    rw [concat_nil] at h3
    subst h3
    simpa [h1] using h2
  · intro h
    exact ⟨w, [], by simp, h, (concat_nil _).2 rfl⟩

theorem concat_replicate_succ {S : Type} (L : List S → Prop) (m : Nat) (w : List S) :
    Concat (List.replicate (m + 1) L) w
      ↔ ∃ u v, w = u ++ v ∧ Concat (List.replicate m L) u ∧ L v := by
  rw [List.replicate_succ', concat_append]
  simp only [concat_single]

/-! ### Heap operations and the transitions they add -/

theorem length_update {S V : Type} (n : nfa.Nfa S V) (s : Nat)
    (f : nfa.State S V → nfa.State S V) : (n.update s f).states.length = n.states.length := by
  simp [nfa.Nfa.update, List.length_modify]

theorem deref_update_self {S V : Type} [Inhabited V] (n : nfa.Nfa S V) (s : Nat)
    (f : nfa.State S V → nfa.State S V) (hs : s < n.states.length) :
    (n.update s f).deref s = f (n.deref s) := by
  unfold nfa.Nfa.deref nfa.Nfa.update
  simp only [List.getD_eq_getElem?_getD, List.getElem?_modify, if_true]
  rw [List.getElem?_eq_getElem hs]
  rfl

theorem deref_update_ne {S V : Type} [Inhabited V] (n : nfa.Nfa S V) (s q : Nat)
    (f : nfa.State S V → nfa.State S V) (h : q ≠ s) :
    (n.update s f).deref q = n.deref q := by
  unfold nfa.Nfa.deref nfa.Nfa.update
  simp only [List.getD_eq_getElem?_getD, List.getElem?_modify]
  have h2 : ¬ s = q := fun h2 => h h2.symm
  simp [h2]

theorem length_newState {S V : Type} [Inhabited V] (n : nfa.Nfa S V) :
    n.newState.1.states.length = n.states.length + 1 := by
  simp [nfa.Nfa.newState]

theorem deref_newState_ne {S V : Type} [Inhabited V] (n : nfa.Nfa S V) (q : Nat)
    (h : q ≠ n.states.length) : n.newState.1.deref q = n.deref q := by
  unfold nfa.Nfa.deref nfa.Nfa.newState
  simp only [List.getD_eq_getElem?_getD]
  by_cases hq : q < n.states.length
  · rw [List.getElem?_append_left hq]
  · have h1 : n.states.length < q := by omega
    rw [List.getElem?_eq_none (by simp; omega), List.getElem?_eq_none (by omega)]

theorem deref_newState_new {S V : Type} [Inhabited V] (n : nfa.Nfa S V) :
    n.newState.1.deref n.states.length = nfa.State.blank n.nextStateID := by
  unfold nfa.Nfa.deref nfa.Nfa.newState
  simp [List.getD_eq_getElem?_getD]

theorem sink_of_out_of_range {S V : Type} [Inhabited V] (n : nfa.Nfa S V) (q : Nat)
    (h : n.states.length ≤ q) : Sink n q := by
  unfold Sink
  rw [dfa.deref_out_of_range n q h]
  exact ⟨rfl, rfl, rfl⟩

theorem step_congr {S V : Type} [DecidableEq S] [Inhabited V] (n n2 : nfa.Nfa S V) (p : Nat)
    (h : n2.deref p = n.deref p) (o : Option S) (r : Nat) : Step n2 p o r ↔ Step n p o r := by
  cases o <;> simp [Step, dfa.epsilonOf, dfa.outgoingOf, h]

theorem not_step_of_sink {S V : Type} [DecidableEq S] [Inhabited V] (n : nfa.Nfa S V) (p : Nat)
    (h : Sink n p) (o : Option S) (r : Nat) : ¬ Step n p o r := by
  obtain ⟨h1, h2, h3⟩ := h
  cases o with
  | none => simp [Step, dfa.epsilonOf_eq, h3]
  | some a => simp [Step, dfa.outgoingOf, nfa.State.OutgoingFor, h1, h2]

theorem step_lt {S V : Type} [DecidableEq S] [Inhabited V] (n : nfa.Nfa S V) (hwf : n.WF)
    (p : Nat) (o : Option S) (r : Nat) (h : Step n p o r) :
    p < n.states.length ∧ r < n.states.length := by
  constructor
  · by_contra hp
    exact not_step_of_sink n p (sink_of_out_of_range n p (by omega)) o r h
  · cases o with
    | none => exact dfa.wf_epsilonOf n hwf p r h
    | some a => exact dfa.wf_outgoingOf n hwf p r a h

/-- The transitions of a state that got one more epsilon transition. -/
theorem step_append_epsilon {S V : Type} [DecidableEq S] [Inhabited V] (n n2 : nfa.Nfa S V)
    (p t : Nat)
    (h : n2.deref p = { n.deref p with eTransitions := (n.deref p).eTransitions ++ [t] })
    (o : Option S) (r : Nat) : Step n2 p o r ↔ Step n p o r ∨ (o = none ∧ r = t) := by
  cases o with
  | none => simp [Step, dfa.epsilonOf_eq, h]
  | some a => simp [Step, dfa.outgoingOf, nfa.State.OutgoingFor, h]

/-- The transitions of a state without transitions that got a labelled one. -/
theorem step_put_sink {S V : Type} [DecidableEq S] [Inhabited V] (n n2 : nfa.Nfa S V)
    (p t : Nat) (sym : S) (hs : Sink n p) (h : n2.deref p = (n.deref p).put sym t)
    (o : Option S) (r : Nat) : Step n2 p o r ↔ (o = some sym ∧ r = t) := by
  obtain ⟨h1, h2, h3⟩ := hs
  have hput : (n.deref p).put sym t
      = { n.deref p with edge := some { sym := sym, dst := t } } := by
    unfold nfa.State.put
    rw [h1]
  rw [hput] at h
  cases o with
  | none => simp [Step, dfa.epsilonOf_eq, h, h3]
  | some a =>
    simp only [Step, dfa.outgoingOf, nfa.State.OutgoingFor, h, h2, Option.some.injEq]
    by_cases ha : sym = a
    · subst ha; simp
    · have ha2 : ¬ a = sym := fun h => ha h.symm
      simp [ha, ha2]

theorem grows_refl {S V : Type} [Inhabited V] (n : nfa.Nfa S V) (hwf : n.WF) : Grows n n :=
  { wf := hwf, len := le_refl _, start := rfl, counter := rfl,
    old := fun _ _ => ⟨rfl, rfl⟩,
    fresh := fun q hq => by rw [dfa.deref_out_of_range n q hq]; rfl }

theorem grows_trans {S V : Type} [Inhabited V] (n1 n2 n3 : nfa.Nfa S V) (h1 : Grows n1 n2)
    (h2 : Grows n2 n3) : Grows n1 n3 :=
  { wf := h2.wf, len := le_trans h1.len h2.len, start := by rw [h2.start, h1.start],
    counter := by rw [h2.counter, h1.counter],
    old := fun q hq => by
      obtain ⟨a1, a2⟩ := h1.old q hq
      obtain ⟨b1, b2⟩ := h2.old q (lt_of_lt_of_le hq h1.len)
      exact ⟨by rw [b1, a1], by rw [b2, a2]⟩
    fresh := fun q hq => by
      by_cases hq2 : q < n2.states.length
      · rw [(h2.old q hq2).1]; exact h1.fresh q hq
      · exact h2.fresh q (by omega) }

theorem grows_newState {S V : Type} [Inhabited V] (n : nfa.Nfa S V) (hwf : n.WF) :
    Grows n n.newState.1 :=
  { wf := (nfa.WF_newState n hwf).1, len := by rw [length_newState]; omega, start := rfl,
    counter := rfl,
    old := fun q hq => by rw [deref_newState_ne n q (by omega)]; exact ⟨rfl, rfl⟩
    fresh := fun q hq => by
      by_cases h : q = n.states.length
      · subst h; rw [deref_newState_new]; rfl
      · rw [deref_newState_ne n q h, dfa.deref_out_of_range n q hq]; rfl }

theorem grows_update {S V : Type} [Inhabited V] (n : nfa.Nfa S V) (hwf : n.WF) (s : Nat)
    (f : nfa.State S V → nfa.State S V)
    (hf : ∀ st, (f st).id = st.id ∧ (f st).acceptIdx = st.acceptIdx ∧ (f st).value = st.value
      ∧ ∀ r ∈ (f st).targets, r ∈ st.targets ∨ r < n.states.length) :
    Grows n (n.update s f) :=
  { wf := nfa.WF_update n hwf s f (fun st => ⟨(hf st).1, (hf st).2.2.2⟩),
    len := by rw [length_update], start := rfl, counter := rfl,
    old := fun q hq => by
      by_cases h : q = s
      · subst h
        rw [deref_update_self n q f hq]
        exact ⟨(hf _).2.1, (hf _).2.2.1⟩
      · rw [deref_update_ne n s q f h]; exact ⟨rfl, rfl⟩
    fresh := fun q hq => by
      have : q ≠ s ∨ q = s := by omega
      by_cases h : q = s
      · subst h
        unfold nfa.Nfa.deref nfa.Nfa.update
        rw [List.getD_eq_default _ _ (by simpa [List.length_modify] using hq)]
        rfl
      · rw [deref_update_ne n s q f h, dfa.deref_out_of_range n q hq]; rfl }

/-! #### `connectEpsilon` -/

theorem grows_connectEpsilon {S V : Type} [Inhabited V] (n : nfa.Nfa S V) (hwf : n.WF)
    (src dst : Nat) (hd : dst < n.states.length) : Grows n (connectEpsilon n src dst) :=
  grows_update n hwf src _ (fun st => ⟨rfl, rfl, rfl, fun r hr => by
    rcases nfa.targets_append_epsilon st _ r hr with h | h
    · exact Or.inl h
    · right; rw [h]; exact hd⟩)

theorem length_connectEpsilon {S V : Type} (n : nfa.Nfa S V) (src dst : Nat) :
    (connectEpsilon n src dst).states.length = n.states.length :=
  length_update n src _

theorem deref_connectEpsilon_ne {S V : Type} [Inhabited V] (n : nfa.Nfa S V) (src dst q : Nat)
    (h : q ≠ src) : (connectEpsilon n src dst).deref q = n.deref q :=
  deref_update_ne n src q _ h

theorem step_connectEpsilon {S V : Type} [DecidableEq S] [Inhabited V] (n : nfa.Nfa S V)
    (src dst : Nat) (hs : src < n.states.length) (p : Nat) (o : Option S) (r : Nat) :
    Step (connectEpsilon n src dst) p o r
      ↔ Step n p o r ∨ (p = src ∧ o = none ∧ r = dst) := by
  by_cases hp : p = src
  · subst hp
    rw [step_append_epsilon n (connectEpsilon n p dst) p dst (deref_update_self n p _ hs)]
    simp
  · rw [step_congr n _ p (deref_connectEpsilon_ne n src dst p hp)]
    simp [hp]

theorem sink_connectEpsilon {S V : Type} [Inhabited V] (n : nfa.Nfa S V) (src dst q : Nat)
    (h : q ≠ src) (hq : Sink n q) : Sink (connectEpsilon n src dst) q := by
  unfold Sink
  rw [deref_connectEpsilon_ne n src dst q h]
  exact hq

/-! #### `AddEpsilonTransition` -/

theorem addEpsilon_snd {S V : Type} [Inhabited V] (n : nfa.Nfa S V) (s : Nat) :
    (n.AddEpsilonTransition s).2 = n.states.length := rfl

theorem addEpsilon_eq {S V : Type} [Inhabited V] (n : nfa.Nfa S V) (s : Nat) :
    (n.AddEpsilonTransition s).1 = connectEpsilon n.newState.1 s n.states.length := rfl

theorem length_addEpsilon {S V : Type} [Inhabited V] (n : nfa.Nfa S V) (s : Nat) :
    (n.AddEpsilonTransition s).1.states.length = n.states.length + 1 := by
  rw [addEpsilon_eq, length_connectEpsilon, length_newState]

theorem grows_addEpsilon {S V : Type} [Inhabited V] (n : nfa.Nfa S V) (hwf : n.WF) (s : Nat) :
    Grows n (n.AddEpsilonTransition s).1 := by
  rw [addEpsilon_eq]
  have h1 := grows_newState n hwf
  exact grows_trans _ _ _ h1
    (grows_connectEpsilon _ h1.wf s _ (by rw [length_newState]; omega))

theorem deref_addEpsilon_ne {S V : Type} [Inhabited V] (n : nfa.Nfa S V) (s q : Nat)
    (h1 : q ≠ s) (h2 : q ≠ n.states.length) :
    (n.AddEpsilonTransition s).1.deref q = n.deref q := by
  rw [addEpsilon_eq, deref_connectEpsilon_ne _ _ _ _ h1, deref_newState_ne n q h2]

theorem sink_addEpsilon_new {S V : Type} [Inhabited V] (n : nfa.Nfa S V) (s : Nat)
    (hs : s < n.states.length) : Sink (n.AddEpsilonTransition s).1 n.states.length := by
  unfold Sink
  rw [addEpsilon_eq, deref_connectEpsilon_ne _ _ _ _ (by omega), deref_newState_new]
  exact ⟨rfl, rfl, rfl⟩

theorem step_newState {S V : Type} [DecidableEq S] [Inhabited V] (n : nfa.Nfa S V)
    (p : Nat) (o : Option S) (r : Nat) : Step n.newState.1 p o r ↔ Step n p o r := by
  by_cases hp : p = n.states.length
  · subst hp
    constructor
    · intro h
      refine absurd h (not_step_of_sink _ _ ?_ o r)
      unfold Sink
      rw [deref_newState_new]
      exact ⟨rfl, rfl, rfl⟩
    · intro h
      exact absurd h (not_step_of_sink _ _ (sink_of_out_of_range n _ (le_refl _)) o r)
  · exact step_congr n _ p (deref_newState_ne n p hp) o r

theorem step_addEpsilon {S V : Type} [DecidableEq S] [Inhabited V] (n : nfa.Nfa S V)
    (s : Nat) (hs : s < n.states.length) (p : Nat) (o : Option S) (r : Nat) :
    Step (n.AddEpsilonTransition s).1 p o r
      ↔ Step n p o r ∨ (p = s ∧ o = none ∧ r = n.states.length) := by
  rw [addEpsilon_eq, step_connectEpsilon _ _ _ (by rw [length_newState]; omega),
    step_newState]

/-! #### `Add` on a state without transitions -/

theorem add_snd {S V : Type} [DecidableEq S] [Inhabited V] (n : nfa.Nfa S V) (s : Nat)
    (sym : S) : (n.Add s sym).2 = n.states.length := rfl

theorem add_eq {S V : Type} [DecidableEq S] [Inhabited V] (n : nfa.Nfa S V) (s : Nat)
    (sym : S) :
    (n.Add s sym).1 = n.newState.1.update s (fun st => st.put sym n.states.length) := rfl

theorem length_add {S V : Type} [DecidableEq S] [Inhabited V] (n : nfa.Nfa S V) (s : Nat)
    (sym : S) : (n.Add s sym).1.states.length = n.states.length + 1 := by
  rw [add_eq, length_update, length_newState]

theorem put_acceptIdx {S V : Type} [DecidableEq S] (st : nfa.State S V) (sym : S) (dst : Nat) :
    (st.put sym dst).acceptIdx = st.acceptIdx ∧ (st.put sym dst).value = st.value := by
  unfold nfa.State.put
  split <;> exact ⟨rfl, rfl⟩

theorem grows_add {S V : Type} [DecidableEq S] [Inhabited V] (n : nfa.Nfa S V) (hwf : n.WF)
    (s : Nat) (sym : S) : Grows n (n.Add s sym).1 := by
  rw [add_eq]
  have h1 := grows_newState n hwf
  refine grows_trans _ _ _ h1 (grows_update _ h1.wf s _ (fun st => ⟨nfa.put_id st _ _,
    (put_acceptIdx st _ _).1, (put_acceptIdx st _ _).2, fun r hr => ?_⟩))
  rcases nfa.targets_put st sym _ r hr with h | h
  · exact Or.inl h
  · right; rw [h, length_newState]; omega

theorem deref_add_ne {S V : Type} [DecidableEq S] [Inhabited V] (n : nfa.Nfa S V) (s q : Nat)
    (sym : S) (h1 : q ≠ s) (h2 : q ≠ n.states.length) :
    (n.Add s sym).1.deref q = n.deref q := by
  rw [add_eq, deref_update_ne _ _ _ _ h1, deref_newState_ne n q h2]

theorem sink_add_new {S V : Type} [DecidableEq S] [Inhabited V] (n : nfa.Nfa S V) (s : Nat)
    (sym : S) (hs : s < n.states.length) : Sink (n.Add s sym).1 n.states.length := by
  unfold Sink
  rw [add_eq, deref_update_ne _ _ _ _ (by omega), deref_newState_new]
  exact ⟨rfl, rfl, rfl⟩

theorem step_add_sink {S V : Type} [DecidableEq S] [Inhabited V] (n : nfa.Nfa S V)
    (s : Nat) (sym : S) (hs : s < n.states.length) (hsink : Sink n s) (p : Nat)
    (o : Option S) (r : Nat) :
    Step (n.Add s sym).1 p o r
      ↔ Step n p o r ∨ (p = s ∧ o = some sym ∧ r = n.states.length) := by
  by_cases hp : p = s
  · subst hp
    have hsink1 : Sink n.newState.1 p := by
      unfold Sink; rw [deref_newState_ne n p (by omega)]; exact hsink
    rw [step_put_sink n.newState.1 (n.Add p sym).1 p n.states.length sym hsink1
      (by rw [add_eq, deref_update_self _ _ _ (by rw [length_newState]; omega)])]
    constructor
    · rintro ⟨h1, h2⟩; exact Or.inr ⟨rfl, h1, h2⟩
    · rintro (h | ⟨-, h1, h2⟩)
      · exact absurd h (not_step_of_sink n p hsink o r)
      · exact ⟨h1, h2⟩
  · by_cases hp2 : p = n.states.length
    · subst hp2
      constructor
      · intro h
        exact absurd h (not_step_of_sink _ _ (sink_add_new n s sym hs) o r)
      · rintro (h | ⟨h, -, -⟩)
        · exact absurd h (not_step_of_sink n _ (sink_of_out_of_range n _ (le_refl _)) o r)
        · exact absurd h hp
    · rw [step_congr n _ p (deref_add_ne n s p sym hp hp2)]
      simp [hp]

/-! ### Fragments and the languages they match -/

theorem path_of_sink {S V : Type} [DecidableEq S] [Inhabited V] (n : nfa.Nfa S V) (p q : Nat)
    (w : List S) (hs : Sink n p) (h : Path n p w q) : w = [] ∧ q = p :=
  walk_of_sink (fun o r => not_step_of_sink n p hs o r) h

theorem built_exit {S V : Type} [DecidableEq S] [Inhabited V] (n n2 : nfa.Nfa S V)
    (e x : Nat) (L : List S → Prop) (he : e < n.states.length) (hs : Sink n e)
    (h : Built n e n2 x L) :
    Sink n2 x ∧ x < n2.states.length ∧ (x = e ∨ n.states.length ≤ x) := by
  rcases h.exit with ⟨h1, h2⟩ | ⟨h1, h2, h3⟩
  · subst h1 h2
    exact ⟨hs, he, Or.inl rfl⟩
  · exact ⟨h3, h2, Or.inr h1⟩

theorem built_congr {S V : Type} [DecidableEq S] [Inhabited V] (n n2 : nfa.Nfa S V)
    (e x : Nat) (L L2 : List S → Prop) (h : Built n e n2 x L) (hL : ∀ w, L w ↔ L2 w) :
    Built n e n2 x L2 :=
  { grows := h.grows, frame := h.frame, exit := h.exit, closed := h.closed,
    lang := fun w => (h.lang w).trans (hL w) }

/-- Nothing built: the empty word. -/
theorem built_refl {S V : Type} [DecidableEq S] [Inhabited V] (n : nfa.Nfa S V) (e : Nat)
    (hwf : n.WF) (hs : Sink n e) : Built n e n e (fun w => w = []) :=
  { grows := grows_refl n hwf
    frame := fun _ _ _ => rfl
    exit := Or.inl ⟨rfl, rfl⟩
    closed := fun p o r hp h => by
      rcases hp with hp | hp
      · subst hp; exact absurd h (not_step_of_sink n p hs o r)
      · exact absurd h (not_step_of_sink n p (sink_of_out_of_range n p hp) o r)
    lang := fun w => by
      constructor
      · intro h; exact (path_of_sink n e e w hs h).1
      · intro h; subst h; exact Walk.nil e }

/-- One `Add` at a state without transitions: the one-symbol word. -/
theorem built_add {S V : Type} [DecidableEq S] [Inhabited V] (n : nfa.Nfa S V) (e : Nat)
    (sym : S) (hwf : n.WF) (he : e < n.states.length) (hs : Sink n e) :
    Built n e (n.Add e sym).1 (n.Add e sym).2 (fun w => w = [sym]) :=
  { grows := grows_add n hwf e sym
    frame := fun q hq hqe => deref_add_ne n e q sym hqe (by omega)
    exit := Or.inr ⟨le_refl _, by rw [add_snd, length_add]; omega, sink_add_new n e sym he⟩
    closed := fun p o r hp h => by
      rcases (step_add_sink n e sym he hs p o r).1 h with h1 | ⟨-, -, h3⟩
      · rcases hp with hp | hp
        · subst hp; exact absurd h1 (not_step_of_sink n p hs o r)
        · exact absurd h1 (not_step_of_sink n p (sink_of_out_of_range n p hp) o r)
      · right; rw [h3]
    lang := fun w => by
      rw [add_snd]
      constructor
      · intro h
        cases h with
        | nil p => omega
        | eps h1 _ =>
          rcases (step_add_sink n e sym he hs _ _ _).1 h1 with h2 | ⟨-, h2, -⟩
          · exact absurd h2 (not_step_of_sink n e hs _ _)
          · exact absurd h2 (by simp)
        | sym h1 hrest =>
          rcases (step_add_sink n e sym he hs _ _ _).1 h1 with h2 | ⟨-, h2, h3⟩
          · exact absurd h2 (not_step_of_sink n e hs _ _)
          · subst h3
            have := (path_of_sink _ _ _ _ (sink_add_new n e sym he) hrest).1
            subst this
            simp only [Option.some.injEq] at h2
            rw [h2]
      · intro h
        subst h
        exact Walk.sym ((step_add_sink n e sym he hs _ _ _).2 (Or.inr ⟨rfl, rfl, rfl⟩))
          (Walk.nil _) }

/-- Every transition of the heap before a build is a transition of the heap after it. -/
theorem built_mono {S V : Type} [DecidableEq S] [Inhabited V] (n n2 : nfa.Nfa S V)
    (e x : Nat) (L : List S → Prop) (hs : Sink n e) (h : Built n e n2 x L) (p : Nat)
    (o : Option S) (r : Nat) (hstep : Step n p o r) : Step n2 p o r := by
  by_cases hp : p < n.states.length
  · by_cases hpe : p = e
    · subst hpe; exact absurd hstep (not_step_of_sink n p hs o r)
    · exact (step_congr n n2 p (h.frame p hp hpe) o r).2 hstep
  · exact absurd hstep (not_step_of_sink n p (sink_of_out_of_range n p (by omega)) o r)

/-- Building a second fragment at the exit of a first one: the concatenation. -/
theorem built_comp {S V : Type} [DecidableEq S] [Inhabited V] (n n1 n2 : nfa.Nfa S V)
    (e x1 x2 : Nat) (L1 L2 : List S → Prop) (he : e < n.states.length) (hs : Sink n e)
    (h1 : Built n e n1 x1 L1) (h2 : Built n1 x1 n2 x2 L2) :
    Built n e n2 x2 (fun w => ∃ u v, w = u ++ v ∧ L1 u ∧ L2 v) := by
  obtain ⟨hx1s, hx1lt, hx1⟩ := built_exit n n1 e x1 L1 he hs h1
  obtain ⟨hx2s, hx2lt, hx2⟩ := built_exit n1 n2 x1 x2 L2 hx1lt hx1s h2
  have hlen := h1.grows.len
  have hold : ∀ p, p < n1.states.length → p ≠ x1 → ∀ o r,
      (Step n2 p o r ↔ Step n1 p o r) := fun p hp hpx o r =>
    step_congr n1 n2 p (h2.frame p hp hpx) o r
  refine { grows := grows_trans _ _ _ h1.grows h2.grows, frame := ?_, exit := ?_,
           closed := ?_, lang := ?_ }
  · intro q hq hqe
    rw [h2.frame q (by omega) (by rcases hx1 with h | h <;> omega), h1.frame q hq hqe]
  · rcases h2.exit with ⟨a1, a2⟩ | ⟨a1, a2, a3⟩
    · subst a1 a2
      exact h1.exit
    · exact Or.inr ⟨by omega, a2, a3⟩
  · intro p o r hp hstep
    by_cases hp1 : p < n1.states.length ∧ p ≠ x1
    · exact h1.closed p o r hp ((hold p hp1.1 hp1.2 o r).1 hstep)
    · have hp2 : p = x1 ∨ n1.states.length ≤ p := by
        by_cases h : p = x1
        · exact Or.inl h
        · right; by_contra h3; exact hp1 ⟨by omega, h⟩
      rcases h2.closed p o r hp2 hstep with h | h
      · rw [h]; rcases hx1 with h | h
        · exact Or.inl h
        · exact Or.inr h
      · right; omega
  · intro w
    constructor
    · intro hw
      obtain ⟨u, v, huv, hu, hv⟩ := walk_split
        (fun p => (p = e ∨ n.states.length ≤ p) ∧ p < n1.states.length) x1 x2
        (fun p o r hp hpx hstep => by
          have hs1 := (hold p hp.2 hpx o r).1 hstep
          exact ⟨hs1, h1.closed p o r hp.1 hs1, (step_lt n1 h1.grows.wf p o r hs1).2⟩)
        (fun hb => by
          rcases hx2 with h | h
          · exact h
          · omega)
        ⟨Or.inl rfl, by omega⟩ hw rfl
      exact ⟨u, v, huv, (h1.lang u).1 hu, (h2.lang v).1 hv⟩
    · rintro ⟨u, v, huv, hu, hv⟩
      subst huv
      exact walk_append
        (walk_mono (built_mono n1 n2 x1 x2 L2 hx1s h2) ((h1.lang u).2 hu))
        ((h2.lang v).2 hv)

theorem literalBuild_cons {S V : Type} [DecidableEq S] [Inhabited V] (sym : S)
    (rest : List S) (n : nfa.Nfa S V) (e : Nat) :
    literalBuild (sym :: rest) n e = literalBuild rest (n.Add e sym).1 (n.Add e sym).2 := rfl

theorem built_literal {S V : Type} [DecidableEq S] [Inhabited V] (symbols : List S) :
    ∀ (n : nfa.Nfa S V) (e : Nat), n.WF → e < n.states.length → Sink n e →
      Built n e (literalBuild symbols n e).1 (literalBuild symbols n e).2
        (fun w => w = symbols) := by
  induction symbols with
  | nil => intro n e hwf _ hs; exact built_refl n e hwf hs
  | cons sym rest ih =>
    intro n e hwf he hs
    rw [literalBuild_cons]
    have h1 := built_add n e sym hwf he hs
    obtain ⟨k1, k2, -⟩ := built_exit _ _ _ _ _ he hs h1
    have h2 := ih (n.Add e sym).1 (n.Add e sym).2 h1.grows.wf k2 k1
    refine built_congr _ _ _ _ _ _ (built_comp _ _ _ _ _ _ _ _ he hs h1 h2) ?_
    intro w
    constructor
    · rintro ⟨u, v, h, rfl, rfl⟩; simpa using h
    · intro h; exact ⟨[sym], rest, by simp [h], rfl, rfl⟩

/-- `Literal(sym₁, …, symₙ)` matches the word `sym₁ … symₙ` and no other. -/
theorem literal_realizes {S V : Type} [DecidableEq S] [Inhabited V] (symbols : List S)
    (f : Fragment S V) (h : Literal symbols = some f) : Realizes f (fun w => w = symbols) := by
  unfold Literal at h
  split at h
  · exact absurd h (by simp)
  · simp only [Option.some.injEq] at h
    subst h
    exact fun n e hwf he hs => built_literal symbols n e hwf he hs

theorem sequenceBuild_cons {S V : Type} (f : Fragment S V) (rest : List (Fragment S V))
    (n : nfa.Nfa S V) (e : Nat) :
    sequenceBuild (f :: rest) n e = sequenceBuild rest (f.Build n e).1 (f.Build n e).2 := rfl

theorem built_sequence {S V : Type} [DecidableEq S] [Inhabited V]
    (fragments : List (Fragment S V)) (Ls : List (List S → Prop))
    (h : List.Forall₂ Realizes fragments Ls) :
    ∀ (n : nfa.Nfa S V) (e : Nat), n.WF → e < n.states.length → Sink n e →
      Built n e (sequenceBuild fragments n e).1 (sequenceBuild fragments n e).2
        (Concat Ls) := by
  induction h with
  | nil =>
    intro n e hwf _ hs
    exact built_congr _ _ _ _ _ _ (built_refl n e hwf hs) (fun w => (concat_nil w).symm)
  | @cons f L fs Ls hf _ ih =>
    intro n e hwf he hs
    rw [sequenceBuild_cons]
    have h1 := hf n e hwf he hs
    obtain ⟨k1, k2, -⟩ := built_exit _ _ _ _ _ he hs h1
    have h2 := ih (f.Build n e).1 (f.Build n e).2 h1.grows.wf k2 k1
    exact built_congr _ _ _ _ _ _ (built_comp _ _ _ _ _ _ _ _ he hs h1 h2)
      (fun w => (concat_cons L Ls w).symm)

/-! #### `AnyOf` -/

/-- The invariant of the loop over the branches of `AnyOf`: `m` is the heap reached, the join
state is the first state added (`n.states.length`), and `P` collects the words that lead from
the entry to the join state. -/
structure AnyInv {S V : Type} [DecidableEq S] [Inhabited V] (n : nfa.Nfa S V) (e : Nat)
    (m : nfa.Nfa S V) (P : List S → Prop) : Prop where
  grows : Grows n m
  len : n.states.length + 1 ≤ m.states.length
  frame : ∀ q, q < n.states.length → q ≠ e → m.deref q = n.deref q
  entry : ∀ o r, Step m e o r → o = none ∧ n.states.length ≤ r
  join : Sink m n.states.length
  closed : ∀ p o r, n.states.length ≤ p → Step m p o r → n.states.length ≤ r
  lang : ∀ w, Path m e w n.states.length ↔ P w

theorem anyInv_init {S V : Type} [DecidableEq S] [Inhabited V] (n : nfa.Nfa S V) (e : Nat)
    (hwf : n.WF) (he : e < n.states.length) (hs : Sink n e) :
    AnyInv n e n.newState.1 (fun _ => False) := by
  have hse : Sink n.newState.1 e := by
    unfold Sink; rw [deref_newState_ne n e (by omega)]; exact hs
  refine { grows := grows_newState n hwf, len := by rw [length_newState],
           frame := fun q hq _ => deref_newState_ne n q (by omega),
           entry := fun o r h => absurd h (not_step_of_sink _ _ hse o r),
           join := ?_, closed := ?_, lang := ?_ }
  · unfold Sink; rw [deref_newState_new]; exact ⟨rfl, rfl, rfl⟩
  · intro p o r hp h
    rw [step_newState] at h
    exact absurd h (not_step_of_sink n p (sink_of_out_of_range n p hp) o r)
  · intro w
    constructor
    · intro h
      have := (path_of_sink _ _ _ _ hse h).2
      omega
    · intro h; exact absurd h id

theorem anyInv_step {S V : Type} [DecidableEq S] [Inhabited V] (n : nfa.Nfa S V) (e : Nat)
    (m : nfa.Nfa S V) (P : List S → Prop) (f : Fragment S V) (L : List S → Prop)
    (he : e < n.states.length) (hinv : AnyInv n e m P) (hf : Realizes f L) :
    AnyInv n e (anyOfBranch e n.states.length m f) (fun w => P w ∨ L w) := by
  have hlenm := hinv.len
  have hNm : n.states.length ≤ m.states.length := hinv.grows.len
  have hem : e < m.states.length := by omega
  -- the heap with the epsilon successor `b` of the entry
  have hg1 := grows_addEpsilon m hinv.grows.wf e
  have hlen1 := length_addEpsilon m e
  have hsb := sink_addEpsilon_new m e hem
  have hstep1 := step_addEpsilon (S := S) m e hem
  -- the heap with the branch
  have hb := hf (m.AddEpsilonTransition e).1 m.states.length hg1.wf (by omega) hsb
  obtain ⟨hxs, hxlt, hx⟩ := built_exit _ _ _ _ _ (by omega) hsb hb
  have hlen2 := hb.grows.len
  generalize hm1 : (m.AddEpsilonTransition e).1 = m1 at *
  generalize hm2 : (f.Build m1 m.states.length).1 = m2 at *
  generalize hxx : (f.Build m1 m.states.length).2 = x at *
  have hmp : anyOfBranch e n.states.length m f = connectEpsilon m2 x n.states.length := by
    unfold anyOfBranch
    simp only [addEpsilon_snd, hm1, hm2, hxx]
  rw [hmp]
  have hstep3 := step_connectEpsilon (S := S) m2 x n.states.length hxlt
  have hold2 : ∀ p, p < m.states.length → ∀ o r, (Step m2 p o r ↔ Step m1 p o r) :=
    fun p hp o r => step_congr m1 m2 p (hb.frame p (by omega) (by omega)) o r
  -- the steps of the final heap from the states that existed before this branch
  have hold : ∀ p, p < m.states.length → ∀ o r,
      (Step (connectEpsilon m2 x n.states.length) p o r
        ↔ Step m p o r ∨ (p = e ∧ o = none ∧ r = m.states.length)) := by
    intro p hp o r
    rw [hstep3, hold2 p hp, hstep1]
    constructor
    · rintro (h | ⟨h, -, -⟩)
      · exact h
      · omega
    · intro h; exact Or.inl h
  have hxN : x ≠ n.states.length := by omega
  have hjoin : Sink (connectEpsilon m2 x n.states.length) n.states.length := by
    refine sink_connectEpsilon m2 x _ _ (Ne.symm hxN) ?_
    unfold Sink
    rw [hb.frame _ (by omega) (by omega), ← hm1, deref_addEpsilon_ne m e _ (by omega) (by omega)]
    exact hinv.join
  refine { grows := ?_, len := ?_, frame := ?_, entry := ?_, join := hjoin, closed := ?_,
           lang := ?_ }
  · exact grows_trans _ _ _ hinv.grows (grows_trans _ _ _ hg1 (grows_trans _ _ _ hb.grows
      (grows_connectEpsilon m2 hb.grows.wf x _ (by omega))))
  · rw [length_connectEpsilon]; omega
  · intro q hq hqe
    rw [deref_connectEpsilon_ne _ _ _ _ (by omega), hb.frame q (by omega) (by omega), ← hm1,
      deref_addEpsilon_ne m e q hqe (by omega)]
    exact hinv.frame q hq hqe
  · intro o r h
    rcases (hold e hem o r).1 h with h1 | ⟨-, h2, h3⟩
    · exact hinv.entry o r h1
    · exact ⟨h2, by omega⟩
  · intro p o r hp h
    by_cases hpm : p < m.states.length
    · rcases (hold p hpm o r).1 h with h1 | ⟨-, -, h3⟩
      · exact hinv.closed p o r hp h1
      · omega
    · rcases (hstep3 p o r).1 h with h1 | ⟨-, -, h3⟩
      · rcases hb.closed p o r (by omega) h1 with h2 | h2 <;> omega
      · omega
  · intro w
    have hbranch : ∀ v, Walk (Step (connectEpsilon m2 x n.states.length)) m.states.length v
        n.states.length → L v := by
      intro v hv
      apply (hb.lang v).1
      refine walk_hop (fun p => p = m.states.length ∨ m1.states.length ≤ p) x n.states.length
        (by simp only [not_or]; omega)
        (fun o r => not_step_of_sink _ _ hjoin o r) ?_ (Or.inl rfl) hv rfl
      intro p o r hp h
      rcases (hstep3 p o r).1 h with h1 | h1
      · exact Or.inl ⟨h1, hb.closed p o r hp h1⟩
      · exact Or.inr h1
    have holdwalk : ∀ r v, n.states.length ≤ r → r < m.states.length →
        Walk (Step (connectEpsilon m2 x n.states.length)) r v n.states.length →
        Walk (Step m) r v n.states.length := by
      intro r v h1 h2 hv
      refine (walk_restrict (fun p => n.states.length ≤ p ∧ p < m.states.length) ?_
        ⟨h1, h2⟩ hv).1
      intro p o r hp h
      rcases (hold p hp.2 o r).1 h with h3 | ⟨h3, -, -⟩
      · exact ⟨h3, hinv.closed p o r hp.1 h3, (step_lt m hinv.grows.wf p o r h3).2⟩
      · omega
    constructor
    · intro hw
      cases hw with
      | nil p => omega
      | eps hs hrest =>
        rcases (hold e hem _ _).1 hs with h1 | ⟨-, -, h3⟩
        · left
          apply (hinv.lang w).1
          exact Walk.eps h1 (holdwalk _ _ (hinv.entry _ _ h1).2
            (step_lt m hinv.grows.wf _ _ _ h1).2 hrest)
        · subst h3
          exact Or.inr (hbranch _ hrest)
      | sym hs hrest =>
        rcases (hold e hem _ _).1 hs with h1 | ⟨-, h2, -⟩
        · exact absurd (hinv.entry _ _ h1).1 (by simp)
        · exact absurd h2 (by simp)
    · rintro (hw | hw)
      · refine walk_mono ?_ ((hinv.lang w).2 hw)
        intro p o r h
        exact (hold p (step_lt m hinv.grows.wf p o r h).1 o r).2 (Or.inl h)
      · refine Walk.eps ((hold e hem none m.states.length).2 (Or.inr ⟨rfl, rfl, rfl⟩)) ?_
        refine walk_snoc_eps (walk_mono (fun p o r h => (hstep3 p o r).2 (Or.inl h))
          ((hb.lang w).2 hw)) ?_
        exact (hstep3 x none n.states.length).2 (Or.inr ⟨rfl, rfl, rfl⟩)

theorem anyInv_foldl {S V : Type} [DecidableEq S] [Inhabited V] (n : nfa.Nfa S V) (e : Nat)
    (he : e < n.states.length) (fragments : List (Fragment S V))
    (Ls : List (List S → Prop)) (h : List.Forall₂ Realizes fragments Ls) :
    ∀ (m : nfa.Nfa S V) (P : List S → Prop), AnyInv n e m P →
      AnyInv n e (fragments.foldl (anyOfBranch e n.states.length) m)
        (fun w => P w ∨ ∃ L ∈ Ls, L w) := by
  induction h with
  | nil =>
    intro m P hinv
    simpa using hinv
  | @cons f L fs Ls hf _ ih =>
    intro m P hinv
    have h1 := ih _ _ (anyInv_step n e m P f L he hinv hf)
    simp only [List.foldl_cons]
    have hP : (fun w => (P w ∨ L w) ∨ ∃ L2 ∈ Ls, L2 w)
        = (fun w => P w ∨ ∃ L2 ∈ L :: Ls, L2 w) := by
      funext w
      simp [or_assoc]
    rw [← hP]
    exact h1

theorem built_anyOf {S V : Type} [DecidableEq S] [Inhabited V]
    (fragments : List (Fragment S V)) (Ls : List (List S → Prop))
    (h : List.Forall₂ Realizes fragments Ls) (n : nfa.Nfa S V) (e : Nat) (hwf : n.WF)
    (he : e < n.states.length) (hs : Sink n e) :
    Built n e (anyOfBuild fragments n e).1 (anyOfBuild fragments n e).2
      (fun w => ∃ L ∈ Ls, L w) := by
  have hinv := anyInv_foldl n e he fragments Ls h _ _ (anyInv_init n e hwf he hs)
  have hm : (anyOfBuild fragments n e).1
      = fragments.foldl (anyOfBranch e n.states.length) n.newState.1 := rfl
  have hx : (anyOfBuild fragments n e).2 = n.states.length := rfl
  rw [hm, hx]
  exact
    { grows := hinv.grows
      frame := hinv.frame
      exit := Or.inr ⟨le_refl _, by have := hinv.len; omega, hinv.join⟩
      closed := fun p o r hp hstep => by
        rcases hp with hp | hp
        · subst hp; exact Or.inr (hinv.entry o r hstep).2
        · exact Or.inr (hinv.closed p o r hp hstep)
      lang := fun w => by
        rw [hinv.lang w]
        simp }

/-! #### `RepeatAtLeast` -/

theorem forall2_replicate {S V : Type} [DecidableEq S] [Inhabited V] (f : Fragment S V)
    (L : List S → Prop) (hf : Realizes f L) (k : Nat) :
    List.Forall₂ Realizes (List.replicate k f) (List.replicate k L) := by
  induction k with
  | zero => exact List.Forall₂.nil
  | succ k ih => exact List.Forall₂.cons hf ih

theorem sequenceBuild_append {S V : Type} (fs gs : List (Fragment S V)) (n : nfa.Nfa S V)
    (e : Nat) :
    sequenceBuild (fs ++ gs) n e
      = sequenceBuild gs (sequenceBuild fs n e).1 (sequenceBuild fs n e).2 := by
  unfold sequenceBuild
  rw [List.foldl_append]

/-- After `count` rounds the loop of `RepeatAtLeast` holds the heap and the exit of `count`
instances in sequence. -/
theorem repeatLoop_eq {S V : Type} (f : Fragment S V) (count : Nat) (n : nfa.Nfa S V)
    (e : Nat) :
    (repeatLoop f count n e).1 = (sequenceBuild (List.replicate count f) n e).1
    ∧ (repeatLoop f count n e).2.2 = (sequenceBuild (List.replicate count f) n e).2 := by
  induction count with
  | zero => exact ⟨rfl, rfl⟩
  | succ k ih =>
    rw [List.replicate_succ', sequenceBuild_append]
    simp only [repeatLoop]
    rw [ih.1, ih.2]
    exact ⟨rfl, rfl⟩

theorem repeatLoop_succ {S V : Type} (f : Fragment S V) (k : Nat) (n : nfa.Nfa S V)
    (e : Nat) :
    repeatLoop f (k + 1) n e
      = ((f.Build (sequenceBuild (List.replicate k f) n e).1
            (sequenceBuild (List.replicate k f) n e).2).1,
         (sequenceBuild (List.replicate k f) n e).2,
         (f.Build (sequenceBuild (List.replicate k f) n e).1
            (sequenceBuild (List.replicate k f) n e).2).2) := by
  simp only [repeatLoop]
  rw [(repeatLoop_eq f k n e).1, (repeatLoop_eq f k n e).2]

/-- The loop and the fresh exit that `RepeatAtLeast` attaches to its last instance: one or
more words of `L` in a row. -/
theorem built_plus {S V : Type} [DecidableEq S] [Inhabited V] (n1 n2 : nfa.Nfa S V)
    (x1 x2 : Nat) (L : List S → Prop) (hx1 : x1 < n1.states.length) (hs : Sink n1 x1)
    (h : Built n1 x1 n2 x2 L) :
    Built n1 x1 ((connectEpsilon n2 x2 x1).AddEpsilonTransition x2).1
      ((connectEpsilon n2 x2 x1).AddEpsilonTransition x2).2
      (fun w => ∃ m, 1 ≤ m ∧ Concat (List.replicate m L) w) := by
  obtain ⟨hx2s, hx2lt, hx2⟩ := built_exit _ _ _ _ _ hx1 hs h
  have hlen := h.grows.len
  have hg3 := grows_connectEpsilon n2 h.grows.wf x2 x1 (by omega)
  have hlen3 := length_connectEpsilon n2 x2 x1
  have hstep3 := step_connectEpsilon (S := S) n2 x2 x1 hx2lt
  generalize hm3 : connectEpsilon n2 x2 x1 = m3 at *
  have hg4 := grows_addEpsilon m3 hg3.wf x2
  have hlen4 := length_addEpsilon m3 x2
  have hstep4 := step_addEpsilon (S := S) m3 x2 (by omega)
  have hs4 := sink_addEpsilon_new m3 x2 (by omega)
  rw [addEpsilon_snd]
  generalize hm4 : (m3.AddEpsilonTransition x2).1 = m4 at *
  have hplus : ∀ m u, Concat (List.replicate (m + 1) L) u → Walk (Step m3) x1 u x2 := by
    intro m
    induction m with
    | zero =>
      intro u hu
      rw [show List.replicate (0 + 1) L = [L] from rfl, concat_single] at hu
      exact walk_mono (fun p o r hstep => (hstep3 p o r).2 (Or.inl hstep)) ((h.lang u).2 hu)
    | succ m ih =>
      intro u hu
      rw [List.replicate_succ, concat_cons] at hu
      obtain ⟨u1, u2, h1, h2, h3⟩ := hu
      subst h1
      refine walk_append (walk_snoc_eps (walk_mono
        (fun p o r hstep => (hstep3 p o r).2 (Or.inl hstep)) ((h.lang u1).2 h2)) ?_) (ih u2 h3)
      exact (hstep3 x2 none x1).2 (Or.inr ⟨rfl, rfl, rfl⟩)
  refine { grows := grows_trans _ _ _ h.grows (grows_trans _ _ _ hg3 hg4), frame := ?_,
           exit := Or.inr ⟨by omega, by omega, hs4⟩, closed := ?_,
           lang := ?_ }
  · intro q hq hqe
    rw [← hm4, deref_addEpsilon_ne m3 x2 q (by omega) (by omega), ← hm3,
      deref_connectEpsilon_ne n2 x2 x1 q (by omega)]
    exact h.frame q hq hqe
  · intro p o r hp hstep
    rcases (hstep4 p o r).1 hstep with h1 | ⟨-, -, h3⟩
    · rcases (hstep3 p o r).1 h1 with h2 | ⟨-, -, h3⟩
      · exact h.closed p o r hp h2
      · exact Or.inl h3
    · right; omega
  · intro w
    constructor
    · intro hw
      have hw3 : Walk (Step m3) x1 w x2 := by
        refine walk_hop (fun p => (p = x1 ∨ n1.states.length ≤ p) ∧ p < m3.states.length) x2
          m3.states.length (by simp) (fun o r => not_step_of_sink _ _ hs4 o r) ?_
          ⟨Or.inl rfl, by omega⟩ hw (by omega)
        intro p o r hp hstep
        rcases (hstep4 p o r).1 hstep with h1 | h1
        · left
          refine ⟨h1, ?_, (step_lt m3 hg3.wf p o r h1).2⟩
          rcases (hstep3 p o r).1 h1 with h2 | ⟨-, -, h3⟩
          · exact h.closed p o r hp.1 h2
          · exact Or.inl h3
        · exact Or.inr h1
      obtain ⟨u, v, huv, hu, hv⟩ := walk_unloop x1 x2
        (fun w => ∃ m, 1 ≤ m ∧ Concat (List.replicate m L) w)
        (fun p o r hstep => (hstep3 p o r).1 hstep)
        (fun u hu => ⟨1, le_refl _, (concat_single L u).2 ((h.lang u).1 hu)⟩)
        (fun u v hu hv => by
          obtain ⟨m, hm, hc⟩ := hv
          refine ⟨m + 1, by omega, ?_⟩
          rw [List.replicate_succ, concat_cons]
          exact ⟨u, v, rfl, (h.lang u).1 hu, hc⟩)
        hw3 rfl
      have hu2 := (h.lang u).1 hu
      rcases hv with hv | ⟨m, hm, hc⟩
      · subst hv
        exact ⟨1, le_refl _, by rw [huv, List.append_nil]; exact (concat_single L u).2 hu2⟩
      · refine ⟨m + 1, by omega, ?_⟩
        rw [List.replicate_succ, concat_cons]
        exact ⟨u, v, huv, hu2, hc⟩
    · rintro ⟨m, hm, hc⟩
      obtain ⟨k, rfl⟩ : ∃ k, m = k + 1 := ⟨m - 1, by omega⟩
      refine walk_snoc_eps (walk_mono (fun p o r hstep => (hstep4 p o r).2 (Or.inl hstep))
        (hplus k w hc)) ?_
      exact (hstep4 x2 none m3.states.length).2 (Or.inr ⟨rfl, rfl, rfl⟩)

theorem concat_replicate_add {S : Type} (L : List S → Prop) (a b : Nat) (w : List S) :
    Concat (List.replicate (a + b) L) w
      ↔ ∃ u v, w = u ++ v ∧ Concat (List.replicate a L) u ∧ Concat (List.replicate b L) v := by
  rw [List.replicate_add, concat_append]

/-- `RepeatAtLeast(n, f)` with `n ≥ 1` matches the words made of `n` or more words of `f` in
a row. -/
theorem built_repeatAtLeast {S V : Type} [DecidableEq S] [Inhabited V] (f : Fragment S V)
    (L : List S → Prop) (hf : Realizes f L) (k : Nat) (n : nfa.Nfa S V) (e : Nat)
    (hwf : n.WF) (he : e < n.states.length) (hs : Sink n e) :
    Built n e (repeatAtLeastBuild (k + 1) f n e).1 (repeatAtLeastBuild (k + 1) f n e).2
      (fun w => ∃ m, k + 1 ≤ m ∧ Concat (List.replicate m L) w) := by
  have h1 := built_sequence _ _ (forall2_replicate f L hf k) n e hwf he hs
  obtain ⟨k1, k2, -⟩ := built_exit _ _ _ _ _ he hs h1
  have h2 := hf _ _ h1.grows.wf k2 k1
  have h3 := built_plus _ _ _ _ _ k2 k1 h2
  have h4 := built_comp _ _ _ _ _ _ _ _ he hs h1 h3
  have hb : repeatAtLeastBuild (k + 1) f n e
      = (connectEpsilon (f.Build (sequenceBuild (List.replicate k f) n e).1
            (sequenceBuild (List.replicate k f) n e).2).1
          (f.Build (sequenceBuild (List.replicate k f) n e).1
            (sequenceBuild (List.replicate k f) n e).2).2
          (sequenceBuild (List.replicate k f) n e).2).AddEpsilonTransition
          (f.Build (sequenceBuild (List.replicate k f) n e).1
            (sequenceBuild (List.replicate k f) n e).2).2 := by
    unfold repeatAtLeastBuild
    rw [repeatLoop_succ]
  rw [hb]
  refine built_congr _ _ _ _ _ _ h4 ?_
  intro w
  constructor
  · rintro ⟨u, v, huv, hu, m, hm, hv⟩
    refine ⟨k + m, by omega, ?_⟩
    rw [concat_replicate_add]
    exact ⟨u, v, huv, hu, hv⟩
  · rintro ⟨m, hm, hc⟩
    obtain ⟨j, rfl⟩ : ∃ j, m = k + j := ⟨m - k, by omega⟩
    rw [concat_replicate_add] at hc
    obtain ⟨u, v, huv, hu, hv⟩ := hc
    exact ⟨u, v, huv, hu, j, by omega, hv⟩

/-! #### `RepeatBetween` -/

theorem optionalBuild_succ {S V : Type} (f : Fragment S V) (k : Nat) (n : nfa.Nfa S V)
    (e : Nat) :
    optionalBuild f (k + 1) n e
      = (connectEpsilon (optionalBuild f k (f.Build n e).1 (f.Build n e).2).1 e
            (optionalBuild f k (f.Build n e).1 (f.Build n e).2).2,
          (optionalBuild f k (f.Build n e).1 (f.Build n e).2).2) := rfl

/-- The optional instances of `RepeatBetween` for a fragment that never leads back into its
entry: at most `k` words of `L` in a row; no transition leads back into the entry either. -/
theorem built_optional {S V : Type} [DecidableEq S] [Inhabited V] (f : Fragment S V)
    (L : List S → Prop) (hf : Realizes f L) (hstrict : Strict f) (k : Nat) :
    ∀ (n : nfa.Nfa S V) (e : Nat), n.WF → e < n.states.length → Sink n e →
      Built n e (optionalBuild f k n e).1 (optionalBuild f k n e).2
        (fun w => ∃ m, m ≤ k ∧ Concat (List.replicate m L) w)
      ∧ (∀ p o, (p = e ∨ n.states.length ≤ p) → ¬ Step (optionalBuild f k n e).1 p o e)
      ∧ (0 < k → (optionalBuild f k n e).2 ≠ e) := by
  induction k with
  | zero =>
    intro n e hwf he hs
    refine ⟨built_congr _ _ _ _ _ _ (built_refl n e hwf hs) ?_, ?_, fun h => absurd h (by simp)⟩
    · intro w
      constructor
      · intro h; exact ⟨0, le_refl _, (concat_nil w).2 h⟩
      · rintro ⟨m, hm, hc⟩
        have : m = 0 := by omega
        subst this
        exact (concat_nil w).1 hc
    · intro p o hp hstep
      rcases hp with hp | hp
      · subst hp; exact not_step_of_sink n p hs o p hstep
      · exact not_step_of_sink n p (sink_of_out_of_range n p hp) o e hstep
  | succ k ih =>
    intro n e hwf he hs
    have h1 := hf n e hwf he hs
    obtain ⟨a1, a2⟩ := hstrict n e hwf he hs
    obtain ⟨k1, k2, k3⟩ := built_exit _ _ _ _ _ he hs h1
    have k4 : n.states.length ≤ (f.Build n e).2 := by
      rcases k3 with h | h
      · exact absurd h a1
      · exact h
    obtain ⟨h2, b1, b2⟩ := ih (f.Build n e).1 (f.Build n e).2 h1.grows.wf k2 k1
    have h3 := built_comp _ _ _ _ _ _ _ _ he hs h1 h2
    obtain ⟨c1, c2, c3⟩ := built_exit _ _ _ _ _ k2 k1 h2
    rw [optionalBuild_succ]
    generalize hn1 : (f.Build n e).1 = n1 at *
    generalize hx1 : (f.Build n e).2 = x1 at *
    generalize hn2 : (optionalBuild f k n1 x1).1 = n2 at *
    generalize hX : (optionalBuild f k n1 x1).2 = X at *
    have hlen1 := h1.grows.len
    have hlen2 := h2.grows.len
    have hXe : X ≠ e := by rcases c3 with h | h <;> omega
    have hXN : n.states.length ≤ X := by rcases c3 with h | h <;> omega
    have hstep := step_connectEpsilon (S := S) n2 e X (by omega)
    -- no transition of the heap before the bypass leads back into the entry
    have hnb : ∀ p o, (p = e ∨ n.states.length ≤ p) → ¬ Step n2 p o e := by
      intro p o hp hst
      by_cases hp1 : p < n1.states.length ∧ p ≠ x1
      · exact a2 p o hp ((step_congr n1 n2 p (h2.frame p hp1.1 hp1.2) o e).1 hst)
      · have hp2 : p = x1 ∨ n1.states.length ≤ p := by
          by_cases h : p = x1
          · exact Or.inl h
          · right; by_contra h4; exact hp1 ⟨by omega, h⟩
        rcases h2.closed p o e hp2 hst with h | h <;> omega
    refine ⟨?_, ?_, fun _ => hXe⟩
    · refine { grows := grows_trans _ _ _ h3.grows
                 (grows_connectEpsilon n2 h3.grows.wf e X c2),
               frame := ?_, exit := ?_, closed := ?_, lang := ?_ }
      · intro q hq hqe
        rw [deref_connectEpsilon_ne n2 e X q hqe]
        exact h3.frame q hq hqe
      · exact Or.inr ⟨hXN, by rw [length_connectEpsilon]; exact c2,
          sink_connectEpsilon n2 e X X hXe c1⟩
      · intro p o r hp hst
        rcases (hstep p o r).1 hst with h | ⟨-, -, h⟩
        · exact h3.closed p o r hp h
        · right; omega
      · intro w
        constructor
        · intro hw
          rcases walk_bypass (fun p => n.states.length ≤ p) e X hXe
            (fun o r => not_step_of_sink n2 X c1 o r)
            (fun p o r hst => (hstep p o r).1 hst)
            (fun p o r hp hst => by
              rcases h3.closed p o r hp hst with h | h
              · subst h; exact absurd hst (hnb p o hp)
              · exact h)
            (by omega) hw with h | h
          · subst h
            exact ⟨0, by omega, (concat_nil _).2 rfl⟩
          · obtain ⟨u, v, huv, hu, m, hm, hv⟩ := (h3.lang w).1 h
            refine ⟨m + 1, by omega, ?_⟩
            rw [List.replicate_succ, concat_cons]
            exact ⟨u, v, huv, hu, hv⟩
        · rintro ⟨m, hm, hc⟩
          cases m with
          | zero =>
            rw [show List.replicate 0 L = [] from rfl, concat_nil] at hc
            subst hc
            exact Walk.eps ((hstep e none X).2 (Or.inr ⟨rfl, rfl, rfl⟩)) (Walk.nil X)
          | succ m =>
            rw [List.replicate_succ, concat_cons] at hc
            obtain ⟨u, v, huv, hu, hv⟩ := hc
            exact walk_mono (fun p o r hst => (hstep p o r).2 (Or.inl hst))
              ((h3.lang w).2 ⟨u, v, huv, hu, m, by omega, hv⟩)
    · intro p o hp hst
      rcases (hstep p o e).1 hst with h | ⟨-, -, h⟩
      · exact hnb p o hp h
      · exact hXe h.symm

/-- `RepeatBetween(min, max, f)`, for a fragment that never leads back into its entry when
there are optional instances: from `min` to `max` words of `f` in a row. -/
theorem built_repeatBetween {S V : Type} [DecidableEq S] [Inhabited V] (f : Fragment S V)
    (L : List S → Prop) (hf : Realizes f L) (min max : Nat) (hmm : min ≤ max)
    (hstrict : min < max → Strict f) (n : nfa.Nfa S V) (e : Nat)
    (hwf : n.WF) (he : e < n.states.length) (hs : Sink n e) :
    Built n e (repeatBetweenBuild min max f n e).1 (repeatBetweenBuild min max f n e).2
      (fun w => ∃ m, min ≤ m ∧ m ≤ max ∧ Concat (List.replicate m L) w) := by
  have h1 := built_sequence _ _ (forall2_replicate f L hf min) n e hwf he hs
  obtain ⟨k1, k2, -⟩ := built_exit _ _ _ _ _ he hs h1
  unfold repeatBetweenBuild
  by_cases hlt : min < max
  · obtain ⟨h2, -, -⟩ := built_optional f L hf (hstrict hlt) (max - min) _ _ h1.grows.wf k2 k1
    refine built_congr _ _ _ _ _ _ (built_comp _ _ _ _ _ _ _ _ he hs h1 h2) ?_
    intro w
    constructor
    · rintro ⟨u, v, huv, hu, m, hm, hv⟩
      refine ⟨min + m, by omega, by omega, ?_⟩
      rw [concat_replicate_add]
      exact ⟨u, v, huv, hu, hv⟩
    · rintro ⟨m, hm1, hm2, hc⟩
      obtain ⟨j, rfl⟩ : ∃ j, m = min + j := ⟨m - min, by omega⟩
      rw [concat_replicate_add] at hc
      obtain ⟨u, v, huv, hu, hv⟩ := hc
      exact ⟨u, v, huv, hu, j, by omega, hv⟩
  · have hz : max - min = 0 := by omega
    rw [hz]
    refine built_congr _ _ _ _ _ _ h1 ?_
    intro w
    constructor
    · intro h; exact ⟨min, le_refl _, hmm, h⟩
    · rintro ⟨m, hm1, hm2, hc⟩
      have : m = min := by omega
      subst this
      exact hc

/-! #### `AddAcceptingEpsilonTransition` -/

theorem addAccEps_snd {S V : Type} [Inhabited V] (n : nfa.Nfa S V) (s : Nat) (value : V) :
    (n.AddAcceptingEpsilonTransition s value).2 = n.states.length := rfl

theorem length_addAccEps {S V : Type} [Inhabited V] (n : nfa.Nfa S V) (s : Nat) (value : V) :
    (n.AddAcceptingEpsilonTransition s value).1.states.length = n.states.length + 1 := by
  simp [nfa.Nfa.AddAcceptingEpsilonTransition, nfa.Nfa.newAcceptingState,
    nfa.Nfa.markAccepting, nfa.Nfa.update, List.length_modify]

theorem counter_addAccEps {S V : Type} [Inhabited V] (n : nfa.Nfa S V) (s : Nat) (value : V) :
    (n.AddAcceptingEpsilonTransition s value).1.nextAcceptIndex = n.nextAcceptIndex + 1 := rfl

theorem start_addAccEps {S V : Type} [Inhabited V] (n : nfa.Nfa S V) (s : Nat) (value : V) :
    (n.AddAcceptingEpsilonTransition s value).1.start = n.start := rfl

/-- The heap of `AddAcceptingEpsilonTransition` is that of `AddEpsilonTransition` with the
new state marked. -/
theorem deref_addAccEps {S V : Type} [Inhabited V] (n : nfa.Nfa S V) (s : Nat) (value : V)
    (hs : s < n.states.length) (q : Nat) :
    (n.AddAcceptingEpsilonTransition s value).1.deref q
      = if q = n.states.length then
          { (n.AddEpsilonTransition s).1.deref q with
            acceptIdx := (n.nextAcceptIndex : Int), value := value }
        else (n.AddEpsilonTransition s).1.deref q := by
  unfold nfa.Nfa.AddAcceptingEpsilonTransition nfa.Nfa.AddEpsilonTransition
    nfa.Nfa.newAcceptingState nfa.Nfa.newState nfa.Nfa.markAccepting nfa.Nfa.update
    nfa.Nfa.deref
  simp only [List.getD_eq_getElem?_getD, List.getElem?_modify]
  by_cases hq : q = n.states.length
  · subst hq
    have h1 : ¬ s = n.states.length := by omega
    simp [h1]
  · have h2 : ¬ n.states.length = q := fun h => hq h.symm
    simp only [hq, if_false, h2]
    by_cases hsq : s = q
    · subst hsq
      simp [List.getElem?_append_left hs, List.getElem?_eq_getElem hs]
    · simp only [hsq, if_false]
      by_cases hlt : q < n.states.length
      · simp [List.getElem?_append_left hlt, List.getElem?_eq_getElem hlt]
      · rw [List.getElem?_eq_none (by simp; omega)]
        simp

theorem step_addAccEps {S V : Type} [DecidableEq S] [Inhabited V] (n : nfa.Nfa S V)
    (s : Nat) (value : V) (hs : s < n.states.length) (p : Nat) (o : Option S) (r : Nat) :
    Step (n.AddAcceptingEpsilonTransition s value).1 p o r
      ↔ Step n p o r ∨ (p = s ∧ o = none ∧ r = n.states.length) := by
  rw [← step_addEpsilon n s hs p o r]
  have h := deref_addAccEps n s value hs p
  by_cases hp : p = n.states.length
  · rw [if_pos hp] at h
    cases o <;>
      simp [Step, dfa.epsilonOf_eq, dfa.outgoingOf, nfa.State.OutgoingFor, h]
  · rw [if_neg hp] at h
    exact step_congr _ _ p h o r

theorem acceptIdx_addAccEps {S V : Type} [Inhabited V] (n : nfa.Nfa S V) (s : Nat)
    (value : V) (hwf : n.WF) (hs : s < n.states.length) (q : Nat) :
    ((n.AddAcceptingEpsilonTransition s value).1.deref q).acceptIdx
        = (if q = n.states.length then (n.nextAcceptIndex : Int) else (n.deref q).acceptIdx)
    ∧ ((n.AddAcceptingEpsilonTransition s value).1.deref q).value
        = (if q = n.states.length then value else (n.deref q).value) := by
  rw [deref_addAccEps n s value hs q]
  by_cases hq : q = n.states.length
  · simp [hq]
  · simp only [hq, if_false]
    have hg := grows_addEpsilon n hwf s
    by_cases hlt : q < n.states.length
    · exact hg.old q hlt
    · rw [dfa.deref_out_of_range _ q (by rw [length_addEpsilon]; omega),
        dfa.deref_out_of_range n q (by omega)]
      exact ⟨rfl, rfl⟩

/-! ### From the NFA of a scanner to its tokens -/

theorem path_of_reach {S V : Type} [DecidableEq S] [Inhabited V] (n : nfa.Nfa S V)
    (w : List S) (q : Nat) (h : dfa.Reach n w q) : Path n n.Start w q := by
  induction h with
  | start => exact Walk.nil _
  | epsilon _ hr ih => exact walk_snoc_eps ih hr
  | symbol _ hr ih => exact walk_snoc_sym ih hr

theorem reach_of_walk {S V : Type} [DecidableEq S] [Inhabited V] (n : nfa.Nfa S V)
    (p q : Nat) (w : List S) (h : Walk (Step n) p w q) :
    ∀ u, dfa.Reach n u p → dfa.Reach n (u ++ w) q := by
  induction h with
  | nil p => intro u hu; simpa using hu
  | eps hs _ ih => intro u hu; exact ih u (dfa.Reach.epsilon hu hs)
  | @sym p r q a w hs _ ih =>
    intro u hu
    have := ih (u ++ [a]) (dfa.Reach.symbol hu hs)
    simpa using this

theorem reach_iff_path {S V : Type} [DecidableEq S] [Inhabited V] (n : nfa.Nfa S V)
    (w : List S) (q : Nat) : dfa.Reach n w q ↔ Path n n.Start w q := by
  constructor
  · exact path_of_reach n w q
  · intro h
    have := reach_of_walk n _ _ _ h [] dfa.Reach.start
    simpa using this

/-- What the DFA state reached by a word records: it exists iff the word reaches some NFA
state, it is accepting iff the word reaches an accepting NFA state, and then its value is the
value of an accepting NFA state that the word reaches, of least accept index. -/
theorem follow_accepting {S V : Type} [DecidableEq S] [Inhabited V] (n : nfa.Nfa S V)
    (hwf : n.WF) (w : List S) :
    ((dfa.FromNfa n).follow (dfa.FromNfa n).Start w = none → ∀ q, ¬ dfa.Reach n w q)
    ∧ ∀ D, (dfa.FromNfa n).follow (dfa.FromNfa n).Start w = some D →
        (((dfa.FromNfa n).deref D).IsAccepting = true
          ↔ ∃ q, dfa.Reach n w q ∧ (n.deref q).IsAccepting = true)
        ∧ (((dfa.FromNfa n).deref D).IsAccepting = true →
            ∃ q, dfa.Reach n w q ∧ (n.deref q).IsAccepting = true
              ∧ (∀ p, dfa.Reach n w p → (n.deref p).IsAccepting = true →
                  (n.deref q).AcceptIdx ≤ (n.deref p).AcceptIdx)
              ∧ ((dfa.FromNfa n).deref D).AcceptIdx = (n.deref q).AcceptIdx
              ∧ ((dfa.FromNfa n).deref D).AcceptValue = (n.deref q).AcceptValue) := by
  obtain ⟨h1, h2⟩ := dfa.follow_runSet n hwf w
  obtain ⟨hinv, -⟩ := dfa.run_inv (S := S) (V := V) n hwf
  have hmem : ∀ q, q ∈ dfa.subsetKey n (dfa.runSet n w) ↔ dfa.Reach n w q := fun q =>
    (dfa.mem_subsetKey n hwf _ (dfa.runSet_valid n hwf w) q).trans (dfa.mem_runSet n w q)
  by_cases hw : dfa.runSet n w = []
  · rw [h1 hw]
    refine ⟨fun _ q hq => ?_, fun D hD => by simp at hD⟩
    have := (dfa.mem_runSet n w q).2 hq
    rw [hw] at this
    simp at this
  · obtain ⟨r, hr, hg⟩ := h2 hw
    rw [hr]
    refine ⟨fun h => by simp at h, fun D hD => ?_⟩
    have hD2 : r = D := Option.some.inj hD
    subst hD2
    have hacc := hinv.accept _ _ hg
    have hiff : ((dfa.FromNfa n).deref r).IsAccepting = true
        ↔ ∃ q, dfa.Reach n w q ∧ (n.deref q).IsAccepting = true := by
      rw [show (dfa.FromNfa n).deref r
          = ((dfa.initialBuilder : dfa.dfaBuilder S V).run n).dfa.deref r from rfl,
        dfa.acceptSpec_isAccepting n _ _ hacc]
      constructor
      · rintro ⟨q, hq, ha⟩; exact ⟨q, (hmem q).1 hq, ha⟩
      · rintro ⟨q, hq, ha⟩; exact ⟨q, (hmem q).2 hq, ha⟩
    refine ⟨hiff, fun ha => ?_⟩
    obtain ⟨q, hq, hqa⟩ := hiff.1 ha
    obtain ⟨q2, k1, k2, k3, k4, k5⟩ := dfa.acceptSpec_min n _ _ hacc ⟨q, (hmem q).2 hq, hqa⟩
    exact ⟨q2, (hmem q2).1 k1, k2, fun p hp hpa => k3 p ((hmem p).2 hp) hpa, k4, k5⟩

theorem sink_new {S V : Type} [Inhabited V] : Sink (nfa.New : nfa.Nfa S V) 0 :=
  ⟨rfl, rfl, rfl⟩

/-- The NFA of the scanner with the single pattern `f → value`. -/
theorem single_buildNfa {S V : Type} [DecidableEq S] [Inhabited V] (f : Fragment S V)
    (value : V) :
    (NewScannerBuilder.Add f value).buildNfa
      = ((f.Build nfa.New 0).1.AddAcceptingEpsilonTransition (f.Build nfa.New 0).2 value).1 :=
  rfl

/-- In the NFA of a single-pattern scanner the attached state is the only accepting one, its
value is the value of the pattern, and the words that lead to it are those of the fragment. -/
theorem single_nfa {S V : Type} [DecidableEq S] [Inhabited V] (f : Fragment S V)
    (L : List S → Prop) (value : V) (hf : Realizes f L) :
    (NewScannerBuilder.Add f value).buildNfa.WF
    ∧ (∀ q, ((NewScannerBuilder.Add f value).buildNfa.deref q).IsAccepting = true
        ↔ q = (f.Build nfa.New 0).1.states.length)
    ∧ ((NewScannerBuilder.Add f value).buildNfa.deref
        (f.Build nfa.New 0).1.states.length).AcceptValue = value
    ∧ ∀ w, dfa.Reach (NewScannerBuilder.Add f value).buildNfa w
        (f.Build nfa.New 0).1.states.length ↔ L w := by
  have hb := hf nfa.New 0 nfa.WF_New (by simp [nfa.New]) sink_new
  obtain ⟨k1, k2, k3⟩ := built_exit _ _ _ _ _ (by simp [nfa.New]) sink_new hb
  rw [single_buildNfa]
  generalize hn1 : (f.Build nfa.New 0).1 = n1 at *
  generalize hx : (f.Build nfa.New 0).2 = x at *
  have hstep := step_addAccEps (S := S) n1 x value k2
  have hacc := acceptIdx_addAccEps n1 x value hb.grows.wf k2
  have hold : ∀ q, (n1.deref q).acceptIdx = -1 := by
    intro q
    by_cases hq : q < (nfa.New : nfa.Nfa S V).states.length
    · rw [(hb.grows.old q hq).1]
      have : q = 0 := by simp [nfa.New] at hq; omega
      subst this
      rfl
    · exact hb.grows.fresh q (by omega)
  have hcount : n1.nextAcceptIndex = 0 := hb.grows.counter
  refine ⟨(nfa.WF_AddAcceptingEpsilonTransition n1 hb.grows.wf x value).1, ?_, ?_, ?_⟩
  · intro q
    unfold nfa.State.IsAccepting nfa.State.AcceptIdx
    rw [(hacc q).1]
    by_cases hq : q = n1.states.length
    · simp only [hq, if_true, decide_eq_true_eq, iff_true]
      omega
    · simp [hq, hold q]
  · unfold nfa.State.AcceptValue
    rw [(hacc _).1, (hacc _).2]
    simp only [if_true]
    rw [if_neg (by omega)]
  · intro w
    rw [reach_iff_path, ← hb.lang w]
    have hst : (n1.AddAcceptingEpsilonTransition x value).1.Start = 0 := by
      unfold nfa.Nfa.Start
      rw [start_addAccEps, hb.grows.start]
      rfl
    rw [hst]
    constructor
    · intro hw
      refine walk_hop (fun p => p < n1.states.length) x n1.states.length (by simp) ?_ ?_
        (by have := hb.grows.len; simp [nfa.New] at this; omega) hw rfl
      · intro o r hstp
        rcases (hstep _ o r).1 hstp with h | ⟨h, -, -⟩
        · exact not_step_of_sink n1 _ (sink_of_out_of_range n1 _ (le_refl _)) o r h
        · omega
      · intro p o r hp hstp
        rcases (hstep p o r).1 hstp with h | h
        · exact Or.inl ⟨h, (step_lt n1 hb.grows.wf p o r h).2⟩
        · exact Or.inr h
    · intro hw
      exact walk_snoc_eps (walk_mono (fun p o r h => (hstep p o r).2 (Or.inl h)) hw)
        ((hstep x none _).2 (Or.inr ⟨rfl, rfl, rfl⟩))

/-- The DFA of a single-pattern scanner accepts the words of the fragment, with the value of
the pattern. -/
theorem single_accepts {S V : Type} [DecidableEq S] [Inhabited V] (f : Fragment S V)
    (L : List S → Prop) (value illegal eof : V) (hf : Realizes f L) (w : List S) :
    ((singlePattern f value illegal eof).accepts w = true ↔ L w)
    ∧ ∀ D, (singlePattern f value illegal eof).machine.follow
          (singlePattern f value illegal eof).machine.Start w = some D →
        (((singlePattern f value illegal eof).machine.deref D).IsAccepting = true ↔ L w)
        ∧ (L w → ((singlePattern f value illegal eof).machine.deref D).AcceptValue = value) := by
  obtain ⟨hwf, hacc, hval, hlang⟩ := single_nfa f L value hf
  obtain ⟨h1, h2⟩ := follow_accepting _ hwf w
  have hm : (singlePattern f value illegal eof).machine
      = dfa.FromNfa (NewScannerBuilder.Add f value).buildNfa := rfl
  have hiff : ∀ D, (dfa.FromNfa (NewScannerBuilder.Add f value).buildNfa).follow
        (dfa.FromNfa (NewScannerBuilder.Add f value).buildNfa).Start w = some D →
      (((dfa.FromNfa (NewScannerBuilder.Add f value).buildNfa).deref D).IsAccepting = true
        ↔ L w) := by
    intro D hD
    rw [(h2 D hD).1, ← hlang w]
    constructor
    · rintro ⟨q, hq, ha⟩
      rw [(hacc q).1 ha] at hq
      exact hq
    · intro h
      exact ⟨_, h, (hacc _).2 rfl⟩
  constructor
  · unfold Scanner.accepts
    rw [hm]
    cases hfol : (dfa.FromNfa (NewScannerBuilder.Add f value).buildNfa).follow
        (dfa.FromNfa (NewScannerBuilder.Add f value).buildNfa).Start w with
    | none =>
      simp only [Bool.false_eq_true, false_iff]
      intro hL
      exact h1 hfol _ ((hlang w).2 hL)
    | some D => exact hiff D hfol
  · intro D hD
    rw [hm] at hD ⊢
    refine ⟨hiff D hD, fun hL => ?_⟩
    obtain ⟨q, -, hqa, -, -, hv⟩ := (h2 D hD).2 ((hiff D hD).2 hL)
    rw [hv, (hacc q).1 hqa, hval]

/-- The tokens of a single-pattern scanner on a list-backed reader: the value of the pattern
for the longest non-empty prefix of the remaining input that the fragment matches, `illegal`
when there is none. -/
theorem single_nextToken {S V : Type} [DecidableEq S] [Inhabited V] (f : Fragment S V)
    (L : List S → Prop) (value illegal eof : V) (hf : Realizes f L) (input : List S)
    (cursor fuel : Nat) (hfuel : input.length - cursor < fuel) :
    (∀ k, 1 ≤ k → k ≤ (input.drop cursor).length → L ((input.drop cursor).take k) →
      (∀ m, k < m → m ≤ (input.drop cursor).length → ¬ L ((input.drop cursor).take m)) →
      (singlePattern f value illegal eof).NextToken (listReader S) fuel
          { input := input, cursor := cursor }
        = some (value, { input := input, cursor := cursor + k }))
    ∧ ((∀ k, 1 ≤ k → k ≤ (input.drop cursor).length → ¬ L ((input.drop cursor).take k)) →
      cursor < input.length →
      (singlePattern f value illegal eof).NextToken (listReader S) fuel
          { input := input, cursor := cursor }
        = some (illegal, { input := input, cursor := cursor + 1 })) := by
  constructor
  · intro k hk1 hk2 hL hmax
    obtain ⟨ha, hD⟩ := single_accepts f L value illegal eof hf ((input.drop cursor).take k)
    have hacc := ha.2 hL
    unfold Scanner.accepts at hacc
    cases hfol : (singlePattern f value illegal eof).machine.follow
        (singlePattern f value illegal eof).machine.Start ((input.drop cursor).take k) with
    | none => simp [hfol] at hacc
    | some D =>
      simp only [hfol] at hacc
      have hla := longestAccept_of_max (singlePattern f value illegal eof).machine
        (input.drop cursor) _ k D hk1 hk2 hfol hacc (by
          intro m r2 hm1 hm2 hr2
          by_contra hcon
          simp only [Bool.not_eq_false] at hcon
          exact hmax m hm1 hm2
            ((((single_accepts f L value illegal eof hf _).2 r2 hr2).1).1 hcon))
      rw [NextToken_list_match _ input cursor fuel k D hfuel hla, (hD D hfol).2 hL]
  · intro hno hc
    have hla := longestAccept_of_none (singlePattern f value illegal eof).machine
      (input.drop cursor) (singlePattern f value illegal eof).machine.Start (by
        intro k r hk1 hk2 hr
        by_contra hcon
        simp only [Bool.not_eq_false] at hcon
        exact hno k hk1 hk2
          ((((single_accepts f L value illegal eof hf _).2 r hr).1).1 hcon))
    rw [NextToken_list_illegal _ input cursor fuel hc hfuel hla]
    rfl

/-! ### Fragments never mark a state accepting -/

theorem plain_literalBuild {S V : Type} [DecidableEq S] [Inhabited V] (symbols : List S) :
    ∀ (n : nfa.Nfa S V) (e : Nat), n.WF → e < n.states.length →
      Grows n (literalBuild symbols n e).1
      ∧ (literalBuild symbols n e).2 < (literalBuild symbols n e).1.states.length := by
  induction symbols with
  | nil => intro n e hwf he; exact ⟨grows_refl n hwf, he⟩
  | cons sym rest ih =>
    intro n e hwf he
    rw [literalBuild_cons]
    have h1 := grows_add n hwf e sym
    obtain ⟨h2, h3⟩ := ih (n.Add e sym).1 (n.Add e sym).2 h1.wf
      (by rw [add_snd, length_add]; omega)
    exact ⟨grows_trans _ _ _ h1 h2, h3⟩

theorem plain_sequenceBuild {S V : Type} [Inhabited V] (fragments : List (Fragment S V))
    (h : ∀ g ∈ fragments, Plain g) :
    ∀ (n : nfa.Nfa S V) (e : Nat), n.WF → e < n.states.length →
      Grows n (sequenceBuild fragments n e).1
      ∧ (sequenceBuild fragments n e).2 < (sequenceBuild fragments n e).1.states.length := by
  induction fragments with
  | nil => intro n e hwf he; exact ⟨grows_refl n hwf, he⟩
  | cons f rest ih =>
    intro n e hwf he
    rw [sequenceBuild_cons]
    obtain ⟨h1, h1x⟩ := h f (List.mem_cons_self _ _) n e hwf he
    obtain ⟨h2, h3⟩ := ih (fun g hg => h g (List.mem_cons_of_mem _ hg)) _ _ h1.wf h1x
    exact ⟨grows_trans _ _ _ h1 h2, h3⟩

theorem plain_anyOfBranch {S V : Type} [Inhabited V] (f : Fragment S V) (hf : Plain f)
    (m : nfa.Nfa S V) (e j : Nat) (hwf : m.WF) (hj : j < m.states.length) :
    Grows m (anyOfBranch e j m f) := by
  unfold anyOfBranch
  have h1 := grows_addEpsilon m hwf e
  obtain ⟨h2, h2x⟩ := hf (m.AddEpsilonTransition e).1 (m.AddEpsilonTransition e).2 h1.wf
    (by rw [addEpsilon_snd, length_addEpsilon]; omega)
  have h3 := grows_connectEpsilon _ h2.wf
    (f.Build (m.AddEpsilonTransition e).1 (m.AddEpsilonTransition e).2).2 j
    (by have := h1.len; have := h2.len; omega)
  exact grows_trans _ _ _ h1 (grows_trans _ _ _ h2 h3)

theorem plain_anyOfFold {S V : Type} [Inhabited V] (fragments : List (Fragment S V))
    (h : ∀ g ∈ fragments, Plain g) (e j : Nat) :
    ∀ (m : nfa.Nfa S V), m.WF → j < m.states.length →
      Grows m (fragments.foldl (anyOfBranch e j) m) := by
  induction fragments with
  | nil => intro m hwf _; exact grows_refl m hwf
  | cons f rest ih =>
    intro m hwf hj
    have h1 := plain_anyOfBranch f (h f (List.mem_cons_self _ _)) m e j hwf hj
    have h2 := ih (fun g hg => h g (List.mem_cons_of_mem _ hg)) _ h1.wf
      (by have := h1.len; omega)
    exact grows_trans _ _ _ h1 h2

theorem plain_anyOfBuild {S V : Type} [Inhabited V] (fragments : List (Fragment S V))
    (h : ∀ g ∈ fragments, Plain g) (n : nfa.Nfa S V) (e : Nat) (hwf : n.WF) :
    Grows n (anyOfBuild fragments n e).1
    ∧ (anyOfBuild fragments n e).2 < (anyOfBuild fragments n e).1.states.length := by
  have h1 := grows_newState n hwf
  have h2 := plain_anyOfFold fragments h e n.states.length n.newState.1 h1.wf
    (by rw [length_newState]; omega)
  refine ⟨grows_trans _ _ _ h1 h2, ?_⟩
  have := h2.len
  rw [length_newState] at this
  exact this

theorem plain_repeatLoop {S V : Type} [Inhabited V] (f : Fragment S V) (hf : Plain f)
    (count : Nat) (n : nfa.Nfa S V) (e : Nat) (hwf : n.WF) (he : e < n.states.length) :
    Grows n (repeatLoop f count n e).1
    ∧ (repeatLoop f count n e).2.1 < (repeatLoop f count n e).1.states.length
    ∧ (repeatLoop f count n e).2.2 < (repeatLoop f count n e).1.states.length := by
  induction count with
  | zero => exact ⟨grows_refl n hwf, he, he⟩
  | succ k ih =>
    obtain ⟨h1, -, h3⟩ := ih
    simp only [repeatLoop]
    obtain ⟨h4, h5⟩ := hf _ _ h1.wf h3
    exact ⟨grows_trans _ _ _ h1 h4, by have := h4.len; omega, h5⟩

theorem plain_repeatAtLeastBuild {S V : Type} [Inhabited V] (f : Fragment S V) (hf : Plain f)
    (count : Nat) (n : nfa.Nfa S V) (e : Nat) (hwf : n.WF) (he : e < n.states.length) :
    Grows n (repeatAtLeastBuild count f n e).1
    ∧ (repeatAtLeastBuild count f n e).2 < (repeatAtLeastBuild count f n e).1.states.length := by
  obtain ⟨h1, h2, h3⟩ := plain_repeatLoop f hf count n e hwf he
  unfold repeatAtLeastBuild
  have h4 := grows_connectEpsilon _ h1.wf (repeatLoop f count n e).2.2
    (repeatLoop f count n e).2.1 h2
  have h5 := grows_addEpsilon _ h4.wf (repeatLoop f count n e).2.2
  refine ⟨grows_trans _ _ _ h1 (grows_trans _ _ _ h4 h5), ?_⟩
  rw [addEpsilon_snd, length_addEpsilon]
  omega

theorem plain_optionalBuild {S V : Type} [Inhabited V] (f : Fragment S V) (hf : Plain f)
    (count : Nat) :
    ∀ (n : nfa.Nfa S V) (e : Nat), n.WF → e < n.states.length →
      Grows n (optionalBuild f count n e).1
      ∧ (optionalBuild f count n e).2 < (optionalBuild f count n e).1.states.length := by
  induction count with
  | zero => intro n e hwf he; exact ⟨grows_refl n hwf, he⟩
  | succ k ih =>
    intro n e hwf he
    rw [optionalBuild_succ]
    obtain ⟨h1, h1x⟩ := hf n e hwf he
    obtain ⟨h2, h2x⟩ := ih _ _ h1.wf h1x
    have h3 := grows_connectEpsilon _ h2.wf e
      (optionalBuild f k (f.Build n e).1 (f.Build n e).2).2 h2x
    refine ⟨grows_trans _ _ _ h1 (grows_trans _ _ _ h2 h3), ?_⟩
    rw [length_connectEpsilon]
    exact h2x

theorem plain_repeatBetweenBuild {S V : Type} [Inhabited V] (f : Fragment S V)
    (hf : Plain f) (min max : Nat) (n : nfa.Nfa S V) (e : Nat) (hwf : n.WF)
    (he : e < n.states.length) :
    Grows n (repeatBetweenBuild min max f n e).1
    ∧ (repeatBetweenBuild min max f n e).2
        < (repeatBetweenBuild min max f n e).1.states.length := by
  unfold repeatBetweenBuild
  obtain ⟨h1, h1x⟩ := plain_sequenceBuild (List.replicate min f)
    (fun g hg => by rw [List.eq_of_mem_replicate hg]; exact hf) n e hwf he
  obtain ⟨h2, h2x⟩ := plain_optionalBuild f hf (max - min) _ _ h1.wf h1x
  exact ⟨grows_trans _ _ _ h1 h2, h2x⟩

/-- No fragment of the DSL marks a state accepting. -/
theorem dsl_plain {S V : Type} [DecidableEq S] [Inhabited V] (f : Fragment S V)
    (h : Dsl f) : Plain f := by
  induction h with
  | literal symbols f hf =>
    unfold Literal at hf
    split at hf
    · exact absurd hf (by simp)
    · simp only [Option.some.injEq] at hf
      subst hf
      exact fun n e hwf he => plain_literalBuild symbols n e hwf he
  | sequence fragments _ ih =>
    exact fun n e hwf he => plain_sequenceBuild fragments ih n e hwf he
  | anyOf fragments f _ hf ih =>
    unfold AnyOf at hf
    split at hf
    · exact absurd hf (by simp)
    · simp only [Option.some.injEq] at hf
      subst hf
      exact fun n e hwf _ => plain_anyOfBuild fragments ih n e hwf
  | repeatAtLeast k g f _ hf ih =>
    unfold RepeatAtLeast at hf
    split at hf
    · exact absurd hf (by simp)
    · simp only [Option.some.injEq] at hf
      subst hf
      exact fun n e hwf he => plain_repeatAtLeastBuild g ih _ n e hwf he
  | repeatBetween min max g f _ hf ih =>
    unfold RepeatBetween at hf
    split at hf
    · exact absurd hf (by simp)
    · simp only [Option.some.injEq] at hf
      subst hf
      exact fun n e hwf he => plain_repeatBetweenBuild g ih _ _ n e hwf he

/-! ### The accepting states of the NFA of a scanner -/

theorem attachLoop_fst {S V : Type} [Inhabited V] (sState : Nat)
    (patterns : List (pattern S V)) :
    ∀ machine : nfa.Nfa S V,
      (attachLoop sState patterns machine).1
        = patterns.foldl
            (fun machine pattern =>
              let built := pattern.fragment.Build machine sState
              (built.1.AddAcceptingEpsilonTransition built.2 pattern.value).1)
            machine := by
  induction patterns with
  | nil => intro machine; rfl
  | cons p rest ih =>
    intro machine
    simp only [attachLoop, List.foldl_cons]
    exact ih _

/-- The loop of `Build`: the pattern number `i` gets a new state with accept index
`nextAcceptIndex + i` and the value of the pattern; no other state changes its acceptance or
becomes accepting. -/
theorem attachLoop_spec {S V : Type} [Inhabited V] (sState : Nat)
    (patterns : List (pattern S V)) (hp : ∀ p ∈ patterns, Plain p.fragment) :
    ∀ machine : nfa.Nfa S V, machine.WF → sState < machine.states.length →
      (attachLoop sState patterns machine).1.WF
      ∧ machine.states.length ≤ (attachLoop sState patterns machine).1.states.length
      ∧ (attachLoop sState patterns machine).2.length = patterns.length
      ∧ (∀ (i a : Nat), (attachLoop sState patterns machine).2[i]? = some a →
          machine.states.length ≤ a
          ∧ a < (attachLoop sState patterns machine).1.states.length
          ∧ ((attachLoop sState patterns machine).1.deref a).acceptIdx
              = (machine.nextAcceptIndex : Int) + (i : Int)
          ∧ ∃ p, patterns[i]? = some p
              ∧ ((attachLoop sState patterns machine).1.deref a).value = p.value)
      ∧ (∀ q, q < machine.states.length →
          ((attachLoop sState patterns machine).1.deref q).acceptIdx
              = (machine.deref q).acceptIdx
          ∧ ((attachLoop sState patterns machine).1.deref q).value = (machine.deref q).value)
      ∧ (∀ q, machine.states.length ≤ q → q ∉ (attachLoop sState patterns machine).2 →
          ((attachLoop sState patterns machine).1.deref q).acceptIdx = -1) := by
  induction patterns with
  | nil =>
    intro machine hwf _
    refine ⟨hwf, le_refl _, rfl, ?_, fun q _ => ⟨rfl, rfl⟩, ?_⟩
    · intro i a h; simp [attachLoop] at h
    · intro q hq _
      simp only [attachLoop]
      rw [dfa.deref_out_of_range machine q hq]; rfl
  | cons p rest ih =>
    intro machine hwf hs
    obtain ⟨hg, hx⟩ := hp p (List.mem_cons_self _ _) machine sState hwf hs
    simp only [attachLoop]
    generalize hn1 : (p.fragment.Build machine sState).1 = n1 at *
    generalize hx1 : (p.fragment.Build machine sState).2 = x at *
    have hwf2 := (nfa.WF_AddAcceptingEpsilonTransition n1 hg.wf x p.value).1
    have hlen2 := length_addAccEps n1 x p.value
    have hacc := acceptIdx_addAccEps n1 x p.value hg.wf hx
    have hcnt := counter_addAccEps n1 x p.value
    rw [addAccEps_snd]
    generalize hn2 : (n1.AddAcceptingEpsilonTransition x p.value).1 = n2 at *
    have hlen1 := hg.len
    obtain ⟨k1, k2, k3, k4, k5, k6⟩ :=
      ih (fun q hq => hp q (List.mem_cons_of_mem _ hq)) n2 hwf2 (by omega)
    refine ⟨k1, by omega, by simp [k3], ?_, ?_, ?_⟩
    · intro i a hia
      cases i with
      | zero =>
        simp only [List.getElem?_cons_zero, Option.some.injEq] at hia
        subst hia
        refine ⟨hlen1, by omega, ?_, p, by simp, ?_⟩
        · rw [(k5 _ (by omega)).1, (hacc _).1, if_pos rfl, hg.counter]
          simp
        · rw [(k5 _ (by omega)).2, (hacc _).2, if_pos rfl]
      | succ i =>
        simp only [List.getElem?_cons_succ] at hia ⊢
        obtain ⟨j1, j2, j3, j4⟩ := k4 i a hia
        refine ⟨by omega, j2, ?_, j4⟩
        rw [j3, hcnt, hg.counter]
        push_cast
        ring
    · intro q hq
      rw [(k5 q (by omega)).1, (k5 q (by omega)).2, (hacc q).1, (hacc q).2,
        if_neg (by omega), if_neg (by omega)]
      exact hg.old q hq
    · intro q hq hqa
      simp only [List.mem_cons, not_or] at hqa
      by_cases hq2 : q < n2.states.length
      · rw [(k5 q hq2).1, (hacc q).1, if_neg hqa.1]
        exact hg.fresh q hq
      · exact k6 q (by omega) hqa.2

/-! ### The constructors of the DSL -/

theorem sequence_realizes {S V : Type} [DecidableEq S] [Inhabited V]
    (fragments : List (Fragment S V)) (Ls : List (List S → Prop))
    (h : List.Forall₂ Realizes fragments Ls) : Realizes (Sequence fragments) (Concat Ls) :=
  fun n e hwf he hs => built_sequence fragments Ls h n e hwf he hs

theorem anyOf_realizes {S V : Type} [DecidableEq S] [Inhabited V]
    (fragments : List (Fragment S V)) (Ls : List (List S → Prop)) (F : Fragment S V)
    (h : List.Forall₂ Realizes fragments Ls) (hF : AnyOf fragments = some F) :
    Realizes F (fun w => ∃ L ∈ Ls, L w) := by
  unfold AnyOf at hF
  split at hF
  · exact absurd hF (by simp)
  · simp only [Option.some.injEq] at hF
    subst hF
    exact fun n e hwf he hs => built_anyOf fragments Ls h n e hwf he hs

theorem repeatAtLeast_realizes {S V : Type} [DecidableEq S] [Inhabited V] (n : Int)
    (f F : Fragment S V) (L : List S → Prop) (hn : 1 ≤ n) (hf : Realizes f L)
    (hF : RepeatAtLeast n f = some F) :
    Realizes F (fun w => ∃ m : Nat, n ≤ (m : Int) ∧ Concat (List.replicate m L) w) := by
  unfold RepeatAtLeast at hF
  split at hF
  · exact absurd hF (by simp)
  · simp only [Option.some.injEq] at hF
    subst hF
    obtain ⟨k, hk⟩ : ∃ k : Nat, n.toNat = k + 1 := ⟨n.toNat - 1, by omega⟩
    intro m e hwf he hs
    simp only [hk]
    refine built_congr _ _ _ _ _ _ (built_repeatAtLeast f L hf k m e hwf he hs) ?_
    intro w
    constructor
    · rintro ⟨j, hj, hc⟩; exact ⟨j, by omega, hc⟩
    · rintro ⟨j, hj, hc⟩; exact ⟨j, by omega, hc⟩

theorem repeatBetween_realizes {S V : Type} [DecidableEq S] [Inhabited V] (min max : Int)
    (f F : Fragment S V) (L : List S → Prop) (hf : Realizes f L)
    (hstrict : min < max → Strict f) (hF : RepeatBetween min max f = some F) :
    Realizes F (fun w => ∃ m : Nat, min ≤ (m : Int) ∧ (m : Int) ≤ max
      ∧ Concat (List.replicate m L) w) := by
  unfold RepeatBetween at hF
  split at hF
  · exact absurd hF (by simp)
  · rename_i hpre
    simp only [Option.some.injEq] at hF
    subst hF
    intro n e hwf he hs
    refine built_congr _ _ _ _ _ _
      (built_repeatBetween f L hf min.toNat max.toNat (by omega)
        (fun h => hstrict (by omega)) n e hwf he hs) ?_
    intro w
    constructor
    · rintro ⟨j, h1, h2, hc⟩; exact ⟨j, by omega, by omega, hc⟩
    · rintro ⟨j, h1, h2, hc⟩; exact ⟨j, by omega, by omega, hc⟩

/-- A `Literal` returns a new exit and adds no transition into a state that existed. -/
theorem literalBuild_noback {S V : Type} [DecidableEq S] [Inhabited V] (symbols : List S) :
    ∀ (n : nfa.Nfa S V) (e : Nat), n.WF → e < n.states.length → Sink n e →
      ∀ t p o, t < n.states.length → (p = e ∨ n.states.length ≤ p) →
        ¬ Step (literalBuild symbols n e).1 p o t := by
  induction symbols with
  | nil =>
    intro n e hwf he hs t p o _ hp hstep
    rcases hp with hp | hp
    · subst hp; exact not_step_of_sink n p hs o t hstep
    · exact not_step_of_sink n p (sink_of_out_of_range n p hp) o t hstep
  | cons sym rest ih =>
    intro n e hwf he hs t p o ht hp hstep
    rw [literalBuild_cons] at hstep
    have h1 := built_add n e sym hwf he hs
    obtain ⟨k1, k2, -⟩ := built_exit _ _ _ _ _ he hs h1
    have h2 := built_literal rest (n.Add e sym).1 (n.Add e sym).2 h1.grows.wf k2 k1
    have hlen := length_add n e sym
    rw [add_snd] at h2 hstep k1 k2
    by_cases hpe : p = e
    · subst hpe
      rw [step_congr _ _ p (h2.frame p (by omega) (by omega)) o t] at hstep
      rcases (step_add_sink n p sym he hs p o t).1 hstep with h | ⟨-, -, h⟩
      · exact not_step_of_sink n p hs o t h
      · omega
    · have hp2 : n.states.length ≤ p := by rcases hp with h | h; exact absurd h hpe; exact h
      refine ih (n.Add e sym).1 n.states.length h1.grows.wf k2 k1 t p o (by omega) ?_ hstep
      by_cases h : p = n.states.length
      · exact Or.inl h
      · right; omega

theorem literal_strict {S V : Type} [DecidableEq S] [Inhabited V] (symbols : List S)
    (f : Fragment S V) (h : Literal symbols = some f) : Strict f := by
  unfold Literal at h
  split at h
  · exact absurd h (by simp)
  · rename_i hne
    simp only [Option.some.injEq] at h
    subst h
    intro n e hwf he hs
    refine ⟨?_, fun p o hp => literalBuild_noback symbols n e hwf he hs e p o he hp⟩
    cases symbols with
    | nil => simp at hne
    | cons sym rest =>
      simp only
      rw [literalBuild_cons]
      have h1 := built_add n e sym hwf he hs
      obtain ⟨k1, k2, -⟩ := built_exit _ _ _ _ _ he hs h1
      have h2 := built_literal rest (n.Add e sym).1 (n.Add e sym).2 h1.grows.wf k2 k1
      obtain ⟨-, -, k3⟩ := built_exit _ _ _ _ _ k2 k1 h2
      have e1 := add_snd n e sym
      have e2 := length_add n e sym
      omega

/-! ### No dangling pointer in the DFA -/

theorem follow_allocated {S V : Type} [DecidableEq S] [Inhabited V] (n : nfa.Nfa S V)
    (hwf : n.WF) (w : List S) (D : Nat)
    (h : (dfa.FromNfa n).follow (dfa.FromNfa n).Start w = some D) :
    D < (dfa.FromNfa n).states.length := by
  obtain ⟨h1, h2⟩ := dfa.follow_runSet n hwf w
  obtain ⟨hinv, -⟩ := dfa.run_inv (S := S) (V := V) n hwf
  by_cases hw : dfa.runSet n w = []
  · rw [h1 hw] at h; exact absurd h (by simp)
  · obtain ⟨r, hr, hg⟩ := h2 hw
    rw [hr] at h
    have : r = D := Option.some.inj h
    subst this
    exact (hinv.keys_valid _ _ hg).2.2

theorem buildNfa_wf {S V : Type} [Inhabited V] (builder : ScannerBuilder S V)
    (hp : ∀ p ∈ builder.patterns, Plain p.fragment) : builder.buildNfa.WF := by
  have h := (attachLoop_spec (nfa.New : nfa.Nfa S V).Start builder.patterns hp nfa.New
    nfa.WF_New (by simp [nfa.New, nfa.Nfa.Start])).1
  rw [attachLoop_fst] at h
  exact h

theorem nextToken_list_total {S V : Type} [DecidableEq S] [Inhabited V] (s : Scanner S V)
    (input : List S) (cursor fuel : Nat) (hfuel : input.length - cursor < fuel) :
    ∃ (token : V) (rdr : ListReader S),
      s.NextToken (listReader S) fuel { input := input, cursor := cursor }
        = some (token, rdr) := by
  by_cases hc : cursor < input.length
  · obtain ⟨v, m, -, -, h, -⟩ := NextToken_list_step s input cursor fuel hc hfuel
    exact ⟨_, _, h⟩
  · exact ⟨_, _, NextToken_list_eof s input cursor fuel (by omega) (by omega)⟩

/-! ### The scanner builder and the pattern DSL -/

/-- C14: in the NFA that `ScannerBuilder.Build` constructs from patterns added in order, when
building a fragment never marks a state accepting (`Plain`: the heap stays well formed, the
accept-index counter and the acceptance of the states are untouched; every fragment of the
DSL is such, `dsl_plain`), the accepting state attached to the pattern number `i` (the state
that `AddAcceptingEpsilonTransition` returned for it) has accept index exactly `i` and the
value of that pattern; the attached states are pairwise different, one for each pattern, and
they are the only accepting states. -/
theorem Build_accept_indices {S V : Type} [DecidableEq S] [Inhabited V]
    (builder : ScannerBuilder S V) (hp : ∀ p ∈ builder.patterns, Plain p.fragment) :
    (attachLoop (nfa.New : nfa.Nfa S V).Start builder.patterns nfa.New).1 = builder.buildNfa
    ∧ builder.buildNfa.WF
    ∧ builder.attached.length = builder.patterns.length
    ∧ builder.attached.Nodup
    ∧ (∀ (i a : Nat), builder.attached[i]? = some a →
        (builder.buildNfa.deref a).AcceptIdx = (i : Int)
        ∧ ∃ p, builder.patterns[i]? = some p
            ∧ (builder.buildNfa.deref a).AcceptValue = p.value)
    ∧ (∀ q, (builder.buildNfa.deref q).IsAccepting = true ↔ q ∈ builder.attached) := by
  obtain ⟨k1, k2, k3, k4, k5, k6⟩ := attachLoop_spec (nfa.New : nfa.Nfa S V).Start
    builder.patterns hp nfa.New nfa.WF_New (by simp [nfa.New, nfa.Nfa.Start])
  have hfst : (attachLoop (nfa.New : nfa.Nfa S V).Start builder.patterns nfa.New).1
      = builder.buildNfa := attachLoop_fst _ _ _
  rw [hfst] at k1 k2 k4 k5 k6
  have hidx : ∀ (i a : Nat), builder.attached[i]? = some a →
      (builder.buildNfa.deref a).acceptIdx = (i : Int) := by
    intro i a hia
    have := (k4 i a hia).2.2.1
    simpa [nfa.New] using this
  refine ⟨hfst, k1, k3, ?_, ?_, ?_⟩
  · rw [List.nodup_iff_getElem?_ne_getElem?]
    intro i j hij hj heq
    have hi : i < builder.attached.length := by omega
    have h1 := hidx i _ (List.getElem?_eq_getElem hi)
    have h2 := hidx j _ (List.getElem?_eq_getElem hj)
    rw [List.getElem?_eq_getElem hi, List.getElem?_eq_getElem hj, Option.some.injEq] at heq
    rw [heq, h2] at h1
    omega
  · intro i a hia
    obtain ⟨-, -, -, p, hpi, hv⟩ := k4 i a hia
    refine ⟨hidx i a hia, p, hpi, ?_⟩
    unfold nfa.State.AcceptValue
    rw [hidx i a hia, if_neg (by omega)]
    exact hv
  · intro q
    unfold nfa.State.IsAccepting nfa.State.AcceptIdx
    constructor
    · intro h
      by_contra hq
      have hneg : (builder.buildNfa.deref q).acceptIdx = -1 := by
        by_cases hq0 : q < (nfa.New : nfa.Nfa S V).states.length
        · rw [(k5 q hq0).1]
          have : q = 0 := by simp [nfa.New] at hq0; omega
          subst this
          rfl
        · exact k6 q (by omega) hq
      rw [hneg] at h
      simp at h
    · intro h
      obtain ⟨i, hi, hia⟩ := List.getElem_of_mem h
      have := hidx i q (by rw [List.getElem?_eq_getElem hi, hia])
      rw [this]
      simp
      omega

/-- Witness of C14: the patterns `Literal('a') → 1` and `Literal('a', 'b') → 2`. -/
theorem Build_accept_indices_witness :
    (attachLoop (nfa.New : nfa.Nfa Char Nat).Start twoLiterals.patterns nfa.New).1
        = twoLiterals.buildNfa
    ∧ twoLiterals.buildNfa.WF
    ∧ twoLiterals.attached.length = twoLiterals.patterns.length
    ∧ twoLiterals.attached.Nodup
    ∧ (∀ (i a : Nat), twoLiterals.attached[i]? = some a →
        (twoLiterals.buildNfa.deref a).AcceptIdx = (i : Int)
        ∧ ∃ p, twoLiterals.patterns[i]? = some p
            ∧ (twoLiterals.buildNfa.deref a).AcceptValue = p.value)
    ∧ (∀ q, (twoLiterals.buildNfa.deref q).IsAccepting = true ↔ q ∈ twoLiterals.attached) :=
  Build_accept_indices twoLiterals (by
    intro p hp
    have h : p.fragment = literalOf ['a'] ∨ p.fragment = literalOf ['a', 'b'] := by
      simp only [twoLiterals, ScannerBuilder.Add, NewScannerBuilder, List.nil_append,
        List.cons_append, List.mem_cons, List.mem_singleton, List.not_mem_nil, or_false] at hp
      rcases hp with h | h
      · exact Or.inl (by rw [h])
      · exact Or.inr (by rw [h])
    rcases h with h | h
    · rw [h]; exact dsl_plain _ (Dsl.literal ['a'] _ rfl)
    · rw [h]; exact dsl_plain _ (Dsl.literal ['a', 'b'] _ rfl))

/-- C15: for `n ≥ 1` symbols, the fragment `Literal(s₁, …, sₙ)` matches the word `s₁ … sₙ` and
no other, and so does the DFA of the scanner whose only pattern is that fragment with value
`v`; on a list-backed reader this scanner returns `v` and consumes exactly `n` symbols when the
remaining input starts with `s₁ … sₙ`, and returns `illegal` (consuming one symbol) on any
other non-empty remaining input, a proper prefix of the word included. -/
theorem Literal_scanner {S V : Type} [DecidableEq S] [Inhabited V] (symbols : List S)
    (f : Fragment S V) (value illegal eof : V) (input : List S) (cursor fuel : Nat)
    (hlit : Literal symbols = some f) (hfuel : input.length - cursor < fuel) :
    1 ≤ symbols.length
    ∧ Realizes f (fun w => w = symbols)
    ∧ (∀ w, (singlePattern f value illegal eof).accepts w = true ↔ w = symbols)
    ∧ (symbols <+: input.drop cursor →
        (singlePattern f value illegal eof).NextToken (listReader S) fuel
            { input := input, cursor := cursor }
          = some (value, { input := input, cursor := cursor + symbols.length }))
    ∧ (¬ symbols <+: input.drop cursor → cursor < input.length →
        (singlePattern f value illegal eof).NextToken (listReader S) fuel
            { input := input, cursor := cursor }
          = some (illegal, { input := input, cursor := cursor + 1 })) := by
  have hne : 1 ≤ symbols.length := by
    unfold Literal at hlit
    split at hlit
    · exact absurd hlit (by simp)
    · rename_i h
      cases symbols with
      | nil => simp at h
      | cons a rest => simp
  have hf := literal_realizes symbols f hlit
  obtain ⟨h1, h2⟩ := single_nextToken f _ value illegal eof hf input cursor fuel hfuel
  refine ⟨hne, hf, fun w => (single_accepts f _ value illegal eof hf w).1, ?_, ?_⟩
  · intro hpre
    obtain ⟨t, ht⟩ := hpre
    have hlen : (input.drop cursor).length = symbols.length + t.length := by
      rw [← ht, List.length_append]
    refine h1 symbols.length hne (by omega) (by rw [← ht]; simp) ?_
    intro m hm1 hm2 hcon
    have := congrArg List.length hcon
    rw [List.length_take] at this
    omega
  · intro hpre hc
    refine h2 ?_ hc
    intro k _ _ hcon
    apply hpre
    rw [← hcon]
    exact List.take_prefix _ _

/-- Witness of C15: `Literal('a', 'b')` on the input "abab" read from its beginning. -/
theorem Literal_scanner_witness :
    1 ≤ ['a', 'b'].length
    ∧ Realizes (literalOf ['a', 'b']) (fun w => w = ['a', 'b'])
    ∧ (∀ w, (singlePattern (literalOf ['a', 'b']) 1 100 200).accepts w = true
        ↔ w = ['a', 'b'])
    ∧ (['a', 'b'] <+: ['a', 'b', 'a', 'b'].drop 0 →
        (singlePattern (literalOf ['a', 'b']) 1 100 200).NextToken (listReader Char) 5
            { input := ['a', 'b', 'a', 'b'], cursor := 0 }
          = some (1, { input := ['a', 'b', 'a', 'b'], cursor := 0 + ['a', 'b'].length }))
    ∧ (¬ ['a', 'b'] <+: ['a', 'b', 'a', 'b'].drop 0 → 0 < ['a', 'b', 'a', 'b'].length →
        (singlePattern (literalOf ['a', 'b']) 1 100 200).NextToken (listReader Char) 5
            { input := ['a', 'b', 'a', 'b'], cursor := 0 }
          = some (100, { input := ['a', 'b', 'a', 'b'], cursor := 0 + 1 })) :=
  Literal_scanner ['a', 'b'] (literalOf ['a', 'b']) 1 100 200 ['a', 'b', 'a', 'b'] 0 5 rfl
    (by decide)

/-- C16: for fragments `f₁, …, fₖ` matching the languages `L₁, …, Lₖ`, `Sequence(f₁, …, fₖ)`
matches exactly the concatenations `w₁ w₂ … wₖ` with `wᵢ` in `Lᵢ`, and the DFA of the scanner
whose only pattern is the sequence accepts exactly these words. -/
theorem Sequence_matches_concatenation {S V : Type} [DecidableEq S] [Inhabited V]
    (fragments : List (Fragment S V)) (Ls : List (List S → Prop))
    (h : List.Forall₂ Realizes fragments Ls) :
    Realizes (Sequence fragments) (Concat Ls)
    ∧ ∀ (value illegal eof : V) (w : List S),
        (singlePattern (Sequence fragments) value illegal eof).accepts w = true
          ↔ Concat Ls w :=
  ⟨sequence_realizes fragments Ls h, fun value illegal eof w =>
    (single_accepts _ _ value illegal eof (sequence_realizes fragments Ls h) w).1⟩

/-- Witness of C16: `Sequence(Literal('='), Literal('='))`. -/
theorem Sequence_matches_concatenation_witness :
    Realizes (Sequence [literalOf ['='], literalOf ['=']])
        (Concat [fun w => w = ['='], fun w => w = ['=']])
    ∧ ∀ (value illegal eof : Nat) (w : List Char),
        (singlePattern (Sequence [literalOf ['='], literalOf ['=']]) value illegal eof).accepts w
            = true
          ↔ Concat [fun w => w = ['='], fun w => w = ['=']] w :=
  Sequence_matches_concatenation [literalOf ['='], literalOf ['=']]
    [fun w => w = ['='], fun w => w = ['=']]
    (List.Forall₂.cons (literal_realizes ['='] _ rfl)
      (List.Forall₂.cons (literal_realizes ['='] _ rfl) List.Forall₂.nil))

/-- C17: for `k ≥ 2` fragments `f₁, …, fₖ` matching the languages `L₁, …, Lₖ`,
`AnyOf(f₁, …, fₖ)` matches a word iff at least one `Lᵢ` holds it, whatever prefixes the
branches share, and the DFA of the scanner whose only pattern is the alternation accepts
exactly these words. -/
theorem AnyOf_matches_union {S V : Type} [DecidableEq S] [Inhabited V]
    (fragments : List (Fragment S V)) (Ls : List (List S → Prop)) (F : Fragment S V)
    (h : List.Forall₂ Realizes fragments Ls) (hF : AnyOf fragments = some F) :
    2 ≤ fragments.length
    ∧ Realizes F (fun w => ∃ L ∈ Ls, L w)
    ∧ ∀ (value illegal eof : V) (w : List S),
        (singlePattern F value illegal eof).accepts w = true ↔ ∃ L ∈ Ls, L w := by
  refine ⟨?_, anyOf_realizes fragments Ls F h hF, fun value illegal eof w =>
    (single_accepts _ _ value illegal eof (anyOf_realizes fragments Ls F h hF) w).1⟩
  unfold AnyOf at hF
  split at hF
  · exact absurd hF (by simp)
  · omega

/-- Witness of C17: `AnyOf(Literal("pub"), Literal("Pub"), Literal("PUB"))`. -/
theorem AnyOf_matches_union_witness :
    2 ≤ [literalOf ['p', 'u', 'b'], literalOf ['P', 'u', 'b'], literalOf ['P', 'U', 'B']].length
    ∧ Realizes
        { Build := anyOfBuild
            [literalOf ['p', 'u', 'b'], literalOf ['P', 'u', 'b'], literalOf ['P', 'U', 'B']] }
        (fun w => ∃ L ∈ [fun w => w = ['p', 'u', 'b'], fun w => w = ['P', 'u', 'b'],
          fun w => w = ['P', 'U', 'B']], L w)
    ∧ ∀ (value illegal eof : Nat) (w : List Char),
        (singlePattern
            { Build := anyOfBuild
                [literalOf ['p', 'u', 'b'], literalOf ['P', 'u', 'b'],
                  literalOf ['P', 'U', 'B']] }
            value illegal eof).accepts w = true
          ↔ ∃ L ∈ [fun w => w = ['p', 'u', 'b'], fun w => w = ['P', 'u', 'b'],
              fun w => w = ['P', 'U', 'B']], L w :=
  AnyOf_matches_union
    [literalOf ['p', 'u', 'b'], literalOf ['P', 'u', 'b'], literalOf ['P', 'U', 'B']]
    [fun w => w = ['p', 'u', 'b'], fun w => w = ['P', 'u', 'b'], fun w => w = ['P', 'U', 'B']]
    _
    (List.Forall₂.cons (literal_realizes ['p', 'u', 'b'] _ rfl)
      (List.Forall₂.cons (literal_realizes ['P', 'u', 'b'] _ rfl)
        (List.Forall₂.cons (literal_realizes ['P', 'U', 'B'] _ rfl) List.Forall₂.nil)))
    rfl

theorem loopThenB_realizes :
    Realizes loopThenB
      (Concat [fun w => ∃ m : Nat, (1 : Int) ≤ (m : Int)
          ∧ Concat (List.replicate m (fun w => w = ['a'])) w, fun w => w = ['b']]) :=
  sequence_realizes _ _
    (List.Forall₂.cons
      (repeatAtLeast_realizes 1 (literalOf ['a']) _ _ (le_refl _)
        (literal_realizes ['a'] _ rfl) rfl)
      (List.Forall₂.cons (literal_realizes ['b'] _ rfl) List.Forall₂.nil))

/-- C20: constructing a fragment fails (`none`, the panic) exactly when its precondition is
violated: `Literal` with zero symbols, `AnyOf` with fewer than two branches, `RepeatAtLeast`
with `n < 0`, `RepeatBetween` with `min < 0` or `min > max`; `Sequence` has no precondition.
Nothing fails later: for patterns of DSL fragments the heap of the NFA that `Build` hands to
`FromNfa` is well formed, the start state of the DFA and every state that `OutgoingFor` leads
to along any word are allocated (no nil pointer is dereferenced by `NextToken`), and
`NextToken` on a list-backed reader returns a token. -/
theorem fragment_panics_at_construction_only {S V : Type} [DecidableEq S] [Inhabited V]
    (builder : ScannerBuilder S V) (illegal eof : V) (input : List S) (cursor fuel : Nat)
    (hdsl : ∀ p ∈ builder.patterns, Dsl p.fragment)
    (hfuel : input.length - cursor < fuel) :
    (∀ symbols : List S, (Literal symbols : Option (Fragment S V)) = none
        ↔ symbols.length = 0)
    ∧ (∀ fragments : List (Fragment S V), AnyOf fragments = none ↔ fragments.length < 2)
    ∧ (∀ (n : Int) (f : Fragment S V), RepeatAtLeast n f = none ↔ n < 0)
    ∧ (∀ (min max : Int) (f : Fragment S V),
        RepeatBetween min max f = none ↔ (min < 0 ∨ min > max))
    ∧ builder.buildNfa.WF
    ∧ (builder.Build illegal eof).machine.Start
        < (builder.Build illegal eof).machine.states.length
    ∧ (∀ (w : List S) (D : Nat),
        (builder.Build illegal eof).machine.follow (builder.Build illegal eof).machine.Start w
          = some D →
        D < (builder.Build illegal eof).machine.states.length)
    ∧ ∃ (token : V) (rdr : ListReader S),
        (builder.Build illegal eof).NextToken (listReader S) fuel
          { input := input, cursor := cursor } = some (token, rdr) := by
  have hwf := buildNfa_wf builder (fun p hp => dsl_plain _ (hdsl p hp))
  refine ⟨?_, ?_, ?_, ?_, hwf, ?_, ?_, nextToken_list_total _ input cursor fuel hfuel⟩
  · intro symbols
    unfold Literal
    cases symbols <;> simp
  · intro fragments
    unfold AnyOf
    split
    · rename_i h
      exact ⟨fun _ => h, fun _ => rfl⟩
    · rename_i h
      exact ⟨fun h2 => absurd h2 (by simp), fun h2 => absurd h2 h⟩
  · intro n f
    unfold RepeatAtLeast
    split
    · rename_i h
      exact ⟨fun _ => h, fun _ => rfl⟩
    · rename_i h
      exact ⟨fun h2 => absurd h2 (by simp), fun h2 => absurd h2 h⟩
  · intro min max f
    unfold RepeatBetween
    split
    · rename_i h
      exact ⟨fun _ => by omega, fun _ => rfl⟩
    · rename_i h
      exact ⟨fun h2 => absurd h2 (by simp), fun h2 => absurd (by omega) h⟩
  · exact follow_allocated builder.buildNfa hwf [] _ rfl
  · intro w D hD
    exact follow_allocated builder.buildNfa hwf w D hD

/-- Witness of C20: the patterns `Literal('a') → 1` and `Literal('a', 'b') → 2` on the input
"ab". -/
theorem fragment_panics_at_construction_only_witness :
    (∀ symbols : List Char, (Literal symbols : Option (Fragment Char Nat)) = none
        ↔ symbols.length = 0)
    ∧ (∀ fragments : List (Fragment Char Nat), AnyOf fragments = none ↔ fragments.length < 2)
    ∧ (∀ (n : Int) (f : Fragment Char Nat), RepeatAtLeast n f = none ↔ n < 0)
    ∧ (∀ (min max : Int) (f : Fragment Char Nat),
        RepeatBetween min max f = none ↔ (min < 0 ∨ min > max))
    ∧ twoLiterals.buildNfa.WF
    ∧ (twoLiterals.Build 100 200).machine.Start
        < (twoLiterals.Build 100 200).machine.states.length
    ∧ (∀ (w : List Char) (D : Nat),
        (twoLiterals.Build 100 200).machine.follow (twoLiterals.Build 100 200).machine.Start w
          = some D →
        D < (twoLiterals.Build 100 200).machine.states.length)
    ∧ ∃ (token : Nat) (rdr : ListReader Char),
        (twoLiterals.Build 100 200).NextToken (listReader Char) 3
          { input := ['a', 'b'], cursor := 0 } = some (token, rdr) :=
  fragment_panics_at_construction_only twoLiterals 100 200 ['a', 'b'] 0 3 (by
    intro p hp
    have h : p.fragment = literalOf ['a'] ∨ p.fragment = literalOf ['a', 'b'] := by
      simp only [twoLiterals, ScannerBuilder.Add, NewScannerBuilder, List.nil_append,
        List.cons_append, List.mem_cons, List.mem_singleton, List.not_mem_nil, or_false] at hp
      rcases hp with h | h
      · exact Or.inl (by rw [h])
      · exact Or.inr (by rw [h])
    rcases h with h | h
    · rw [h]; exact Dsl.literal ['a'] _ rfl
    · rw [h]; exact Dsl.literal ['a', 'b'] _ rfl) (by decide)

end scanner

namespace nfa

/-! ### The single-edge fast path against the reference map -/

theorem putAll_snoc {S V : Type} [DecidableEq S] (st : State S V) (puts : List (S × Nat))
    (p : S × Nat) : st.putAll (puts ++ [p]) = (st.putAll puts).put p.1 p.2 := by
  simp [State.putAll, List.foldl_append]

theorem referenceMap_snoc {S : Type} [DecidableEq S] (puts : List (S × Nat)) (p : S × Nat) :
    referenceMap (puts ++ [p]) = (referenceMap puts).Put p.1 p.2 := by
  simp [referenceMap, List.foldl_append]

/-- Where a state that started without transitions keeps the transitions of a sequence of
`put` operations: nowhere, in the inline edge, in the map, or, for a sequence of odd length
three or more, all but the last in the map and the last in the inline edge. -/
theorem putAll_storage {S V : Type} [DecidableEq S] [Inhabited V] (id : Nat)
    (puts : List (S × Nat)) :
    (puts = [] ∧ ((State.blank id : State S V).putAll puts).edge = none
        ∧ ((State.blank id : State S V).putAll puts).transitions = none)
    ∨ (∃ p, puts = [p]
        ∧ ((State.blank id : State S V).putAll puts).edge = some { sym := p.1, dst := p.2 }
        ∧ ((State.blank id : State S V).putAll puts).transitions = none)
    ∨ (2 ≤ puts.length ∧ puts.length % 2 = 0
        ∧ ((State.blank id : State S V).putAll puts).edge = none
        ∧ ((State.blank id : State S V).putAll puts).transitions = some (referenceMap puts))
    ∨ (∃ init p, puts = init ++ [p] ∧ 2 ≤ init.length ∧ init.length % 2 = 0
        ∧ ((State.blank id : State S V).putAll puts).edge = some { sym := p.1, dst := p.2 }
        ∧ ((State.blank id : State S V).putAll puts).transitions
            = some (referenceMap init)) := by
  induction puts using List.reverseRecOn with
  | nil => exact Or.inl ⟨rfl, rfl, rfl⟩
  | append_singleton init p ih =>
    rw [putAll_snoc]
    rcases ih with ⟨h1, h2, h3⟩ | ⟨p0, h1, h2, h3⟩ | ⟨h1, h2, h3, h4⟩ | ⟨i0, p0, h1, h2, h3, h4, h5⟩
    · right; left
      refine ⟨p, by simp [h1], ?_, ?_⟩
      · unfold State.put; rw [h2]
      · unfold State.put; rw [h2]; exact h3
    · right; right; left
      subst h1
      refine ⟨by simp, by simp, ?_, ?_⟩
      · unfold State.put; rw [h2]
      · unfold State.put; rw [h2]
        simp only [h3]
        rfl
    · right; right; right
      refine ⟨init, p, rfl, h1, h2, ?_, ?_⟩
      · unfold State.put; rw [h3]
      · unfold State.put; rw [h3]; exact h4
    · right; right; left
      have hl : (init ++ [p]).length = i0.length + 2 := by
        rw [h1]; simp only [List.length_append, List.length_singleton]
      refine ⟨by omega, by omega, ?_, ?_⟩
      · unfold State.put; rw [h4]
      · unfold State.put; rw [h4]
        simp only [h5]
        rw [referenceMap_snoc, h1, referenceMap_snoc]

/-- C21 (code bug): the storage of a state is observable. For every sequence of `put`
operations on a state without transitions, `OutgoingFor` (for every symbol) and
`OutgoingSymbols` return what the reference map returns for the visible part of the
sequence, which leaves out the last operation of a sequence of odd length three or more.
After the puts `('a', 1)`, `('b', 2)`, `('c', 3)` the state answers `OutgoingFor('c')` with
the empty list and `OutgoingSymbols()` with `['a', 'b']`, the reference map with `[3]` and
`['a', 'b', 'c']`. -/
theorem put_fast_path_is_observable {S V : Type} [DecidableEq S] [Inhabited V] :
    (∀ (puts : List (S × Nat)) (sym : S),
      ((((State.blank 0 : State S V).putAll puts).OutgoingFor sym).getD []
          = (referenceMap (visiblePuts puts)).Get sym)
      ∧ ((((State.blank 0 : State S V).putAll puts).OutgoingSymbols).getD []
          = (referenceMap (visiblePuts puts)).Keys))
    ∧ visiblePuts [('a', 1), ('b', 2), ('c', 3)] = [('a', 1), ('b', 2)]
    ∧ (((State.blank 0 : State Char Nat).putAll [('a', 1), ('b', 2), ('c', 3)]).OutgoingFor
          'c').getD [] = []
    ∧ (referenceMap [('a', 1), ('b', 2), ('c', 3)]).Get 'c' = [3]
    ∧ (((State.blank 0 : State Char Nat).putAll
          [('a', 1), ('b', 2), ('c', 3)]).OutgoingSymbols).getD [] = ['a', 'b']
    ∧ (referenceMap [('a', 1), ('b', 2), ('c', 3)]).Keys = ['a', 'b', 'c'] := by
  refine ⟨?_, by decide, by decide, by decide, by decide, by decide⟩
  intro puts sym
  rcases putAll_storage (V := V) 0 puts with ⟨h1, h2, h3⟩ | ⟨p0, h1, h2, h3⟩
    | ⟨h1, h2, h3, h4⟩ | ⟨i0, p0, h1, h2, h3, h4, h5⟩
  · subst h1
    constructor
    · simp [State.OutgoingFor, State.putAll, State.blank, visiblePuts, referenceMap,
        mvmap.MvMap.Get, mvmap.New, mvmap.getData]
    · simp [State.OutgoingSymbols, State.putAll, State.blank, visiblePuts, referenceMap,
        mvmap.MvMap.Keys, mvmap.New]
  · have hv : visiblePuts puts = puts := by subst h1; simp [visiblePuts]
    rw [hv]
    unfold State.OutgoingFor State.OutgoingSymbols
    rw [h3, h2]
    subst h1
    constructor
    · by_cases hs : p0.1 = sym
      · simp [hs, referenceMap, mvmap.MvMap.Get, mvmap.MvMap.Put, mvmap.New, mvmap.putData,
          mvmap.getData]
      · simp [hs, referenceMap, mvmap.MvMap.Get, mvmap.MvMap.Put, mvmap.New, mvmap.putData,
          mvmap.getData]
    · simp [referenceMap, mvmap.MvMap.Keys, mvmap.MvMap.Put, mvmap.New, mvmap.putData]
  · have hv : visiblePuts puts = puts := by
      unfold visiblePuts
      rw [if_neg (by omega)]
    rw [hv]
    unfold State.OutgoingFor State.OutgoingSymbols
    rw [h4]
    exact ⟨rfl, rfl⟩
  · have hv : visiblePuts puts = i0 := by
      unfold visiblePuts
      rw [if_pos (by subst h1; simp; omega), h1, List.dropLast_concat]
    rw [hv]
    unfold State.OutgoingFor State.OutgoingSymbols
    rw [h5]
    exact ⟨rfl, rfl⟩

/-! ### `OutgoingFor` on a symbol without transition -/

/-- C24 (code bug): `OutgoingFor(sym)` returns nil for a symbol without transition only as
long as the state has no map (at most one labelled transition); with a map it returns the
copy it allocated, never nil. After `Add(start, 'a')` and `Add(start, 'b')` the start state
has no transition on 'z' and `OutgoingFor('z')` is an allocated empty slice. -/
theorem OutgoingFor_missing_symbol_is_not_nil {S V : Type} [DecidableEq S] :
    (∀ (st : State S V) (sym : S), st.transitions = none →
      (∀ e, st.edge = some e → e.sym ≠ sym) → st.OutgoingFor sym = none)
    ∧ (∀ (st : State S V) (m : mvmap.MvMap S Nat) (sym : S), st.transitions = some m →
      st.OutgoingFor sym = some (m.Get sym) ∧ st.OutgoingFor sym ≠ none)
    ∧ (twoAdds.deref twoAdds.Start).OutgoingSymbols = some ['a', 'b']
    ∧ (twoAdds.deref twoAdds.Start).OutgoingFor 'z' = some []
    ∧ (twoAdds.deref twoAdds.Start).OutgoingFor 'z' ≠ none := by
  refine ⟨?_, ?_, by decide, by decide, by decide⟩
  · intro st sym ht he
    unfold State.OutgoingFor
    rw [ht]
    cases hedge : st.edge with
    | none => rfl
    | some e =>
      simp only
      rw [if_neg (he e hedge)]
  · intro st m sym ht
    unfold State.OutgoingFor
    rw [ht]
    exact ⟨rfl, by simp⟩

/-! ### Acceptance of a state -/

/-- C26: for every NFA state and every DFA state, `IsAccepting` is true iff `AcceptIdx ≥ 0`,
and `AcceptValue` is the zero value when the state is not accepting and the stored value when
it is; the state returned by `Add` and by `AddEpsilonTransition` is not accepting, the state
returned by `AddAccepting(s, sym, v)` and by `AddAcceptingEpsilonTransition(s, v)` is
accepting with `AcceptValue` `v`. -/
theorem accepting_accessors {S V : Type} [DecidableEq S] [Inhabited V] (st : State S V)
    (dst : dfa.State S V) (n : Nfa S V) (s : Nat) (sym : S) (v : V) :
    (st.IsAccepting = true ↔ st.AcceptIdx ≥ 0)
    ∧ (st.IsAccepting = false → st.AcceptValue = default)
    ∧ (st.IsAccepting = true → st.AcceptValue = st.value)
    ∧ (dst.IsAccepting = true ↔ dst.AcceptIdx ≥ 0)
    ∧ (dst.IsAccepting = false → dst.AcceptValue = default)
    ∧ (dst.IsAccepting = true → dst.AcceptValue = dst.value)
    ∧ ((n.Add s sym).1.deref (n.Add s sym).2).IsAccepting = false
    ∧ ((n.AddEpsilonTransition s).1.deref (n.AddEpsilonTransition s).2).IsAccepting = false
    ∧ ((n.AddAccepting s sym v).1.deref (n.AddAccepting s sym v).2).IsAccepting = true
    ∧ ((n.AddAccepting s sym v).1.deref (n.AddAccepting s sym v).2).AcceptValue = v
    ∧ ((n.AddAcceptingEpsilonTransition s v).1.deref
        (n.AddAcceptingEpsilonTransition s v).2).IsAccepting = true
    ∧ ((n.AddAcceptingEpsilonTransition s v).1.deref
        (n.AddAcceptingEpsilonTransition s v).2).AcceptValue = v := by
  have hnfa : ∀ t : State S V, (t.IsAccepting = true ↔ t.AcceptIdx ≥ 0)
      ∧ (t.IsAccepting = false → t.AcceptValue = default)
      ∧ (t.IsAccepting = true → t.AcceptValue = t.value) := by
    intro t
    unfold State.IsAccepting State.AcceptValue State.AcceptIdx
    refine ⟨?_, ?_, ?_⟩
    · simp only [decide_eq_true_eq]; omega
    · intro h
      simp only [decide_eq_false_iff_not] at h
      rw [if_pos (by omega)]
    · intro h
      simp only [decide_eq_true_eq] at h
      rw [if_neg (by omega)]
  have hdfa : (dst.IsAccepting = true ↔ dst.AcceptIdx ≥ 0)
      ∧ (dst.IsAccepting = false → dst.AcceptValue = default)
      ∧ (dst.IsAccepting = true → dst.AcceptValue = dst.value) := by
    unfold dfa.State.IsAccepting dfa.State.AcceptValue dfa.State.AcceptIdx
    refine ⟨?_, ?_, ?_⟩
    · simp only [decide_eq_true_eq]; omega
    · intro h
      simp only [decide_eq_false_iff_not] at h
      rw [if_pos (by omega)]
    · intro h
      simp only [decide_eq_true_eq] at h
      rw [if_neg (by omega)]
  -- the state stored at the address that a creating call returns
  have hget : ∀ (states : List (State S V)) (t : State S V) (f g : State S V → State S V),
      (((states ++ [t]).modify g states.length).modify f s).getD states.length default
        = if s = states.length then f (g t) else g t := by
    intro states t f g
    simp only [List.getD_eq_getElem?_getD, List.getElem?_modify]
    by_cases hs : s = states.length
    · simp [hs]
    · simp [hs]
  have hget0 : ∀ (states : List (State S V)) (t : State S V) (f : State S V → State S V),
      ((states ++ [t]).modify f s).getD states.length default
        = if s = states.length then f t else t := by
    intro states t f
    simp only [List.getD_eq_getElem?_getD, List.getElem?_modify]
    by_cases hs : s = states.length
    · simp [hs]
    · simp [hs]
  have hput : ∀ (t : State S V) (a : S) (r : Nat),
      (t.put a r).acceptIdx = t.acceptIdx ∧ (t.put a r).value = t.value := by
    intro t a r
    unfold State.put
    split <;> exact ⟨rfl, rfl⟩
  refine ⟨(hnfa st).1, (hnfa st).2.1, (hnfa st).2.2, hdfa.1, hdfa.2.1, hdfa.2.2,
    ?_, ?_, ?_, ?_, ?_, ?_⟩
  · simp only [Nfa.Add, Nfa.newState, Nfa.update, Nfa.deref, hget0]
    unfold State.IsAccepting State.AcceptIdx
    split
    · rw [(hput _ _ _).1]; rfl
    · rfl
  · simp only [Nfa.AddEpsilonTransition, Nfa.newState, Nfa.update, Nfa.deref, hget0]
    unfold State.IsAccepting State.AcceptIdx
    split <;> rfl
  · simp only [Nfa.AddAccepting, Nfa.newAcceptingState, Nfa.markAccepting, Nfa.update,
      Nfa.deref, hget]
    unfold State.IsAccepting State.AcceptIdx
    split
    · rw [(hput _ _ _).1]; simp only [decide_eq_true_eq]; omega
    · simp only [decide_eq_true_eq]; omega
  · simp only [Nfa.AddAccepting, Nfa.newAcceptingState, Nfa.markAccepting, Nfa.update,
      Nfa.deref, hget]
    unfold State.AcceptValue
    split
    · rw [(hput _ _ _).1, (hput _ _ _).2]
      simp only
      rw [if_neg (by omega)]
    · simp only
      rw [if_neg (by omega)]
  · simp only [Nfa.AddAcceptingEpsilonTransition, Nfa.newAcceptingState, Nfa.markAccepting,
      Nfa.update, Nfa.deref, hget]
    unfold State.IsAccepting State.AcceptIdx
    split <;> (simp only [decide_eq_true_eq]; omega)
  · simp only [Nfa.AddAcceptingEpsilonTransition, Nfa.newAcceptingState, Nfa.markAccepting,
      Nfa.update, Nfa.deref, hget]
    unfold State.AcceptValue
    split
    · simp only
      rw [if_neg (by omega)]
    · simp only
      rw [if_neg (by omega)]

end nfa

namespace nfa

/-! ### Sequences of builder calls -/

theorem getD_modify_proj {α β : Type} (π : α → β) (f : α → α) (hf : ∀ a, π (f a) = π a)
    (l : List α) (s q : Nat) (d : α) : π ((l.modify f s).getD q d) = π (l.getD q d) := by
  simp only [List.getD_eq_getElem?_getD, List.getElem?_modify]
  cases l[q]? with
  | none => rfl
  | some a =>
    by_cases h : s = q
    · simp [h, hf]
    · simp [h]

theorem getD_append_modify {α : Type} (l : List α) (t : α) (g : α → α) (q : Nat) (d : α) :
    ((l ++ [t]).modify g l.length).getD q d = if q = l.length then g t else l.getD q d := by
  simp only [List.getD_eq_getElem?_getD, List.getElem?_modify]
  by_cases hq : q = l.length
  · subst hq; simp
  · have h2 : ¬ l.length = q := fun h => hq h.symm
    rw [if_neg hq]
    by_cases hlt : q < l.length
    · simp [h2, List.getElem?_append_left hlt]
    · rw [List.getElem?_eq_none (by simp; omega), List.getElem?_eq_none (by omega)]
      rfl

theorem getD_append_new {α : Type} (l : List α) (t : α) (q : Nat) (d : α) :
    (l ++ [t]).getD q d = if q = l.length then t else l.getD q d := by
  have h := getD_append_modify l t id q d
  simpa [List.modify_id] using h

theorem getD_modify_self {α : Type} (l : List α) (f : α → α) (s : Nat) (d : α)
    (hs : s < l.length) : (l.modify f s).getD s d = f (l.getD s d) := by
  simp [List.getD_eq_getElem?_getD, List.getElem?_modify, List.getElem?_eq_getElem hs]

theorem getD_modify_ne {α : Type} (l : List α) (f : α → α) (s q : Nat) (d : α)
    (h : q ≠ s) : (l.modify f s).getD q d = l.getD q d := by
  have h2 : ¬ s = q := fun h3 => h h3.symm
  simp [List.getD_eq_getElem?_getD, List.getElem?_modify, h2]

theorem put_core {S V : Type} [DecidableEq S] (st : State S V) (sym : S) (dst : Nat) :
    ((st.put sym dst).id, (st.put sym dst).acceptIdx, (st.put sym dst).value)
      = (st.id, st.acceptIdx, st.value) := by
  unfold State.put
  split <;> rfl

theorem put_eTransitions {S V : Type} [DecidableEq S] (st : State S V) (sym : S)
    (dst : Nat) : (st.put sym dst).eTransitions = st.eTransitions := by
  unfold State.put
  split <;> rfl

/-- What one builder call does to the ids and the acceptance of the states: a state that
existed keeps them; every call but `Connect` creates one state, at the end of the heap, with
the next id, and with the next accept index when the call is an accepting one. -/
theorem call_spec {S V : Type} [DecidableEq S] [Inhabited V] (n : Nfa S V) (c : Call S V) :
    (n.call c).1.start = n.start
    ∧ (n.call c).1.nextAcceptIndex = n.nextAcceptIndex + (if c.accepting then 1 else 0)
    ∧ (∀ q, q ≠ n.states.length ∨ (n.call c).2 = none →
        ((n.call c).1.deref q).id = (n.deref q).id
        ∧ ((n.call c).1.deref q).acceptIdx = (n.deref q).acceptIdx
        ∧ ((n.call c).1.deref q).value = (n.deref q).value)
    ∧ (((n.call c).2 = none ∧ c.accepting = false
          ∧ (n.call c).1.states.length = n.states.length
          ∧ (n.call c).1.nextStateID = n.nextStateID)
        ∨ ((n.call c).2 = some n.states.length
          ∧ (n.call c).1.states.length = n.states.length + 1
          ∧ (n.call c).1.nextStateID = n.nextStateID + 1
          ∧ ((n.call c).1.deref n.states.length).id = n.nextStateID
          ∧ ((n.call c).1.deref n.states.length).acceptIdx
              = (if c.accepting then (n.nextAcceptIndex : Int) else -1))) := by
  have hcore : ∀ (l : List (State S V)) (f : State S V → State S V) (s q : Nat),
      (∀ a, ((f a).id, (f a).acceptIdx, (f a).value) = (a.id, a.acceptIdx, a.value)) →
      ((l.modify f s).getD q default).id = (l.getD q default).id
      ∧ ((l.modify f s).getD q default).acceptIdx = (l.getD q default).acceptIdx
      ∧ ((l.modify f s).getD q default).value = (l.getD q default).value := by
    intro l f s q hf
    have h := getD_modify_proj (fun a : State S V => (a.id, a.acceptIdx, a.value)) f hf l s q
      default
    simp only [Prod.mk.injEq] at h
    exact h
  cases c with
  | add s sym =>
    refine ⟨rfl, rfl, ?_, Or.inr ⟨rfl, ?_, rfl, ?_, ?_⟩⟩
    · intro q hq
      have hq2 : q ≠ n.states.length := by
        rcases hq with h | h
        · exact h
        · simp [Nfa.call] at h
      have h := hcore (n.states ++ [State.blank n.nextStateID])
        (fun st => st.put sym n.states.length) s q (fun a => put_core a _ _)
      rw [getD_append_new, if_neg hq2] at h
      exact h
    · simp [Nfa.call, Nfa.Add, Nfa.newState, Nfa.update, List.length_modify]
    · have h := hcore (n.states ++ [State.blank n.nextStateID])
        (fun st => st.put sym n.states.length) s n.states.length (fun a => put_core a _ _)
      rw [getD_append_new, if_pos rfl] at h
      exact h.1
    · have h := hcore (n.states ++ [State.blank n.nextStateID])
        (fun st => st.put sym n.states.length) s n.states.length (fun a => put_core a _ _)
      rw [getD_append_new, if_pos rfl] at h
      exact h.2.1
  | addAccepting s sym value =>
    refine ⟨rfl, rfl, ?_, Or.inr ⟨rfl, ?_, rfl, ?_, ?_⟩⟩
    · intro q hq
      have hq2 : q ≠ n.states.length := by
        rcases hq with h | h
        · exact h
        · simp [Nfa.call] at h
      have h := hcore ((n.states ++ [State.blank n.nextStateID]).modify
          (fun st => { st with acceptIdx := (n.nextAcceptIndex : Int), value := value })
          n.states.length)
        (fun st => st.put sym n.states.length) s q (fun a => put_core a _ _)
      rw [getD_append_modify, if_neg hq2] at h
      exact h
    · simp [Nfa.call, Nfa.AddAccepting, Nfa.newAcceptingState, Nfa.markAccepting, Nfa.update,
        List.length_modify]
    · have h := hcore ((n.states ++ [State.blank n.nextStateID]).modify
          (fun st => { st with acceptIdx := (n.nextAcceptIndex : Int), value := value })
          n.states.length)
        (fun st => st.put sym n.states.length) s n.states.length (fun a => put_core a _ _)
      rw [getD_append_modify, if_pos rfl] at h
      exact h.1
    · have h := hcore ((n.states ++ [State.blank n.nextStateID]).modify
          (fun st => { st with acceptIdx := (n.nextAcceptIndex : Int), value := value })
          n.states.length)
        (fun st => st.put sym n.states.length) s n.states.length (fun a => put_core a _ _)
      rw [getD_append_modify, if_pos rfl] at h
      exact h.2.1
  | addEpsilon s =>
    refine ⟨rfl, rfl, ?_, Or.inr ⟨rfl, ?_, rfl, ?_, ?_⟩⟩
    · intro q hq
      have hq2 : q ≠ n.states.length := by
        rcases hq with h | h
        · exact h
        · simp [Nfa.call] at h
      have h := hcore (n.states ++ [State.blank n.nextStateID])
        (fun st => { st with eTransitions := st.eTransitions ++ [n.states.length] }) s q
        (fun a => rfl)
      rw [getD_append_new, if_neg hq2] at h
      exact h
    · simp [Nfa.call, Nfa.AddEpsilonTransition, Nfa.newState, Nfa.update, List.length_modify]
    · have h := hcore (n.states ++ [State.blank n.nextStateID])
        (fun st => { st with eTransitions := st.eTransitions ++ [n.states.length] }) s
        n.states.length (fun a => rfl)
      rw [getD_append_new, if_pos rfl] at h
      exact h.1
    · have h := hcore (n.states ++ [State.blank n.nextStateID])
        (fun st => { st with eTransitions := st.eTransitions ++ [n.states.length] }) s
        n.states.length (fun a => rfl)
      rw [getD_append_new, if_pos rfl] at h
      exact h.2.1
  | addAcceptingEpsilon s value =>
    refine ⟨rfl, rfl, ?_, Or.inr ⟨rfl, ?_, rfl, ?_, ?_⟩⟩
    · intro q hq
      have hq2 : q ≠ n.states.length := by
        rcases hq with h | h
        · exact h
        · simp [Nfa.call] at h
      have h := hcore ((n.states ++ [State.blank n.nextStateID]).modify
          (fun st => { st with acceptIdx := (n.nextAcceptIndex : Int), value := value })
          n.states.length)
        (fun st => { st with eTransitions := st.eTransitions ++ [n.states.length] }) s q
        (fun a => rfl)
      rw [getD_append_modify, if_neg hq2] at h
      exact h
    · simp [Nfa.call, Nfa.AddAcceptingEpsilonTransition, Nfa.newAcceptingState,
        Nfa.markAccepting, Nfa.update, List.length_modify]
    · have h := hcore ((n.states ++ [State.blank n.nextStateID]).modify
          (fun st => { st with acceptIdx := (n.nextAcceptIndex : Int), value := value })
          n.states.length)
        (fun st => { st with eTransitions := st.eTransitions ++ [n.states.length] }) s
        n.states.length (fun a => rfl)
      rw [getD_append_modify, if_pos rfl] at h
      exact h.1
    · have h := hcore ((n.states ++ [State.blank n.nextStateID]).modify
          (fun st => { st with acceptIdx := (n.nextAcceptIndex : Int), value := value })
          n.states.length)
        (fun st => { st with eTransitions := st.eTransitions ++ [n.states.length] }) s
        n.states.length (fun a => rfl)
      rw [getD_append_modify, if_pos rfl] at h
      exact h.2.1
  | connect src sym dst =>
    refine ⟨rfl, rfl, ?_, Or.inl ⟨rfl, rfl, ?_, rfl⟩⟩
    · intro q _
      exact hcore n.states (fun st => st.put sym dst) src q (fun a => put_core a _ _)
    · simp [Nfa.call, Nfa.Connect, Nfa.update, List.length_modify]

theorem run_cons {S V : Type} [DecidableEq S] [Inhabited V] (n : Nfa S V) (c : Call S V)
    (rest : List (Call S V)) : n.run (c :: rest) = (n.call c).1.run rest := rfl

theorem createdAccepting_cons {S V : Type} [DecidableEq S] [Inhabited V] (n : Nfa S V)
    (c : Call S V) (rest : List (Call S V)) :
    n.createdAccepting (c :: rest)
      = (if c.accepting then [n.states.length] else [])
          ++ (n.call c).1.createdAccepting rest := by
  obtain ⟨-, -, -, h⟩ := call_spec n c
  unfold Nfa.createdAccepting
  simp only [Nfa.trace, List.filterMap_cons]
  rcases h with ⟨h1, h2, -⟩ | ⟨h1, -⟩
  · rw [h1, h2]; simp
  · rw [h1]
    cases c.accepting <;> simp

theorem created_cons {S V : Type} [DecidableEq S] [Inhabited V] (n : Nfa S V)
    (c : Call S V) (rest : List (Call S V)) :
    n.created (c :: rest)
      = (if (n.call c).2 = none then [] else [n.states.length])
          ++ (n.call c).1.created rest := by
  obtain ⟨-, -, -, h⟩ := call_spec n c
  unfold Nfa.created
  simp only [Nfa.trace, List.filterMap_cons]
  rcases h with ⟨h1, -⟩ | ⟨h1, -⟩
  · rw [h1]; simp
  · rw [h1]; simp

/-- The accept indices after a sequence of builder calls, from any automaton on. -/
theorem run_accepting {S V : Type} [DecidableEq S] [Inhabited V] (calls : List (Call S V)) :
    ∀ n : Nfa S V,
      n.states.length ≤ (n.run calls).states.length
      ∧ (n.run calls).nextAcceptIndex = n.nextAcceptIndex + (n.createdAccepting calls).length
      ∧ (∀ (j a : Nat), (n.createdAccepting calls)[j]? = some a →
          n.states.length ≤ a
          ∧ ((n.run calls).deref a).acceptIdx = (n.nextAcceptIndex : Int) + (j : Int))
      ∧ (∀ q, q < n.states.length →
          ((n.run calls).deref q).acceptIdx = (n.deref q).acceptIdx
          ∧ ((n.run calls).deref q).value = (n.deref q).value)
      ∧ (∀ q, n.states.length ≤ q → q ∉ n.createdAccepting calls →
          ((n.run calls).deref q).acceptIdx = -1) := by
  induction calls with
  | nil =>
    intro n
    refine ⟨le_refl _, rfl, ?_, fun q _ => ⟨rfl, rfl⟩, ?_⟩
    · intro j a h; simp [Nfa.createdAccepting, Nfa.trace] at h
    · intro q hq _
      show (n.deref q).acceptIdx = -1
      rw [dfa.deref_out_of_range n q hq]; rfl
  | cons c rest ih =>
    intro n
    obtain ⟨-, c2, c3, c4⟩ := call_spec n c
    obtain ⟨k1, k2, k3, k4, k5⟩ := ih (n.call c).1
    rw [run_cons, createdAccepting_cons]
    rcases c4 with ⟨d1, d2, d3, d4⟩ | ⟨d1, d3, d4, d5, d6⟩
    · -- `Connect`
      rw [d2] at c2 ⊢
      simp only [Bool.false_eq_true, if_false, List.nil_append, add_zero] at c2 ⊢
      rw [d3] at k1 k3 k4 k5
      rw [c2] at k2 k3
      refine ⟨k1, k2, k3, ?_, k5⟩
      intro q hq
      obtain ⟨-, e2, e3⟩ := c3 q (Or.inr d1)
      rw [(k4 q hq).1, (k4 q hq).2, e2, e3]
      exact ⟨rfl, rfl⟩
    · rw [d3] at k1 k3 k4 k5
      have hold : ∀ q, q < n.states.length →
          (((n.call c).1.run rest).deref q).acceptIdx = (n.deref q).acceptIdx
          ∧ (((n.call c).1.run rest).deref q).value = (n.deref q).value := by
        intro q hq
        obtain ⟨-, e2, e3⟩ := c3 q (Or.inl (by omega))
        rw [(k4 q (by omega)).1, (k4 q (by omega)).2, e2, e3]
        exact ⟨rfl, rfl⟩
      cases hacc : c.accepting with
      | false =>
        rw [hacc] at c2 d6
        simp only [Bool.false_eq_true, if_false, List.nil_append, add_zero] at c2 d6 ⊢
        rw [c2] at k2 k3
        refine ⟨by omega, k2, ?_, hold, ?_⟩
        · intro j a hja
          obtain ⟨e1, e2⟩ := k3 j a hja
          exact ⟨by omega, e2⟩
        · intro q hq hqa
          by_cases hqN : q = n.states.length
          · subst hqN
            rw [(k4 _ (by omega)).1, d6]
          · exact k5 q (by omega) hqa
      | true =>
        rw [hacc] at c2 d6
        simp only [if_true, List.singleton_append, List.length_cons] at c2 d6 ⊢
        rw [c2] at k2 k3
        refine ⟨by omega, by omega, ?_, hold, ?_⟩
        · intro j a hja
          cases j with
          | zero =>
            simp only [List.getElem?_cons_zero, Option.some.injEq] at hja
            subst hja
            refine ⟨le_refl _, ?_⟩
            rw [(k4 _ (by omega)).1, d6]
            simp
          | succ j =>
            simp only [List.getElem?_cons_succ] at hja
            obtain ⟨e1, e2⟩ := k3 j a hja
            refine ⟨by omega, ?_⟩
            rw [e2]
            push_cast
            ring
        · intro q hq hqa
          simp only [List.mem_cons, not_or] at hqa
          exact k5 q (by omega) hqa.2

/-- The ids after a sequence of builder calls, from any automaton on whose id counter is the
size of its heap. -/
theorem run_ids {S V : Type} [DecidableEq S] [Inhabited V] (calls : List (Call S V)) :
    ∀ n : Nfa S V, n.nextStateID = n.states.length →
      (n.run calls).nextStateID = (n.run calls).states.length
      ∧ (n.run calls).states.length = n.states.length + (n.created calls).length
      ∧ (n.run calls).start = n.start
      ∧ (∀ (k a : Nat), (n.created calls)[k]? = some a →
          a = n.states.length + k ∧ ((n.run calls).deref a).id = n.states.length + k)
      ∧ (∀ q, q < n.states.length → ((n.run calls).deref q).id = (n.deref q).id) := by
  induction calls with
  | nil =>
    intro n hn
    refine ⟨hn, rfl, rfl, ?_, fun q _ => rfl⟩
    intro k a h; simp [Nfa.created, Nfa.trace] at h
  | cons c rest ih =>
    intro n hn
    obtain ⟨c1, -, c3, c4⟩ := call_spec n c
    rw [run_cons, created_cons]
    rcases c4 with ⟨d1, -, d3, d4⟩ | ⟨d1, d3, d4, d5, -⟩
    · obtain ⟨k1, k2, k3, k4, k5⟩ := ih (n.call c).1 (by rw [d4, d3]; exact hn)
      rw [d3] at k2 k4 k5
      rw [d1]
      simp only [if_true, List.nil_append]
      refine ⟨k1, k2, by rw [k3, c1], k4, ?_⟩
      intro q hq
      rw [k5 q hq]
      exact (c3 q (Or.inr d1)).1
    · obtain ⟨k1, k2, k3, k4, k5⟩ := ih (n.call c).1 (by rw [d4, d3, hn])
      rw [d3] at k2 k4 k5
      rw [d1]
      simp only [reduceCtorEq, if_false, List.singleton_append, List.length_cons]
      refine ⟨k1, by omega, by rw [k3, c1], ?_, ?_⟩
      · intro k a hka
        cases k with
        | zero =>
          simp only [List.getElem?_cons_zero, Option.some.injEq] at hka
          subst hka
          refine ⟨rfl, ?_⟩
          rw [k5 _ (by omega), d5, hn]
          rfl
        | succ k =>
          simp only [List.getElem?_cons_succ] at hka
          obtain ⟨e1, e2⟩ := k4 k a hka
          exact ⟨by omega, by rw [e2]; omega⟩
      · intro q hq
        rw [k5 q (by omega)]
        exact (c3 q (Or.inl (by omega))).1

end nfa

namespace nfa

theorem epsilonCreated_cons {S V : Type} [DecidableEq S] [Inhabited V] (n : Nfa S V)
    (s : Nat) (c : Call S V) (rest : List (Call S V)) :
    n.epsilonCreated s (c :: rest)
      = (if c.epsilonFrom s then [n.states.length] else [])
          ++ (n.call c).1.epsilonCreated s rest := by
  unfold Nfa.epsilonCreated
  simp only [Nfa.trace, List.filterMap_cons]
  cases c with
  | add s2 sym => simp [Call.epsilonFrom]
  | addAccepting s2 sym value => simp [Call.epsilonFrom]
  | addEpsilon s2 =>
    by_cases h : s2 = s
    · simp [Call.epsilonFrom, h, Nfa.call, Nfa.AddEpsilonTransition, Nfa.newState]
    · simp [Call.epsilonFrom, h]
  | addAcceptingEpsilon s2 value =>
    by_cases h : s2 = s
    · simp [Call.epsilonFrom, h, Nfa.call, Nfa.AddAcceptingEpsilonTransition,
        Nfa.newAcceptingState]
    · simp [Call.epsilonFrom, h]
  | connect src sym dst => simp [Call.epsilonFrom]

/-- What one builder call, made on states that exist, does to the epsilon transitions. -/
theorem call_eTransitions {S V : Type} [DecidableEq S] [Inhabited V] (n : Nfa S V)
    (c : Call S V) (hargs : c.args.all (fun s => decide (s < n.states.length)) = true)
    (s : Nat) :
    ((n.call c).1.deref s).eTransitions
      = (n.deref s).eTransitions ++ (if c.epsilonFrom s then [n.states.length] else []) := by
  have hblank : ∀ q, n.states.length ≤ q → (n.states.getD q default).eTransitions = [] := by
    intro q hq
    have := dfa.deref_out_of_range n q hq
    unfold Nfa.deref at this
    rw [this]; rfl
  have hputs : ∀ (l : List (State S V)) (sym : S) (dst s0 : Nat),
      ((l.modify (fun st => st.put sym dst) s0).getD s default).eTransitions
        = (l.getD s default).eTransitions := fun l sym dst s0 =>
    getD_modify_proj (fun a : State S V => a.eTransitions) _
      (fun a => put_eTransitions a _ _) l s0 s default
  cases c with
  | add s0 sym =>
    simp only [Call.epsilonFrom, Bool.false_eq_true, if_false, List.append_nil]
    simp only [Nfa.call, Nfa.Add, Nfa.newState, Nfa.update, Nfa.deref]
    rw [hputs, getD_append_new]
    split
    · rename_i h; rw [h, hblank _ (le_refl _)]; rfl
    · rfl
  | addAccepting s0 sym value =>
    simp only [Call.epsilonFrom, Bool.false_eq_true, if_false, List.append_nil]
    simp only [Nfa.call, Nfa.AddAccepting, Nfa.newAcceptingState, Nfa.markAccepting,
      Nfa.update, Nfa.deref]
    rw [hputs, getD_append_modify]
    split
    · rename_i h; rw [h, hblank _ (le_refl _)]; rfl
    · rfl
  | connect src sym dst =>
    simp only [Call.epsilonFrom, Bool.false_eq_true, if_false, List.append_nil]
    simp only [Nfa.call, Nfa.Connect, Nfa.update, Nfa.deref]
    rw [hputs]
  | addEpsilon s0 =>
    have hs0 : s0 < n.states.length := by simpa [Call.args] using hargs
    simp only [Call.epsilonFrom, decide_eq_true_eq]
    simp only [Nfa.call, Nfa.AddEpsilonTransition, Nfa.newState, Nfa.update, Nfa.deref]
    by_cases h : s0 = s
    · subst h
      rw [getD_modify_self _ _ _ _ (by simp; omega), getD_append_new, if_neg (by omega)]
      simp
    · rw [getD_modify_ne _ _ _ _ _ (fun h2 => h h2.symm), getD_append_new, if_neg h]
      split
      · rename_i h2; rw [h2, hblank _ (le_refl _)]; rfl
      · simp
  | addAcceptingEpsilon s0 value =>
    have hs0 : s0 < n.states.length := by simpa [Call.args] using hargs
    simp only [Call.epsilonFrom, decide_eq_true_eq]
    simp only [Nfa.call, Nfa.AddAcceptingEpsilonTransition, Nfa.newAcceptingState,
      Nfa.markAccepting, Nfa.update, Nfa.deref]
    by_cases h : s0 = s
    · subst h
      rw [getD_modify_self _ _ _ _ (by simp [List.length_modify]; omega), getD_append_modify,
        if_neg (by omega)]
      simp
    · rw [getD_modify_ne _ _ _ _ _ (fun h2 => h h2.symm), getD_append_modify, if_neg h]
      split
      · rename_i h2; rw [h2, hblank _ (le_refl _)]; rfl
      · simp

theorem run_eTransitions {S V : Type} [DecidableEq S] [Inhabited V]
    (calls : List (Call S V)) (s : Nat) :
    ∀ n : Nfa S V, n.scoped calls = true →
      ((n.run calls).deref s).eTransitions
        = (n.deref s).eTransitions ++ n.epsilonCreated s calls := by
  induction calls with
  | nil =>
    intro n _
    simp [Nfa.run, Nfa.epsilonCreated, Nfa.trace]
  | cons c rest ih =>
    intro n hsc
    simp only [Nfa.scoped, Bool.and_eq_true] at hsc
    rw [run_cons, epsilonCreated_cons, ih _ hsc.2, call_eTransitions n c hsc.1 s,
      List.append_assoc]

theorem mem_getData_putData {K W : Type} [DecidableEq K] (k : K) (v : W)
    (data : List (K × List W)) : v ∈ mvmap.getData k (mvmap.putData k v data) := by
  induction data with
  | nil => simp [mvmap.putData, mvmap.getData]
  | cons hd rest ih =>
    obtain ⟨k0, vs⟩ := hd
    by_cases h : k0 = k
    · simp [mvmap.putData, mvmap.getData, h]
    · simp [mvmap.putData, mvmap.getData, h, ih]

theorem mem_flatMap_putData {K W : Type} [DecidableEq K] (k : K) (v : W)
    (data : List (K × List W)) : v ∈ (mvmap.putData k v data).flatMap Prod.snd := by
  induction data with
  | nil => simp [mvmap.putData]
  | cons hd rest ih =>
    obtain ⟨k0, vs⟩ := hd
    by_cases h : k0 = k
    · simp [mvmap.putData, h]
    · simp only [mvmap.putData, h, if_false, List.flatMap_cons, List.mem_append]
      exact Or.inr ih

theorem mem_targets_put {S V : Type} [DecidableEq S] (st : State S V) (sym : S) (dst : Nat) :
    dst ∈ (st.put sym dst).targets := by
  unfold State.put State.targets
  cases st.edge with
  | none => simp
  | some e =>
    simp only [List.mem_append]
    exact Or.inl (Or.inr (mem_flatMap_putData sym dst _))

/-- C22: after every sequence of builder calls on a new NFA, the `j`-th state created as
accepting (by `AddAccepting` or `AddAcceptingEpsilonTransition`, counting from 0 across both)
has `AcceptIdx` `j`, every other state has `AcceptIdx` `-1`, and the states created as
accepting are pairwise different: the accept indices are `0, 1, 2, …` in creation order, and
the counter of the automaton is their number. -/
theorem accept_indices_are_dense {S V : Type} [DecidableEq S] [Inhabited V]
    (calls : List (Call S V)) :
    (∀ (j a : Nat), ((New : Nfa S V).createdAccepting calls)[j]? = some a →
      (((New : Nfa S V).run calls).deref a).AcceptIdx = (j : Int))
    ∧ (∀ q, q ∉ (New : Nfa S V).createdAccepting calls →
      (((New : Nfa S V).run calls).deref q).AcceptIdx = -1)
    ∧ (∀ q, (((New : Nfa S V).run calls).deref q).IsAccepting = true
      ↔ q ∈ (New : Nfa S V).createdAccepting calls)
    ∧ ((New : Nfa S V).createdAccepting calls).Nodup
    ∧ ((New : Nfa S V).run calls).nextAcceptIndex
        = ((New : Nfa S V).createdAccepting calls).length := by
  obtain ⟨-, k2, k3, k4, k5⟩ := run_accepting calls (New : Nfa S V)
  have hidx : ∀ (j a : Nat), ((New : Nfa S V).createdAccepting calls)[j]? = some a →
      (((New : Nfa S V).run calls).deref a).AcceptIdx = (j : Int) := by
    intro j a hja
    have := (k3 j a hja).2
    unfold State.AcceptIdx
    rw [this]
    simp [New]
  have hother : ∀ q, q ∉ (New : Nfa S V).createdAccepting calls →
      (((New : Nfa S V).run calls).deref q).AcceptIdx = -1 := by
    intro q hq
    unfold State.AcceptIdx
    by_cases hq0 : q < (New : Nfa S V).states.length
    · rw [(k4 q hq0).1]
      have : q = 0 := by simp [New] at hq0; omega
      subst this
      rfl
    · exact k5 q (by omega) hq
  refine ⟨hidx, hother, ?_, ?_, by rw [k2]; simp [New]⟩
  · intro q
    unfold State.IsAccepting
    constructor
    · intro h
      by_contra hq
      rw [hother q hq] at h
      simp at h
    · intro h
      obtain ⟨j, hj, hja⟩ := List.getElem_of_mem h
      rw [hidx j q (by rw [List.getElem?_eq_getElem hj, hja])]
      simp only [decide_eq_true_eq]
      omega
  · rw [List.nodup_iff_getElem?_ne_getElem?]
    intro i j hij hj heq
    have hi : i < ((New : Nfa S V).createdAccepting calls).length := by omega
    have h1 := hidx i _ (List.getElem?_eq_getElem hi)
    have h2 := hidx j _ (List.getElem?_eq_getElem hj)
    rw [List.getElem?_eq_getElem hi, List.getElem?_eq_getElem hj, Option.some.injEq] at heq
    rw [heq, h2] at h1
    omega

/-- C23: after every sequence of builder calls on a new NFA the start state has ID 0 and the
`k`-th state created by `Add`, `AddAccepting`, `AddEpsilonTransition` or
`AddAcceptingEpsilonTransition` (`k ≥ 1`, here the entry `k - 1` of the list of created
states) has ID `k`. `Connect` returns no state, creates none, consumes no ID and keeps the ID
of every state; the only pointer that `Connect(s, sym, s)` adds to the state `s` is `s`, whose
ID is unchanged, and `OutgoingFor(sym)` of `s` then lists `s` unless the transition went to
the inline edge of a state that has its map already. -/
theorem state_ids_follow_creation_order {S V : Type} [DecidableEq S] [Inhabited V]
    (calls : List (Call S V)) (m : Nfa S V) (src dst s : Nat) (sym : S) :
    ((New : Nfa S V).run calls).Start = 0
    ∧ (((New : Nfa S V).run calls).deref ((New : Nfa S V).run calls).Start).ID = 0
    ∧ (∀ (k a : Nat), ((New : Nfa S V).created calls)[k]? = some a →
        a = k + 1 ∧ (((New : Nfa S V).run calls).deref a).ID = k + 1)
    ∧ ((New : Nfa S V).run calls).states.length = ((New : Nfa S V).created calls).length + 1
    ∧ (m.call (Call.connect src sym dst)).2 = none
    ∧ (m.Connect src sym dst).states.length = m.states.length
    ∧ (m.Connect src sym dst).nextStateID = m.nextStateID
    ∧ (∀ q, ((m.Connect src sym dst).deref q).ID = (m.deref q).ID)
    ∧ (s < m.states.length →
        s ∈ ((m.Connect s sym s).deref s).targets
        ∧ (∀ r ∈ ((m.Connect s sym s).deref s).targets, r ∈ (m.deref s).targets ∨ r = s)
        ∧ ((m.deref s).edge ≠ none ∨ (m.deref s).transitions = none →
            s ∈ (((m.Connect s sym s).deref s).OutgoingFor sym).getD [])
        ∧ ((m.Connect s sym s).deref s).ID = (m.deref s).ID) := by
  obtain ⟨-, k2, k3, k4, k5⟩ := run_ids calls (New : Nfa S V) rfl
  have hstart : ((New : Nfa S V).run calls).Start = 0 := by
    unfold Nfa.Start; rw [k3]; rfl
  have hid : ∀ (x y : Nat) (q : Nat), ((m.Connect x sym y).deref q).ID = (m.deref q).ID :=
    fun x y q => getD_modify_proj (fun a : State S V => a.id) _
      (fun a => put_id a _ _) m.states x q default
  refine ⟨hstart, ?_, ?_, ?_, rfl, ?_, rfl, hid src dst, ?_⟩
  · rw [hstart]
    unfold State.ID
    rw [k5 0 (by simp [New])]
    rfl
  · intro k a hka
    obtain ⟨e1, e2⟩ := k4 k a hka
    have hl : (New : Nfa S V).states.length = 1 := rfl
    rw [hl] at e1 e2
    unfold State.ID
    exact ⟨by omega, by rw [e2]; omega⟩
  · rw [k2]; simp [New]; omega
  · simp [Nfa.Connect, Nfa.update, List.length_modify]
  · intro hs
    have hd : (m.Connect s sym s).deref s = (m.deref s).put sym s := by
      unfold Nfa.Connect Nfa.update Nfa.deref
      exact getD_modify_self _ _ _ _ hs
    rw [hd]
    refine ⟨mem_targets_put _ sym s, fun r hr => targets_put _ sym s r hr, ?_, ?_⟩
    · intro hvis
      unfold State.put State.OutgoingFor
      cases he : (m.deref s).edge with
      | none =>
        rcases hvis with h | h
        · exact absurd he h
        · simp [h]
      | some e =>
        simp only [Option.getD_some, mvmap.MvMap.Get, mvmap.MvMap.Put]
        exact mem_getData_putData sym s _
    · rw [← hd]; exact hid s s s

/-- C25: after every sequence of builder calls on a new NFA, each made on states that exist,
`Epsilon()` of a state `s` returns nil if no call added an epsilon transition from `s`, and
otherwise the states that `AddEpsilonTransition` and `AddAcceptingEpsilonTransition` created
on `s`, in the order of the calls. -/
theorem Epsilon_lists_created_states {S V : Type} [DecidableEq S] [Inhabited V]
    (calls : List (Call S V)) (s : Nat) (hscoped : (New : Nfa S V).scoped calls = true) :
    (((New : Nfa S V).run calls).deref s).Epsilon
      = (if (New : Nfa S V).epsilonCreated s calls = [] then none
          else some ((New : Nfa S V).epsilonCreated s calls)) := by
  have h := run_eTransitions calls s (New : Nfa S V) hscoped
  have h0 : ((New : Nfa S V).deref s).eTransitions = [] := by
    by_cases hs : s < (New : Nfa S V).states.length
    · have : s = 0 := by simp [New] at hs; omega
      subst this; rfl
    · rw [dfa.deref_out_of_range _ s (by omega)]; rfl
  rw [h0, List.nil_append] at h
  unfold State.Epsilon
  rw [h]
  cases (New : Nfa S V).epsilonCreated s calls with
  | nil => rfl
  | cons a rest => simp

/-- Witness of C25: the states 2 and 3 were created by epsilon calls on the start state. -/
theorem Epsilon_lists_created_states_witness :
    (((New : Nfa Char Nat).run demoCalls).deref 0).Epsilon
      = (if (New : Nfa Char Nat).epsilonCreated 0 demoCalls = [] then none
          else some ((New : Nfa Char Nat).epsilonCreated 0 demoCalls)) :=
  Epsilon_lists_created_states demoCalls 0 (by decide)

/-- The start state of an NFA stays non-accepting, whatever the builder calls. -/
theorem run_start_not_accepting {S V : Type} [DecidableEq S] [Inhabited V]
    (calls : List (Call S V)) :
    (((New : Nfa S V).run calls).deref ((New : Nfa S V).run calls).Start).IsAccepting
      = false := by
  obtain ⟨-, -, k3, -, -⟩ := run_ids calls (New : Nfa S V) rfl
  obtain ⟨-, -, -, k4, -⟩ := run_accepting calls (New : Nfa S V)
  unfold Nfa.Start State.IsAccepting State.AcceptIdx
  rw [k3, (k4 (New : Nfa S V).start (by simp [New])).1]
  rfl

end nfa

namespace dfa

theorem keepsIds_refl {S V : Type} [Inhabited V] (b : dfaBuilder S V) : KeepsIds b b :=
  ⟨rfl, le_refl _, fun _ _ => rfl⟩

theorem keepsIds_trans {S V : Type} [Inhabited V] (b1 b2 b3 : dfaBuilder S V)
    (h12 : KeepsIds b1 b2) (h23 : KeepsIds b2 b3) : KeepsIds b1 b3 :=
  ⟨h23.1.trans h12.1, le_trans h12.2.1 h23.2.1, fun r hr =>
    (h23.2.2 r (lt_of_lt_of_le hr h12.2.1)).trans (h12.2.2 r hr)⟩

theorem stateFor_keepsIds {S V : Type} [Inhabited V] (n : nfa.Nfa S V) (b : dfaBuilder S V)
    (U : List Nat) : KeepsIds b (b.stateFor n U).1 := by
  unfold dfaBuilder.stateFor
  cases gomap.get (subsetKey n U) b.subsetKeyToStateMap with
  | some r => exact keepsIds_refl b
  | none =>
    simp only
    unfold newStateFor Dfa.newAcceptingState Dfa.newState
    cases pickAccepting n U with
    | none =>
      refine ⟨rfl, by simp, fun r hr => ?_⟩
      simp only
      rw [dfa_deref_append_left _ _ _ _ b.dfa.start b.dfa.nextStateID r hr]
    | some q =>
      refine ⟨rfl, by simp, fun r hr => ?_⟩
      simp only
      rw [dfa_deref_append_left _ _ _ _ b.dfa.start b.dfa.nextStateID r hr]

theorem processSymbol_keepsIds {S V : Type} [DecidableEq S] [Inhabited V] (n : nfa.Nfa S V)
    (T : List Nat) (D : Nat) (b : dfaBuilder S V) (sym : S) :
    KeepsIds b (dfaBuilder.processSymbol n T D b sym) := by
  unfold dfaBuilder.processSymbol
  simp only
  split
  · exact keepsIds_refl b
  · have h := stateFor_keepsIds n b (epsilonClosure n (move n T sym))
    refine keepsIds_trans _ _ _ h ⟨rfl, ?_, fun r _ => ?_⟩
    · simp only [dfa_update_length]; exact le_refl _
    · simp only
      by_cases hr : r = D
      · subst hr
        by_cases hlt : r < (b.stateFor n (epsilonClosure n (move n T sym))).1.dfa.states.length
        · rw [dfa_update_deref_self _ _ _ hlt]
        · unfold Dfa.update Dfa.deref
          simp only
          rw [List.getD_eq_default _ _ (by simp [List.length_modify]; omega),
            List.getD_eq_default _ _ (by omega)]
      · rw [dfa_update_deref_ne _ _ _ _ hr]

theorem processSubset_keepsIds {S V : Type} [DecidableEq S] [Inhabited V] (n : nfa.Nfa S V)
    (T : List Nat) (b : dfaBuilder S V) : KeepsIds b (dfaBuilder.processSubset n T b) := by
  unfold dfaBuilder.processSubset
  cases gomap.get (subsetKey n T) b.subsetKeyToStateMap with
  | none => exact keepsIds_refl b
  | some D =>
    simp only
    generalize alphabet n T = syms
    induction syms generalizing b with
    | nil => exact keepsIds_refl b
    | cons sym rest ih =>
      rw [List.foldl_cons]
      exact keepsIds_trans _ _ _ (processSymbol_keepsIds n T D b sym) (ih _)

theorem buildLoop_keepsIds {S V : Type} [DecidableEq S] [Inhabited V] (n : nfa.Nfa S V) :
    ∀ (fuel : Nat) (b : dfaBuilder S V), KeepsIds b (dfaBuilder.buildLoop n fuel b) := by
  intro fuel
  induction fuel with
  | zero => intro b; exact keepsIds_refl b
  | succ fuel ih =>
    intro b
    unfold dfaBuilder.buildLoop
    cases hq : b.workingQueue.Dequeue with
    | mk o rest =>
      cases o with
      | none => exact keepsIds_refl b
      | some T =>
        simp only
        have h1 : KeepsIds b { b with workingQueue := rest } := ⟨rfl, le_refl _, fun _ _ => rfl⟩
        exact keepsIds_trans _ _ _ h1
          (keepsIds_trans _ _ _ (processSubset_keepsIds n T _) (ih _))

/-- The start state of `FromNfa n` is the first state of the heap, with ID 0. -/
theorem FromNfa_start_id {S V : Type} [DecidableEq S] [Inhabited V] (n : nfa.Nfa S V) :
    (FromNfa n).Start = 0 ∧ ((FromNfa n).deref (FromNfa n).Start).ID = 0 := by
  have h := buildLoop_keepsIds n (buildFuel n) ((initialBuilder : dfaBuilder S V).seed n)
  have hs : ((initialBuilder : dfaBuilder S V).seed n).dfa.start = 0 := rfl
  have hl : ((initialBuilder : dfaBuilder S V).seed n).dfa.states.length = 1 := by
    simp [dfaBuilder.seed, initialBuilder]
  have hid : (((initialBuilder : dfaBuilder S V).seed n).dfa.deref 0).id = 0 := by
    unfold dfaBuilder.seed initialBuilder Dfa.deref
    simp only [List.nil_append, List.length_nil]
    cases pickAccepting n (epsilonClosure n [n.Start]) <;> rfl
  have hstart : (FromNfa n).Start = 0 := by
    unfold FromNfa dfaBuilder.buildFromNfa dfaBuilder.run Dfa.Start
    rw [h.1, hs]
  refine ⟨hstart, ?_⟩
  rw [hstart]
  unfold State.ID FromNfa dfaBuilder.buildFromNfa dfaBuilder.run
  rw [h.2.2 0 (by omega), hid]

theorem epsStar_of_sink {S V : Type} [Inhabited V] (n : nfa.Nfa S V) (p q : Nat)
    (hsink : (n.deref p).eTransitions = []) (h : EpsStar n p q) : q = p := by
  induction h with
  | refl => rfl
  | tail _ hbc ih =>
    rw [ih, epsilonOf_eq, hsink] at hbc
    simp at hbc

/-- C28: for every NFA `n` (with a well-formed heap) the start state of `FromNfa n` has ID 0;
it is accepting iff an accepting NFA state is reachable from the NFA start state by epsilon
transitions alone, and then it carries the accept index and the value of such a state with
the lowest accept index. If the NFA start state has no transition at all, the DFA start state
is accepting exactly when the NFA start state is (which no NFA of the builder is) and has no
outgoing symbols. -/
theorem FromNfa_start_state {S V : Type} [DecidableEq S] [Inhabited V] (n : nfa.Nfa S V)
    (hwf : n.WF) :
    (FromNfa n).Start = 0
    ∧ ((FromNfa n).deref (FromNfa n).Start).ID = 0
    ∧ (((FromNfa n).deref (FromNfa n).Start).IsAccepting = true
        ↔ ∃ q, EpsStar n n.Start q ∧ (n.deref q).IsAccepting = true)
    ∧ (((FromNfa n).deref (FromNfa n).Start).IsAccepting = true →
        ∃ q, EpsStar n n.Start q ∧ (n.deref q).IsAccepting = true
          ∧ (∀ p, EpsStar n n.Start p → (n.deref p).IsAccepting = true →
              (n.deref q).AcceptIdx ≤ (n.deref p).AcceptIdx)
          ∧ ((FromNfa n).deref (FromNfa n).Start).AcceptIdx = (n.deref q).AcceptIdx
          ∧ ((FromNfa n).deref (FromNfa n).Start).AcceptValue = (n.deref q).AcceptValue)
    ∧ (scanner.Sink n n.Start →
        ((FromNfa n).deref (FromNfa n).Start).IsAccepting = (n.deref n.Start).IsAccepting
        ∧ ((FromNfa n).deref (FromNfa n).Start).OutgoingSymbols = []) := by
  obtain ⟨hinv, -⟩ := run_inv (S := S) (V := V) n hwf
  have hT : Valid n (epsilonClosure n [n.Start]) :=
    epsilonClosure_valid n hwf _ (by
      intro q hq
      have : q = n.Start := by simpa using hq
      rw [this]; exact hwf.1)
  have hmem : ∀ q, q ∈ subsetKey n (epsilonClosure n [n.Start]) ↔ EpsStar n n.Start q := by
    intro q
    rw [mem_subsetKey n hwf _ hT, mem_epsilonClosure]
    simp
  have hkey := hinv.start
  have hspec := hinv.accept _ _ hkey
  have hacc := acceptSpec_isAccepting n _ ((FromNfa n).deref (FromNfa n).Start) hspec
  have hiff : ((FromNfa n).deref (FromNfa n).Start).IsAccepting = true
      ↔ ∃ q, EpsStar n n.Start q ∧ (n.deref q).IsAccepting = true := by
    rw [hacc]
    constructor
    · rintro ⟨q, hq, ha⟩; exact ⟨q, (hmem q).1 hq, ha⟩
    · rintro ⟨q, hq, ha⟩; exact ⟨q, (hmem q).2 hq, ha⟩
  refine ⟨(FromNfa_start_id n).1, (FromNfa_start_id n).2, hiff, ?_, ?_⟩
  · intro ha
    obtain ⟨q, hq, h1, h2, h3, h4⟩ :=
      acceptSpec_min n _ ((FromNfa n).deref (FromNfa n).Start) hspec (hacc.1 ha)
    exact ⟨q, (hmem q).1 hq, h1, fun p hp hpa => h2 p ((hmem p).2 hp) hpa, h3, h4⟩
  · intro hsink
    constructor
    · rw [Bool.eq_iff_iff, hiff]
      constructor
      · rintro ⟨q, hq, ha⟩
        rw [epsStar_of_sink n _ q hsink.2.2 hq] at ha
        exact ha
      · intro ha
        exact ⟨n.Start, Relation.ReflTransGen.refl, ha⟩
    · have hsafe := hinv.safe _ _ hkey
      unfold State.OutgoingSymbols
      cases ht : ((FromNfa n).deref (FromNfa n).Start).transitions with
      | nil => rfl
      | cons hd rest =>
        exfalso
        obtain ⟨sym, r2⟩ := hd
        have hget : gomap.get sym ((FromNfa n).deref (FromNfa n).Start).transitions
            = some r2 := by
          rw [ht]; simp [gomap.get]
        obtain ⟨hne, -⟩ := hsafe sym r2 hget
        apply hne
        unfold tgt
        have hnil : stepSet n (subsetKey n (epsilonClosure n [n.Start])) sym = [] := by
          apply List.eq_nil_iff_forall_not_mem.2
          intro r hr
          obtain ⟨q, hq, t, ht2, -⟩ := (mem_stepSet n _ sym r).1 hr
          rw [epsStar_of_sink n _ q hsink.2.2 ((hmem q).1 hq)] at ht2
          exact scanner.not_step_of_sink n _ hsink (some sym) t ht2
        rw [hnil]
        exact (subsetKey_eq_nil n hwf [] (by intro q hq; simp at hq)).2 rfl

/-- Witness of C28: the DFA of a new NFA, whose only state has no transition. -/
theorem FromNfa_start_state_witness :
    (FromNfa (nfa.New : nfa.Nfa Char Nat)).Start = 0
    ∧ ((FromNfa (nfa.New : nfa.Nfa Char Nat)).deref
        (FromNfa (nfa.New : nfa.Nfa Char Nat)).Start).IsAccepting = false
    ∧ ((FromNfa (nfa.New : nfa.Nfa Char Nat)).deref
        (FromNfa (nfa.New : nfa.Nfa Char Nat)).Start).OutgoingSymbols = [] :=
  have h := FromNfa_start_state (nfa.New : nfa.Nfa Char Nat) (by decide)
  ⟨h.1, (h.2.2.2.2 ⟨rfl, rfl, rfl⟩).1.trans rfl, (h.2.2.2.2 ⟨rfl, rfl, rfl⟩).2⟩

end dfa

namespace scanner

theorem scanLoop_sim {S V R1 R2 : Type} [DecidableEq S] [Inhabited V] (s1 s2 : Scanner S V)
    (hm : s1.machine = s2.machine) (rd1 : SymbolReader S R1) (rd2 : SymbolReader S R2)
    (rel : R1 → R2 → Prop) (hsim : ReaderSim rd1 rd2 rel) :
    ∀ (fuel : Nat) (cs : Nat) (c a : Int) (l : V) (r1 : R1) (r2 : R2), rel r1 r2 →
      (s1.scanLoop rd1 fuel ⟨cs, c, a, l, r1⟩ = none
        ∧ s2.scanLoop rd2 fuel ⟨cs, c, a, l, r2⟩ = none)
      ∨ ∃ (cs2 : Nat) (c2 a2 : Int) (l2 : V) (q1 : R1) (q2 : R2),
          s1.scanLoop rd1 fuel ⟨cs, c, a, l, r1⟩ = some ⟨cs2, c2, a2, l2, q1⟩
          ∧ s2.scanLoop rd2 fuel ⟨cs, c, a, l, r2⟩ = some ⟨cs2, c2, a2, l2, q2⟩
          ∧ rel q1 q2 := by
  intro fuel
  induction fuel with
  | zero =>
    intro cs c a l r1 r2 _
    exact Or.inl ⟨rfl, rfl⟩
  | succ fuel ih =>
    intro cs c a l r1 r2 hrel
    obtain ⟨hsym, hnext⟩ := hsim.read r1 r2 hrel
    unfold Scanner.scanLoop
    rcases h1 : rd1.ReadSymbol r1 with ⟨o1, q1⟩
    rcases h2 : rd2.ReadSymbol r2 with ⟨o2, q2⟩
    rw [h1, h2] at hsym hnext
    simp only at hsym hnext
    subst hsym
    simp only [h1, h2]
    cases o1 with
    | none => exact Or.inr ⟨cs, c, a, l, q1, q2, rfl, rfl, hnext⟩
    | some symbol =>
      simp only [hm]
      cases (s2.machine.deref cs).OutgoingFor symbol with
      | none => exact Or.inr ⟨cs, c + 1, a, l, q1, q2, rfl, rfl, hnext⟩
      | some nextState =>
        simp only
        split
        · exact ih _ _ _ _ q1 q2 hnext
        · exact ih _ _ _ _ q1 q2 hnext

theorem unreadTimes_sim {S R1 R2 : Type} (rd1 : SymbolReader S R1) (rd2 : SymbolReader S R2)
    (rel : R1 → R2 → Prop) (hsim : ReaderSim rd1 rd2 rel) :
    ∀ (k : Nat) (r1 : R1) (r2 : R2), rel r1 r2 →
      rel (unreadTimes rd1 k r1) (unreadTimes rd2 k r2) := by
  intro k
  induction k with
  | zero => intro r1 r2 h; exact h
  | succ k ih =>
    intro r1 r2 h
    unfold unreadTimes
    exact ih _ _ (hsim.unread r1 r2 h)

theorem NextToken_sim {S V R1 R2 : Type} [DecidableEq S] [Inhabited V] (s1 s2 : Scanner S V)
    (hm : s1.machine = s2.machine) (hi : s1.illegal = s2.illegal) (he : s1.eof = s2.eof)
    (rd1 : SymbolReader S R1) (rd2 : SymbolReader S R2) (rel : R1 → R2 → Prop)
    (hsim : ReaderSim rd1 rd2 rel) (fuel : Nat) (r1 : R1) (r2 : R2) (hrel : rel r1 r2) :
    (s1.NextToken rd1 fuel r1 = none ∧ s2.NextToken rd2 fuel r2 = none)
    ∨ ∃ (v : V) (q1 : R1) (q2 : R2), s1.NextToken rd1 fuel r1 = some (v, q1)
        ∧ s2.NextToken rd2 fuel r2 = some (v, q2) ∧ rel q1 q2 := by
  unfold Scanner.NextToken
  rw [hm]
  rcases scanLoop_sim s1 s2 hm rd1 rd2 rel hsim fuel s2.machine.Start 0 (-1) default r1 r2 hrel
    with ⟨e1, e2⟩ | ⟨cs2, c2, a2, l2, q1, q2, e1, e2, hq⟩
  · rw [e1, e2]; exact Or.inl ⟨rfl, rfl⟩
  · rw [e1, e2]
    simp only
    right
    by_cases hc : c2 = 0
    · rw [if_pos hc, if_pos hc, he]
      exact ⟨_, _, _, rfl, rfl, hq⟩
    · rw [if_neg hc, if_neg hc]
      by_cases ha : a2 ≠ -1
      · rw [if_pos ha, if_pos ha]
        exact ⟨_, _, _, rfl, rfl, unreadTimes_sim rd1 rd2 rel hsim _ _ _ hq⟩
      · rw [if_neg ha, if_neg ha, hi]
        exact ⟨_, _, _, rfl, rfl, unreadTimes_sim rd1 rd2 rel hsim _ _ _ hq⟩

/-- The list-backed reader and its logging wrapper present the same input. -/
theorem traced_sim (S : Type) :
    ReaderSim (listReader S) (traced (listReader S)) (fun r1 r2 => r2.inner = r1) := by
  constructor
  · intro r1 r2 h
    subst h
    exact ⟨rfl, rfl⟩
  · intro r1 r2 h
    subst h
    rfl

end scanner

namespace memory

theorem read_alloc_new {α : Type} (h : List (List α)) (xs : List α) :
    read (alloc h xs).1 (alloc h xs).2 = xs := by
  unfold read alloc
  simp only
  rw [nfa.getD_append_new, if_pos rfl]
  exact List.take_length xs

theorem read_alloc_old {α : Type} (h : List (List α)) (xs : List α) (s : Slice)
    (hs : s.arr < h.length) : read (alloc h xs).1 s = read h s := by
  unfold read alloc
  simp only
  rw [nfa.getD_append_new, if_neg (by omega)]

theorem length_storeAll {α : Type} (arr : Nat) (writes : List (Nat × α)) :
    ∀ h : List (List α), (storeAll h arr writes).length = h.length := by
  induction writes with
  | nil => intro h; rfl
  | cons p rest ih =>
    intro h
    unfold storeAll
    rw [List.foldl_cons]
    exact (ih _).trans (by simp [store, List.length_modify])

theorem read_storeAll_ne {α : Type} (arr : Nat) (writes : List (Nat × α)) (s : Slice)
    (hs : s.arr ≠ arr) : ∀ h : List (List α), read (storeAll h arr writes) s = read h s := by
  induction writes with
  | nil => intro h; rfl
  | cons p rest ih =>
    intro h
    unfold storeAll
    rw [List.foldl_cons]
    refine (ih _).trans ?_
    unfold read store
    rw [nfa.getD_modify_ne _ _ _ _ _ hs]

/-- The values of the accessors of an NFA state, in terms of the arrays of its own slices. -/
theorem observe_eq {S V : Type} [DecidableEq S] (st : NfaState S V) (w : World S)
    (symbol : S) :
    st.observe w symbol
      = ((match st.transitions with
          | none => st.edge.map (fun e => [e.sym])
          | some m => some (m.map Prod.fst)),
         (match st.transitions with
          | none =>
            (match st.edge with
             | some e => if e.sym = symbol then some [e.dst] else none
             | none => none)
          | some m => some (readNilable w.ptrs (Get m symbol))),
         st.eTransitions.map (read w.ptrs)) := by
  unfold NfaState.observe NfaState.OutgoingSymbols NfaState.OutgoingFor NfaState.Epsilon
  refine Prod.ext ?_ (Prod.ext ?_ ?_)
  · cases st.transitions with
    | none =>
      cases st.edge with
      | none => rfl
      | some e => simp only [Option.map_some', read_alloc_new]
    | some m => simp only [Option.map_some', read_alloc_new]
  · cases st.transitions with
    | none =>
      cases st.edge with
      | none => rfl
      | some e =>
        simp only
        split
        · simp only [Option.map_some', read_alloc_new]
        · rfl
    | some m => simp only [Option.map_some', read_alloc_new]
  · cases st.eTransitions with
    | none => rfl
    | some s => simp only [Option.map_some', read_alloc_new]

theorem get_mem_slices {S : Type} [DecidableEq S] (k : S) (s : Slice) :
    ∀ m : List (S × Slice), gomap.get k m = some s → s ∈ m.map Prod.snd := by
  intro m
  induction m with
  | nil => intro h; simp [gomap.get] at h
  | cons hd rest ih =>
    obtain ⟨k0, s0⟩ := hd
    intro h
    unfold gomap.get at h
    split at h
    · simp only [Option.some.injEq] at h
      simp [h]
    · simp [ih h]

/-- Two worlds in which the slices of a state have the same elements give the same values of
its accessors. -/
theorem observe_congr {S V : Type} [DecidableEq S] (st : NfaState S V) (w w2 : World S)
    (symbol : S) (h : ∀ s ∈ st.slices, read w2.ptrs s = read w.ptrs s) :
    st.observe w2 symbol = st.observe w symbol := by
  rw [observe_eq, observe_eq]
  refine Prod.ext rfl (Prod.ext ?_ ?_)
  · simp only
    cases ht : st.transitions with
    | none => rfl
    | some m =>
      simp only
      cases hg : Get m symbol with
      | none => rfl
      | some s =>
        simp only [readNilable]
        rw [h s]
        unfold NfaState.slices
        rw [ht]
        exact List.mem_append_left _ (get_mem_slices symbol s m hg)
  · simp only
    cases he : st.eTransitions with
    | none => rfl
    | some s =>
      simp only [Option.map_some']
      rw [h s]
      unfold NfaState.slices
      rw [he]
      exact List.mem_append_right _ (List.mem_singleton.2 rfl)

/-- The values of the accessors of a DFA state do not depend on the arrays of the world. -/
theorem dfa_observe_eq {S V : Type} [DecidableEq S] (st : DfaState S V) (w : World S)
    (symbol : S) :
    DfaState.observe st w symbol
      = (st.transitions.map Prod.fst, dfa.State.OutgoingFor st symbol) := by
  unfold DfaState.observe DfaState.OutgoingSymbols
  simp only [read_alloc_new]

/-- The slices of an allocated state read the same after an allocation and assignments to the
new array. -/
theorem read_after_copy {S V : Type} (st : NfaState S V) (w : World S)
    (hst : st.Allocated w) (xs : List Nat) (writes : List (Nat × Nat)) (s : Slice)
    (hs : s ∈ st.slices) :
    read (storeAll (alloc w.ptrs xs).1 w.ptrs.length writes) s = read w.ptrs s := by
  have hlt := hst s hs
  rw [read_storeAll_ne _ _ _ (by omega), read_alloc_old _ _ _ hlt]

/-- A slice that `MvMap.Get` returns shares its array with the map: an assignment through it
changes what `OutgoingFor` returns afterwards. The accessors of the states never hand it out. -/
theorem Get_result_is_shared :
    Get [('a', ({ arr := 0, len := 2 } : Slice)), ('b', { arr := 1, len := 1 })] 'a'
      = some { arr := 0, len := 2 }
    ∧ (demoState.observe demoWorld 'a').2.1 = some [1, 2]
    ∧ (demoState.observe (demoWorld.writePtrs 0 [(0, 9)]) 'a').2.1 = some [9, 2] := by
  decide

end memory

namespace memory

theorem OutgoingFor_fresh {S V : Type} [DecidableEq S] (st : NfaState S V) (symbol : S)
    (w : World S) (out : Slice) (h : (st.OutgoingFor symbol w).1 = some out) :
    out.arr = w.ptrs.length
    ∧ ∃ xs, (st.OutgoingFor symbol w).2.ptrs = (alloc w.ptrs xs).1 := by
  unfold NfaState.OutgoingFor at h ⊢
  cases ht : st.transitions with
  | none =>
    rw [ht] at h
    cases he : st.edge with
    | none => rw [he] at h; simp at h
    | some e =>
      rw [he] at h
      simp only at h ⊢
      by_cases hsym : e.sym = symbol
      · rw [if_pos hsym] at h ⊢
        simp only [Option.some.injEq] at h
        exact ⟨by rw [← h]; rfl, _, rfl⟩
      · rw [if_neg hsym] at h
        simp at h
  | some m =>
    rw [ht] at h
    simp only [Option.some.injEq] at h
    exact ⟨by rw [← h]; rfl, _, rfl⟩

theorem Epsilon_fresh {S V : Type} (st : NfaState S V) (w : World S) (out : Slice)
    (h : (st.Epsilon w).1 = some out) :
    out.arr = w.ptrs.length ∧ ∃ xs, (st.Epsilon w).2.ptrs = (alloc w.ptrs xs).1 := by
  unfold NfaState.Epsilon at h ⊢
  cases he : st.eTransitions with
  | none => rw [he] at h; simp at h
  | some s =>
    rw [he] at h
    simp only [Option.some.injEq] at h
    exact ⟨by rw [← h]; rfl, _, rfl⟩

theorem OutgoingSymbols_ptrs {S V : Type} (st : NfaState S V) (w : World S) :
    (st.OutgoingSymbols w).2.ptrs = w.ptrs := by
  unfold NfaState.OutgoingSymbols
  cases st.transitions with
  | none => cases st.edge <;> rfl
  | some m => rfl

/-- C30: the collection accessors return copies. Let `st` and `d` be an NFA state and a DFA
state, and let a client assign at will to elements of the array of a slice that
`st.OutgoingSymbols()`, `st.OutgoingFor(symbol)`, `st.Epsilon()` or `d.OutgoingSymbols()`
returned (truncating the slice changes its header only, and what is assigned through the
truncated slice is assigned to the same array). Then every accessor of every NFA state `st2`
whose slices are allocated, and of every DFA state `d2`, returns the values it returned
before. -/
theorem accessors_return_copies {S V : Type} [DecidableEq S] (w : World S)
    (st st2 : NfaState S V) (d d2 : DfaState S V) (hst2 : st2.Allocated w) (symbol sym2 : S)
    (ws : List (Nat × S)) (wp : List (Nat × Nat)) :
    (∀ out, (st.OutgoingSymbols w).1 = some out →
      st2.observe ((st.OutgoingSymbols w).2.writeSyms out.arr ws) sym2 = st2.observe w sym2
      ∧ DfaState.observe d2 ((st.OutgoingSymbols w).2.writeSyms out.arr ws) sym2
          = DfaState.observe d2 w sym2)
    ∧ (∀ out, (st.OutgoingFor symbol w).1 = some out →
      st2.observe ((st.OutgoingFor symbol w).2.writePtrs out.arr wp) sym2
          = st2.observe w sym2
      ∧ DfaState.observe d2 ((st.OutgoingFor symbol w).2.writePtrs out.arr wp) sym2
          = DfaState.observe d2 w sym2)
    ∧ (∀ out, (st.Epsilon w).1 = some out →
      st2.observe ((st.Epsilon w).2.writePtrs out.arr wp) sym2 = st2.observe w sym2
      ∧ DfaState.observe d2 ((st.Epsilon w).2.writePtrs out.arr wp) sym2
          = DfaState.observe d2 w sym2)
    ∧ st2.observe
          ((DfaState.OutgoingSymbols d w).2.writeSyms (DfaState.OutgoingSymbols d w).1.arr ws)
          sym2
        = st2.observe w sym2
    ∧ DfaState.observe d2
          ((DfaState.OutgoingSymbols d w).2.writeSyms (DfaState.OutgoingSymbols d w).1.arr ws)
          sym2
        = DfaState.observe d2 w sym2 := by
  have hd : ∀ w2 : World S, DfaState.observe d2 w2 sym2 = DfaState.observe d2 w sym2 :=
    fun w2 => by rw [dfa_observe_eq, dfa_observe_eq]
  refine ⟨fun out _ => ⟨?_, hd _⟩, fun out hout => ⟨?_, hd _⟩, fun out hout => ⟨?_, hd _⟩,
    ?_, hd _⟩
  · apply observe_congr
    intro s _
    unfold World.writeSyms
    simp only
    rw [OutgoingSymbols_ptrs]
  · apply observe_congr
    intro s hs
    obtain ⟨harr, xs, hxs⟩ := OutgoingFor_fresh st symbol w out hout
    unfold World.writePtrs
    simp only
    rw [harr, hxs]
    exact read_after_copy st2 w hst2 xs wp s hs
  · apply observe_congr
    intro s hs
    obtain ⟨harr, xs, hxs⟩ := Epsilon_fresh st w out hout
    unfold World.writePtrs
    simp only
    rw [harr, hxs]
    exact read_after_copy st2 w hst2 xs wp s hs
  · apply observe_congr
    intro s _
    rfl

/-- Witness of C30: the client overwrites the first element of the slice that
`OutgoingFor('a')` returned for the demo state; the accessors still return the symbols `a, b`,
the targets `1, 2` and the epsilon targets `4, 5`. -/
theorem accessors_return_copies_witness :
    (demoState.OutgoingFor 'a' demoWorld).1 = some { arr := 3, len := 2 }
    ∧ read ((demoState.OutgoingFor 'a' demoWorld).2.writePtrs 3 [(0, 9)]).ptrs
        { arr := 3, len := 2 } = [9, 2]
    ∧ demoState.observe ((demoState.OutgoingFor 'a' demoWorld).2.writePtrs 3 [(0, 9)]) 'a'
        = (some ['a', 'b'], some [1, 2], some [4, 5]) :=
  ⟨rfl, by decide,
    ((accessors_return_copies demoWorld demoState demoState
        (default : DfaState Char Nat) default (by decide) 'a' 'a' [] [(0, 9)]).2.1
      { arr := 3, len := 2 } rfl).1.trans (by decide)⟩

end memory

namespace pos

theorem wrapInt_of_inRange (x : Int) (h1 : -2 ^ 63 ≤ x) (h2 : x ≤ maxInt) : wrapInt x = x := by
  unfold wrapInt
  unfold maxInt at h2
  omega

theorem advanceAll_snoc (p : Position) (runes : List Int) (r : Int) :
    p.advanceAll (runes ++ [r]) = (p.advanceAll runes).Advance r := by
  unfold Position.advanceAll
  rw [List.foldl_append]
  rfl

theorem lastLine_snoc (runes : List Int) (r : Int) :
    lastLine (runes ++ [r]) = if r = newline then [] else lastLine runes ++ [r] := by
  unfold lastLine
  rw [List.reverse_append, List.reverse_singleton, List.singleton_append, List.takeWhile_cons]
  by_cases h : r = newline
  · simp [h]
  · simp [h]

/-- C31: `Advance(r)` on the position `(L, C)`: for `'\n'` the result is `(L + 1, 1)`, for
`'\r'` it is `(L, C)`, for every other rune it is `(L, C + 1)`. The additions are those of Go
`int`: they are exact unless the operand is the largest `int`, where they wrap around to the
smallest. -/
theorem Advance_by_rune (L C : Int) (r : Int) :
    (r = newline →
      ({ Line := L, Column := C } : Position).Advance r
        = { Line := wrapInt (L + 1), Column := 1 })
    ∧ (r = carriageReturn →
      ({ Line := L, Column := C } : Position).Advance r = { Line := L, Column := C })
    ∧ (r ≠ newline → r ≠ carriageReturn →
      ({ Line := L, Column := C } : Position).Advance r
        = { Line := L, Column := wrapInt (C + 1) })
    ∧ (∀ x : Int, -2 ^ 63 ≤ x → x < maxInt → wrapInt (x + 1) = x + 1)
    ∧ wrapInt (maxInt + 1) = -2 ^ 63 := by
  refine ⟨?_, ?_, ?_, ?_, by decide⟩
  · intro h
    subst h
    unfold Position.Advance
    simp [newline, carriageReturn]
  · intro h
    subst h
    unfold Position.Advance
    simp [newline, carriageReturn]
  · intro h1 h2
    unfold Position.Advance
    simp [h1, h2]
  · intro x h1 h2
    apply wrapInt_of_inRange
    · omega
    · unfold maxInt at h2 ⊢; omega

theorem Advance_newline (p : Position) :
    p.Advance newline = { Line := wrapInt (p.Line + 1), Column := 1 } := by
  unfold Position.Advance
  simp [newline, carriageReturn]

theorem Advance_carriageReturn (p : Position) : p.Advance carriageReturn = p := by
  unfold Position.Advance
  simp [newline, carriageReturn]

theorem Advance_other (p : Position) (r : Int) (h1 : r ≠ newline) (h2 : r ≠ carriageReturn) :
    p.Advance r = { Line := p.Line, Column := wrapInt (p.Column + 1) } := by
  unfold Position.Advance
  simp [h1, h2]

/-- C32: starting from `New()` and advancing over a rune sequence (shorter than the largest
`int`, as every Go string and slice is), `Line` is 1 plus the number of `'\n'` in the sequence
and `Column` is 1 plus the number of runes after the last `'\n'` that are neither `'\r'` nor
`'\n'`. -/
theorem advanceAll_counts (runes : List Int) (hlen : (runes.length : Int) < maxInt) :
    (New.advanceAll runes).Line = 1 + (runes.count newline : Int)
    ∧ (New.advanceAll runes).Column = 1 + ((lastLine runes).countP columnRune : Int) := by
  have key : ∀ rs : List Int, (rs.length : Int) < maxInt →
      ((New.advanceAll rs).Line = 1 + (rs.count newline : Int)
      ∧ (New.advanceAll rs).Column = 1 + ((lastLine rs).countP columnRune : Int))
      ∧ (lastLine rs).length ≤ rs.length := by
    intro rs
    induction rs using List.reverseRecOn with
    | nil => intro _; exact ⟨⟨rfl, rfl⟩, le_refl _⟩
    | append_singleton rs r ih =>
      intro hl
      have hmax : maxInt = 2 ^ 63 - 1 := rfl
      have hl2 : ((rs.length : Int) + 1) < maxInt := by
        simpa [List.length_append] using hl
      obtain ⟨⟨ihL, ihC⟩, ihlen⟩ := ih (by omega)
      have hcnt : (rs.count newline : Int) ≤ rs.length := by
        exact_mod_cast List.count_le_length _ _
      have hcp : ((lastLine rs).countP columnRune : Int) ≤ rs.length := by
        have := List.countP_le_length columnRune (l := lastLine rs)
        exact_mod_cast le_trans this ihlen
      rw [advanceAll_snoc, lastLine_snoc]
      by_cases hn : r = newline
      · subst hn
        rw [Advance_newline, if_pos rfl, List.count_append, List.count_singleton_self]
        refine ⟨⟨?_, by simp⟩, Nat.zero_le _⟩
        show wrapInt ((New.advanceAll rs).Line + 1) = _
        rw [ihL, wrapInt_of_inRange _ (by omega) (by omega)]
        push_cast
        omega
      · have hlen2 : (lastLine rs ++ [r]).length ≤ (rs ++ [r]).length := by
          simp only [List.length_append, List.length_singleton]; omega
        have hc0 : List.count newline [r] = 0 := by
          rw [List.count_eq_zero]
          intro hm
          exact hn (List.mem_singleton.1 hm).symm
        rw [if_neg hn, List.count_append, hc0, List.countP_append, List.countP_singleton]
        by_cases hr : r = carriageReturn
        · subst hr
          have hcol : columnRune carriageReturn = false := by decide
          rw [Advance_carriageReturn, hcol]
          exact ⟨⟨by simpa using ihL, by simpa using ihC⟩, hlen2⟩
        · have hcol : columnRune r = true := by
            unfold columnRune
            exact decide_eq_true ⟨hr, hn⟩
          rw [Advance_other _ r hn hr, hcol]
          refine ⟨⟨by simpa using ihL, ?_⟩, hlen2⟩
          show wrapInt ((New.advanceAll rs).Column + 1) = _
          rw [ihC, wrapInt_of_inRange _ (by omega) (by omega), if_pos rfl]
          push_cast
          omega
  exact (key runes hlen).1

/-- Witness of C32: `"Hello\nworld"` ends at line 2, column 6. -/
theorem advanceAll_counts_witness :
    (New.advanceAll (runesOf "Hello\nworld")).Line = 2
    ∧ (New.advanceAll (runesOf "Hello\nworld")).Column = 6 :=
  have h := advanceAll_counts (runesOf "Hello\nworld") (by decide)
  ⟨h.1.trans (by decide), h.2.trans (by decide)⟩

end pos

namespace queue

theorem dequeue_empty {T : Type} (q : Queue T) (h : q.Len = 0) : q.Dequeue = (none, q) := by
  unfold Queue.Len at h
  unfold Queue.Dequeue
  rw [List.length_eq_zero.1 h]

theorem runOps_data {T : Type} (ops : List (Op T)) :
    ∀ q : Queue T,
      dequeued (q.runOps ops).2 ++ (q.runOps ops).1.data = q.data ++ enqueued ops := by
  induction ops with
  | nil => intro q; simp [Queue.runOps, dequeued, enqueued]
  | cons op rest ih =>
    intro q
    cases op with
    | enqueue v =>
      simp only [Queue.runOps, enqueued]
      rw [ih]
      simp [Queue.Enqueue]
    | dequeue =>
      simp only [Queue.runOps, enqueued]
      unfold Queue.Dequeue
      cases hq : q.data with
      | nil =>
        simp only
        have := ih q
        rw [hq] at this
        unfold dequeued at this ⊢
        rw [List.reduceOption_cons_of_none]
        exact this
      | cons v tl =>
        simp only
        have := ih { data := tl }
        unfold dequeued at this ⊢
        rw [List.reduceOption_cons_of_some, List.cons_append, this]
        rfl

/-- C33: the queue is first-in first-out. For every sequence of `Enqueue` and `Dequeue` calls
on a new queue, the `i`-th successful `Dequeue` returned the `i`-th enqueued value, and `Len`
plus the number of successful `Dequeue` calls is the number of `Enqueue` calls; the queue
holds the enqueued values that were not yet returned, in order. `Dequeue` on an empty queue
returns `ok = false` and the queue as it was; on a non-empty queue it returns the oldest
element and shortens the queue by one. -/
theorem Queue_is_fifo {T : Type} (ops : List (Op T)) :
    (∀ (i : Nat) (v : T), (dequeued ((New : Queue T).runOps ops).2)[i]? = some v →
      (enqueued ops)[i]? = some v)
    ∧ ((New : Queue T).runOps ops).1.Len + (dequeued ((New : Queue T).runOps ops).2).length
        = (enqueued ops).length
    ∧ ((New : Queue T).runOps ops).1.data
        = (enqueued ops).drop (dequeued ((New : Queue T).runOps ops).2).length
    ∧ (∀ q : Queue T, q.Len = 0 → q.Dequeue = (none, q))
    ∧ (∀ q : Queue T, q.Len ≠ 0 →
        q.Dequeue.1 = q.data.head? ∧ q.Dequeue.1 ≠ none ∧ q.Dequeue.2.Len + 1 = q.Len) := by
  have h := runOps_data ops (New : Queue T)
  have h0 : (New : Queue T).data = [] := rfl
  rw [h0, List.nil_append] at h
  refine ⟨?_, ?_, ?_, dequeue_empty, ?_⟩
  · intro i v hi
    rw [← h, List.getElem?_append_left, hi]
    exact (List.getElem?_eq_some.1 hi).1
  · unfold Queue.Len
    rw [← h, List.length_append]
    omega
  · rw [← h, List.drop_left]
  · intro q hq
    unfold Queue.Len at hq ⊢
    unfold Queue.Dequeue
    cases hd : q.data with
    | nil => rw [hd] at hq; simp at hq
    | cons v tl => simp

end queue

namespace mvmap

theorem getData_putData {K V : Type} [DecidableEq K] (k k2 : K) (v : V)
    (data : List (K × List V)) :
    getData k (putData k2 v data)
      = if k2 = k then getData k data ++ [v] else getData k data := by
  induction data with
  | nil =>
    by_cases h : k2 = k
    · simp [putData, getData, h]
    · simp [putData, getData, h]
  | cons hd rest ih =>
    obtain ⟨k0, vs⟩ := hd
    by_cases h0 : k0 = k2
    · subst h0
      by_cases h : k0 = k
      · simp [putData, getData, h]
      · simp [putData, getData, h]
    · by_cases h : k0 = k
      · subst h
        have h2 : ¬ k2 = k0 := fun e => h0 e.symm
        simp [putData, getData, h0, h2]
      · simp only [putData, h0, if_false, getData, h]
        exact ih

theorem keys_putData {K V : Type} [DecidableEq K] (k : K) (v : V) (data : List (K × List V)) :
    (putData k v data).map Prod.fst
      = if k ∈ data.map Prod.fst then data.map Prod.fst else data.map Prod.fst ++ [k] := by
  induction data with
  | nil => simp [putData]
  | cons hd rest ih =>
    obtain ⟨k0, vs⟩ := hd
    by_cases h0 : k0 = k
    · subst h0
      simp [putData]
    · have h2 : ¬ k = k0 := fun e => h0 e.symm
      simp only [putData, h0, if_false, List.map_cons, ih, List.mem_cons, h2, false_or]
      split <;> rfl

theorem mvmap_putAll_snoc {K V : Type} [DecidableEq K] (m : MvMap K V) (puts : List (K × V))
    (p : K × V) : m.putAll (puts ++ [p]) = (m.putAll puts).Put p.1 p.2 := by
  unfold MvMap.putAll
  rw [List.foldl_append]
  rfl

/-- C34: for every sequence of `Put` calls on a new map, `Get(k)` returns the values put
under `k`, in call order (none for a key that was never put), `Keys()` holds each key that was
put exactly once, and `Len()` is the number of distinct keys. -/
theorem MvMap_of_puts {K V : Type} [DecidableEq K] (puts : List (K × V)) (k : K) :
    ((New : MvMap K V).putAll puts).Get k
        = (puts.filter (fun p => decide (p.1 = k))).map Prod.snd
    ∧ (k ∉ puts.map Prod.fst → ((New : MvMap K V).putAll puts).Get k = [])
    ∧ ((New : MvMap K V).putAll puts).Keys.Nodup
    ∧ (k ∈ ((New : MvMap K V).putAll puts).Keys ↔ k ∈ puts.map Prod.fst)
    ∧ ((New : MvMap K V).putAll puts).Len = (puts.map Prod.fst).dedup.length := by
  have key : ∀ ps : List (K × V),
      (∀ x : K, ((New : MvMap K V).putAll ps).Get x
          = (ps.filter (fun p => decide (p.1 = x))).map Prod.snd)
      ∧ ((New : MvMap K V).putAll ps).Keys.Nodup
      ∧ (∀ x : K, x ∈ ((New : MvMap K V).putAll ps).Keys ↔ x ∈ ps.map Prod.fst) := by
    intro ps
    induction ps using List.reverseRecOn with
    | nil =>
      refine ⟨fun x => rfl, List.nodup_nil, fun x => ?_⟩
      simp [MvMap.putAll, MvMap.Keys, New]
    | append_singleton ps p ih =>
      obtain ⟨ih1, ih2, ih3⟩ := ih
      rw [mvmap_putAll_snoc]
      unfold MvMap.Keys at ih2 ih3 ⊢
      unfold MvMap.Get at ih1 ⊢
      unfold MvMap.Put
      simp only
      refine ⟨fun x => ?_, ?_, fun x => ?_⟩
      · rw [getData_putData, ih1 x, List.filter_append, List.map_append]
        by_cases h : p.1 = x
        · simp [h]
        · simp [h]
      · rw [keys_putData]
        split
        · exact ih2
        · rename_i hnew
          exact List.Nodup.append ih2 (List.nodup_singleton _)
            (by
              intro a ha hb
              rw [List.mem_singleton] at hb
              subst hb
              exact hnew ha)
      · rw [keys_putData, List.map_append, List.mem_append]
        split
        · rename_i hold
          rw [ih3 x]
          constructor
          · exact Or.inl
          · rintro (h | h)
            · exact h
            · have hx : x = p.1 := by simpa using h
              rw [hx]
              exact (ih3 p.1).1 hold
        · rw [List.mem_append, ih3 x]
          simp
  obtain ⟨k1, k2, k3⟩ := key puts
  refine ⟨k1 k, ?_, k2, k3 k, ?_⟩
  · intro hk
    rw [k1 k]
    rw [List.map_eq_nil_iff, List.filter_eq_nil_iff]
    intro p hp
    simp only [decide_eq_true_eq]
    intro he
    exact hk (List.mem_map.2 ⟨p, hp, he⟩)
  · unfold MvMap.Len
    have hlen : ((New : MvMap K V).putAll puts).data.length
        = ((New : MvMap K V).putAll puts).Keys.length := by
      unfold MvMap.Keys
      rw [List.length_map]
    rw [hlen]
    apply List.Perm.length_eq
    rw [List.perm_ext_iff_of_nodup k2 (List.nodup_dedup _)]
    intro x
    rw [k3 x, List.mem_dedup]

end mvmap

namespace nfa

/-- C40: a state without labelled transitions that receives one or two of them answers
exactly. After `put(s1, d1)`: `OutgoingSymbols` is `[s1]`, `OutgoingFor(s1)` is `[d1]` and
`OutgoingFor` of every other symbol is nil. After a second `put(s2, d2)`: the inline edge is
empty, `OutgoingSymbols` is `[s1]` or `[s1, s2]`, and `OutgoingFor(sym)` lists the targets put
under `sym` in the order of the calls. -/
theorem two_puts_are_exact {S V : Type} [DecidableEq S] (st : State S V)
    (hedge : st.edge = none) (htr : st.transitions = none) (s1 s2 sym : S) (d1 d2 : Nat) :
    (st.put s1 d1).OutgoingSymbols = some [s1]
    ∧ (st.put s1 d1).OutgoingFor sym = (if s1 = sym then some [d1] else none)
    ∧ ((st.put s1 d1).put s2 d2).edge = none
    ∧ ((st.put s1 d1).put s2 d2).OutgoingSymbols = some (if s1 = s2 then [s1] else [s1, s2])
    ∧ ((st.put s1 d1).put s2 d2).OutgoingFor sym
        = some ((if s1 = sym then [d1] else []) ++ (if s2 = sym then [d2] else [])) := by
  have h1 : st.put s1 d1 = { st with edge := some { sym := s1, dst := d1 } } := by
    unfold State.put
    rw [hedge]
  have h2 : (st.put s1 d1).put s2 d2
      = { st with transitions := some ((mvmap.New.Put s1 d1).Put s2 d2), edge := none } := by
    rw [h1]
    unfold State.put
    simp only [htr]
  refine ⟨?_, ?_, ?_, ?_, ?_⟩
  · rw [h1]
    unfold State.OutgoingSymbols
    simp only [htr]
  · rw [h1]
    unfold State.OutgoingFor
    simp only [htr]
  · rw [h2]
  · rw [h2]
    unfold State.OutgoingSymbols
    simp only [mvmap.MvMap.Keys, mvmap.MvMap.Put, mvmap.New, mvmap.keys_putData]
    by_cases h : s1 = s2
    · simp [h, mvmap.putData]
    · have h3 : ¬ s2 = s1 := fun e => h e.symm
      simp [h, h3, mvmap.putData]
  · rw [h2]
    unfold State.OutgoingFor
    simp only [mvmap.MvMap.Get, mvmap.MvMap.Put, mvmap.New, mvmap.getData_putData]
    by_cases ha : s1 = sym <;> by_cases hb : s2 = sym <;> simp [ha, hb, mvmap.getData]

/-- Witness of C40: the blank state after `put('a', 1)` and `put('a', 2)`. -/
theorem two_puts_are_exact_witness :
    (((State.blank 0 : State Char Nat).put 'a' 1).put 'a' 2).OutgoingSymbols = some ['a']
    ∧ (((State.blank 0 : State Char Nat).put 'a' 1).put 'a' 2).OutgoingFor 'a' = some [1, 2] :=
  have h := two_puts_are_exact (State.blank 0 : State Char Nat) rfl rfl 'a' 'a' 'a' 1 2
  ⟨h.2.2.2.1.trans (by decide), h.2.2.2.2.trans (by decide)⟩

end nfa

namespace dfa

theorem readLen_eq_min {S V : Type} [DecidableEq S] [Inhabited V] (d : Dfa S V) (w : List S) :
    ∀ r, d.readLen r w = min w.length (d.definedLen r w + 1) := by
  induction w with
  | nil => intro r; simp [Dfa.readLen]
  | cons sym rest ih =>
    intro r
    rw [Dfa.readLen, Dfa.definedLen]
    cases (d.deref r).OutgoingFor sym with
    | none => simp
    | some next =>
      simp only [List.length_cons]
      rw [ih next]
      omega

theorem definedLen_le {S V : Type} [DecidableEq S] [Inhabited V] (d : Dfa S V) (w : List S) :
    ∀ r, d.definedLen r w ≤ w.length := by
  induction w with
  | nil => intro r; simp [Dfa.definedLen]
  | cons sym rest ih =>
    intro r
    rw [Dfa.definedLen]
    cases (d.deref r).OutgoingFor sym with
    | none => simp
    | some next =>
      have := ih next
      simp only [List.length_cons]
      omega

theorem follow_definedLen {S V : Type} [DecidableEq S] [Inhabited V] (d : Dfa S V)
    (w : List S) :
    ∀ r, (d.follow r (w.take (d.definedLen r w))).isSome = true
      ∧ ∀ m, m ≤ w.length → (d.follow r (w.take m)).isSome = true → m ≤ d.definedLen r w := by
  induction w with
  | nil =>
    intro r
    exact ⟨rfl, fun m hm _ => by simp at hm; omega⟩
  | cons sym rest ih =>
    intro r
    rw [Dfa.definedLen]
    cases hout : (d.deref r).OutgoingFor sym with
    | none =>
      refine ⟨rfl, fun m hm h => ?_⟩
      cases m with
      | zero => exact le_refl _
      | succ m =>
        rw [List.take_succ_cons, Dfa.follow, hout] at h
        simp at h
    | some next =>
      obtain ⟨h1, h2⟩ := ih next
      simp only
      refine ⟨?_, fun m hm h => ?_⟩
      · rw [List.take_succ_cons, Dfa.follow, hout]
        exact h1
      · cases m with
        | zero => omega
        | succ m =>
          rw [List.take_succ_cons, Dfa.follow, hout] at h
          have := h2 m (by simpa using hm) h
          omega

end dfa

namespace scanner

theorem readCount_unreads (log : List ReaderCall) (k : Nat) :
    readCount (log ++ List.replicate k ReaderCall.unread) = readCount log := by
  unfold readCount
  rw [List.count_append, List.count_replicate]
  simp

/-- C38: `NextToken` never returns a match of length zero; the acceptance of the start state
plays no role. If the first `ReadSymbol` fails, the result is `eof`; if it delivers a symbol
on which the start state has no transition, the result is `illegal` and the reader is left
right after that symbol, without any `UnreadSymbol`. Both hold whether or not the start state
is accepting. -/
theorem NextToken_no_empty_match {S V R : Type} [DecidableEq S] [Inhabited V]
    (s : Scanner S V) (rd : SymbolReader S R) (rdr : R) (fuel : Nat) (hfuel : 0 < fuel) :
    ((rd.ReadSymbol rdr).1 = none →
      s.NextToken rd fuel rdr = some (s.eof, (rd.ReadSymbol rdr).2))
    ∧ (∀ sym, (rd.ReadSymbol rdr).1 = some sym →
        (s.machine.deref s.machine.Start).OutgoingFor sym = none →
        s.NextToken rd fuel rdr = some (s.illegal, (rd.ReadSymbol rdr).2)
        ∧ s.NextToken (traced rd) fuel { inner := rdr, calls := [] }
          = some (s.illegal,
              { inner := (rd.ReadSymbol rdr).2, calls := [ReaderCall.read true] })) := by
  obtain ⟨k, hk⟩ : ∃ k, fuel = k + 1 := ⟨fuel - 1, by omega⟩
  subst hk
  constructor
  · intro herr
    unfold Scanner.NextToken Scanner.scanLoop
    rcases hrd : rd.ReadSymbol rdr with ⟨o, r1⟩
    rw [hrd] at herr
    simp only at herr
    subst herr
    simp
  · intro sym hsym hout
    rcases hrd : rd.ReadSymbol rdr with ⟨o, r1⟩
    rw [hrd] at hsym
    simp only at hsym
    subst hsym
    constructor
    · unfold Scanner.NextToken Scanner.scanLoop
      simp only [hrd, hout]
      simp [unreadTimes]
    · unfold Scanner.NextToken Scanner.scanLoop
      simp only [traced, hrd, hout]
      simp [unreadTimes]

/-- Witness of C38: the start state of the scanner is accepting with value 7; on the input
`"b"` the scanner returns `illegal` and moves the cursor by one, on the empty input it returns
`eof`. -/
theorem NextToken_no_empty_match_witness :
    (emptyMatchScanner.machine.deref emptyMatchScanner.machine.Start).IsAccepting = true
    ∧ (emptyMatchScanner.machine.deref emptyMatchScanner.machine.Start).AcceptValue = 7
    ∧ emptyMatchScanner.NextToken (listReader Char) 2 { input := ['b'], cursor := 0 }
        = some (100, { input := ['b'], cursor := 1 })
    ∧ emptyMatchScanner.NextToken (listReader Char) 2 { input := [], cursor := 0 }
        = some (200, { input := [], cursor := 0 }) :=
  ⟨by decide, by decide,
    ((NextToken_no_empty_match emptyMatchScanner (listReader Char)
        { input := ['b'], cursor := 0 } 2 (by decide)).2 'b' rfl (by decide)).1,
    (NextToken_no_empty_match emptyMatchScanner (listReader Char)
        { input := [], cursor := 0 } 2 (by decide)).1 rfl⟩

/-- C39: the lookahead of one `NextToken` call on a list-backed reader. With `w` the remaining
input and `L` the length of the longest prefix of `w` along which `OutgoingFor` is defined at
every step from the start state, the call makes exactly `min(|w|, L + 1)` successful reads:
it reads the `L` symbols it can follow and, if there is one, the first symbol without
transition, and none after it. -/
theorem NextToken_lookahead_bound {S V : Type} [DecidableEq S] [Inhabited V] (s : Scanner S V)
    (input : List S) (c : Nat) (log : List ReaderCall) (fuel : Nat)
    (hf : input.length - c < fuel) :
    (∃ (v : V) (rdr : Traced (ListReader S)),
      s.NextToken (traced (listReader S)) fuel
          { inner := { input := input, cursor := c }, calls := log } = some (v, rdr)
      ∧ readCount rdr.calls
          = readCount log
            + min (input.drop c).length
                (s.machine.definedLen s.machine.Start (input.drop c) + 1))
    ∧ s.machine.definedLen s.machine.Start (input.drop c) ≤ (input.drop c).length
    ∧ (s.machine.follow s.machine.Start
        ((input.drop c).take (s.machine.definedLen s.machine.Start (input.drop c)))).isSome
          = true
    ∧ (∀ m, m ≤ (input.drop c).length →
        (s.machine.follow s.machine.Start ((input.drop c).take m)).isSome = true →
        m ≤ s.machine.definedLen s.machine.Start (input.drop c)) := by
  refine ⟨?_, dfa.definedLen_le _ _ _, (dfa.follow_definedLen _ _ _).1,
    (dfa.follow_definedLen _ _ _).2⟩
  rw [← dfa.readLen_eq_min]
  by_cases hc : c < input.length
  · cases hla : s.machine.longestAccept s.machine.Start (input.drop c) with
    | none =>
      refine ⟨_, _, NextToken_traced_list_illegal s input c log fuel hc hf hla, ?_⟩
      simp only
      rw [readCount_unreads, readCount_loop_calls]
    | some p =>
      obtain ⟨k, q⟩ := p
      refine ⟨_, _, NextToken_traced_list_match s input c log fuel k q hf hla, ?_⟩
      simp only
      rw [readCount_unreads, readCount_loop_calls]
  · have hd : input.drop c = [] := by simp; omega
    refine ⟨_, _, NextToken_traced_list_eof s input c log fuel (by omega) (by omega), ?_⟩
    rw [hd]
    simp [dfa.Dfa.readLen, readCount, List.count_append]

/-- Witness of C39: on `"aaba"` the demo scanner follows `"aa"` and reads the `'b'` that has no
transition: three successful reads. -/
theorem NextToken_lookahead_bound_witness :
    ∃ (v : Nat) (rdr : Traced (ListReader Char)),
      demoScanner.NextToken (traced (listReader Char)) 5
          { inner := { input := ['a', 'a', 'b', 'a'], cursor := 0 }, calls := [] }
        = some (v, rdr)
      ∧ readCount rdr.calls = 3 :=
  have h := (NextToken_lookahead_bound demoScanner ['a', 'a', 'b', 'a'] 0 [] 5 (by decide)).1
  h.imp fun _ h2 => h2.imp fun _ h3 => ⟨h3.1, h3.2.trans (by decide)⟩

end scanner

namespace dfa

/-! ### Termination of the two worklists -/

theorem closure_terminates {S V : Type} [Inhabited V] (n : nfa.Nfa S V) :
    ∀ (fuel : Nat) (work closure : List Nat),
      closureMeasure n work closure < fuel →
      epsilonClosureWork n fuel work closure = []
      ∧ ∀ extra, epsilonClosureLoop n (fuel + extra) work closure
          = epsilonClosureLoop n fuel work closure := by
  intro fuel
  induction fuel with
  | zero => intro work closure h; omega
  | succ fuel ih =>
    intro work closure hm
    cases work with
    | nil =>
      refine ⟨by simp [epsilonClosureWork], fun extra => ?_⟩
      rw [Nat.add_right_comm]
      simp [epsilonClosureLoop]
    | cons t rest =>
      by_cases ht : t ∈ closure
      · have hm2 : closureMeasure n rest closure < fuel := by
          unfold closureMeasure at hm ⊢; simp at hm; omega
        obtain ⟨h1, h2⟩ := ih rest closure hm2
        refine ⟨by rw [epsilonClosureWork, if_pos ht]; exact h1, fun extra => ?_⟩
        rw [Nat.add_right_comm, epsilonClosureLoop, if_pos ht, epsilonClosureLoop, if_pos ht]
        exact h2 extra
      · have hm2 : closureMeasure n (rest ++ epsilonOf n t) (closure ++ [t]) < fuel := by
          unfold closureMeasure at hm ⊢
          by_cases hlt : t < n.states.length
          · have := pendingWeight_add_mem (fun q => (epsilonOf n q).length + 1)
              (List.range n.states.length) closure t (List.nodup_range _)
              (List.mem_range.2 hlt) ht
            simp only [List.length_cons, List.length_append] at hm ⊢
            simp only [] at this
            omega
          · have := pendingWeight_add_not_mem (fun q => (epsilonOf n q).length + 1)
              (List.range n.states.length) closure t (by simpa using hlt)
            have he := epsilonOf_out_of_range n t (by omega)
            simp [he] at hm ⊢; omega
        obtain ⟨h1, h2⟩ := ih _ _ hm2
        refine ⟨by rw [epsilonClosureWork, if_neg ht]; exact h1, fun extra => ?_⟩
        rw [Nat.add_right_comm, epsilonClosureLoop, if_neg ht, epsilonClosureLoop, if_neg ht]
        exact h2 extra

theorem buildLoop_stable {S V : Type} [DecidableEq S] [Inhabited V] (n : nfa.Nfa S V) :
    ∀ (fuel : Nat) (b : dfaBuilder S V),
      (dfaBuilder.buildLoop n fuel b).workingQueue.data = [] →
      ∀ extra, dfaBuilder.buildLoop n (fuel + extra) b = dfaBuilder.buildLoop n fuel b := by
  intro fuel
  induction fuel with
  | zero =>
    intro b h extra
    rw [dfaBuilder.buildLoop] at h ⊢
    cases extra with
    | zero => rfl
    | succ e =>
      rw [Nat.zero_add, dfaBuilder.buildLoop]
      unfold queue.Queue.Dequeue
      rw [h]
  | succ fuel ih =>
    intro b h extra
    rw [Nat.add_right_comm, dfaBuilder.buildLoop, dfaBuilder.buildLoop]
    rw [dfaBuilder.buildLoop] at h
    cases hq : b.workingQueue.Dequeue with
    | mk o rest =>
      rw [hq] at h
      cases o with
      | none => rfl
      | some T =>
        simp only at h ⊢
        exact ih _ h extra

/-- C35: `FromNfa` terminates on every NFA (with a well-formed heap), cycles or not. The
worklist of `Epsilon-closure`, started from any set `T`, is empty when the computed number of
iterations is used up, and the worklist of subsets is empty when the loop of the construction
returns; giving either loop more iterations changes nothing. -/
theorem FromNfa_terminates {S V : Type} [DecidableEq S] [Inhabited V] (n : nfa.Nfa S V)
    (hwf : n.WF) (T : List Nat) (extra : Nat) :
    epsilonClosureWork n (epsilonClosureFuel n T) T [] = []
    ∧ epsilonClosureLoop n (epsilonClosureFuel n T + extra) T [] = epsilonClosure n T
    ∧ ((initialBuilder : dfaBuilder S V).run n).workingQueue.data = []
    ∧ dfaBuilder.buildLoop n (buildFuel n + extra) ((initialBuilder : dfaBuilder S V).seed n)
        = (initialBuilder : dfaBuilder S V).run n
    ∧ ((initialBuilder : dfaBuilder S V).run n).workingQueue.Dequeue.1 = none := by
  have hm : closureMeasure n T [] < epsilonClosureFuel n T := by
    unfold closureMeasure epsilonClosureFuel pendingWeight
    simp
  obtain ⟨h1, h2⟩ := closure_terminates n _ T [] hm
  obtain ⟨-, hq⟩ := run_inv (S := S) (V := V) n hwf
  refine ⟨h1, h2 extra, hq, ?_, ?_⟩
  · unfold dfaBuilder.run at hq ⊢
    exact buildLoop_stable n _ _ hq extra
  · unfold queue.Queue.Dequeue
    rw [hq]

/-- Witness of C35: the construction on an NFA with a labelled self-loop and an epsilon cycle
ends with an empty worklist and two DFA states. -/
theorem FromNfa_terminates_witness :
    epsilonClosureWork scanner.cyclicNfa (epsilonClosureFuel scanner.cyclicNfa [1]) [1] [] = []
    ∧ epsilonClosure scanner.cyclicNfa [1] = [1, 0]
    ∧ ((initialBuilder : dfaBuilder Char Nat).run scanner.cyclicNfa).workingQueue.data = []
    ∧ (FromNfa scanner.cyclicNfa).states.length = 2 :=
  have h := FromNfa_terminates scanner.cyclicNfa (by decide) [1] 0
  ⟨h.1, by decide, h.2.2.1, by decide⟩

/-! ### Ids and transitions of the DFA states -/

theorem keys_set {K W : Type} [DecidableEq K] (k : K) (v : W) (m : List (K × W)) :
    (gomap.set k v m).map Prod.fst
      = if k ∈ m.map Prod.fst then m.map Prod.fst else m.map Prod.fst ++ [k] := by
  induction m with
  | nil => simp [gomap.set]
  | cons hd rest ih =>
    obtain ⟨k0, v0⟩ := hd
    by_cases h0 : k0 = k
    · subst h0
      simp [gomap.set]
    · have h2 : ¬ k = k0 := fun e => h0 e.symm
      simp only [gomap.set, h0, if_false, List.map_cons, ih, List.mem_cons, h2, false_or]
      split <;> rfl

theorem keys_set_nodup {K W : Type} [DecidableEq K] (k : K) (v : W) (m : List (K × W))
    (h : (m.map Prod.fst).Nodup) : ((gomap.set k v m).map Prod.fst).Nodup := by
  rw [keys_set]
  split
  · exact h
  · rename_i hnew
    exact List.Nodup.append h (List.nodup_singleton _)
      (by
        intro a ha hb
        rw [List.mem_singleton] at hb
        subst hb
        exact hnew ha)

theorem tidy_seed {S V : Type} [DecidableEq S] [Inhabited V] (n : nfa.Nfa S V) :
    Tidy ((initialBuilder : dfaBuilder S V).seed n) := by
  refine ⟨by simp [dfaBuilder.seed, initialBuilder], fun r hr => ?_⟩
  have hr0 : r = 0 := by
    simp [dfaBuilder.seed, initialBuilder] at hr
    omega
  subst hr0
  unfold dfaBuilder.seed initialBuilder Dfa.deref
  simp only [List.nil_append, List.length_nil]
  cases pickAccepting n (epsilonClosure n [n.Start]) <;> exact ⟨rfl, List.nodup_nil⟩

theorem tidy_stateFor {S V : Type} [Inhabited V] (n : nfa.Nfa S V) (b : dfaBuilder S V)
    (U : List Nat) (hb : Tidy b) : Tidy (b.stateFor n U).1 := by
  unfold dfaBuilder.stateFor
  cases gomap.get (subsetKey n U) b.subsetKeyToStateMap with
  | some r => exact hb
  | none =>
    obtain ⟨h1, h2⟩ := hb
    simp only
    unfold newStateFor Dfa.newAcceptingState Dfa.newState
    cases pickAccepting n U with
    | none =>
      refine ⟨by simp [h1], fun r hr => ?_⟩
      simp only [List.length_append, List.length_singleton] at hr
      by_cases hlt : r < b.dfa.states.length
      · simp only
        rw [dfa_deref_append_left _ _ _ _ b.dfa.start b.dfa.nextStateID r hlt]
        exact h2 r hlt
      · have hr2 : r = b.dfa.states.length := by omega
        subst hr2
        simp only
        rw [dfa_deref_append_new]
        exact ⟨h1, List.nodup_nil⟩
    | some q =>
      refine ⟨by simp [h1], fun r hr => ?_⟩
      simp only [List.length_append, List.length_singleton] at hr
      by_cases hlt : r < b.dfa.states.length
      · simp only
        rw [dfa_deref_append_left _ _ _ _ b.dfa.start b.dfa.nextStateID r hlt]
        exact h2 r hlt
      · have hr2 : r = b.dfa.states.length := by omega
        subst hr2
        simp only
        rw [dfa_deref_append_new]
        exact ⟨h1, List.nodup_nil⟩

theorem tidy_processSymbol {S V : Type} [DecidableEq S] [Inhabited V] (n : nfa.Nfa S V)
    (T : List Nat) (D : Nat) (b : dfaBuilder S V) (sym : S) (hb : Tidy b) :
    Tidy (dfaBuilder.processSymbol n T D b sym) := by
  unfold dfaBuilder.processSymbol
  simp only
  split
  · exact hb
  · obtain ⟨h1, h2⟩ := tidy_stateFor n b (epsilonClosure n (move n T sym)) hb
    refine ⟨?_, fun r hr => ?_⟩
    · simp only [dfa_update_length]
      exact h1
    · simp only [dfa_update_length] at hr
      simp only
      by_cases hrD : r = D
      · subst hrD
        rw [dfa_update_deref_self _ _ _ hr]
        exact ⟨(h2 r hr).1, keys_set_nodup _ _ _ (h2 r hr).2⟩
      · rw [dfa_update_deref_ne _ _ _ _ hrD]
        exact h2 r hr

theorem tidy_processSubset {S V : Type} [DecidableEq S] [Inhabited V] (n : nfa.Nfa S V)
    (T : List Nat) (b : dfaBuilder S V) (hb : Tidy b) :
    Tidy (dfaBuilder.processSubset n T b) := by
  unfold dfaBuilder.processSubset
  cases gomap.get (subsetKey n T) b.subsetKeyToStateMap with
  | none => exact hb
  | some D =>
    simp only
    generalize alphabet n T = syms
    induction syms generalizing b with
    | nil => exact hb
    | cons sym rest ih =>
      rw [List.foldl_cons]
      exact ih _ (tidy_processSymbol n T D b sym hb)

theorem tidy_buildLoop {S V : Type} [DecidableEq S] [Inhabited V] (n : nfa.Nfa S V) :
    ∀ (fuel : Nat) (b : dfaBuilder S V), Tidy b → Tidy (dfaBuilder.buildLoop n fuel b) := by
  intro fuel
  induction fuel with
  | zero => intro b hb; exact hb
  | succ fuel ih =>
    intro b hb
    unfold dfaBuilder.buildLoop
    cases hq : b.workingQueue.Dequeue with
    | mk o rest =>
      cases o with
      | none => exact hb
      | some T =>
        simp only
        exact ih _ (tidy_processSubset n T _ hb)

theorem tidy_run {S V : Type} [DecidableEq S] [Inhabited V] (n : nfa.Nfa S V) :
    Tidy ((initialBuilder : dfaBuilder S V).run n) :=
  tidy_buildLoop n _ _ (tidy_seed n)

end dfa

namespace nfa

/-! ### Maps filled by `put` have no empty key -/

theorem put_proper {S V : Type} [DecidableEq S] (st : State S V) (sym : S) (dst : Nat)
    (h : st.Proper) : (st.put sym dst).Proper := by
  have hput : ∀ (m : mvmap.MvMap S Nat) (a : S) (v : Nat),
      (∀ k ∈ m.Keys, m.Get k ≠ []) → ∀ k ∈ (m.Put a v).Keys, (m.Put a v).Get k ≠ [] := by
    intro m a v hm k hk
    unfold mvmap.MvMap.Keys mvmap.MvMap.Put at hk
    unfold mvmap.MvMap.Get mvmap.MvMap.Put
    simp only at hk ⊢
    rw [mvmap.getData_putData]
    by_cases hak : a = k
    · rw [if_pos hak]; simp
    · rw [if_neg hak]
      rw [mvmap.keys_putData] at hk
      split at hk
      · exact hm k hk
      · rcases List.mem_append.1 hk with h2 | h2
        · exact hm k h2
        · exact absurd (List.mem_singleton.1 h2).symm hak
  unfold State.put
  cases he : st.edge with
  | none =>
    simp only
    exact h
  | some e =>
    simp only
    unfold State.Proper at h ⊢
    simp only
    cases ht : st.transitions with
    | none =>
      simp only
      apply hput
      apply hput
      intro k hk
      simp [mvmap.MvMap.Keys, mvmap.New] at hk
    | some m =>
      rw [ht] at h
      simp only at h ⊢
      exact hput _ _ _ (hput _ _ _ h)

theorem proper_getD_modify {S V : Type} [DecidableEq S] [Inhabited V] (l : List (State S V))
    (f : State S V → State S V) (hf : ∀ st, st.Proper → (f st).Proper) (s q : Nat)
    (h : (l.getD q default).Proper) : ((l.modify f s).getD q default).Proper := by
  by_cases hq : q = s
  · subst hq
    by_cases hlt : q < l.length
    · rw [getD_modify_self _ _ _ _ hlt]
      exact hf _ h
    · rw [List.getD_eq_default _ _ (by simp [List.length_modify]; omega)]
      rw [List.getD_eq_default _ _ (by omega)] at h
      exact h
  · rw [getD_modify_ne _ _ _ _ _ hq]
    exact h

theorem proper_getD_append {S V : Type} [DecidableEq S] [Inhabited V] (l : List (State S V))
    (t : State S V) (ht : t.Proper) (q : Nat) (h : (l.getD q default).Proper) :
    ((l ++ [t]).getD q default).Proper := by
  rw [getD_append_new]
  split
  · exact ht
  · exact h

theorem call_proper {S V : Type} [DecidableEq S] [Inhabited V] (n : Nfa S V) (c : Call S V)
    (h : n.Proper) : (n.call c).1.Proper := by
  have hblank : ∀ id, (State.blank id : State S V).Proper := fun id => trivial
  have heps : ∀ (x : Nat) (st : State S V), st.Proper →
      ({ st with eTransitions := st.eTransitions ++ [x] } : State S V).Proper :=
    fun x st hst => hst
  have hmark : ∀ (i : Int) (v : V) (st : State S V), st.Proper →
      ({ st with acceptIdx := i, value := v } : State S V).Proper := fun i v st hst => hst
  intro q
  have hq := h q
  unfold Nfa.deref at hq ⊢
  cases c with
  | add s sym =>
    simp only [Nfa.call, Nfa.Add, Nfa.newState, Nfa.update]
    exact proper_getD_modify _ _ (fun st hst => put_proper st _ _ hst) _ _
      (proper_getD_append _ _ (hblank _) _ hq)
  | addAccepting s sym value =>
    simp only [Nfa.call, Nfa.AddAccepting, Nfa.newAcceptingState, Nfa.markAccepting,
      Nfa.update]
    exact proper_getD_modify _ _ (fun st hst => put_proper st _ _ hst) _ _
      (proper_getD_modify _ _ (hmark _ _) _ _ (proper_getD_append _ _ (hblank _) _ hq))
  | addEpsilon s =>
    simp only [Nfa.call, Nfa.AddEpsilonTransition, Nfa.newState, Nfa.update]
    exact proper_getD_modify _ _ (heps _) _ _ (proper_getD_append _ _ (hblank _) _ hq)
  | addAcceptingEpsilon s value =>
    simp only [Nfa.call, Nfa.AddAcceptingEpsilonTransition, Nfa.newAcceptingState,
      Nfa.markAccepting, Nfa.update]
    exact proper_getD_modify _ _ (heps _) _ _
      (proper_getD_modify _ _ (hmark _ _) _ _ (proper_getD_append _ _ (hblank _) _ hq))
  | connect src sym dst =>
    simp only [Nfa.call, Nfa.Connect, Nfa.update]
    exact proper_getD_modify _ _ (fun st hst => put_proper st _ _ hst) _ _ hq

/-- Every automaton that the builder methods produce has proper maps. -/
theorem run_proper {S V : Type} [DecidableEq S] [Inhabited V] (calls : List (Call S V)) :
    ∀ n : Nfa S V, n.Proper → (n.run calls).Proper := by
  induction calls with
  | nil => intro n h; exact h
  | cons c rest ih =>
    intro n h
    rw [run_cons]
    exact ih _ (call_proper n c h)

theorem new_proper {S V : Type} [DecidableEq S] [Inhabited V] : (New : Nfa S V).Proper := by
  intro q
  by_cases hq : q < (New : Nfa S V).states.length
  · have : q = 0 := by simp [New] at hq; omega
    subst this
    trivial
  · rw [dfa.deref_out_of_range _ q (by omega)]
    trivial

/-- A symbol that `OutgoingSymbols` lists has a target in `OutgoingFor`. -/
theorem proper_outgoing {S V : Type} [DecidableEq S] [Inhabited V] (n : Nfa S V) (q : Nat)
    (sym : S) (h : (n.deref q).Proper)
    (hsym : sym ∈ ((n.deref q).OutgoingSymbols).getD []) : dfa.outgoingOf n q sym ≠ [] := by
  unfold dfa.outgoingOf
  unfold State.Proper at h
  unfold State.OutgoingSymbols at hsym
  unfold State.OutgoingFor
  cases ht : (n.deref q).transitions with
  | none =>
    rw [ht] at hsym
    simp only at hsym ⊢
    cases he : (n.deref q).edge with
    | none => rw [he] at hsym; simp at hsym
    | some e =>
      rw [he] at hsym
      simp only [Option.getD_some, List.mem_singleton] at hsym
      simp [hsym]
  | some m =>
    rw [ht] at h hsym
    simp only [Option.getD_some] at h hsym ⊢
    exact h sym hsym

end nfa

namespace dfa

/-- The DFA state that a word reaches is the state that the subset map holds for the set of
NFA states that the word reaches. -/
theorem follow_key {S V : Type} [DecidableEq S] [Inhabited V] (n : nfa.Nfa S V)
    (hwf : n.WF) (w : List S) (D : Nat)
    (hD : (FromNfa n).follow (FromNfa n).Start w = some D) :
    runSet n w ≠ []
    ∧ gomap.get (subsetKey n (runSet n w))
        ((initialBuilder : dfaBuilder S V).run n).subsetKeyToStateMap = some D := by
  obtain ⟨h1, h2⟩ := follow_runSet n hwf w
  have hne : runSet n w ≠ [] := by
    intro h
    rw [h1 h] at hD
    simp at hD
  obtain ⟨r, hr, hg⟩ := h2 hne
  rw [hr, Option.some.injEq] at hD
  subst hD
  exact ⟨hne, hg⟩

/-- C36: the DFA states of `FromNfa n` (for `n` with a well-formed heap) are deduplicated by
NFA subset. If two words reach the same non-empty set of NFA states, they reach the same DFA
state; the DFA states that two words reach are the same state exactly when the words reach
the same NFA states, and they have the same ID exactly when they are the same state. The key
of a subset does not depend on the order or the repetitions of its list. -/
theorem FromNfa_deduplicates {S V : Type} [DecidableEq S] [Inhabited V] (n : nfa.Nfa S V)
    (hwf : n.WF) (w1 w2 : List S) :
    ((∃ q, Reach n w1 q) → (∀ q, Reach n w1 q ↔ Reach n w2 q) →
      ∃ D, (FromNfa n).follow (FromNfa n).Start w1 = some D
        ∧ (FromNfa n).follow (FromNfa n).Start w2 = some D)
    ∧ (∀ D1 D2, (FromNfa n).follow (FromNfa n).Start w1 = some D1 →
        (FromNfa n).follow (FromNfa n).Start w2 = some D2 →
        (D1 = D2 ↔ ∀ q, Reach n w1 q ↔ Reach n w2 q)
        ∧ (((FromNfa n).deref D1).ID = ((FromNfa n).deref D2).ID ↔ D1 = D2))
    ∧ (∀ T1 T2 : List Nat, Valid n T1 → Valid n T2 → (∀ x, x ∈ T1 ↔ x ∈ T2) →
        subsetKey n T1 = subsetKey n T2) := by
  obtain ⟨hinv, -⟩ := run_inv (S := S) (V := V) n hwf
  have htidy := tidy_run (S := S) (V := V) n
  have hv1 := runSet_valid n hwf w1
  have hv2 := runSet_valid n hwf w2
  have hkeys : (∀ q, Reach n w1 q ↔ Reach n w2 q)
      → subsetKey n (runSet n w1) = subsetKey n (runSet n w2) := by
    intro h
    apply subsetKey_congr n hwf _ _ hv1 hv2
    intro x
    rw [mem_runSet, mem_runSet]
    exact h x
  refine ⟨?_, ?_, fun T1 T2 h1 h2 h => subsetKey_congr n hwf T1 T2 h1 h2 h⟩
  · rintro ⟨q, hq⟩ hsame
    obtain ⟨-, f1⟩ := follow_runSet n hwf w1
    obtain ⟨-, f2⟩ := follow_runSet n hwf w2
    have hne1 : runSet n w1 ≠ [] := List.ne_nil_of_mem ((mem_runSet n w1 q).2 hq)
    have hne2 : runSet n w2 ≠ [] :=
      List.ne_nil_of_mem ((mem_runSet n w2 q).2 ((hsame q).1 hq))
    obtain ⟨r1, hr1, hg1⟩ := f1 hne1
    obtain ⟨r2, hr2, hg2⟩ := f2 hne2
    rw [hkeys hsame, hg2, Option.some.injEq] at hg1
    subst hg1
    exact ⟨r2, hr1, hr2⟩
  · intro D1 D2 hD1 hD2
    obtain ⟨-, hg1⟩ := follow_key n hwf w1 D1 hD1
    obtain ⟨-, hg2⟩ := follow_key n hwf w2 D2 hD2
    constructor
    · constructor
      · intro heq
        subst heq
        have hk := hinv.refs_inj _ _ _ hg1 hg2
        intro q
        rw [← mem_runSet, ← mem_runSet]
        exact subsetKey_inj n hwf _ _ hv1 hv2 hk q
      · intro hsame
        rw [hkeys hsame, hg2, Option.some.injEq] at hg1
        exact hg1.symm
    · have hl1 := (hinv.keys_valid _ _ hg1).2.2
      have hl2 := (hinv.keys_valid _ _ hg2).2.2
      have hid1 := (htidy.2 D1 hl1).1
      have hid2 := (htidy.2 D2 hl2).1
      unfold State.ID FromNfa dfaBuilder.buildFromNfa
      rw [hid1, hid2]

/-- Witness of C36: in the DFA of the NFA with a self-loop on 'a', the words `"a"` and `"aa"`
reach the same DFA state, which therefore transitions on 'a' to itself, and they reach the
same NFA states. -/
theorem FromNfa_deduplicates_witness :
    (FromNfa ((nfa.New : nfa.Nfa Char Nat).run nfa.loopCalls)).follow 0 ['a'] = some 1
    ∧ (FromNfa ((nfa.New : nfa.Nfa Char Nat).run nfa.loopCalls)).follow 0 ['a', 'a'] = some 1
    ∧ ((FromNfa ((nfa.New : nfa.Nfa Char Nat).run nfa.loopCalls)).deref 1).OutgoingFor 'a'
        = some 1
    ∧ ∀ q, Reach ((nfa.New : nfa.Nfa Char Nat).run nfa.loopCalls) ['a'] q
        ↔ Reach ((nfa.New : nfa.Nfa Char Nat).run nfa.loopCalls) ['a', 'a'] q :=
  ⟨by decide, by decide, by decide,
    (((FromNfa_deduplicates ((nfa.New : nfa.Nfa Char Nat).run nfa.loopCalls) (by decide)
        ['a'] ['a', 'a']).2.1 1 1 (by decide) (by decide)).1).1 rfl⟩

/-- C37: let the word `w` lead to the state `D` of `FromNfa n` (for `n` with a well-formed heap
and maps as `put` fills them). `D.OutgoingSymbols()` has no duplicates and holds exactly the
symbols of `q.OutgoingSymbols()` for the NFA states `q` that `w` reaches (a set closed under
epsilon transitions), and `D.OutgoingFor(sym)` is non-nil exactly for those symbols. -/
theorem DFA_outgoing_symbols {S V : Type} [DecidableEq S] [Inhabited V] (n : nfa.Nfa S V)
    (hwf : n.WF) (hproper : n.Proper) (w : List S) (D : Nat) (sym : S)
    (hD : (FromNfa n).follow (FromNfa n).Start w = some D) :
    ((FromNfa n).deref D).OutgoingSymbols.Nodup
    ∧ (sym ∈ ((FromNfa n).deref D).OutgoingSymbols
        ↔ ∃ q, Reach n w q ∧ sym ∈ ((n.deref q).OutgoingSymbols).getD [])
    ∧ (((FromNfa n).deref D).OutgoingFor sym ≠ none
        ↔ sym ∈ ((FromNfa n).deref D).OutgoingSymbols) := by
  obtain ⟨hinv, hqueue⟩ := run_inv (S := S) (V := V) n hwf
  have htidy := tidy_run (S := S) (V := V) n
  obtain ⟨-, hg⟩ := follow_key n hwf w D hD
  have hv := runSet_valid n hwf w
  have hlt := (hinv.keys_valid _ _ hg).2.2
  have hsafe := hinv.safe _ _ hg
  have hcomplete : Complete n ((initialBuilder : dfaBuilder S V).run n)
      (subsetKey n (runSet n w)) D := by
    rcases hinv.complete _ _ hg with h | h | h
    · simp at h
    · rw [hqueue] at h; simp at h
    · exact h
  have hfor : ((FromNfa n).deref D).OutgoingFor sym ≠ none
      ↔ sym ∈ ((FromNfa n).deref D).OutgoingSymbols := by
    unfold State.OutgoingFor State.OutgoingSymbols
    rw [Ne, gomap.get_eq_none_iff, not_not]
  have htgt : tgt n (subsetKey n (runSet n w)) sym ≠ []
      ↔ ∃ q, Reach n w q ∧ sym ∈ ((n.deref q).OutgoingSymbols).getD [] := by
    rw [tgt_key n hwf _ hv]
    unfold tgt
    rw [Ne, subsetKey_eq_nil n hwf _ (stepSet_valid n hwf _ sym)]
    constructor
    · intro hne
      obtain ⟨r, hr⟩ := List.exists_mem_of_ne_nil _ hne
      obtain ⟨q, hq, t, ht, -⟩ := (mem_stepSet n _ sym r).1 hr
      exact ⟨q, (mem_runSet n w q).1 hq, outgoing_symbol n q t sym ht⟩
    · rintro ⟨q, hq, hs⟩
      obtain ⟨t, ht⟩ := List.exists_mem_of_ne_nil _ (nfa.proper_outgoing n q sym (hproper q) hs)
      exact List.ne_nil_of_mem
        ((mem_stepSet n _ sym t).2 ⟨q, (mem_runSet n w q).2 hq, t, ht,
          Relation.ReflTransGen.refl⟩)
  refine ⟨(htidy.2 D hlt).2, ?_, hfor⟩
  rw [← hfor, ← htgt]
  constructor
  · intro h
    cases hout : ((FromNfa n).deref D).OutgoingFor sym with
    | none => exact absurd hout h
    | some r2 => exact (hsafe sym r2 hout).1
  · intro h
    exact hcomplete sym h

/-- Witness of C37: in the DFA of `start --ε--> e --x--> accepting` the start state has exactly
the outgoing symbol 'x', which the NFA start state itself does not have. -/
theorem DFA_outgoing_symbols_witness :
    ((FromNfa ((nfa.New : nfa.Nfa Char Nat).run nfa.epsilonCalls)).deref 0).OutgoingSymbols
      = ['x']
    ∧ ((((nfa.New : nfa.Nfa Char Nat).run nfa.epsilonCalls).deref 0).OutgoingSymbols).getD []
      = []
    ∧ ∃ q, Reach ((nfa.New : nfa.Nfa Char Nat).run nfa.epsilonCalls) [] q
        ∧ 'x' ∈ ((((nfa.New : nfa.Nfa Char Nat).run nfa.epsilonCalls).deref
            q).OutgoingSymbols).getD [] :=
  ⟨by decide, by decide,
    (DFA_outgoing_symbols ((nfa.New : nfa.Nfa Char Nat).run nfa.epsilonCalls) (by decide)
      (nfa.run_proper nfa.epsilonCalls _ nfa.new_proper) [] 0 'x' (by decide)).2.1.1
      (by decide)⟩

end dfa

/-! ## Theorems: the fresh NFA, readers without push-back, the frame of scanning and the
repetitions -/

namespace nfa

/-- C27: a freshly created NFA has exactly one state, its start state, which is allocated
(`Start()` is not nil) and has ID 0; it is not accepting, has no outgoing symbols
(`OutgoingSymbols` returns nil), and `OutgoingFor`, for every symbol, and `Epsilon` return
nil. The next ID to hand out is 1 and the next accept index is 0. -/
theorem New_start_is_blank {S V : Type} [DecidableEq S] [Inhabited V] :
    (New : Nfa S V).states.length = 1
    ∧ (New : Nfa S V).Start < (New : Nfa S V).states.length
    ∧ (New : Nfa S V).nextStateID = 1
    ∧ (New : Nfa S V).nextAcceptIndex = 0
    ∧ ∃ st : State S V, (New : Nfa S V).states[(New : Nfa S V).Start]? = some st
        ∧ (New : Nfa S V).deref (New : Nfa S V).Start = st
        ∧ st.ID = 0
        ∧ st.IsAccepting = false
        ∧ st.AcceptIdx = -1
        ∧ st.OutgoingSymbols = none
        ∧ (∀ sym : S, st.OutgoingFor sym = none)
        ∧ st.Epsilon = none := by
  have hlen : (New : Nfa S V).states.length = 1 := by
    unfold New
    simp
  have hstart : (New : Nfa S V).Start = 0 := rfl
  refine ⟨hlen, by rw [hstart, hlen]; exact Nat.zero_lt_one, rfl, rfl, State.blank 0, ?_, ?_,
    rfl, ?_, rfl, rfl, fun sym => rfl, rfl⟩
  · rw [hstart]
    unfold New
    simp
  · rw [hstart]
    unfold Nfa.deref New
    simp
  · unfold State.IsAccepting State.AcceptIdx State.blank
    simp

end nfa

namespace scanner

/-- Counterexample to C8 as worded for every reader: the scanner of the single pattern
`"abc"` on the input `"abd"`, read through a reader with one symbol of push-back (as the
`runeReader` of the tests). The call reads `a`, `b`, `d` without reaching an accepting state
and returns `illegal` after calling `UnreadSymbol` twice (`consumed - 1`), but the second
`UnreadSymbol` fails and the cursor ends at 2: two symbols are consumed for one illegal
result. Repeated calls return `illegal, illegal, eof`; on the list-backed reader they return
`illegal, illegal, illegal, eof`. -/
theorem NextToken_illegal_with_one_symbol_pushback :
    (abcScanner.scanLoop (traced (oneBackReader Char)) 4
        { currentState := abcScanner.machine.Start, consumedSymbols := 0,
          acceptSymbolCount := -1, lastAcceptVal := default,
          rdr := { inner := { input := ['a', 'b', 'd'], cursor := 0, canUnread := false },
                   calls := [] } }).map
        (fun vars => (vars.consumedSymbols, vars.acceptSymbolCount)) = some (3, -1)
    ∧ (abcScanner.NextToken (traced (oneBackReader Char)) 4
        { inner := { input := ['a', 'b', 'd'], cursor := 0, canUnread := false },
          calls := [] }).map (fun x => (x.1, x.2.inner.cursor, x.2.calls))
        = some (100, 2, [ReaderCall.read true, ReaderCall.read true, ReaderCall.read true,
            ReaderCall.unread, ReaderCall.unread])
    ∧ ((oneBackReader Char).UnreadSymbol
        ((oneBackReader Char).UnreadSymbol
          { input := ['a', 'b', 'd'], cursor := 3, canUnread := true }).2).1 = true
    ∧ (readN abcScanner (oneBackReader Char) 4 3
        { input := ['a', 'b', 'd'], cursor := 0, canUnread := false }).map Prod.fst
        = some [100, 100, 200]
    ∧ (readN abcScanner (listReader Char) 4 4
        { input := ['a', 'b', 'd'], cursor := 0 }).map Prod.fst
        = some [100, 100, 100, 200] := by
  refine ⟨by decide, by decide, by decide, by decide, by decide⟩

/-- After a loop that consumed at least one symbol and never saw an accepting state,
`NextToken` returns `illegal` and has called `UnreadSymbol` exactly `consumed - 1` times,
whatever the reader. -/
theorem NextToken_illegal_unreads {S V R : Type} [DecidableEq S] [Inhabited V]
    (s : Scanner S V) (rd : SymbolReader S R) (rdr : Traced R) (fuel : Nat)
    (vars : scanVars V (Traced R))
    (hloop : s.scanLoop (traced rd) fuel
        { currentState := s.machine.Start, consumedSymbols := 0, acceptSymbolCount := -1,
          lastAcceptVal := default, rdr := rdr } = some vars)
    (hcons : vars.consumedSymbols ≠ 0) (hacc : vars.acceptSymbolCount = -1) :
    ∃ rdr2 : Traced R, s.NextToken (traced rd) fuel rdr = some (s.illegal, rdr2)
      ∧ rdr2.calls = vars.rdr.calls
          ++ List.replicate (vars.consumedSymbols - 1).toNat ReaderCall.unread := by
  refine ⟨unreadTimes (traced rd) (vars.consumedSymbols - 1).toNat vars.rdr, ?_,
    unreadTimes_traced_calls rd _ _⟩
  unfold Scanner.NextToken
  rw [hloop]
  simp only
  rw [if_neg hcons, if_neg (by rw [hacc]; simp)]

/-- C8 (amended to readers with full push-back): for every reader, when the loop of `NextToken`
consumed at least one symbol and never reached an accepting state, `NextToken` returns
`illegal` after exactly `consumedSymbols - 1` calls of `UnreadSymbol`. On the list-backed
reader, whose `UnreadSymbol` steps back at any depth: when the remaining input is non-empty
and no non-empty prefix of it reaches an accepting state, the loop ends with
`consumedSymbols ≥ 1` and `acceptSymbolCount = -1`, and the cursor ends exactly one symbol
past where the call started. The same holds on every reader that answers `ReadSymbol` and
`UnreadSymbol` as the list-backed reader does (`ReaderSim`): it is left where the list-backed
reader is with the cursor one symbol further. -/
theorem NextToken_illegal_consumes_one {S V : Type} [DecidableEq S] [Inhabited V]
    (s : Scanner S V) (input : List S) (cursor fuel : Nat) (log : List ReaderCall)
    (hne : cursor < input.length) (hfuel : input.length - cursor < fuel)
    (hno : ∀ n r, 1 ≤ n → n ≤ (input.drop cursor).length →
      s.machine.follow s.machine.Start ((input.drop cursor).take n) = some r →
      (s.machine.deref r).IsAccepting = false) :
    (∃ vars : scanVars V (Traced (ListReader S)),
      s.scanLoop (traced (listReader S)) fuel
          { currentState := s.machine.Start, consumedSymbols := 0, acceptSymbolCount := -1,
            lastAcceptVal := default,
            rdr := { inner := { input := input, cursor := cursor }, calls := log } } = some vars
      ∧ vars.acceptSymbolCount = -1
      ∧ 1 ≤ vars.consumedSymbols
      ∧ readCount vars.rdr.calls = readCount log + vars.consumedSymbols.toNat
      ∧ unreadCount vars.rdr.calls = unreadCount log
      ∧ s.NextToken (traced (listReader S)) fuel
          { inner := { input := input, cursor := cursor }, calls := log }
        = some (s.illegal,
            { inner := { input := input, cursor := cursor + 1 },
              calls := vars.rdr.calls ++ List.replicate
                (vars.consumedSymbols - 1).toNat ReaderCall.unread }))
    ∧ (∀ (R : Type) (rd : SymbolReader S R) (rel : ListReader S → R → Prop) (rdr : R),
        ReaderSim (listReader S) rd rel → rel { input := input, cursor := cursor } rdr →
        ∃ rdr2 : R, s.NextToken rd fuel rdr = some (s.illegal, rdr2)
          ∧ rel { input := input, cursor := cursor + 1 } rdr2)
    ∧ ∀ (R : Type) (rd : SymbolReader S R) (rdr : Traced R) (fuel2 : Nat)
        (vars : scanVars V (Traced R)),
        s.scanLoop (traced rd) fuel2
          { currentState := s.machine.Start, consumedSymbols := 0, acceptSymbolCount := -1,
            lastAcceptVal := default, rdr := rdr } = some vars →
        vars.consumedSymbols ≠ 0 → vars.acceptSymbolCount = -1 →
        ∃ rdr2 : Traced R, s.NextToken (traced rd) fuel2 rdr = some (s.illegal, rdr2)
          ∧ rdr2.calls = vars.rdr.calls
              ++ List.replicate (vars.consumedSymbols - 1).toNat ReaderCall.unread := by
  have hla := longestAccept_of_none s.machine _ _ hno
  refine ⟨?_, ?_, fun R rd rdr fuel2 vars h1 h2 h3 =>
    NextToken_illegal_unreads s rd rdr fuel2 vars h1 h2 h3⟩
  swap
  · intro R rd rel rdr hsim hrel
    have hlist := NextToken_list_illegal s input cursor fuel hne hfuel hla
    rcases NextToken_sim s s rfl rfl rfl (listReader S) rd rel hsim fuel _ rdr hrel
      with ⟨e1, -⟩ | ⟨v, q1, q2, e1, e2, hq⟩
    · rw [hlist] at e1
      exact absurd e1 (by simp)
    · rw [hlist] at e1
      simp only [Option.some.injEq, Prod.mk.injEq] at e1
      obtain ⟨hv, hq1⟩ := e1
      rw [← hv] at e2
      rw [← hq1] at hq
      exact ⟨q2, e2, hq⟩
  have hnil : input.drop cursor ≠ [] := by
    intro h; have := congrArg List.length h; simp at this; omega
  have hpos := dfa.readLen_pos s.machine _ s.machine.Start hnil
  obtain ⟨fin, hfin⟩ := scanLoop_traced_list s input (input.drop cursor) fuel cursor log
    s.machine.Start 0 (-1) default rfl (by simpa using hfuel)
  refine ⟨_, hfin, ?_, ?_, ?_, ?_, ?_⟩
  · simp [hla]
  · simp only; omega
  · simp only [readCount_loop_calls]; omega
  · simp only [unreadCount_loop_calls]
  · rw [NextToken_traced_list_illegal s input cursor log fuel hne hfuel hla]
    congr 5
    simp only
    omega

/-- Witness of the amended C8: on "ba" the first symbol has no transition; the token is
illegal and the cursor ends at 1. -/
theorem NextToken_illegal_consumes_one_witness :
    ∃ vars : scanVars Nat (Traced (ListReader Char)),
      demoScanner.scanLoop (traced (listReader Char)) 4
          { currentState := demoScanner.machine.Start, consumedSymbols := 0,
            acceptSymbolCount := -1, lastAcceptVal := default,
            rdr := { inner := { input := ['b', 'a'], cursor := 0 }, calls := [] } }
        = some vars
      ∧ vars.acceptSymbolCount = -1
      ∧ 1 ≤ vars.consumedSymbols
      ∧ readCount vars.rdr.calls = readCount [] + vars.consumedSymbols.toNat
      ∧ unreadCount vars.rdr.calls = unreadCount []
      ∧ demoScanner.NextToken (traced (listReader Char)) 4
          { inner := { input := ['b', 'a'], cursor := 0 }, calls := [] }
        = some (demoScanner.illegal,
            { inner := { input := ['b', 'a'], cursor := 0 + 1 },
              calls := vars.rdr.calls ++ List.replicate
                (vars.consumedSymbols - 1).toNat ReaderCall.unread }) :=
  (NextToken_illegal_consumes_one demoScanner ['b', 'a'] 0 4 [] (by decide) (by decide)
    (by
      intro n r hn hn2 hrun
      have hn3 : n = 1 ∨ n = 2 := by simp at hn2; omega
      rcases hn3 with rfl | rfl
      · have e : demoScanner.machine.follow demoScanner.machine.Start
            (List.take 1 (List.drop 0 ['b', 'a'])) = none := by decide
        rw [e] at hrun
        cases hrun
      · have e : demoScanner.machine.follow demoScanner.machine.Start
            (List.take 2 (List.drop 0 ['b', 'a'])) = none := by decide
        rw [e] at hrun
        cases hrun)).1

/-- The read loop returns the scanner it was given, with the local variables of the loop on
that scanner. -/
theorem scanLoopInPlace_eq {S V R : Type} [DecidableEq S] [Inhabited V]
    (rd : SymbolReader S R) :
    ∀ (fuel : Nat) (s : Scanner S V) (vars : scanVars V R),
      Scanner.scanLoopInPlace rd fuel s vars
        = (s.scanLoop rd fuel vars).map (fun v => (s, v)) := by
  intro fuel
  induction fuel with
  | zero => intro s vars; rfl
  | succ fuel ih =>
    intro s vars
    unfold Scanner.scanLoopInPlace Scanner.scanLoop
    rcases rd.ReadSymbol vars.rdr with ⟨o, rdr⟩
    cases o with
    | none => rfl
    | some symbol =>
      simp only
      cases (s.machine.deref vars.currentState).OutgoingFor symbol with
      | none => rfl
      | some nextState =>
        simp only
        split
        · exact ih _ _
        · exact ih _ _

/-- One call returns the scanner it was made on, with the token and the reader of
`NextToken`. -/
theorem NextTokenInPlace_eq {S V R : Type} [DecidableEq S] [Inhabited V] (s : Scanner S V)
    (rd : SymbolReader S R) (fuel : Nat) (rdr : R) :
    s.NextTokenInPlace rd fuel rdr
      = (s.NextToken rd fuel rdr).map (fun x => (x.1, s, x.2)) := by
  unfold Scanner.NextTokenInPlace Scanner.NextToken
  rw [scanLoopInPlace_eq]
  cases s.scanLoop rd fuel
      { currentState := s.machine.Start, consumedSymbols := 0, acceptSymbolCount := -1,
        lastAcceptVal := default, rdr := rdr } with
  | none => rfl
  | some vars =>
    simp only [Option.map_some']
    split
    · rfl
    · split <;> rfl

theorem readNInPlace_eq {S V R : Type} [DecidableEq S] [Inhabited V] (s : Scanner S V)
    (rd : SymbolReader S R) (fuel : Nat) :
    ∀ (n : Nat) (rdr : R),
      readNInPlace rd fuel n s rdr = (readN s rd fuel n rdr).map (fun x => (x.1, s, x.2)) := by
  intro n
  induction n with
  | zero => intro rdr; rfl
  | succ n ih =>
    intro rdr
    unfold readNInPlace readN
    rw [NextTokenInPlace_eq]
    cases s.NextToken rd fuel rdr with
    | none => rfl
    | some x =>
      obtain ⟨token, rdr1⟩ := x
      simp only [Option.map_some']
      rw [ih rdr1]
      cases readN s rd fuel n rdr1 with
      | none => rfl
      | some y => rfl

/-- Scanners that agree on DFA and sentinels, on readers that present the same input, return
the same tokens. -/
theorem readN_sim {S V R1 R2 : Type} [DecidableEq S] [Inhabited V]
    (s1 s2 : Scanner S V) (hm : s1.machine = s2.machine) (hi : s1.illegal = s2.illegal)
    (he : s1.eof = s2.eof) (rd1 : SymbolReader S R1) (rd2 : SymbolReader S R2)
    (rel : R1 → R2 → Prop) (hsim : ReaderSim rd1 rd2 rel) (fuel : Nat) :
    ∀ (n : Nat) (r1 : R1) (r2 : R2), rel r1 r2 →
      SameTokens rel (readN s1 rd1 fuel n r1) (readN s2 rd2 fuel n r2) := by
  intro n
  induction n with
  | zero => intro r1 r2 hrel; exact ⟨rfl, hrel⟩
  | succ n ih =>
    intro r1 r2 hrel
    unfold readN
    rcases NextToken_sim s1 s2 hm hi he rd1 rd2 rel hsim fuel r1 r2 hrel
      with ⟨e1, e2⟩ | ⟨v, q1, q2, e1, e2, hq⟩
    · rw [e1, e2]; exact trivial
    · rw [e1, e2]
      simp only
      have h := ih q1 q2 hq
      cases h1 : readN s1 rd1 fuel n q1 with
      | none =>
        cases h2 : readN s2 rd2 fuel n q2 with
        | none => exact trivial
        | some x2 => rw [h1, h2] at h; exact h.elim
      | some x1 =>
        cases h2 : readN s2 rd2 fuel n q2 with
        | none => rw [h1, h2] at h; exact h.elim
        | some x2 =>
          rw [h1, h2] at h
          obtain ⟨t1, p1⟩ := x1
          obtain ⟨t2, p2⟩ := x2
          exact ⟨by rw [h.1], h.2⟩

/-- C29: scanning is read-only. `NextToken` is a method on `*Scanner`; with the scanner that
the receiver points to carried through the calls (`readNInPlace`), the scanner left by any
number of calls on any reader is the scanner they started with: same DFA (the heap of its
states with their transitions and acceptance, and the start state), same `illegal` and `eof`,
same position. The calls return what `readN` returns on the unchanged scanner, and the
scanner they leave, reused on a reader that presents the same input as the first did, returns
the same tokens and is unchanged again. The tokens depend on DFA, sentinels and presented
input only: a scanner that agrees on these (whatever its position field) returns the same
tokens. -/
theorem scanning_is_read_only {S V R1 R2 : Type} [DecidableEq S] [Inhabited V]
    (s1 s2 : Scanner S V) (hm : s1.machine = s2.machine) (hi : s1.illegal = s2.illegal)
    (he : s1.eof = s2.eof) (rd1 : SymbolReader S R1) (rd2 : SymbolReader S R2)
    (rel : R1 → R2 → Prop) (hsim : ReaderSim rd1 rd2 rel) (fuel n : Nat) (r1 : R1) (r2 : R2)
    (hrel : rel r1 r2) :
    (∀ (tokens : List V) (s : Scanner S V) (r : R1),
      readNInPlace rd1 fuel n s1 r1 = some (tokens, s, r) →
      s = s1
      ∧ s.machine.states = s1.machine.states
      ∧ s.machine.Start = s1.machine.Start
      ∧ s.illegal = s1.illegal
      ∧ s.eof = s1.eof
      ∧ s.currentPos = s1.currentPos
      ∧ readN s1 rd1 fuel n r1 = some (tokens, r)
      ∧ ∃ r3 : R2, readNInPlace rd2 fuel n s r2 = some (tokens, s, r3) ∧ rel r r3)
    ∧ (readNInPlace rd1 fuel n s1 r1).isSome = (readN s1 rd1 fuel n r1).isSome
    ∧ SameTokens rel (readN s1 rd1 fuel n r1) (readN s2 rd2 fuel n r2) := by
  refine ⟨?_, ?_, readN_sim s1 s2 hm hi he rd1 rd2 rel hsim fuel n r1 r2 hrel⟩
  · intro tokens s r hrun
    rw [readNInPlace_eq] at hrun
    cases hpure : readN s1 rd1 fuel n r1 with
    | none => rw [hpure] at hrun; simp at hrun
    | some x =>
      obtain ⟨t, q⟩ := x
      rw [hpure] at hrun
      simp only [Option.map_some', Option.some.injEq, Prod.mk.injEq] at hrun
      obtain ⟨ht, hs, hq⟩ := hrun
      subst ht hs hq
      refine ⟨rfl, rfl, rfl, rfl, rfl, rfl, rfl, ?_⟩
      have hsame := readN_sim s1 s1 rfl rfl rfl rd1 rd2 rel hsim fuel n r1 r2 hrel
      rw [hpure] at hsame
      cases h2 : readN s1 rd2 fuel n r2 with
      | none => rw [h2] at hsame; exact hsame.elim
      | some y =>
        obtain ⟨t2, q2⟩ := y
        rw [h2] at hsame
        obtain ⟨ht2, hq2⟩ := hsame
        refine ⟨q2, ?_, hq2⟩
        rw [readNInPlace_eq, h2, ht2]
        rfl
  · rw [readNInPlace_eq]
    cases readN s1 rd1 fuel n r1 <;> rfl

/-- Witness of C29: the demo scanner on "aba", on a list-backed reader and, at another
position, on a logging reader over the same input; three calls return the tokens 7, 7 and
`eof` and leave the scanner as it was, at position 1:1. -/
theorem scanning_is_read_only_witness :
    (∃ (s : Scanner Char Nat) (r : ListReader Char),
      readNInPlace (listReader Char) 5 3 demoScanner { input := ['a', 'b', 'a'], cursor := 0 }
        = some ([7, 7, 200], s, r)
      ∧ s = demoScanner ∧ s.machine.states = demoScanner.machine.states
      ∧ s.illegal = 100 ∧ s.eof = 200 ∧ s.currentPos = pos.New)
    ∧ SameTokens (fun (r1 : ListReader Char) (r2 : Traced (ListReader Char)) => r2.inner = r1)
      (readN demoScanner (listReader Char) 5 3 { input := ['a', 'b', 'a'], cursor := 0 })
      (readN { demoScanner with currentPos := { Line := 4, Column := 2 } }
        (traced (listReader Char)) 5 3
        { inner := { input := ['a', 'b', 'a'], cursor := 0 }, calls := [] }) :=
  have h := scanning_is_read_only demoScanner
    { demoScanner with currentPos := { Line := 4, Column := 2 } }
    rfl rfl rfl (listReader Char) (traced (listReader Char)) _ (traced_sim Char) 5 3
    { input := ['a', 'b', 'a'], cursor := 0 }
    { inner := { input := ['a', 'b', 'a'], cursor := 0 }, calls := [] } rfl
  have hrun : readNInPlace (listReader Char) 5 3 demoScanner
      { input := ['a', 'b', 'a'], cursor := 0 }
      = some ([7, 7, 200], demoScanner, { input := ['a', 'b', 'a'], cursor := 3 }) := rfl
  ⟨⟨demoScanner, _, hrun, (h.1 _ _ _ hrun).1, (h.1 _ _ _ hrun).2.1, (h.1 _ _ _ hrun).2.2.2.1,
    (h.1 _ _ _ hrun).2.2.2.2.1, (h.1 _ _ _ hrun).2.2.2.2.2.1⟩, h.2.2⟩

/-! ### Fragments that lead back into their entry -/

/-- A walk that ends outside a set closed under the edges of `R2` never enters the set: when
the edges of `R2` outside the set are edges of `R`, it is a walk of `R`. -/
theorem walk_avoid {S : Type} {R R2 : Nat → Option S → Nat → Prop} (C : Nat → Prop)
    (hC : ∀ p o r, C p → R2 p o r → C r)
    (h : ∀ p o r, ¬ C p → ¬ C r → R2 p o r → R p o r)
    {p q : Nat} {w : List S} (hw : Walk R2 p w q) (hq : ¬ C q) : Walk R p w q := by
  have hout : ∀ {a b : Nat} {u : List S}, Walk R2 a u b → ¬ C b → ¬ C a := fun hab hb ha =>
    hb (walk_restrict (R := R2) C (fun a o b ha hst => ⟨hst, hC a o b ha hst⟩) ha hab).2
  induction hw with
  | nil p => exact Walk.nil p
  | @eps p r q w hs hrest ih =>
    exact Walk.eps (h _ _ _ (hout (Walk.eps hs hrest) hq) (hout hrest hq) hs) (ih hq)
  | @sym p r q a w hs hrest ih =>
    exact Walk.sym (h _ _ _ (hout (Walk.sym hs hrest) hq) (hout hrest hq) hs) (ih hq)

/-- With one added epsilon edge `e → X` to a state `X` without edges: a walk to `X` is a walk
of `R` to `X`, or a walk of `R` to `e` followed by that edge. -/
theorem walk_bypass_back {S : Type} {R R2 : Nat → Option S → Nat → Prop} (e X : Nat)
    (hne : X ≠ e) (hsink : ∀ o r, ¬ R X o r)
    (h : ∀ p o r, R2 p o r → R p o r ∨ (p = e ∧ o = none ∧ r = X))
    {p q : Nat} {w : List S} (hw : Walk R2 p w q) (hq : q = X) :
    Walk R p w X ∨ Walk R p w e := by
  have hsink2 : ∀ o r, ¬ R2 X o r := by
    intro o r hr
    rcases h _ _ _ hr with h1 | ⟨h1, -, -⟩
    · exact hsink _ _ h1
    · exact hne h1
  induction hw with
  | nil p => rw [hq]; exact Or.inl (Walk.nil _)
  | @eps p r q w hs hrest ih =>
    rcases h _ _ _ hs with h1 | ⟨h1, -, h3⟩
    · rcases ih hq with h2 | h2
      · exact Or.inl (Walk.eps h1 h2)
      · exact Or.inr (Walk.eps h1 h2)
    · rw [h3] at hrest
      obtain ⟨hw2, -⟩ := walk_of_sink hsink2 hrest
      rw [hw2, h1]
      exact Or.inr (Walk.nil _)
  | @sym p r q a w hs hrest ih =>
    rcases h _ _ _ hs with h1 | ⟨-, h2, -⟩
    · rcases ih hq with h2 | h2
      · exact Or.inl (Walk.sym h1 h2)
      · exact Or.inr (Walk.sym h1 h2)
    · exact absurd h2 (by simp)

/-- A walk inside a closed set `B`, none of whose edges leads into `x`, reaches `x` only by
starting there. -/
theorem walk_no_entry {S : Type} {R : Nat → Option S → Nat → Prop} (B : Nat → Prop) (x : Nat)
    (hB : ∀ p o r, B p → R p o r → B r) (hno : ∀ p o, B p → ¬ R p o x)
    {p q : Nat} {w : List S} (hp : B p) (hw : Walk R p w q) (hq : q = x) :
    w = [] ∧ p = x := by
  induction hw with
  | nil p => exact ⟨rfl, hq⟩
  | @eps p r q w hs hrest ih =>
    obtain ⟨-, h2⟩ := ih (hB _ _ _ hp hs) hq
    rw [h2] at hs
    exact absurd hs (hno _ _ hp)
  | @sym p r q a w hs hrest ih =>
    obtain ⟨-, h2⟩ := ih (hB _ _ _ hp hs) hq
    rw [h2] at hs
    exact absurd hs (hno _ _ hp)

/-- With one added epsilon edge `x2 → x1`, where `R` leads from `x1` back into `x1` by the
empty walk only: a walk from `x1` back into `x1` is made of rounds of `R` from `x1` to `x2`,
the words of which `G` collects. -/
theorem walk_loop_back {S : Type} {R R2 : Nat → Option S → Nat → Prop} (x1 x2 : Nat)
    (G : List S → Prop)
    (h : ∀ p o r, R2 p o r → R p o r ∨ (p = x2 ∧ o = none ∧ r = x1))
    (hG : ∀ u, Walk R x1 u x2 → G u) (hback : ∀ u, Walk R x1 u x1 → u = [])
    {p q : Nat} {w : List S} (hw : Walk R2 p w q) (hq : q = x1) :
    ∃ u v, w = u ++ v
      ∧ ((Walk R p u x1 ∧ v = []) ∨ (Walk R p u x2 ∧ ∃ j, Concat (List.replicate j G) v)) := by
  induction hw with
  | nil p => rw [hq]; exact ⟨[], [], rfl, Or.inl ⟨Walk.nil _, rfl⟩⟩
  | @eps p r q w hs hrest ih =>
    obtain ⟨u, v, huv, hv⟩ := ih hq
    rcases h _ _ _ hs with h1 | ⟨h1, -, h3⟩
    · rcases hv with ⟨hu, hv⟩ | ⟨hu, hv⟩
      · exact ⟨u, v, huv, Or.inl ⟨Walk.eps h1 hu, hv⟩⟩
      · exact ⟨u, v, huv, Or.inr ⟨Walk.eps h1 hu, hv⟩⟩
    · rw [h1]
      refine ⟨[], w, rfl, Or.inr ⟨Walk.nil _, ?_⟩⟩
      rw [h3] at ih
      rcases hv with ⟨hu, hv⟩ | ⟨hu, j, hv⟩
      · rw [h3] at hu
        rw [huv, hv, hback u hu]
        exact ⟨0, (concat_nil _).2 rfl⟩
      · rw [h3] at hu
        refine ⟨j + 1, ?_⟩
        rw [List.replicate_succ, concat_cons]
        exact ⟨u, v, huv, hG u hu, hv⟩
  | @sym p r q a w hs hrest ih =>
    obtain ⟨u, v, huv, hv⟩ := ih hq
    rcases h _ _ _ hs with h1 | ⟨-, h2, -⟩
    · rcases hv with ⟨hu, hv⟩ | ⟨hu, hv⟩
      · exact ⟨a :: u, v, by simp [huv], Or.inl ⟨Walk.sym h1 hu, hv⟩⟩
      · exact ⟨a :: u, v, by simp [huv], Or.inr ⟨Walk.sym h1 hu, hv⟩⟩
    · exact absurd h2 (by simp)

/-- A walk from the entry of a built fragment, or from a state that the build added, stays
among these states. -/
theorem built_walk_closed {S V : Type} [DecidableEq S] [Inhabited V] (n n2 : nfa.Nfa S V)
    (e x : Nat) (L : List S → Prop) (h : Built n e n2 x L) {p q : Nat} {w : List S}
    (hp : p = e ∨ n.states.length ≤ p) (hw : Walk (Step n2) p w q) :
    q = e ∨ n.states.length ≤ q :=
  (walk_restrict (R := Step n2) (fun p => p = e ∨ n.states.length ≤ p)
    (fun a o b ha hst => ⟨hst, h.closed a o b ha hst⟩) hp hw).2

/-- What is built at the exit of a fragment adds no transition into the entry of the
fragment, and returns an exit other than that entry. -/
theorem noback_comp {S V : Type} [DecidableEq S] [Inhabited V] (n n1 n2 : nfa.Nfa S V)
    (e x1 x2 : Nat) (L1 L2 : List S → Prop) (he : e < n.states.length) (hs : Sink n e)
    (h1 : Built n e n1 x1 L1) (h2 : Built n1 x1 n2 x2 L2) (hx : x1 ≠ e)
    (hnb : ∀ p o, (p = e ∨ n.states.length ≤ p) → ¬ Step n1 p o e) :
    x2 ≠ e ∧ ∀ p o, (p = e ∨ n.states.length ≤ p) → ¬ Step n2 p o e := by
  obtain ⟨k1, k2, k3⟩ := built_exit _ _ _ _ _ he hs h1
  obtain ⟨-, -, c3⟩ := built_exit _ _ _ _ _ k2 k1 h2
  have hlen1 := h1.grows.len
  have k4 : n.states.length ≤ x1 := by
    rcases k3 with h | h
    · exact absurd h hx
    · exact h
  refine ⟨by rcases c3 with h | h <;> omega, ?_⟩
  intro p o hp hst
  by_cases hp1 : p < n1.states.length ∧ p ≠ x1
  · exact hnb p o hp ((step_congr n1 n2 p (h2.frame p hp1.1 hp1.2) o e).1 hst)
  · have hp2 : p = x1 ∨ n1.states.length ≤ p := by
      by_cases h : p = x1
      · exact Or.inl h
      · right; by_contra h4; exact hp1 ⟨by omega, h⟩
    rcases h2.closed p o e hp2 hst with h | h <;> omega

/-- A fragment that adds no transition into its entry leads from its entry back into its
entry by the empty word only. -/
theorem strict_returns {S V : Type} [DecidableEq S] [Inhabited V] (f : Fragment S V)
    (L : List S → Prop) (hf : Realizes f L) (hstrict : Strict f) :
    Returns f (fun u => u = []) := by
  intro n e hwf he hs
  obtain ⟨a1, a2⟩ := hstrict n e hwf he hs
  have h1 := hf n e hwf he hs
  refine ⟨a1, fun u => ⟨fun hu => ?_, fun hu => by rw [hu]; exact Walk.nil e⟩⟩
  exact (walk_no_entry (fun p => p = e ∨ n.states.length ≤ p) e
    (fun p o r hp hst => h1.closed p o r hp hst) a2 (Or.inl rfl) hu rfl).1

/-- A `Sequence` that starts with a fragment adding no transition into its entry adds none
either. -/
theorem sequence_strict {S V : Type} [DecidableEq S] [Inhabited V] (f : Fragment S V)
    (L : List S → Prop) (rest : List (Fragment S V)) (Ls : List (List S → Prop))
    (hf : Realizes f L) (hstrict : Strict f) (hrest : List.Forall₂ Realizes rest Ls) :
    Strict (Sequence (f :: rest)) := by
  intro n e hwf he hs
  obtain ⟨a1, a2⟩ := hstrict n e hwf he hs
  have h1 := hf n e hwf he hs
  obtain ⟨k1, k2, -⟩ := built_exit _ _ _ _ _ he hs h1
  have h2 := built_sequence rest Ls hrest _ _ h1.grows.wf k2 k1
  have hb : (Sequence (f :: rest)).Build n e
      = sequenceBuild rest (f.Build n e).1 (f.Build n e).2 := rfl
  rw [hb]
  exact noback_comp _ _ _ _ _ _ _ _ he hs h1 h2 a1 a2

/-- An `AnyOf` builds its branches at fresh states: it adds no transition into its entry,
whatever the branches. -/
theorem anyOf_strict {S V : Type} [DecidableEq S] [Inhabited V]
    (fragments : List (Fragment S V)) (Ls : List (List S → Prop)) (F : Fragment S V)
    (h : List.Forall₂ Realizes fragments Ls) (hF : AnyOf fragments = some F) : Strict F := by
  unfold AnyOf at hF
  split at hF
  · exact absurd hF (by simp)
  · simp only [Option.some.injEq] at hF
    subst hF
    intro n e hwf he hs
    have hinv := anyInv_foldl n e he fragments Ls h _ _ (anyInv_init n e hwf he hs)
    have hm : (anyOfBuild fragments n e).1
        = fragments.foldl (anyOfBranch e n.states.length) n.newState.1 := rfl
    have hx : (anyOfBuild fragments n e).2 = n.states.length := rfl
    simp only
    rw [hm, hx]
    refine ⟨by omega, fun p o hp hst => ?_⟩
    rcases hp with hp | hp
    · rw [hp] at hst
      have := (hinv.entry o e hst).2
      omega
    · have := hinv.closed p o e hp hst
      omega

theorem repeatAtLeastBuild_succ {S V : Type} [Inhabited V] (f : Fragment S V) (k : Nat)
    (n : nfa.Nfa S V) (e : Nat) :
    repeatAtLeastBuild (k + 1) f n e
      = (connectEpsilon (f.Build (sequenceBuild (List.replicate k f) n e).1
            (sequenceBuild (List.replicate k f) n e).2).1
          (f.Build (sequenceBuild (List.replicate k f) n e).1
            (sequenceBuild (List.replicate k f) n e).2).2
          (sequenceBuild (List.replicate k f) n e).2).AddEpsilonTransition
          (f.Build (sequenceBuild (List.replicate k f) n e).1
            (sequenceBuild (List.replicate k f) n e).2).2 := by
  unfold repeatAtLeastBuild
  rw [repeatLoop_succ]

/-- The `RepeatAtLeast(n, f)` with `n ≥ 2` of a fragment that adds no transition into its
entry adds none either: its loop leads back into the entry of the last instance, which is not
the first. -/
theorem repeatAtLeast_strict {S V : Type} [DecidableEq S] [Inhabited V] (n : Int)
    (f F : Fragment S V) (L : List S → Prop) (hn : 2 ≤ n) (hf : Realizes f L)
    (hstrict : Strict f) (hF : RepeatAtLeast n f = some F) : Strict F := by
  unfold RepeatAtLeast at hF
  split at hF
  · exact absurd hF (by simp)
  · simp only [Option.some.injEq] at hF
    subst hF
    obtain ⟨k, hk⟩ : ∃ k : Nat, n.toNat = k + 1 + 1 := ⟨n.toNat - 2, by omega⟩
    intro m e hwf he hs
    simp only [hk]
    obtain ⟨a1, a2⟩ := hstrict m e hwf he hs
    have h1 := hf m e hwf he hs
    obtain ⟨k1, k2, -⟩ := built_exit _ _ _ _ _ he hs h1
    have h2 := built_sequence _ _ (forall2_replicate f L hf k) _ _ h1.grows.wf k2 k1
    obtain ⟨c1, c2, -⟩ := built_exit _ _ _ _ _ k2 k1 h2
    have h3 := hf _ _ h2.grows.wf c2 c1
    have h4 := built_plus _ _ _ _ _ c2 c1 h3
    have h5 := built_comp _ _ _ _ _ _ _ _ k2 k1 h2 h4
    rw [repeatAtLeastBuild_succ, List.replicate_succ, sequenceBuild_cons]
    exact noback_comp _ _ _ _ _ _ _ _ he hs h1 h5 a1 a2

/-- The `RepeatBetween(min, max, f)` with `max ≥ 1` of a fragment that adds no transition into
its entry adds none either. -/
theorem repeatBetween_strict {S V : Type} [DecidableEq S] [Inhabited V] (min max : Int)
    (f F : Fragment S V) (L : List S → Prop) (hmax : 1 ≤ max) (hf : Realizes f L)
    (hstrict : Strict f) (hF : RepeatBetween min max f = some F) : Strict F := by
  unfold RepeatBetween at hF
  split at hF
  · exact absurd hF (by simp)
  · rename_i hpre
    simp only [Option.some.injEq] at hF
    subst hF
    intro n e hwf he hs
    simp only
    unfold repeatBetweenBuild
    cases hmin : min.toNat with
    | zero =>
      obtain ⟨-, b1, b2⟩ := built_optional f L hf hstrict (max.toNat - 0) n e hwf he hs
      exact ⟨b2 (by omega), b1⟩
    | succ j =>
      obtain ⟨a1, a2⟩ := hstrict n e hwf he hs
      have h1 := hf n e hwf he hs
      obtain ⟨k1, k2, -⟩ := built_exit _ _ _ _ _ he hs h1
      have h2 := built_sequence _ _ (forall2_replicate f L hf j) _ _ h1.grows.wf k2 k1
      obtain ⟨c1, c2, -⟩ := built_exit _ _ _ _ _ k2 k1 h2
      obtain ⟨h3, -, -⟩ := built_optional f L hf hstrict (max.toNat - (j + 1)) _ _
        h2.grows.wf c2 c1
      have h4 := built_comp _ _ _ _ _ _ _ _ k2 k1 h2 h3
      rw [List.replicate_succ, sequenceBuild_cons]
      exact noback_comp _ _ _ _ _ _ _ _ he hs h1 h4 a1 a2

/-- The walks of a built fragment from its entry back into its entry are not changed by what
is built at its exit, when the exit is not the entry. -/
theorem back_comp {S V : Type} [DecidableEq S] [Inhabited V] (n n1 n2 : nfa.Nfa S V)
    (e x1 x2 : Nat) (L1 L2 : List S → Prop) (he : e < n.states.length) (hs : Sink n e)
    (h1 : Built n e n1 x1 L1) (h2 : Built n1 x1 n2 x2 L2) (hx : x1 ≠ e) (u : List S) :
    Path n2 e u e ↔ Path n1 e u e := by
  obtain ⟨k1, k2, -⟩ := built_exit _ _ _ _ _ he hs h1
  have hlen1 := h1.grows.len
  constructor
  · intro hu
    refine walk_avoid (fun p => p = x1 ∨ n1.states.length ≤ p)
      (fun p o r hp hst => h2.closed p o r hp hst) ?_ hu (by omega)
    intro p o r hp _ hst
    exact (step_congr n1 n2 p (h2.frame p (by omega) (by omega)) o r).1 hst
  · intro hu
    exact walk_mono (fun p o r hst => built_mono _ _ _ _ _ k1 h2 p o r hst) hu

/-- The optional instances of `RepeatBetween`, for every fragment with an exit other than its
entry: up to `k` words of `L` in a row, or fewer than `k` of them followed by a word that
leads the next instance back into its entry, from where the bypass leaves. -/
theorem built_optional_returns {S V : Type} [DecidableEq S] [Inhabited V] (f : Fragment S V)
    (L R : List S → Prop) (hf : Realizes f L) (hr : Returns f R) (k : Nat) :
    ∀ (n : nfa.Nfa S V) (e : Nat), n.WF → e < n.states.length → Sink n e →
      Built n e (optionalBuild f k n e).1 (optionalBuild f k n e).2
        (fun w => (∃ i, i < k ∧ ∃ u v, w = u ++ v ∧ Concat (List.replicate i L) u ∧ R v)
          ∨ Concat (List.replicate k L) w) := by
  induction k with
  | zero =>
    intro n e hwf he hs
    refine built_congr _ _ _ _ _ _ (built_refl n e hwf hs) ?_
    intro w
    constructor
    · intro h; exact Or.inr ((concat_nil w).2 h)
    · rintro (⟨i, hi, -⟩ | h)
      · exact absurd hi (by omega)
      · exact (concat_nil w).1 h
  | succ k ih =>
    intro n e hwf he hs
    have h1 := hf n e hwf he hs
    obtain ⟨a1, a2⟩ := hr n e hwf he hs
    obtain ⟨k1, k2, k3⟩ := built_exit _ _ _ _ _ he hs h1
    have k4 : n.states.length ≤ (f.Build n e).2 := by
      rcases k3 with h | h
      · exact absurd h a1
      · exact h
    have h2 := ih (f.Build n e).1 (f.Build n e).2 h1.grows.wf k2 k1
    have h3 := built_comp _ _ _ _ _ _ _ _ he hs h1 h2
    have hback := back_comp _ _ _ _ _ _ _ _ he hs h1 h2 a1
    obtain ⟨c1, c2, c3⟩ := built_exit _ _ _ _ _ k2 k1 h2
    rw [optionalBuild_succ]
    generalize hn1 : (f.Build n e).1 = n1 at *
    generalize hx1 : (f.Build n e).2 = x1 at *
    generalize hn2 : (optionalBuild f k n1 x1).1 = n2 at *
    generalize hX : (optionalBuild f k n1 x1).2 = X at *
    have hlen1 := h1.grows.len
    have hlen2 := h2.grows.len
    have hXe : X ≠ e := by rcases c3 with h | h <;> omega
    have hXN : n.states.length ≤ X := by rcases c3 with h | h <;> omega
    have hstep := step_connectEpsilon (S := S) n2 e X (by omega)
    refine { grows := grows_trans _ _ _ h3.grows
               (grows_connectEpsilon n2 h3.grows.wf e X c2),
             frame := ?_, exit := ?_, closed := ?_, lang := ?_ }
    · intro q hq hqe
      rw [deref_connectEpsilon_ne n2 e X q hqe]
      exact h3.frame q hq hqe
    · exact Or.inr ⟨hXN, by rw [length_connectEpsilon]; exact c2,
        sink_connectEpsilon n2 e X X hXe c1⟩
    · intro p o r hp hst
      rcases (hstep p o r).1 hst with h | ⟨-, -, h⟩
      · exact h3.closed p o r hp h
      · right; omega
    · intro w
      constructor
      · intro hw
        rcases walk_bypass_back e X hXe (fun o r => not_step_of_sink n2 X c1 o r)
          (fun p o r hst => (hstep p o r).1 hst) hw rfl with h | h
        · obtain ⟨u, v, huv, hu, hv⟩ := (h3.lang w).1 h
          rcases hv with ⟨i, hi, u2, v2, huv2, hu2, hv2⟩ | hv
          · left
            refine ⟨i + 1, by omega, u ++ u2, v2, by rw [huv, huv2, List.append_assoc], ?_,
              hv2⟩
            rw [List.replicate_succ, concat_cons]
            exact ⟨u, u2, rfl, hu, hu2⟩
          · right
            rw [List.replicate_succ, concat_cons]
            exact ⟨u, v, huv, hu, hv⟩
        · left
          exact ⟨0, by omega, [], w, rfl, (concat_nil _).2 rfl, (a2 w).1 ((hback w).1 h)⟩
      · rintro (⟨i, hi, u, v, huv, hu, hv⟩ | hc)
        · cases i with
          | zero =>
            rw [show List.replicate 0 L = [] from rfl, concat_nil] at hu
            rw [huv, hu, List.nil_append]
            refine walk_snoc_eps (walk_mono (fun p o r hst => (hstep p o r).2 (Or.inl hst))
              ((hback v).2 ((a2 v).2 hv))) ?_
            exact (hstep e none X).2 (Or.inr ⟨rfl, rfl, rfl⟩)
          | succ i =>
            rw [List.replicate_succ, concat_cons] at hu
            obtain ⟨u1, u2, hu12, hu1, hu2⟩ := hu
            refine walk_mono (fun p o r hst => (hstep p o r).2 (Or.inl hst))
              ((h3.lang w).2 ⟨u1, u2 ++ v, by rw [huv, hu12, List.append_assoc], hu1,
                Or.inl ⟨i, by omega, u2, v, rfl, hu2, hv⟩⟩)
        · rw [List.replicate_succ, concat_cons] at hc
          obtain ⟨u, v, huv, hu, hv⟩ := hc
          exact walk_mono (fun p o r hst => (hstep p o r).2 (Or.inl hst))
            ((h3.lang w).2 ⟨u, v, huv, hu, Or.inr hv⟩)

/-- The language of `RepeatBetween(min, max, f)`, for every fragment with an exit other than
its entry: `max` words of `L` in a row, or from `min` to fewer than `max` of them followed by
a word of `R`, which leads the next instance back into its entry. -/
theorem built_repeatBetween_returns {S V : Type} [DecidableEq S] [Inhabited V]
    (f : Fragment S V) (L R : List S → Prop) (hf : Realizes f L) (min max : Nat)
    (hmm : min ≤ max) (hr : min < max → Returns f R) (n : nfa.Nfa S V) (e : Nat)
    (hwf : n.WF) (he : e < n.states.length) (hs : Sink n e) :
    Built n e (repeatBetweenBuild min max f n e).1 (repeatBetweenBuild min max f n e).2
      (fun w => (∃ i, min ≤ i ∧ i < max
          ∧ ∃ u v, w = u ++ v ∧ Concat (List.replicate i L) u ∧ R v)
        ∨ Concat (List.replicate max L) w) := by
  have h1 := built_sequence _ _ (forall2_replicate f L hf min) n e hwf he hs
  obtain ⟨k1, k2, -⟩ := built_exit _ _ _ _ _ he hs h1
  unfold repeatBetweenBuild
  by_cases hlt : min < max
  · have h2 := built_optional_returns f L R hf (hr hlt) (max - min) _ _ h1.grows.wf k2 k1
    refine built_congr _ _ _ _ _ _ (built_comp _ _ _ _ _ _ _ _ he hs h1 h2) ?_
    intro w
    constructor
    · rintro ⟨u, v, huv, hu, ⟨i, hi, u2, v2, huv2, hu2, hv2⟩ | hv⟩
      · left
        refine ⟨min + i, by omega, by omega, u ++ u2, v2,
          by rw [huv, huv2, List.append_assoc], ?_, hv2⟩
        rw [concat_replicate_add]
        exact ⟨u, u2, rfl, hu, hu2⟩
      · right
        have hm : max = min + (max - min) := by omega
        rw [hm, concat_replicate_add]
        exact ⟨u, v, huv, hu, hv⟩
    · rintro (⟨i, hi1, hi2, u, v, huv, hu, hv⟩ | hc)
      · obtain ⟨j, rfl⟩ : ∃ j, i = min + j := ⟨i - min, by omega⟩
        rw [concat_replicate_add] at hu
        obtain ⟨u1, u2, hu12, hu1, hu2⟩ := hu
        exact ⟨u1, u2 ++ v, by rw [huv, hu12, List.append_assoc], hu1,
          Or.inl ⟨j, by omega, u2, v, rfl, hu2, hv⟩⟩
      · have hm : max = min + (max - min) := by omega
        rw [hm, concat_replicate_add] at hc
        obtain ⟨u, v, huv, hu, hv⟩ := hc
        exact ⟨u, v, huv, hu, Or.inr hv⟩
  · have hz : max - min = 0 := by omega
    have hmax : max = min := by omega
    rw [hz]
    refine built_congr _ _ _ _ _ _ h1 ?_
    intro w
    constructor
    · intro h; right; rw [hmax]; exact h
    · rintro (⟨i, hi1, hi2, -⟩ | hc)
      · exact absurd hi2 (by omega)
      · rw [hmax] at hc; exact hc

/-- The loop of `RepeatAtLeast(1, g)` leads back into the entry of the fragment: for a `g` that
adds no transition into its entry, the words that lead the repetition from its entry back
into its entry are the concatenations of any number of words of `g`. -/
theorem repeatAtLeast_one_returns {S V : Type} [DecidableEq S] [Inhabited V]
    (g F : Fragment S V) (G : List S → Prop) (hg : Realizes g G) (hstrict : Strict g)
    (hF : RepeatAtLeast 1 g = some F) :
    Returns F (fun w => ∃ j, Concat (List.replicate j G) w) := by
  unfold RepeatAtLeast at hF
  split at hF
  · exact absurd hF (by simp)
  · simp only [Option.some.injEq] at hF
    subst hF
    intro n e hwf he hs
    have h := hg n e hwf he hs
    obtain ⟨-, hret⟩ := strict_returns g G hg hstrict n e hwf he hs
    obtain ⟨hx2s, hx2lt, -⟩ := built_exit _ _ _ _ _ he hs h
    have hb : repeatAtLeastBuild (1 : Int).toNat g n e
        = (connectEpsilon (g.Build n e).1 (g.Build n e).2 e).AddEpsilonTransition
            (g.Build n e).2 := rfl
    simp only
    rw [hb]
    generalize hn2 : (g.Build n e).1 = n2 at *
    generalize hx2 : (g.Build n e).2 = x2 at *
    have hlen := h.grows.len
    have hg3 := grows_connectEpsilon n2 h.grows.wf x2 e (by omega)
    have hlen3 := length_connectEpsilon n2 x2 e
    have hstep3 := step_connectEpsilon (S := S) n2 x2 e hx2lt
    generalize hm3 : connectEpsilon n2 x2 e = m3 at *
    have hstep4 := step_addEpsilon (S := S) m3 x2 (by omega)
    have hs4 := sink_addEpsilon_new m3 x2 (by omega)
    rw [addEpsilon_snd]
    generalize hm4 : (m3.AddEpsilonTransition x2).1 = m4 at *
    refine ⟨by omega, fun u => ⟨fun hu => ?_, ?_⟩⟩
    · have hu3 : Walk (Step m3) e u e := by
        refine walk_avoid (fun p => p = m3.states.length)
          (fun p o r hp hst => by
            rw [hp] at hst
            exact absurd hst (not_step_of_sink _ _ hs4 o r)) ?_ hu (by omega)
        intro p o r _ hr hst
        rcases (hstep4 p o r).1 hst with h1 | ⟨-, -, h3⟩
        · exact h1
        · exact absurd h3 hr
      obtain ⟨u1, v, huv, hv⟩ := walk_loop_back e x2 G
        (fun p o r hst => (hstep3 p o r).1 hst) (fun w hw => (h.lang w).1 hw)
        (fun w hw => (hret w).1 hw) hu3 rfl
      rcases hv with ⟨hu1, hv⟩ | ⟨hu1, j, hv⟩
      · rw [huv, hv, (hret u1).1 hu1]
        exact ⟨0, (concat_nil _).2 rfl⟩
      · refine ⟨j + 1, ?_⟩
        rw [List.replicate_succ, concat_cons]
        exact ⟨u1, v, huv, (h.lang u1).1 hu1, hv⟩
    · rintro ⟨j, hj⟩
      refine walk_mono (fun p o r hst => (hstep4 p o r).2 (Or.inl hst)) ?_
      induction j generalizing u with
      | zero =>
        rw [show List.replicate 0 G = [] from rfl, concat_nil] at hj
        rw [hj]
        exact Walk.nil e
      | succ j ih =>
        rw [List.replicate_succ, concat_cons] at hj
        obtain ⟨u1, u2, hu12, hu1, hu2⟩ := hj
        rw [hu12]
        refine walk_append (walk_snoc_eps (walk_mono
          (fun p o r hst => (hstep3 p o r).2 (Or.inl hst)) ((h.lang u1).2 hu1)) ?_) (ih u2 hu2)
        exact (hstep3 x2 none e).2 (Or.inr ⟨rfl, rfl, rfl⟩)

/-- The language of `RepeatBetween(min, max, f)`, for every fragment with an exit other than
its entry: `max` words of `L` in a row, or from `min` to fewer than `max` of them followed by
a word of `R`, which leads the next instance back into its entry. -/
theorem repeatBetween_returns_realizes {S V : Type} [DecidableEq S] [Inhabited V]
    (min max : Int) (f F : Fragment S V) (L R : List S → Prop) (hf : Realizes f L)
    (hr : min < max → Returns f R) (hF : RepeatBetween min max f = some F) :
    Realizes F (fun w => (∃ i : Nat, min ≤ (i : Int) ∧ (i : Int) < max
        ∧ ∃ u v, w = u ++ v ∧ Concat (List.replicate i L) u ∧ R v)
      ∨ Concat (List.replicate max.toNat L) w) := by
  unfold RepeatBetween at hF
  split at hF
  · exact absurd hF (by simp)
  · rename_i hpre
    simp only [Option.some.injEq] at hF
    subst hF
    intro n e hwf he hs
    refine built_congr _ _ _ _ _ _
      (built_repeatBetween_returns f L R hf min.toNat max.toNat (by omega)
        (fun h => hr (by omega)) n e hwf he hs) ?_
    intro w
    constructor
    · rintro (⟨i, h1, h2, hc⟩ | hc)
      · exact Or.inl ⟨i, by omega, by omega, hc⟩
      · exact Or.inr hc
    · rintro (⟨i, h1, h2, hc⟩ | hc)
      · exact Or.inl ⟨i, by omega, by omega, hc⟩
      · exact Or.inr hc

/-- The `RepeatBetween(min, max, f)` matches from `min` to `max` words of `f` in a row when
the words that lead `f` back into its entry add nothing: after `i < max` words of `f`, such a
word completes a concatenation of `min` to `max` words of `f`. -/
theorem repeatBetween_realizes_of_returns {S V : Type} [DecidableEq S] [Inhabited V]
    (min max : Int) (f F : Fragment S V) (L R : List S → Prop) (hmin : 0 ≤ min)
    (hmax : min ≤ max) (hf : Realizes f L)
    (hback : min < max → Returns f R ∧ ∀ (i : Nat) (u v : List S), min ≤ (i : Int) →
      (i : Int) < max → Concat (List.replicate i L) u → R v →
      ∃ m : Nat, min ≤ (m : Int) ∧ (m : Int) ≤ max ∧ Concat (List.replicate m L) (u ++ v))
    (hF : RepeatBetween min max f = some F) :
    Realizes F (fun w => ∃ m : Nat, min ≤ (m : Int) ∧ (m : Int) ≤ max
      ∧ Concat (List.replicate m L) w) := by
  have hR := repeatBetween_returns_realizes min max f F L R hf (fun h => (hback h).1) hF
  intro n e hwf he hs
  refine built_congr _ _ _ _ _ _ (hR n e hwf he hs) ?_
  intro w
  constructor
  · rintro (⟨i, h1, h2, u, v, huv, hu, hv⟩ | hc)
    · rw [huv]
      exact (hback (by omega)).2 i u v h1 h2 hu hv
    · exact ⟨max.toNat, by omega, by omega, hc⟩
  · rintro ⟨m, h1, h2, hc⟩
    by_cases hm : (m : Int) < max
    · have hlt : min < max := by omega
      obtain ⟨-, hret⟩ := (hback hlt).1 nfa.New 0 nfa.WF_New (by simp [nfa.New]) sink_new
      exact Or.inl ⟨m, h1, hm, w, [], by simp, hc, (hret []).1 (Walk.nil _)⟩
    · have : m = max.toNat := by omega
      rw [← this]
      exact Or.inr hc

/-- The condition on the words that lead `f` back into its entry is necessary: when
`RepeatBetween(min, max, f)` matches from `min` to `max` words of `f` in a row, each of these
words, after `i < max` words of `f`, completes such a concatenation. -/
theorem repeatBetween_returns_of_realizes {S V : Type} [DecidableEq S] [Inhabited V]
    (min max : Int) (f F : Fragment S V) (L R : List S → Prop) (hf : Realizes f L)
    (hr : Returns f R) (hF : RepeatBetween min max f = some F)
    (hR : Realizes F (fun w => ∃ m : Nat, min ≤ (m : Int) ∧ (m : Int) ≤ max
      ∧ Concat (List.replicate m L) w))
    (i : Nat) (u v : List S) (h1 : min ≤ (i : Int)) (h2 : (i : Int) < max)
    (hu : Concat (List.replicate i L) u) (hv : R v) :
    ∃ m : Nat, min ≤ (m : Int) ∧ (m : Int) ≤ max ∧ Concat (List.replicate m L) (u ++ v) := by
  have hE := repeatBetween_returns_realizes min max f F L R hf (fun _ => hr) hF
    nfa.New 0 nfa.WF_New (by simp [nfa.New]) sink_new
  have hC := hR nfa.New 0 nfa.WF_New (by simp [nfa.New]) sink_new
  exact (hC.lang (u ++ v)).1 ((hE.lang (u ++ v)).2 (Or.inl ⟨i, h1, h2, u, v, rfl, hu, hv⟩))

/-- C18, for `n ≥ 1`, where section 4.2 defines the construction (the loop leads back into
"the entry of the final repeated instance", and `n = 0` builds no instance): for every
fragment `f` matching the language `L`, `RepeatAtLeast(n, f)` matches exactly the words that
are a concatenation of `m` words of `L` for some `m ≥ n`, with no upper bound; the DFA of the
scanner whose only pattern is the repetition accepts exactly these words, and on a list-backed
reader `NextToken` returns the value of the pattern for the longest such prefix of the
remaining input, as a single token. -/
theorem RepeatAtLeast_matches_n_or_more {S V : Type} [DecidableEq S] [Inhabited V] (n : Int)
    (f F : Fragment S V) (L : List S → Prop) (hn : 1 ≤ n) (hf : Realizes f L)
    (hF : RepeatAtLeast n f = some F) :
    Realizes F (fun w => ∃ m : Nat, n ≤ (m : Int) ∧ Concat (List.replicate m L) w)
    ∧ (∀ (value illegal eof : V) (w : List S),
        (singlePattern F value illegal eof).accepts w = true
          ↔ ∃ m : Nat, n ≤ (m : Int) ∧ Concat (List.replicate m L) w)
    ∧ (∀ (value illegal eof : V) (input : List S) (cursor fuel k : Nat),
        input.length - cursor < fuel → 1 ≤ k → k ≤ (input.drop cursor).length →
        (∃ m : Nat, n ≤ (m : Int)
          ∧ Concat (List.replicate m L) ((input.drop cursor).take k)) →
        (∀ j, k < j → j ≤ (input.drop cursor).length →
          ¬ ∃ m : Nat, n ≤ (m : Int)
            ∧ Concat (List.replicate m L) ((input.drop cursor).take j)) →
        (singlePattern F value illegal eof).NextToken (listReader S) fuel
            { input := input, cursor := cursor }
          = some (value, { input := input, cursor := cursor + k })) := by
  have hR := repeatAtLeast_realizes n f F L hn hf hF
  refine ⟨hR, fun value illegal eof w => (single_accepts _ _ value illegal eof hR w).1, ?_⟩
  intro value illegal eof input cursor fuel k hfuel hk1 hk2 hin hmax
  exact (single_nextToken _ _ value illegal eof hR input cursor fuel hfuel).1 k hk1 hk2 hin
    hmax

/-- Witness of C18: `RepeatAtLeast(2, Literal(' '))`. -/
theorem RepeatAtLeast_matches_n_or_more_witness :
    Realizes { Build := repeatAtLeastBuild 2 (literalOf [' ']) }
        (fun w => ∃ m : Nat, (2 : Int) ≤ (m : Int)
          ∧ Concat (List.replicate m (fun w => w = [' '])) w)
    ∧ (∀ (value illegal eof : Nat) (w : List Char),
        (singlePattern { Build := repeatAtLeastBuild 2 (literalOf [' ']) }
            value illegal eof).accepts w = true
          ↔ ∃ m : Nat, (2 : Int) ≤ (m : Int)
              ∧ Concat (List.replicate m (fun w => w = [' '])) w)
    ∧ (∀ (value illegal eof : Nat) (input : List Char) (cursor fuel k : Nat),
        input.length - cursor < fuel → 1 ≤ k → k ≤ (input.drop cursor).length →
        (∃ m : Nat, (2 : Int) ≤ (m : Int)
          ∧ Concat (List.replicate m (fun w => w = [' '])) ((input.drop cursor).take k)) →
        (∀ j, k < j → j ≤ (input.drop cursor).length →
          ¬ ∃ m : Nat, (2 : Int) ≤ (m : Int)
            ∧ Concat (List.replicate m (fun w => w = [' '])) ((input.drop cursor).take j)) →
        (singlePattern { Build := repeatAtLeastBuild 2 (literalOf [' ']) }
            value illegal eof).NextToken (listReader Char) fuel
            { input := input, cursor := cursor }
          = some (value, { input := input, cursor := cursor + k })) :=
  RepeatAtLeast_matches_n_or_more 2 (literalOf [' ']) _ (fun w => w = [' ']) (by decide)
    (literal_realizes [' '] _ rfl) rfl

/-- The `RepeatBetween(0, 1, RepeatAtLeast(1, Literal('a')))`, an optional run of `a`: the
loop of the run leads back into the entry of the optional instance, but the words that do so
are runs of `a` themselves, and the fragment matches zero or one run. -/
theorem optionalRun_realizes :
    RepeatAtLeast 1 (literalOf ['a']) = some runOfA
    ∧ RepeatBetween 0 1 runOfA = some { Build := repeatBetweenBuild 0 1 runOfA }
    ∧ ¬ Strict runOfA
    ∧ Realizes ({ Build := repeatBetweenBuild 0 1 runOfA } : Fragment Char Nat)
      (fun w => ∃ m : Nat, (0 : Int) ≤ (m : Int) ∧ (m : Int) ≤ 1
        ∧ Concat (List.replicate m (fun u => ∃ j : Nat, (1 : Int) ≤ (j : Int)
            ∧ Concat (List.replicate j (fun v => v = ['a'])) u)) w) := by
  refine ⟨rfl, rfl, ?_, ?_⟩
  · intro hstrict
    exact (hstrict nfa.New 0 nfa.WF_New (by simp [nfa.New]) sink_new).2 1 none
      (Or.inr (by simp [nfa.New]))
      (by show (0 : Nat) ∈ dfa.epsilonOf (runOfA.Build nfa.New 0).1 1; decide)
  refine repeatBetween_realizes_of_returns 0 1 runOfA
    _ _ (fun w => ∃ j, Concat (List.replicate j (fun v => v = ['a'])) w) (le_refl _)
    (by decide)
    (repeatAtLeast_realizes 1 (literalOf ['a']) _ _ (le_refl _) (literal_realizes ['a'] _ rfl)
      rfl)
    (fun _ => ⟨repeatAtLeast_one_returns (literalOf ['a']) _ _ (literal_realizes ['a'] _ rfl)
      (literal_strict ['a'] _ rfl) rfl, ?_⟩) rfl
  intro i u v h1 h2 hu hv
  have hi : i = 0 := by omega
  subst hi
  rw [show List.replicate 0 _ = [] from rfl, concat_nil] at hu
  subst hu
  obtain ⟨j, hj⟩ := hv
  cases j with
  | zero =>
    rw [show List.replicate 0 _ = [] from rfl, concat_nil] at hj
    subst hj
    exact ⟨0, by simp, by simp, (concat_nil _).2 rfl⟩
  | succ j =>
    refine ⟨1, by simp, by simp, ?_⟩
    rw [show List.replicate 1 _ = [_] from rfl, concat_single]
    exact ⟨j + 1, by omega, hj⟩

/-- The condition of `repeatBetween_realizes_of_returns` cannot be dropped in the construction
of section 4.2: the fragment `f = Sequence(RepeatAtLeast(1, Literal('a')), Literal('b'))`
matches one or more `a` followed by `b`, so "a" is neither zero nor one word of `f`; yet the
DFA built from `RepeatBetween(0, 1, f)` accepts "a": the loop of `RepeatAtLeast` leads back
into the entry of the optional instance, from where the bypass leads to the exit. -/
theorem repeatBetween_bypass_after_loop :
    ∃ L : List Char → Prop,
      Realizes loopThenB L
      ∧ RepeatBetween 0 1 loopThenB = some { Build := repeatBetweenBuild 0 1 loopThenB }
      ∧ ¬ (∃ m : Nat, (0 : Int) ≤ (m : Int) ∧ (m : Int) ≤ 1
            ∧ Concat (List.replicate m L) ['a'])
      ∧ (singlePattern { Build := repeatBetweenBuild 0 1 loopThenB } 1 100 200).accepts ['a']
          = true := by
  refine ⟨_, loopThenB_realizes, rfl, ?_, by decide⟩
  rintro ⟨m, -, hm, hc⟩
  have hm2 : m = 0 ∨ m = 1 := by omega
  rcases hm2 with rfl | rfl
  · rw [show List.replicate 0 _ = [] from rfl, concat_nil] at hc
    exact absurd hc (by simp)
  · rw [show List.replicate 1 _ = [_] from rfl, concat_single, concat_cons] at hc
    obtain ⟨u, v, huv, -, hv⟩ := hc
    rw [concat_single] at hv
    subst hv
    have := congrArg List.getLast? huv
    simp at this

/-- C19: for all `0 ≤ min ≤ max` and every fragment `f` matching the language `L`,
`RepeatBetween(min, max, f)` matches exactly the words that are a concatenation of `m` words
of `L` with `min ≤ m ≤ max`, and the DFA of the scanner whose only pattern is the repetition
accepts exactly these words; with `min = max` these are the concatenations of exactly `min`
words, and with `min = max = 0` the empty word only. When there are optional instances
(`min < max`), whose bypass leaves from their entry, `f` is to return an exit other than its
entry and the words `R` that lead `f` from its entry back into its entry are to add nothing:
after `i < max` words of `L`, such a word completes a concatenation of `min` to `max` words
of `L`. In the construction of section 4.2 this condition is necessary too, and it holds for
every fragment that adds no transition into its entry, where `R` is the empty word alone. -/
theorem RepeatBetween_matches_min_to_max {S V : Type} [DecidableEq S] [Inhabited V]
    (min max : Int) (f F : Fragment S V) (L R : List S → Prop) (hmin : 0 ≤ min)
    (hmax : min ≤ max) (hf : Realizes f L)
    (hback : min < max → Returns f R ∧ ∀ (i : Nat) (u v : List S), min ≤ (i : Int) →
      (i : Int) < max → Concat (List.replicate i L) u → R v →
      ∃ m : Nat, min ≤ (m : Int) ∧ (m : Int) ≤ max ∧ Concat (List.replicate m L) (u ++ v))
    (hF : RepeatBetween min max f = some F) :
    Realizes F (fun w => ∃ m : Nat, min ≤ (m : Int) ∧ (m : Int) ≤ max
      ∧ Concat (List.replicate m L) w)
    ∧ (∀ (value illegal eof : V) (w : List S),
        (singlePattern F value illegal eof).accepts w = true
          ↔ ∃ m : Nat, min ≤ (m : Int) ∧ (m : Int) ≤ max ∧ Concat (List.replicate m L) w)
    ∧ (min = max → ∀ (value illegal eof : V) (w : List S),
        (singlePattern F value illegal eof).accepts w = true
          ↔ Concat (List.replicate min.toNat L) w)
    ∧ (max = 0 → ∀ (value illegal eof : V) (w : List S),
        (singlePattern F value illegal eof).accepts w = true ↔ w = []) := by
  have hR := repeatBetween_realizes_of_returns min max f F L R hmin hmax hf hback hF
  have hacc := fun (value illegal eof : V) (w : List S) =>
    (single_accepts _ _ value illegal eof hR w).1
  refine ⟨hR, hacc, ?_, ?_⟩
  · intro heq value illegal eof w
    rw [hacc]
    constructor
    · rintro ⟨m, h1, h2, hc⟩
      have : m = min.toNat := by omega
      rw [← this]; exact hc
    · intro hc
      exact ⟨min.toNat, by omega, by omega, hc⟩
  · intro h0 value illegal eof w
    rw [hacc]
    constructor
    · rintro ⟨m, h1, h2, hc⟩
      have : m = 0 := by omega
      subst this
      exact (concat_nil w).1 hc
    · intro hw
      exact ⟨0, by omega, by omega, (concat_nil w).2 hw⟩

/-- Witness of C19: `RepeatBetween(2, 3, Literal(' '))`; a `Literal` adds no transition into
its entry. -/
theorem RepeatBetween_matches_min_to_max_witness :
    Realizes { Build := repeatBetweenBuild 2 3 (literalOf [' ']) }
        (fun w => ∃ m : Nat, (2 : Int) ≤ (m : Int) ∧ (m : Int) ≤ 3
          ∧ Concat (List.replicate m (fun w => w = [' '])) w)
    ∧ (∀ (value illegal eof : Nat) (w : List Char),
        (singlePattern { Build := repeatBetweenBuild 2 3 (literalOf [' ']) }
            value illegal eof).accepts w = true
          ↔ ∃ m : Nat, (2 : Int) ≤ (m : Int) ∧ (m : Int) ≤ 3
              ∧ Concat (List.replicate m (fun w => w = [' '])) w)
    ∧ ((2 : Int) = 3 → ∀ (value illegal eof : Nat) (w : List Char),
        (singlePattern { Build := repeatBetweenBuild 2 3 (literalOf [' ']) }
            value illegal eof).accepts w = true
          ↔ Concat (List.replicate (2 : Int).toNat (fun w => w = [' '])) w)
    ∧ ((3 : Int) = 0 → ∀ (value illegal eof : Nat) (w : List Char),
        (singlePattern { Build := repeatBetweenBuild 2 3 (literalOf [' ']) }
            value illegal eof).accepts w = true ↔ w = []) :=
  RepeatBetween_matches_min_to_max 2 3 (literalOf [' ']) _ (fun w => w = [' '])
    (fun w => w = []) (by decide) (by decide) (literal_realizes [' '] _ rfl)
    (fun _ => ⟨strict_returns _ _ (literal_realizes [' '] _ rfl) (literal_strict [' '] _ rfl),
      fun i u v h1 h2 _ hv => ⟨i, h1, le_of_lt h2, by rw [hv, List.append_nil]; assumption⟩⟩)
    rfl

end scanner

end Align
